import Mathlib

/-!
Verification of `trabalho_grafo.cpp`.

Shallow embedding of the graph engine of `src/trabalho_grafo.cpp` (class `Grafo`,
class `DisjointSet`, struct `Aresta`) and proofs about it.

Conventions of the embedding:

* C++ `int` values are `Int`.  A sum of weights or distances (`dist[u] + peso` in
  `algoritmoDijkstra`, `dist[i][k] + dist[k][j]` in `algoritmoFloyd`, `custoTotal += peso`
  in `algoritmoKruskal` and `algoritmoPrim`) is computed by `somaInt`: the mathematical sum
  when it lies in `[-2147483648, 2147483647]`, and otherwise its reduction to that range in
  32-bit two's complement, which is what the usual targets produce where C++ leaves the
  overflow undefined.  The theorems about these routines carry bounds on the weights under
  which no such sum leaves `int`.  Counters that are bounded by the number of vertices or
  edges (hop counts of `algoritmoBFS`, `numArestas`, `rank`) are plain integers.
* The array of adjacency lists `ElemLista **A` is a `List (List ElemLista)` whose
  length is `numVertices`; a singly linked list is a `List ElemLista`
  (head first, `prox` is the tail).
* Mutating member functions take the graph and return the new graph
  (together with the returned `bool` when there is one).
* `numVertices` is a `Nat`: the constructor allocates `new ElemLista *[vertices]`, which
  fails for a negative size.
* Local arrays (`dist`, `visitado`, `pai`, `rank`, the matrix of Floyd-Warshall) are lists.
  An index that is a loop counter or a vertex id read from an adjacency entry is accessed
  with `List.getD` and `List.set`; such an index is inside the array in every well-formed
  graph.  A write whose index is an argument of the caller (the source of `algoritmoBFS`
  and `algoritmoDijkstra`, the vertex of `dfs`) or a constant that is outside the array of
  a graph without vertices (`chave[0]` in `algoritmoPrim`) goes through `escreve`, which
  reports an access outside the array.
* Console output is not modelled: a routine that only prints its result returns it.
* `std::sort` is a parameter of the routines that call it, constrained in the theorems by
  the contract of the standard: the result is a permutation of the argument, ordered by
  the comparator.  The order among edges of equal weight is left open.
* Loops and recursions whose termination is not structural take a fuel argument and
  return `none` (or the failure `semCombustivel`) when the fuel runs out; the theorems
  show that the fuel handed over by the entry points is enough.
-/

namespace Grafos

/-! ## Data model -/

/-- Node of an adjacency list (`class ElemLista`): destination vertex and weight.
The `prox` pointer is the tail of the enclosing `List`. -/
structure ElemLista where
  vertice : Int
  peso : Int
deriving DecidableEq, Repr

/-- Edge record used for sorting and by Kruskal (`struct Aresta`). -/
structure Aresta where
  origem : Int
  destino : Int
  peso : Int
deriving DecidableEq, Repr

/-- The graph (`class Grafo`). -/
structure Grafo where
  numVertices : Nat
  numArestas : Int
  direcionado : Bool
  ponderado : Bool
  A : List (List ElemLista)
deriving DecidableEq, Repr

/-- Constructor `Grafo(int vertices, bool direcionado, bool ponderado)`:
no edges, every adjacency list is `nullptr`. -/
def Grafo.novo (vertices : Nat) (direcionado ponderado : Bool) : Grafo :=
  ⟨vertices, 0, direcionado, ponderado, List.replicate vertices []⟩

/-- Adjacency list `A[v]`. -/
def Grafo.lista (g : Grafo) (v : Int) : List ElemLista :=
  g.A.getD v.toNat []

/-- Assignment `A[v] = l`. -/
def Grafo.comLista (g : Grafo) (v : Int) (l : List ElemLista) : Grafo :=
  ⟨g.numVertices, g.numArestas, g.direcionado, g.ponderado, g.A.set v.toNat l⟩

/-- Assignment to `numArestas`. -/
def Grafo.comNumArestas (g : Grafo) (k : Int) : Grafo :=
  ⟨g.numVertices, k, g.direcionado, g.ponderado, g.A⟩

/-! ## Edge insertion, removal and query -/

/-- The list walk of `insereArestaAux`: skip the entries with `vertice < v2`;
if the next entry is `v2` return `false` and leave the list alone, otherwise link the
new node there and return `true`. -/
def insereNaLista (v2 peso : Int) : List ElemLista → Bool × List ElemLista
  | [] => (true, [⟨v2, peso⟩])
  | atual :: prox =>
    if atual.vertice < v2 then
      ((insereNaLista v2 peso prox).1, atual :: (insereNaLista v2 peso prox).2)
    else if atual.vertice = v2 then (false, atual :: prox)
    else (true, ⟨v2, peso⟩ :: atual :: prox)

/-- Member `bool insereArestaAux(int v1, int v2, int peso)`. -/
def insereArestaAux (g : Grafo) (v1 v2 peso : Int) : Bool × Grafo :=
  ((insereNaLista v2 peso (g.lista v1)).1,
   g.comLista v1 (insereNaLista v2 peso (g.lista v1)).2)

/-- The validity test shared by the public operations:
`v1 < 0 || v2 < 0 || v1 >= numVertices || v2 >= numVertices || v1 == v2`. -/
def entradaInvalida (g : Grafo) (v1 v2 : Int) : Bool :=
  decide (v1 < 0) || decide (v2 < 0) || decide (v1 ≥ (g.numVertices : Int)) ||
    decide (v2 ≥ (g.numVertices : Int)) || decide (v1 = v2)

/-- The body of `adicionaAresta` after validation, for the effective weight `p`. -/
def adicionaComPeso (g : Grafo) (v1 v2 p : Int) : Grafo :=
  if (insereArestaAux g v1 v2 p).1 then
    if !g.direcionado then
      ((insereArestaAux (insereArestaAux g v1 v2 p).2 v2 v1 p).2).comNumArestas (g.numArestas + 1)
    else
      ((insereArestaAux g v1 v2 p).2).comNumArestas (g.numArestas + 1)
  else g

/-- Member `void adicionaAresta(int v1, int v2, int peso)`. -/
def adicionaAresta (g : Grafo) (v1 v2 peso : Int) : Grafo :=
  if entradaInvalida g v1 v2 then g
  else if g.ponderado then adicionaComPeso g v1 v2 peso
  else adicionaComPeso g v1 v2 1

/-- The body of `adicionaArestaDirecionada` after validation, for the effective weight `p`. -/
def adicionaDirComPeso (g : Grafo) (v1 v2 p : Int) : Grafo :=
  if (insereArestaAux g v1 v2 p).1 then
    ((insereArestaAux g v1 v2 p).2).comNumArestas (g.numArestas + 1)
  else g

/-- Member `void adicionaArestaDirecionada(int v1, int v2, int peso)`. -/
def adicionaArestaDirecionada (g : Grafo) (v1 v2 peso : Int) : Grafo :=
  if entradaInvalida g v1 v2 then g
  else if g.ponderado then adicionaDirComPeso g v1 v2 peso
  else adicionaDirComPeso g v1 v2 1

/-- The list walk of `removeArestaAux`: skip the entries with `vertice < v2`;
if the next entry is `v2` unlink it and return `true`, otherwise return `false`. -/
def removeDaLista (v2 : Int) : List ElemLista → Bool × List ElemLista
  | [] => (false, [])
  | atual :: prox =>
    if atual.vertice < v2 then
      ((removeDaLista v2 prox).1, atual :: (removeDaLista v2 prox).2)
    else if atual.vertice = v2 then (true, prox)
    else (false, atual :: prox)

/-- Member `bool removeArestaAux(int v1, int v2)`. -/
def removeArestaAux (g : Grafo) (v1 v2 : Int) : Bool × Grafo :=
  ((removeDaLista v2 (g.lista v1)).1, g.comLista v1 (removeDaLista v2 (g.lista v1)).2)

/-- Member `bool removeAresta(int v1, int v2)`. -/
def removeAresta (g : Grafo) (v1 v2 : Int) : Bool × Grafo :=
  if entradaInvalida g v1 v2 then (false, g)
  else if (removeArestaAux g v1 v2).1 then
    (true, ((removeArestaAux (removeArestaAux g v1 v2).2 v2 v1).2).comNumArestas (g.numArestas - 1))
  else (false, g)

/-- The list walk of `arestaExiste`: skip the entries with `vertice < v2` and test
whether the next one is `v2`. -/
def existeNaLista (v2 : Int) : List ElemLista → Bool
  | [] => false
  | atual :: prox =>
    if atual.vertice < v2 then existeNaLista v2 prox
    else decide (atual.vertice = v2)

/-- Member `bool arestaExiste(int v1, int v2)`. -/
def arestaExiste (g : Grafo) (v1 v2 : Int) : Bool :=
  if entradaInvalida g v1 v2 then false
  else existeNaLista v2 (g.lista v1)

/-- Graph states reachable from a freshly constructed graph through the public
mutating operations. -/
inductive Alcancavel : Grafo → Prop
  | novo (n : Nat) (d p : Bool) : Alcancavel (Grafo.novo n d p)
  | adiciona (g : Grafo) (u v w : Int) : Alcancavel g → Alcancavel (adicionaAresta g u v w)
  | adicionaDir (g : Grafo) (u v w : Int) :
      Alcancavel g → Alcancavel (adicionaArestaDirecionada g u v w)
  | remove (g : Grafo) (u v : Int) : Alcancavel g → Alcancavel (removeAresta g u v).2

/-- Graph states reachable from a freshly constructed graph through `adicionaAresta`
and `removeAresta` only. -/
inductive AlcancavelSemDir : Grafo → Prop
  | novo (n : Nat) (d p : Bool) : AlcancavelSemDir (Grafo.novo n d p)
  | adiciona (g : Grafo) (u v w : Int) :
      AlcancavelSemDir g → AlcancavelSemDir (adicionaAresta g u v w)
  | remove (g : Grafo) (u v : Int) : AlcancavelSemDir g → AlcancavelSemDir (removeAresta g u v).2

/-- The five-vertex undirected weighted example of `criarGrafoExemplo`. -/
def exemploPonderado : Grafo :=
  adicionaAresta (adicionaAresta (adicionaAresta (adicionaAresta (adicionaAresta
    (Grafo.novo 5 false true) 0 1 5) 0 2 3) 1 3 7) 2 3 2) 3 4 1

/-- The five-vertex undirected unweighted example of `criarGrafoExemplo`. -/
def exemploNaoPonderado : Grafo :=
  adicionaAresta (adicionaAresta (adicionaAresta (adicionaAresta (adicionaAresta
    (Grafo.novo 5 false false) 0 1 1) 0 2 1) 1 3 1) 2 3 1) 3 4 1

/-! ## Well-formedness of the adjacency structure -/

/-- The adjacency list is strictly ascending by neighbour id. -/
def Ordenada (l : List ElemLista) : Prop :=
  l.Pairwise (fun a b => a.vertice < b.vertice)

/-- Structural invariant of the graph: `A` has `numVertices` lists, each strictly
ascending by neighbour id, holding only ids in `[0, numVertices)` and never the
owner of the list. -/
structure BemFormado (g : Grafo) : Prop where
  tamanho : g.A.length = g.numVertices
  ordenada : ∀ u : Int, Ordenada (g.lista u)
  noIntervalo : ∀ u : Int, ∀ e ∈ g.lista u, 0 ≤ e.vertice ∧ e.vertice < (g.numVertices : Int)
  semLaco : ∀ u : Int, 0 ≤ u → ∀ e ∈ g.lista u, e.vertice ≠ u

/-- Undirected symmetry of the adjacency structure: the entry `u -> v` with weight `w`
is stored exactly when the entry `v -> u` with weight `w` is. -/
def Simetrico (g : Grafo) : Prop :=
  ∀ u v w : Int, 0 ≤ u → 0 ≤ v → (⟨v, w⟩ ∈ g.lista u ↔ ⟨u, w⟩ ∈ g.lista v)

/-! ## Shortest paths: `algoritmoBFS`, `algoritmoDijkstra`, `algoritmoFloyd` -/

/-- The constant `const int INF = 999999` of the three shortest-path routines and of
`algoritmoPrim`. -/
def INF : Int := 999999

/-- Reduction of an integer to the range `[-2147483648, 2147483647]` of a 32-bit
two's-complement `int`. -/
def paraInt (x : Int) : Int := (x + 2147483648) % 4294967296 - 2147483648

/-- The sum `a + b` of two C++ `int` values: the mathematical sum when it lies inside
`int`, and its 32-bit two's-complement reduction when it does not. -/
def somaInt (a b : Int) : Int := paraInt (a + b)

/-- Ways in which an entry point can fail to deliver its result. -/
inductive Falha where
  /-- The routine refused its arguments (the "Entrada invalida" path). -/
  | entradaInvalida
  /-- A raw array was indexed outside its bounds (undefined behaviour in C++). -/
  | foraDosLimites
  /-- The fuel of a loop ran out. -/
  | semCombustivel
deriving DecidableEq, Repr

/-- Assignment `arr[i] = x` to a raw array indexed by a caller-supplied `int`: the
access is outside the allocation when `i` is not in `[0, length)`. -/
def escreve {α : Type} (arr : List α) (i : Int) (x : α) : Except Falha (List α) :=
  if 0 ≤ i ∧ i < (arr.length : Int) then Except.ok (arr.set i.toNat x)
  else Except.error Falha.foraDosLimites

/-- Local state of `algoritmoBFS`: the arrays `dist` and `visitado` and the queue `fila`
(front of the queue first). -/
structure EstadoBFS where
  dist : List Int
  visitado : List Bool
  fila : List Int
deriving DecidableEq, Repr

/-- Body of the inner loop of `algoritmoBFS` for the dequeued vertex `u` and one node
`vizinho` of its adjacency list: when `!visitado[w]` for `w = vizinho->vertice`, mark `w`,
set `dist[w] = dist[u] + 1` and push `w`.  The index `w` is a neighbour id stored in the
list, which lies in `[0, numVertices)` in every well-formed graph. -/
def bfsPasso (u : Int) (st : EstadoBFS) (vizinho : ElemLista) : EstadoBFS :=
  if st.visitado.getD vizinho.vertice.toNat true = false then
    ⟨st.dist.set vizinho.vertice.toNat (st.dist.getD u.toNat 0 + 1),
     st.visitado.set vizinho.vertice.toNat true,
     st.fila ++ [vizinho.vertice]⟩
  else st

/-- Inner loop `while (vizinho != nullptr)` of `algoritmoBFS` over the adjacency list of
the dequeued vertex `u`. -/
def bfsVizinhos (u : Int) (l : List ElemLista) (st : EstadoBFS) : EstadoBFS :=
  l.foldl (bfsPasso u) st

/-- Outer loop `while (!fila.empty())` of `algoritmoBFS`, one dequeue per unit of fuel. -/
def bfsLaco (g : Grafo) : Nat → EstadoBFS → Option EstadoBFS
  | 0, st => if st.fila = [] then some st else none
  | k + 1, st =>
    match st.fila with
    | [] => some st
    | u :: resto => bfsLaco g k (bfsVizinhos u (g.lista u) ⟨st.dist, st.visitado, resto⟩)

/-- Member `void algoritmoBFS(int v)`; the result is the array `dist` that the routine
prints.  The routine does not validate `v`: the writes `dist[v] = 0` and
`visitado[v] = true` go through `escreve`. -/
def algoritmoBFS (g : Grafo) (v : Int) : Except Falha (List Int) :=
  match escreve (List.replicate g.numVertices INF) v 0,
        escreve (List.replicate g.numVertices false) v true with
  | Except.ok dist, Except.ok visitado =>
    match bfsLaco g g.numVertices ⟨dist, visitado, [v]⟩ with
    | some st => Except.ok st.dist
    | none => Except.error Falha.semCombustivel
  | Except.error f, _ => Except.error f
  | _, Except.error f => Except.error f

/-- Local state of `algoritmoDijkstra`: the arrays `dist` and `visitado`. -/
structure EstadoDijkstra where
  dist : List Int
  visitado : List Bool
deriving DecidableEq, Repr

/-- One iteration of the selection loop of `algoritmoDijkstra`; the accumulator is the
pair `(u, menorDist)`. -/
def passoSelecao (dist : List Int) (visitado : List Bool) (acc : Int × Int) (i : Nat) :
    Int × Int :=
  if visitado.getD i true = false ∧ dist.getD i 0 < acc.2 then ((i : Int), dist.getD i 0)
  else acc

/-- Selection loop `for (int i = 0; i < numVertices; i++)` of `algoritmoDijkstra`, started
with `u = -1` and `menorDist = INF`. -/
def selecionaMenor (n : Nat) (dist : List Int) (visitado : List Bool) : Int × Int :=
  (List.range n).foldl (passoSelecao dist visitado) (-1, INF)

/-- Body of the relaxation loop of `algoritmoDijkstra` for the selected vertex `u` and one
node `vizinho` of its adjacency list:
`if (!visitado[v] && dist[u] + peso < dist[v]) dist[v] = dist[u] + peso`. -/
def relaxaPasso (u : Int) (st : EstadoDijkstra) (vizinho : ElemLista) : EstadoDijkstra :=
  if st.visitado.getD vizinho.vertice.toNat true = false ∧
      somaInt (st.dist.getD u.toNat 0) vizinho.peso < st.dist.getD vizinho.vertice.toNat 0 then
    ⟨st.dist.set vizinho.vertice.toNat (somaInt (st.dist.getD u.toNat 0) vizinho.peso),
      st.visitado⟩
  else st

/-- Relaxation loop of `algoritmoDijkstra` over the adjacency list of `u`. -/
def relaxa (u : Int) (l : List ElemLista) (st : EstadoDijkstra) : EstadoDijkstra :=
  l.foldl (relaxaPasso u) st

/-- Main loop `for (int j = 0; j < numVertices - 1; j++)` of `algoritmoDijkstra`, with the
number of remaining iterations as first argument; `u == -1` breaks out. -/
def dijkstraLaco (g : Grafo) : Nat → EstadoDijkstra → EstadoDijkstra
  | 0, st => st
  | k + 1, st =>
    if (selecionaMenor g.numVertices st.dist st.visitado).1 = -1 then st
    else
      dijkstraLaco g k
        (relaxa (selecionaMenor g.numVertices st.dist st.visitado).1
          (g.lista (selecionaMenor g.numVertices st.dist st.visitado).1)
          ⟨st.dist,
           st.visitado.set (selecionaMenor g.numVertices st.dist st.visitado).1.toNat true⟩)

/-- Member `void algoritmoDijkstra(int v)`; the result is the array `dist` that the
routine prints.  The routine does not validate `v`: the write `dist[v] = 0` goes through
`escreve`. -/
def algoritmoDijkstra (g : Grafo) (v : Int) : Except Falha (List Int) :=
  match escreve (List.replicate g.numVertices INF) v 0 with
  | Except.ok dist =>
    Except.ok (dijkstraLaco g (g.numVertices - 1)
      ⟨dist, List.replicate g.numVertices false⟩).dist
  | Except.error f => Except.error f

/-- Entry `dist[i][j]` of a matrix stored as a vector of rows. -/
def entrada (dist : List (List Int)) (i j : Nat) : Int :=
  (dist.getD i []).getD j 0

/-- Initial row `i` of the matrix of `algoritmoFloyd`: `INF` everywhere, `0` on the
diagonal, then the weight of every entry of the adjacency list of `i`. -/
def floydLinhaInicial (n i : Nat) (l : List ElemLista) : List Int :=
  l.foldl (fun linha e => linha.set e.vertice.toNat e.peso) ((List.replicate n INF).set i 0)

/-- Initial matrix of `algoritmoFloyd`. -/
def floydInicial (g : Grafo) : List (List Int) :=
  (List.range g.numVertices).map (fun i => floydLinhaInicial g.numVertices i (g.lista (i : Int)))

/-- Body of the innermost loop of `algoritmoFloyd` for intermediate `k`, origin `i` and
destination `j`. -/
def floydPasso (k i j : Nat) (dist : List (List Int)) : List (List Int) :=
  if entrada dist i k ≠ INF ∧ entrada dist k j ≠ INF ∧
      somaInt (entrada dist i k) (entrada dist k j) < entrada dist i j then
    dist.set i ((dist.getD i []).set j (somaInt (entrada dist i k) (entrada dist k j)))
  else dist

/-- The loop over the destinations `j` for fixed `k` and `i`. -/
def floydLinha (n k i : Nat) (dist : List (List Int)) : List (List Int) :=
  (List.range n).foldl (fun d j => floydPasso k i j d) dist

/-- The loop over the origins `i` for fixed `k`. -/
def floydRodada (n k : Nat) (dist : List (List Int)) : List (List Int) :=
  (List.range n).foldl (fun d i => floydLinha n k i d) dist

/-- Member `void algoritmoFloyd()`; the result is the matrix `dist` that the routine
prints. -/
def algoritmoFloyd (g : Grafo) : List (List Int) :=
  (List.range g.numVertices).foldl (fun d k => floydRodada g.numVertices k d) (floydInicial g)

/-! ## Walks in the graph -/

/-- `Caminho g u v k`: there is a walk of `k` adjacency entries from `u` to `v`. -/
inductive Caminho (g : Grafo) (u : Int) : Int → Nat → Prop
  | nulo : Caminho g u u 0
  | passo (v : Int) (k : Nat) (e : ElemLista) :
      Caminho g u v k → e ∈ g.lista v → Caminho g u e.vertice (k + 1)

/-- `CaminhoPeso g u v c`: there is a walk from `u` to `v` whose stored weights add up
to `c`. -/
inductive CaminhoPeso (g : Grafo) (u : Int) : Int → Int → Prop
  | nulo : CaminhoPeso g u u 0
  | passo (v : Int) (c : Int) (e : ElemLista) :
      CaminhoPeso g u v c → e ∈ g.lista v → CaminhoPeso g u e.vertice (c + e.peso)

/-- `v` is a vertex id of `g`. -/
def Valido (g : Grafo) (v : Int) : Prop := 0 ≤ v ∧ v < (g.numVertices : Int)

/-- Entry `dist[x]` of the BFS state. -/
def EstadoBFS.d (st : EstadoBFS) (x : Int) : Int := st.dist.getD x.toNat 0

/-- Entry `visitado[x]` of the BFS state. -/
def EstadoBFS.vis (st : EstadoBFS) (x : Int) : Prop := st.visitado.getD x.toNat true = true

/-- Part of the BFS loop invariant that does not mention the queue order. -/
structure BfsBase (g : Grafo) (s : Int) (st : EstadoBFS) : Prop where
  tamDist : st.dist.length = g.numVertices
  tamVis : st.visitado.length = g.numVertices
  filaOk : ∀ q ∈ st.fila, Valido g q ∧ st.vis q
  fonte : st.vis s ∧ st.d s = 0
  caminho : ∀ x, Valido g x → st.vis x → 0 ≤ st.d x ∧ Caminho g s x (st.d x).toNat
  naoVis : ∀ x, Valido g x → ¬ st.vis x → st.d x = INF
  niveis : ∀ x, Valido g x → st.vis x → ∀ j : Int, 0 ≤ j → j ≤ st.d x →
    ∃ y, Valido g y ∧ st.vis y ∧ st.d y = j
  ordem : st.fila.Pairwise (fun a b => st.d a ≤ st.d b)

/-- Part of the BFS invariant that holds between two iterations of the outer loop. -/
structure BfsFora (g : Grafo) (st : EstadoBFS) : Prop where
  limite : ∀ x, Valido g x → st.vis x → ∀ q ∈ st.fila, st.d x ≤ st.d q + 1
  proc : ∀ x, Valido g x → st.vis x → x ∉ st.fila →
    ∀ e ∈ g.lista x, st.vis e.vertice ∧ st.d e.vertice ≤ st.d x + 1

/-- Part of the BFS invariant that holds inside the loop over the neighbours of the
dequeued vertex `u`; `P` marks the entries of the list of `u` already handled. -/
structure BfsDentro (g : Grafo) (u : Int) (P : ElemLista → Prop) (st : EstadoBFS) : Prop where
  uOk : Valido g u ∧ st.vis u
  perto : ∀ q ∈ st.fila, st.d u ≤ st.d q ∧ st.d q ≤ st.d u + 1
  limite : ∀ x, Valido g x → st.vis x → st.d x ≤ st.d u + 1
  proc : ∀ x, Valido g x → st.vis x → x ∉ st.fila → x ≠ u →
    ∀ e ∈ g.lista x, st.vis e.vertice ∧ st.d e.vertice ≤ st.d x + 1
  procU : ∀ e ∈ g.lista u, P e → st.vis e.vertice ∧ st.d e.vertice ≤ st.d u + 1

/-- The directed unweighted path `0 -> 1 -> ... -> k` on `n` vertices, built with `k` calls
of `adicionaArestaDirecionada`. -/
def grafoLinha (n : Nat) : Nat → Grafo
  | 0 => Grafo.novo n true false
  | k + 1 => adicionaArestaDirecionada (grafoLinha n k) (k : Int) ((k : Int) + 1) 1

/-- Entry `dist[x]` of the Dijkstra state. -/
def EstadoDijkstra.d (st : EstadoDijkstra) (x : Int) : Int := st.dist.getD x.toNat 0

/-- Entry `visitado[x]` of the Dijkstra state. -/
def EstadoDijkstra.vis (st : EstadoDijkstra) (x : Int) : Prop :=
  st.visitado.getD x.toNat true = true

instance EstadoDijkstra.decVis (st : EstadoDijkstra) (x : Int) : Decidable (st.vis x) :=
  inferInstanceAs (Decidable (st.visitado.getD x.toNat true = true))

/-- All stored weights are non-negative. -/
def PesosNaoNegativos (g : Grafo) : Prop :=
  ∀ u : Int, ∀ e ∈ g.lista u, 0 ≤ e.peso

/-- Invariant of the main loop of `algoritmoDijkstra` for the source `s`. -/
structure DijInv (g : Grafo) (s : Int) (st : EstadoDijkstra) : Prop where
  tamDist : st.dist.length = g.numVertices
  tamVis : st.visitado.length = g.numVertices
  fonte : st.d s = 0
  limite : ∀ x, Valido g x → st.d x ≤ INF
  caminho : ∀ x, Valido g x → st.d x < INF → CaminhoPeso g s x (st.d x)
  otimo : ∀ x, Valido g x → st.vis x →
    st.d x < INF ∧ ∀ c, CaminhoPeso g s x c → st.d x ≤ c
  relaxado : ∀ x, Valido g x → st.vis x → ∀ e ∈ g.lista x, ¬ st.vis e.vertice →
    st.d e.vertice ≤ st.d x + e.peso

/-- The matrix has `n` rows of `n` entries each. -/
def Quadrada (n : Nat) (dist : List (List Int)) : Prop :=
  dist.length = n ∧ ∀ linha ∈ dist, linha.length = n

/-- Value that the body of the innermost loop of `algoritmoFloyd` leaves in `dist[a][b]`
for the intermediate vertex `k`, computed from the matrix `dist`. -/
def relaxVal (dist : List (List Int)) (k a b : Nat) : Int :=
  if entrada dist a k ≠ INF ∧ entrada dist k b ≠ INF ∧
      somaInt (entrada dist a k) (entrada dist k b) < entrada dist a b then
    somaInt (entrada dist a k) (entrada dist k b)
  else entrada dist a b

/-- `Cadeia g u p v`: the list `p` of pairs (source vertex, adjacency entry) is a walk
from `u` to `v`: each entry is stored in the list of its source and leads to the source
of the next pair. -/
def Cadeia (g : Grafo) : Int → List (Int × ElemLista) → Int → Prop
  | u, [], v => u = v
  | u, a :: resto, v => a.1 = u ∧ a.2 ∈ g.lista u ∧ Cadeia g a.2.vertice resto v

/-- Total weight of a walk given as a list of entries. -/
def pesoCadeia (p : List (Int × ElemLista)) : Int := (p.map (fun a => a.2.peso)).sum

/-- The source vertices of a walk, in order; all but the first are its intermediate
vertices. -/
def fontes (p : List (Int × ElemLista)) : List Int := p.map Prod.fst

/-- No closed walk has negative total weight. -/
def SemCicloNegativo (g : Grafo) : Prop := ∀ v c, CaminhoPeso g v v c → 0 ≤ c

/-- Every contiguous part of the walk (the walk itself included) weighs less than `INF`. -/
def Limitada (p : List (Int × ElemLista)) : Prop :=
  ∀ s, List.IsInfix s p → pesoCadeia s < INF

/-- Invariant of the outer loop of `algoritmoFloyd` before the round of the intermediate
vertex `k`: every entry is at most the weight of every duplicate-free walk whose
intermediate vertices are smaller than `k` and whose contiguous parts all weigh less than
`INF`, every entry other than `INF` is the weight of a walk, and no entry exceeds its
initial value. -/
structure FloydInv (g : Grafo) (k : Nat) (d : List (List Int)) : Prop where
  quadrada : Quadrada g.numVertices d
  inferior : ∀ i j, Valido g i → Valido g j → ∀ p, Cadeia g i p j → (fontes p).Nodup →
    (∀ x ∈ (fontes p).tail, x < (k : Int)) → Limitada p →
    entrada d i.toNat j.toNat ≤ pesoCadeia p
  realizado : ∀ i j, Valido g i → Valido g j → entrada d i.toNat j.toNat ≠ INF →
    ∃ p, Cadeia g i p j ∧ pesoCadeia p = entrada d i.toNat j.toNat
  desce : ∀ i j, Valido g i → Valido g j →
    entrada d i.toNat j.toNat ≤ entrada (floydInicial g) i.toNat j.toNat

/-! ## Spanning forests -/

/-- Two vertices are joined by an edge of the set `E` (in the stored orientation). -/
def Ligadas (E : Finset Aresta) (a b : Int) : Prop :=
  ∃ e ∈ E, e.origem = a ∧ e.destino = b

/-- Two vertices are connected by the edges of `E`, read as undirected edges. -/
def Con (E : Finset Aresta) : Int → Int → Prop :=
  Relation.EqvGen (Ligadas E)

/-- The edge set `T` has no cycle: no edge of `T` joins two vertices that the other edges
of `T` already connect. -/
def Floresta (T : Finset Aresta) : Prop :=
  ∀ e ∈ T, ¬ Con (T.erase e) e.origem e.destino

/-- Total weight of an edge set. -/
def custo (T : Finset Aresta) : Int :=
  T.sum (fun e => e.peso)

/-- `T` is a spanning forest of the edge set `G`: a cycle-free subset of `G` that connects
whatever `G` connects. -/
def FlorestaGeradora (G T : Finset Aresta) : Prop :=
  T ⊆ G ∧ Floresta T ∧ ∀ a b, Con G a b → Con T a b

/-- The greedy run over a list of edges: `Guloso E F` says that after the edges `E` have
been looked at in order, the accepted ones are `F` (in order of acceptance), an edge being
accepted exactly when the edges accepted before it do not connect its endpoints. -/
inductive Guloso : List Aresta → List Aresta → Prop
  | nil : Guloso [] []
  | aceita (E F : List Aresta) (e : Aresta) : Guloso E F →
      ¬ Con F.toFinset e.origem e.destino → Guloso (E ++ [e]) (F ++ [e])
  | rejeita (E F : List Aresta) (e : Aresta) : Guloso E F →
      Con F.toFinset e.origem e.destino → Guloso (E ++ [e]) F

/-! ## Union-find (`class DisjointSet`) and `algoritmoKruskal` -/

/-- The union-find structure (`class DisjointSet`): parent and rank of every element. -/
structure DisjointSet where
  pai : List Int
  rank : List Int
deriving DecidableEq, Repr

/-- Constructor `DisjointSet(int n)`: every element is its own parent, all ranks are 0. -/
def DisjointSet.novo (n : Nat) : DisjointSet :=
  ⟨(List.range n).map (fun i : Nat => (i : Int)), List.replicate n 0⟩

/-- Entry `pai[x]`. -/
def DisjointSet.p (ds : DisjointSet) (x : Int) : Int := ds.pai.getD x.toNat 0

/-- Entry `rank[x]`. -/
def DisjointSet.r (ds : DisjointSet) (x : Int) : Int := ds.rank.getD x.toNat 0

/-- Member `int find(int x)` with path compression; the first argument bounds the depth
of the recursion.  Returns the new state and the representative. -/
def DisjointSet.find : Nat → DisjointSet → Int → Option (DisjointSet × Int)
  | 0, _, _ => none
  | k + 1, ds, x =>
    if ds.p x ≠ x then
      match DisjointSet.find k ds (ds.p x) with
      | some (ds1, raiz) => some (⟨ds1.pai.set x.toNat raiz, ds1.rank⟩, raiz)
      | none => none
    else some (ds, x)

/-- Member `void unir(int x, int y)`: union by rank of the sets of `x` and `y`. -/
def DisjointSet.unir (fuel : Nat) (ds : DisjointSet) (x y : Int) : Option DisjointSet :=
  match DisjointSet.find fuel ds x with
  | none => none
  | some (ds1, raizX) =>
    match DisjointSet.find fuel ds1 y with
    | none => none
    | some (ds2, raizY) =>
      if raizX = raizY then some ds2
      else if ds2.r raizX < ds2.r raizY then
        some ⟨ds2.pai.set raizX.toNat raizY, ds2.rank⟩
      else
        some ⟨ds2.pai.set raizY.toNat raizX,
          if ds2.r raizX = ds2.r raizY then ds2.rank.set raizX.toNat (ds2.r raizX + 1)
          else ds2.rank⟩

/-- Edge collection loop shared by `algoritmoKruskal`, `algoritmoApagaReverso` and
`ordenarArestas`: for every vertex `i` in increasing order and every node of its list with
`i < vertice`, the edge `(i, vertice, peso)`. -/
def coletaArestas (g : Grafo) : List Aresta :=
  (List.range g.numVertices).flatMap (fun i =>
    ((g.lista (i : Int)).filter (fun e => decide ((i : Int) < e.vertice))).map
      (fun e => ⟨(i : Int), e.vertice, e.peso⟩))

/-- Sum of the absolute values of the weights of the collected edges (each logical edge of
an undirected graph once). -/
def pesoAbsoluto (g : Grafo) : Int :=
  ((coletaArestas g).map (fun e => (e.peso.natAbs : Int))).sum

/-- Every running total of the weights of the edges, added in the order of the list, lies
inside `int`. -/
def TotaisCabem (es : List Aresta) : Prop :=
  ∀ l, List.IsPrefix l es →
    -2147483648 ≤ (l.map (fun e => e.peso)).sum ∧ (l.map (fun e => e.peso)).sum ≤ 2147483647

/-- Local state of the main loop of `algoritmoKruskal`. -/
structure EstadoKruskal where
  ds : DisjointSet
  mst : List Aresta
  custoTotal : Int
deriving DecidableEq, Repr

/-- Body of the main loop of `algoritmoKruskal` for one edge: when
`ds.find(origem) != ds.find(destino)` the edge is appended to `mst`, the two sets are
united and the weight is added to `custoTotal`.  The two calls of `find` in the test are
run left to right (both only compress paths). -/
def kruskalPasso (fuel : Nat) (st : EstadoKruskal) (aresta : Aresta) : Option EstadoKruskal :=
  match DisjointSet.find fuel st.ds aresta.origem with
  | none => none
  | some (ds1, r1) =>
    match DisjointSet.find fuel ds1 aresta.destino with
    | none => none
    | some (ds2, r2) =>
      if r1 ≠ r2 then
        match DisjointSet.unir fuel ds2 aresta.origem aresta.destino with
        | none => none
        | some ds3 => some ⟨ds3, st.mst ++ [aresta], somaInt st.custoTotal aresta.peso⟩
      else some ⟨ds2, st.mst, st.custoTotal⟩

/-- Main loop `for (auto &aresta : arestas)` of `algoritmoKruskal`. -/
def kruskalLaco (fuel : Nat) : List Aresta → EstadoKruskal → Option EstadoKruskal
  | [], st => some st
  | aresta :: resto, st =>
    match kruskalPasso fuel st aresta with
    | none => none
    | some st1 => kruskalLaco fuel resto st1

/-- Member `void algoritmoKruskal()`; the result is the vector `mst` (in order of
acceptance) and `custoTotal`.  `ordena` stands for `std::sort` with `Aresta::operator<`,
which returns some permutation of the collected edges in non-decreasing order of weight;
the order among edges of equal weight is not specified by the language.  The recursion of
`find` is given `numVertices` levels. -/
def algoritmoKruskal (ordena : List Aresta → List Aresta) (g : Grafo) :
    Option (List Aresta × Int) :=
  match kruskalLaco g.numVertices (ordena (coletaArestas g))
      ⟨DisjointSet.novo g.numVertices, [], 0⟩ with
  | some st => some (st.mst, st.custoTotal)
  | none => none

/-- A sorting routine that meets the contract of `std::sort` with `Aresta::operator<`
(insertion sort by weight), used to run the model on examples. -/
def ordenaPorPeso (l : List Aresta) : List Aresta :=
  List.insertionSort (fun a b => a.peso ≤ b.peso) l

/-- The contract of `std::sort` with `Aresta::operator<`: the result is a permutation of
the argument in non-decreasing order of weight. -/
def OrdenaCrescente (ordena : List Aresta → List Aresta) : Prop :=
  ∀ l, (ordena l).Perm l ∧ (ordena l).Pairwise (fun a b => a.peso ≤ b.peso)

/-- Invariant of the union-find structure over `n` elements: parents are elements, and
the rank grows strictly from an element to its parent. -/
structure DSInv (n : Nat) (ds : DisjointSet) : Prop where
  tamPai : ds.pai.length = n
  tamRank : ds.rank.length = n
  paiValido : ∀ x : Int, 0 ≤ x → x < (n : Int) → 0 ≤ ds.p x ∧ ds.p x < (n : Int)
  sobe : ∀ x : Int, 0 ≤ x → x < (n : Int) → ds.p x ≠ x → ds.r x < ds.r (ds.p x)

/-- `Raiz ds x r`: following the parent pointers from `x` ends in the root `r`. -/
inductive Raiz (ds : DisjointSet) : Int → Int → Prop
  | base (x : Int) : ds.p x = x → Raiz ds x x
  | passo (x r : Int) : ds.p x ≠ x → Raiz ds (ds.p x) r → Raiz ds x r

/-- Two elements have the same root. -/
def Mesma (ds : DisjointSet) (a b : Int) : Prop := ∃ r, Raiz ds a r ∧ Raiz ds b r

/-- Number of elements whose rank is larger than the rank of `x`. -/
def altura (n : Nat) (ds : DisjointSet) (x : Int) : Nat :=
  ((Finset.range n).filter (fun y : Nat => ds.r x < ds.r (y : Int))).card

/-- `T` is a spanning forest of the graph `g`: a cycle-free set of collected edges that
connects every two vertices joined by a walk in `g`. -/
def ArvoreGeradoraDe (g : Grafo) (T : Finset Aresta) : Prop :=
  T ⊆ (coletaArestas g).toFinset ∧ Floresta T ∧
    ∀ a b k, Valido g a → Caminho g a b k → Con T a b

/-! ## Sorted edge listing (`ordenarArestas`) -/

/-- The contract of `std::sort` with the comparator `a.peso > b.peso` used by
`ordenarArestas(false)` and `algoritmoApagaReverso`: the result is a permutation of the
argument in non-increasing order of weight. -/
def OrdenaDecrescente (ordenaDec : List Aresta → List Aresta) : Prop :=
  ∀ l, (ordenaDec l).Perm l ∧ (ordenaDec l).Pairwise (fun a b => a.peso ≥ b.peso)

/-- A sorting routine that meets the contract of `std::sort` with the comparator
`a.peso > b.peso` (insertion sort by decreasing weight), used to run the model on
examples. -/
def ordenaPorPesoDec (l : List Aresta) : List Aresta :=
  List.insertionSort (fun a b => a.peso ≥ b.peso) l

/-- Member `void ordenarArestas(bool crescente)`.  The first component is the vector
`arestas` after sorting, which the routine prints; the second is the graph after the call
(the routine assigns to no member of the graph).  `ordena` stands for
`std::sort(begin, end)` with `Aresta::operator<` and `ordenaDec` for `std::sort` with the
comparator `a.peso > b.peso`. -/
def ordenarArestas (ordena ordenaDec : List Aresta → List Aresta) (g : Grafo)
    (crescente : Bool) : List Aresta × Grafo :=
  if crescente then (ordena (coletaArestas g), g)
  else (ordenaDec (coletaArestas g), g)

/-! ## Counting stored entries -/

/-- Number of stored entries `i -> e`, over all vertices `i`, that satisfy `q i e`. -/
def contaEntradas (q : Int → ElemLista → Bool) (g : Grafo) : Int :=
  ((List.range g.numVertices).map
    (fun i : Nat => (((g.lista (i : Int)).filter (q (i : Int))).length : Int))).sum

/-- The entry points from its owner to a larger vertex id. -/
def paraCima (i : Int) (e : ElemLista) : Bool := decide (i < e.vertice)

/-- The entry points from its owner to a smaller vertex id. -/
def paraBaixo (i : Int) (e : ElemLista) : Bool := decide (e.vertice < i)

/-! ## Connectivity test (`estaConectadoDFS`, `dfs`) -/

/-- Loop `while (atual != nullptr)` of `dfs` over an adjacency list: a neighbour with
`!visitado[atual->vertice]` is visited by the recursive call `chamada`, the others are
skipped. -/
def dfsVizinhos (chamada : Int → List Bool → Except Falha (List Bool)) :
    List ElemLista → List Bool → Except Falha (List Bool)
  | [], visitado => Except.ok visitado
  | atual :: prox, visitado =>
    if visitado.getD atual.vertice.toNat true = false then
      match chamada atual.vertice visitado with
      | Except.ok visitado1 => dfsVizinhos chamada prox visitado1
      | Except.error f => Except.error f
    else dfsVizinhos chamada prox visitado

/-- Member `void dfs(int v, vector<bool> &visitado)`; the result is the vector after the
call.  The first argument bounds the depth of the recursion.  The write `visitado[v] = true`
is indexed by the argument `v` and goes through `escreve`. -/
def dfs (g : Grafo) : Nat → Int → List Bool → Except Falha (List Bool)
  | 0, _, _ => Except.error Falha.semCombustivel
  | k + 1, v, visitado =>
    match escreve visitado v true with
    | Except.ok visitado1 => dfsVizinhos (dfs g k) (g.lista v) visitado1
    | Except.error f => Except.error f

/-- Member `bool estaConectadoDFS()`: `dfs(0, visitado)` on a vector of `numVertices`
entries `false`, then `true` exactly when no entry is `false`.  The recursion of `dfs` is
given `numVertices + 1` levels. -/
def estaConectadoDFS (g : Grafo) : Except Falha Bool :=
  match dfs g (g.numVertices + 1) 0 (List.replicate g.numVertices false) with
  | Except.ok visitado => Except.ok (visitado.all (fun v => v))
  | Except.error f => Except.error f

/-- What a call of `dfs` on an unmarked vertex `v` guarantees, given enough levels: it
returns; marks are only added; every new mark is on a vertex reachable from `v`; and every
newly marked vertex has all its neighbours marked. -/
def DfsPos (g : Grafo) (v : Int) (vis vis' : List Bool) : Prop :=
  vis'.length = g.numVertices ∧ vis'.count false ≤ vis.count false ∧
  (∀ x : Int, vis.getD x.toNat true = true → vis'.getD x.toNat true = true) ∧
  vis'.getD v.toNat true = true ∧
  (∀ x, Valido g x → vis'.getD x.toNat true = true → vis.getD x.toNat true = false →
    ∃ j, Caminho g v x j) ∧
  (∀ x, Valido g x → vis'.getD x.toNat true = true → vis.getD x.toNat true = false →
    ∀ e ∈ g.lista x, vis'.getD e.vertice.toNat true = true)

/-! ## Reverse-delete on edge sets -/

/-- The edge set `H` connects all the vertices `0 .. n-1`. -/
def Conexo (n : Nat) (H : Finset Aresta) : Prop :=
  ∀ a b : Int, 0 ≤ a ∧ a < (n : Int) → 0 ≤ b ∧ b < (n : Int) → Con H a b

/-- The reverse-delete run over a list of edges: `Apagado n R H H'` says that starting
from the edge set `H` and looking at the edges `R` in order, an edge being dropped exactly
when the remaining edges still connect all the vertices, the surviving edge set is `H'`. -/
inductive Apagado (n : Nat) : List Aresta → Finset Aresta → Finset Aresta → Prop
  | nil (H : Finset Aresta) : Apagado n [] H H
  | remove (e : Aresta) (R : List Aresta) (H H' : Finset Aresta) :
      Conexo n (H.erase e) → Apagado n R (H.erase e) H' → Apagado n (e :: R) H H'
  | mantem (e : Aresta) (R : List Aresta) (H H' : Finset Aresta) :
      ¬ Conexo n (H.erase e) → Apagado n R H H' → Apagado n (e :: R) H H'

/-! ## Reverse-delete (`algoritmoApagaReverso`) -/

/-- Body of the main loop of `algoritmoApagaReverso` for one edge: remove it, run the
connectivity test, and insert it again when the test fails. -/
def apagaPasso (g : Grafo) (aresta : Aresta) : Except Falha Grafo :=
  match estaConectadoDFS (removeAresta g aresta.origem aresta.destino).2 with
  | Except.ok conectado =>
    if !conectado then
      Except.ok (adicionaAresta (removeAresta g aresta.origem aresta.destino).2
        aresta.origem aresta.destino aresta.peso)
    else Except.ok (removeAresta g aresta.origem aresta.destino).2
  | Except.error f => Except.error f

/-- Main loop `for (auto &aresta : arestas)` of `algoritmoApagaReverso`. -/
def apagaLaco : List Aresta → Grafo → Except Falha Grafo
  | [], g => Except.ok g
  | aresta :: resto, g =>
    match apagaPasso g aresta with
    | Except.ok g1 => apagaLaco resto g1
    | Except.error f => Except.error f

/-- Member `void algoritmoApagaReverso()`; the result is the graph after the call, which
the routine prints with `exibeGrafo`.  `ordenaDec` stands for `std::sort` with the
comparator `a.peso > b.peso`. -/
def algoritmoApagaReverso (ordenaDec : List Aresta → List Aresta) (g : Grafo) :
    Except Falha Grafo :=
  apagaLaco (ordenaDec (coletaArestas g)) g

/-! ## Prim (`algoritmoPrim`) -/

/-- Local state of `algoritmoPrim`: the arrays `chave`, `naArvore` and `pai`. -/
structure EstadoPrim where
  chave : List Int
  naArvore : List Bool
  pai : List Int
deriving DecidableEq, Repr

/-- Body of the loop of `algoritmoPrim` over the adjacency list of the selected vertex `u`,
for one node `adj`: `if (!naArvore[v] && peso < chave[v]) { pai[v] = u; chave[v] = peso; }`
with `v = adj->vertice` and `peso = adj->peso`. -/
def primPasso (u : Int) (st : EstadoPrim) (adj : ElemLista) : EstadoPrim :=
  if st.naArvore.getD adj.vertice.toNat true = false ∧
      adj.peso < st.chave.getD adj.vertice.toNat 0 then
    ⟨st.chave.set adj.vertice.toNat adj.peso, st.naArvore, st.pai.set adj.vertice.toNat u⟩
  else st

/-- Loop `while (adj != nullptr)` of `algoritmoPrim` over the adjacency list of `u`. -/
def primVizinhos (u : Int) (l : List ElemLista) (st : EstadoPrim) : EstadoPrim :=
  l.foldl (primPasso u) st

/-- Main loop `for (int i = 0; i < numVertices - 1; i++)` of `algoritmoPrim`, with the
number of remaining iterations as first argument.  The selection loop
(`u = -1`, `menorChave = INF`, then
`if (!naArvore[v] && chave[v] < menorChave) { menorChave = chave[v]; u = v; }` for every
`v`) is the loop of `algoritmoDijkstra` on the arrays `chave` and `naArvore`, that is
`selecionaMenor`; `u == -1` breaks out. -/
def primLaco (g : Grafo) : Nat → EstadoPrim → EstadoPrim
  | 0, st => st
  | k + 1, st =>
    if (selecionaMenor g.numVertices st.chave st.naArvore).1 = -1 then st
    else
      primLaco g k
        (primVizinhos (selecionaMenor g.numVertices st.chave st.naArvore).1
          (g.lista (selecionaMenor g.numVertices st.chave st.naArvore).1)
          ⟨st.chave,
           st.naArvore.set (selecionaMenor g.numVertices st.chave st.naArvore).1.toNat true,
           st.pai⟩)

/-- The search `while (adj != nullptr && adj->vertice != i) adj = adj->prox` of the output
loop of `algoritmoPrim`, followed by the test `adj != nullptr`: the weight of the first
node for `i`, if there is one. -/
def procuraPeso (i : Int) : List ElemLista → Option Int
  | [] => none
  | adj :: prox => if adj.vertice ≠ i then procuraPeso i prox else some adj.peso

/-- One line `pai -- filho (peso: w)` printed by `algoritmoPrim`; the weight is `none` for
the line `(peso desconhecido)`. -/
structure LinhaPrim where
  pai : Int
  filho : Int
  peso : Option Int
deriving DecidableEq, Repr

/-- Body of the output loop of `algoritmoPrim` for the vertex `i`; the accumulator is the
list of printed lines and `custoTotal`. -/
def primSaidaPasso (g : Grafo) (pai : List Int) (acc : List LinhaPrim × Int) (i : Nat) :
    List LinhaPrim × Int :=
  if pai.getD i 0 ≠ -1 then
    match procuraPeso (i : Int) (g.lista (pai.getD i 0)) with
    | some w => (acc.1 ++ [⟨pai.getD i 0, (i : Int), some w⟩], somaInt acc.2 w)
    | none => (acc.1 ++ [⟨pai.getD i 0, (i : Int), none⟩], acc.2)
  else acc

/-- Output loop `for (int i = 1; i < numVertices; i++)` of `algoritmoPrim`. -/
def primSaida (g : Grafo) (pai : List Int) : List LinhaPrim × Int :=
  ((List.range (g.numVertices - 1)).map (fun j => j + 1)).foldl (primSaidaPasso g pai) ([], 0)

/-- Member `void algoritmoPrim()`; the result is the list of printed lines and
`custoTotal`.  The write `chave[0] = 0` is outside the array when there is no vertex and
goes through `escreve`. -/
def algoritmoPrim (g : Grafo) : Except Falha (List LinhaPrim × Int) :=
  match escreve (List.replicate g.numVertices INF) 0 0 with
  | Except.ok chave =>
    Except.ok (primSaida g (primLaco g (g.numVertices - 1)
      ⟨chave, List.replicate g.numVertices false, List.replicate g.numVertices (-1)⟩).pai)
  | Except.error f => Except.error f

/-- Entry `chave[x]` of the state of Prim. -/
def EstadoPrim.c (st : EstadoPrim) (x : Int) : Int := st.chave.getD x.toNat 0

/-- Entry `naArvore[x]` of the state of Prim. -/
def EstadoPrim.m (st : EstadoPrim) (x : Int) : Prop := st.naArvore.getD x.toNat true = true

/-- Entry `pai[x]` of the state of Prim. -/
def EstadoPrim.p (st : EstadoPrim) (x : Int) : Int := st.pai.getD x.toNat 0

instance EstadoPrim.decM (st : EstadoPrim) (x : Int) : Decidable (st.m x) :=
  inferInstanceAs (Decidable (st.naArvore.getD x.toNat true = true))

/-- The edge between `u` and `v` with weight `w`, written with the smaller endpoint first
as the collection loop does. -/
def arestaNorm (u v w : Int) : Aresta := if u < v then ⟨u, v, w⟩ else ⟨v, u, w⟩

/-- The tree edge that the state of Prim records for the vertex `x`. -/
def EstadoPrim.aresta (st : EstadoPrim) (x : Int) : Aresta := arestaNorm (st.p x) x (st.c x)

/-- Sum of the keys of the vertices other than 0 that are in the tree. -/
def somaChaves (n : Nat) (st : EstadoPrim) : Int :=
  ((List.range n).map
    (fun i : Nat => if st.m (i : Int) ∧ i ≠ 0 then st.c (i : Int) else 0)).sum

/-- All stored weights are below the constant `INF`. -/
def PesosAbaixoDeINF (g : Grafo) : Prop :=
  ∀ u : Int, ∀ e ∈ g.lista u, e.peso < INF

/-- Part of the invariant of the main loop of `algoritmoPrim`; `F` is the set of tree edges
of the vertices in the tree. -/
structure PrimBase (g : Grafo) (F : Finset Aresta) (st : EstadoPrim) : Prop where
  tamC : st.chave.length = g.numVertices
  tamN : st.naArvore.length = g.numVertices
  tamP : st.pai.length = g.numVertices
  inicio : ¬ st.m 0 → st.c 0 = 0 ∧ F = ∅ ∧
    ∀ x, Valido g x → ¬ st.m x ∧ (x ≠ 0 → st.c x = INF)
  paiOk : ∀ x, Valido g x → x ≠ 0 → st.c x < INF →
    Valido g (st.p x) ∧ st.m (st.p x) ∧ (⟨x, st.c x⟩ : ElemLista) ∈ g.lista (st.p x)
  marcado : ∀ x, Valido g x → st.m x → x ≠ 0 → st.c x < INF ∧ st.aresta x ∈ F
  origemF : ∀ f ∈ F, ∃ x, Valido g x ∧ st.m x ∧ x ≠ 0 ∧ f = st.aresta x
  conF : ∀ x, Valido g x → st.m x → Con F 0 x
  custoF : custo F = somaChaves g.numVertices st
  promissor : ∀ T, FlorestaGeradora (coletaArestas g).toFinset T →
    ∃ T', FlorestaGeradora (coletaArestas g).toFinset T' ∧ custo T' ≤ custo T ∧ F ⊆ T'

/-- The other part of the invariant: the key of a vertex outside the tree is at most the
weight of every entry that leads to it from a vertex in the tree other than `u`. -/
def PrimMin (g : Grafo) (st : EstadoPrim) (u : Int) : Prop :=
  ∀ a, Valido g a → st.m a → a ≠ u → ∀ e ∈ g.lista a, ¬ st.m e.vertice →
    st.c e.vertice ≤ e.peso

/-- The undirected weighted path `0 - 1 - 2` with the weights 2147483647 and 1, whose total
is one above the largest `int`. -/
def exemploTransbordo : Grafo :=
  adicionaAresta (adicionaAresta (Grafo.novo 3 false true) 0 1 2147483647) 1 2 1

/-- A disconnected undirected weighted graph with a cycle: the triangle `0 - 1 - 2` and the
isolated vertex 3. -/
def exemploDesconexo : Grafo :=
  adicionaAresta (adicionaAresta (adicionaAresta (Grafo.novo 4 false true) 0 1 1) 1 2 2) 0 2 3

/-- The undirected unweighted path `0 - 1 - ... - k` on `n` vertices, built with `k` calls
of `adicionaAresta`. -/
def grafoCaminho (n : Nat) : Nat → Grafo
  | 0 => Grafo.novo n false false
  | k + 1 => adicionaAresta (grafoCaminho n k) (k : Int) ((k : Int) + 1) 1

/-- States of the union-find structure reached from `DisjointSet(n)` by calls of `find` and
`unir` with arguments in `[0, n)`; the list holds the pairs passed to `unir` so far, the
latest first. -/
inductive DSAlcancavel (n : Nat) : DisjointSet → List (Int × Int) → Prop
  | novo : DSAlcancavel n (DisjointSet.novo n) []
  | find (ds ds' : DisjointSet) (ps : List (Int × Int)) (x r : Int) :
      DSAlcancavel n ds ps → 0 ≤ x ∧ x < (n : Int) →
      DisjointSet.find n ds x = some (ds', r) → DSAlcancavel n ds' ps
  | unir (ds ds' : DisjointSet) (ps : List (Int × Int)) (x y : Int) :
      DSAlcancavel n ds ps → 0 ≤ x ∧ x < (n : Int) → 0 ≤ y ∧ y < (n : Int) →
      DisjointSet.unir n ds x y = some ds' → DSAlcancavel n ds' ((x, y) :: ps)

/-- Equivalence closure of the pairs in `ps`. -/
def Unidos (ps : List (Int × Int)) : Int → Int → Prop :=
  Relation.EqvGen (fun a b => (a, b) ∈ ps)

/-- The union-find state over four elements after `unir(0, 1)`, `unir(2, 3)` and
`unir(1, 3)`: element 3 points at 2, which points at the root 0. -/
def dsExemplo : DisjointSet := ⟨[0, 0, 0, 2], [2, 0, 1, 0]⟩

/-! # Proofs -/

/-! ## Lemmas on the list walks -/

theorem getD_set_lista {α : Type} (l : List α) (i j : Nat) (a d : α) :
    (l.set i a).getD j d = if i = j ∧ i < l.length then a else l.getD j d := by
  simp only [List.getD_eq_getElem?_getD, List.getElem?_set]
  by_cases h : i = j
  · subst h
    by_cases h2 : i < l.length
    · simp [h2]
    · simp [h2, List.getElem?_eq_none (Nat.le_of_not_lt h2)]
  · simp [h]

theorem lista_comLista_mesmo (g : Grafo) (u : Int) (l : List ElemLista)
    (h : u.toNat < g.A.length) : (g.comLista u l).lista u = l := by
  simp [Grafo.lista, Grafo.comLista, getD_set_lista, h]

theorem lista_comLista_outro (g : Grafo) (u v : Int) (l : List ElemLista)
    (h : u.toNat ≠ v.toNat) : (g.comLista u l).lista v = g.lista v := by
  simp [Grafo.lista, Grafo.comLista, getD_set_lista, h]

theorem lista_comNumArestas (g : Grafo) (k v : Int) :
    (g.comNumArestas k).lista v = g.lista v := rfl

theorem insereNaLista_existe (v p : Int) (l : List ElemLista) :
    existeNaLista v (insereNaLista v p l).2 = true := by
  induction l with
  | nil => simp [insereNaLista, existeNaLista]
  | cons a t ih =>
    by_cases h1 : a.vertice < v
    · simp [insereNaLista, existeNaLista, h1, ih]
    · by_cases h2 : a.vertice = v
      · simp [insereNaLista, existeNaLista, h1, h2]
      · simp [insereNaLista, existeNaLista, h1, h2]

theorem insereNaLista_falso (v p : Int) (l : List ElemLista) :
    (insereNaLista v p l).1 = false ↔ existeNaLista v l = true := by
  induction l with
  | nil => simp [insereNaLista, existeNaLista]
  | cons a t ih =>
    by_cases h1 : a.vertice < v
    · simp [insereNaLista, existeNaLista, h1, ih]
    · by_cases h2 : a.vertice = v
      · simp [insereNaLista, existeNaLista, h1, h2]
      · simp [insereNaLista, existeNaLista, h1, h2]

theorem insereNaLista_falso_igual (v p : Int) (l : List ElemLista)
    (h : (insereNaLista v p l).1 = false) : (insereNaLista v p l).2 = l := by
  induction l with
  | nil => simp [insereNaLista] at h
  | cons a t ih =>
    by_cases h1 : a.vertice < v
    · simp only [insereNaLista, h1, if_true] at h ⊢
      rw [ih h]
    · by_cases h2 : a.vertice = v
      · simp [insereNaLista, h1, h2]
      · simp [insereNaLista, h1, h2] at h

theorem insereNaLista_existe_outro (v v' p : Int) (l : List ElemLista) (h : v' ≠ v) :
    existeNaLista v' (insereNaLista v p l).2 = existeNaLista v' l := by
  induction l with
  | nil =>
    simp only [insereNaLista, existeNaLista]
    by_cases h1 : v < v'
    · simp [h1]
    · simp [h1, Ne.symm h]
  | cons a t ih =>
    by_cases h1 : a.vertice < v
    · simp only [insereNaLista, h1, if_true, existeNaLista, ih]
    · by_cases h2 : a.vertice = v
      · simp [insereNaLista, h1, h2]
      · simp only [insereNaLista, h1, h2, if_false, existeNaLista]
        by_cases h3 : v < v'
        · simp [h3]
        · have h4 : ¬ a.vertice < v' := by omega
          have h5 : ¬ a.vertice = v' := by omega
          simp [h3, h4, h5, Ne.symm h]

theorem insereNaLista_mem (v p : Int) (l : List ElemLista) (e : ElemLista) :
    e ∈ (insereNaLista v p l).2 ↔
      e ∈ l ∨ ((insereNaLista v p l).1 = true ∧ e = ⟨v, p⟩) := by
  induction l with
  | nil => simp [insereNaLista]
  | cons a t ih =>
    by_cases h1 : a.vertice < v
    · simp only [insereNaLista, h1, if_true, List.mem_cons, ih]
      tauto
    · by_cases h2 : a.vertice = v
      · simp [insereNaLista, h1, h2]
      · simp only [insereNaLista, h1, h2, if_false, List.mem_cons]
        tauto

theorem insereNaLista_ordenada (v p : Int) (l : List ElemLista) (h : Ordenada l) :
    Ordenada (insereNaLista v p l).2 := by
  induction l with
  | nil => simp [insereNaLista, Ordenada]
  | cons a t ih =>
    have ht : Ordenada t := (List.pairwise_cons.mp h).2
    have ha := (List.pairwise_cons.mp h).1
    by_cases h1 : a.vertice < v
    · simp only [insereNaLista, h1, if_true]
      refine List.pairwise_cons.mpr ⟨?_, ih ht⟩
      intro b hb
      rcases (insereNaLista_mem v p t b).mp hb with hb | ⟨_, hb⟩
      · exact ha b hb
      · subst hb; exact h1
    · by_cases h2 : a.vertice = v
      · simpa [insereNaLista, h1, h2] using h
      · simp only [insereNaLista, h1, h2, if_false]
        refine List.pairwise_cons.mpr ⟨?_, h⟩
        intro b hb
        rcases List.mem_cons.mp hb with hb | hb
        · subst hb; show v < b.vertice; omega
        · have := ha b hb
          show v < b.vertice; omega

theorem existeNaLista_iff (v : Int) (l : List ElemLista) (h : Ordenada l) :
    existeNaLista v l = true ↔ ∃ e ∈ l, e.vertice = v := by
  induction l with
  | nil => simp [existeNaLista]
  | cons a t ih =>
    have ht : Ordenada t := (List.pairwise_cons.mp h).2
    have ha := (List.pairwise_cons.mp h).1
    by_cases h1 : a.vertice < v
    · simp only [existeNaLista, h1, if_true, ih ht, List.mem_cons]
      constructor
      · rintro ⟨e, he, hv⟩; exact ⟨e, Or.inr he, hv⟩
      · rintro ⟨e, he | he, hv⟩
        · subst he; omega
        · exact ⟨e, he, hv⟩
    · simp only [existeNaLista, h1, if_false, decide_eq_true_eq, List.mem_cons]
      constructor
      · intro h2; exact ⟨a, Or.inl rfl, h2⟩
      · rintro ⟨e, he | he, hv⟩
        · subst he; exact hv
        · have := ha e he; omega

theorem removeDaLista_sublista (v : Int) (l : List ElemLista) :
    List.Sublist (removeDaLista v l).2 l := by
  induction l with
  | nil => simp [removeDaLista]
  | cons a t ih =>
    by_cases h1 : a.vertice < v
    · simp only [removeDaLista, h1, if_true]
      exact ih.cons₂ a
    · by_cases h2 : a.vertice = v
      · simp only [removeDaLista, h1, h2, if_false, if_true]
        simp
      · simp [removeDaLista, h1, h2]

theorem removeDaLista_ordenada (v : Int) (l : List ElemLista) (h : Ordenada l) :
    Ordenada (removeDaLista v l).2 :=
  List.Pairwise.sublist (removeDaLista_sublista v l) h

theorem removeDaLista_resultado (v : Int) (l : List ElemLista) :
    (removeDaLista v l).1 = existeNaLista v l := by
  induction l with
  | nil => simp [removeDaLista, existeNaLista]
  | cons a t ih =>
    by_cases h1 : a.vertice < v
    · simp [removeDaLista, existeNaLista, h1, ih]
    · by_cases h2 : a.vertice = v
      · simp [removeDaLista, existeNaLista, h1, h2]
      · simp [removeDaLista, existeNaLista, h1, h2]

theorem removeDaLista_falso_igual (v : Int) (l : List ElemLista)
    (h : (removeDaLista v l).1 = false) : (removeDaLista v l).2 = l := by
  induction l with
  | nil => simp [removeDaLista]
  | cons a t ih =>
    by_cases h1 : a.vertice < v
    · simp only [removeDaLista, h1, if_true] at h ⊢
      rw [ih h]
    · by_cases h2 : a.vertice = v
      · simp [removeDaLista, h1, h2] at h
      · simp [removeDaLista, h1, h2]

theorem removeDaLista_mem (v : Int) (l : List ElemLista) (h : Ordenada l) (e : ElemLista) :
    e ∈ (removeDaLista v l).2 ↔ e ∈ l ∧ e.vertice ≠ v := by
  induction l with
  | nil => simp [removeDaLista]
  | cons a t ih =>
    have ht : Ordenada t := (List.pairwise_cons.mp h).2
    have ha := (List.pairwise_cons.mp h).1
    by_cases h1 : a.vertice < v
    · simp only [removeDaLista, h1, if_true, List.mem_cons, ih ht]
      constructor
      · rintro (he | he)
        · subst he; exact ⟨Or.inl rfl, by omega⟩
        · exact ⟨Or.inr he.1, he.2⟩
      · rintro ⟨he | he, hv⟩
        · exact Or.inl he
        · exact Or.inr ⟨he, hv⟩
    · by_cases h2 : a.vertice = v
      · have h3 : (removeDaLista v (a :: t)).2 = t := by simp [removeDaLista, h2]
        rw [h3, List.mem_cons]
        constructor
        · intro he
          have := ha e he
          exact ⟨Or.inr he, by omega⟩
        · rintro ⟨he | he, hv⟩
          · subst he; exact absurd h2 hv
          · exact he
      · simp only [removeDaLista, h1, h2, if_false, List.mem_cons]
        constructor
        · rintro (he | he)
          · subst he; exact ⟨Or.inl rfl, h2⟩
          · have := ha e he
            exact ⟨Or.inr he, by omega⟩
        · rintro ⟨he, _⟩; exact he

theorem removeDaLista_existe (v : Int) (l : List ElemLista) (h : Ordenada l) :
    existeNaLista v (removeDaLista v l).2 = false := by
  have h1 := existeNaLista_iff v _ (removeDaLista_ordenada v l h)
  cases hb : existeNaLista v (removeDaLista v l).2
  · rfl
  · obtain ⟨e, he, hv⟩ := h1.mp hb
    exact absurd hv ((removeDaLista_mem v l h e).mp he).2

theorem removeDaLista_existe_outro (v v' : Int) (l : List ElemLista) (h : Ordenada l)
    (hne : v' ≠ v) : existeNaLista v' (removeDaLista v l).2 = existeNaLista v' l := by
  have h1 := existeNaLista_iff v' _ (removeDaLista_ordenada v l h)
  have h2 := existeNaLista_iff v' _ h
  rw [Bool.eq_iff_iff, h1, h2]
  constructor
  · rintro ⟨e, he, hv⟩; exact ⟨e, ((removeDaLista_mem v l h e).mp he).1, hv⟩
  · rintro ⟨e, he, hv⟩; exact ⟨e, (removeDaLista_mem v l h e).mpr ⟨he, by rw [hv]; exact hne⟩, hv⟩

/-! ## Preservation of the structural invariant -/

theorem lista_comLista (g : Grafo) (u x : Int) (l : List ElemLista) :
    (g.comLista u l).lista x =
      if u.toNat = x.toNat ∧ u.toNat < g.A.length then l else g.lista x := by
  simp only [Grafo.lista, Grafo.comLista, getD_set_lista]

theorem entradaInvalida_falso (g : Grafo) (u v : Int) :
    entradaInvalida g u v = false ↔
      0 ≤ u ∧ 0 ≤ v ∧ u < (g.numVertices : Int) ∧ v < (g.numVertices : Int) ∧ u ≠ v := by
  simp only [entradaInvalida, Bool.or_eq_false_iff, decide_eq_false_iff_not]
  constructor
  · rintro ⟨⟨⟨⟨h1, h2⟩, h3⟩, h4⟩, h5⟩
    exact ⟨by omega, by omega, by omega, by omega, h5⟩
  · rintro ⟨h1, h2, h3, h4, h5⟩
    exact ⟨⟨⟨⟨by omega, by omega⟩, by omega⟩, by omega⟩, h5⟩

theorem entradaInvalida_verdadeiro (g : Grafo) (u v : Int) :
    entradaInvalida g u v = true ↔
      (u < 0 ∨ v < 0 ∨ (g.numVertices : Int) ≤ u ∨ (g.numVertices : Int) ≤ v ∨ u = v) := by
  simp only [entradaInvalida, Bool.or_eq_true, decide_eq_true_eq]
  constructor
  · rintro ((((h | h) | h) | h) | h) <;> simp [h]
  · rintro (h | h | h | h | h) <;> simp [h]

theorem bemFormado_novo (n : Nat) (d p : Bool) : BemFormado (Grafo.novo n d p) := by
  have h : ∀ u : Int, (Grafo.novo n d p).lista u = [] := by
    intro u
    simp only [Grafo.lista, Grafo.novo, List.getD_eq_getElem?_getD]
    by_cases hu : u.toNat < n
    · simp [List.getElem?_replicate, hu]
    · simp [List.getElem?_replicate, hu]
  refine ⟨by simp [Grafo.novo], ?_, ?_, ?_⟩
  · intro u; rw [h u]; exact List.Pairwise.nil
  · intro u e he; rw [h u] at he; simp at he
  · intro u _ e he; rw [h u] at he; simp at he

theorem bemFormado_comLista (g : Grafo) (hg : BemFormado g) (u : Int) (l : List ElemLista)
    (hu : 0 ≤ u) (hl : Ordenada l)
    (hr : ∀ e ∈ l, 0 ≤ e.vertice ∧ e.vertice < (g.numVertices : Int) ∧ e.vertice ≠ u) :
    BemFormado (g.comLista u l) := by
  refine ⟨?_, ?_, ?_, ?_⟩
  · simpa [Grafo.comLista] using hg.tamanho
  · intro x
    rw [lista_comLista]
    split
    · exact hl
    · exact hg.ordenada x
  · intro x e he
    rw [lista_comLista] at he
    split at he
    · exact ⟨(hr e he).1, (hr e he).2.1⟩
    · exact hg.noIntervalo x e he
  · intro x hx e he
    rw [lista_comLista] at he
    split at he
    · rename_i h
      have : x = u := by omega
      rw [this]; exact (hr e he).2.2
    · exact hg.semLaco x hx e he

theorem bemFormado_comNumArestas (g : Grafo) (hg : BemFormado g) (k : Int) :
    BemFormado (g.comNumArestas k) :=
  ⟨hg.tamanho, hg.ordenada, hg.noIntervalo, hg.semLaco⟩

theorem bemFormado_insereArestaAux (g : Grafo) (hg : BemFormado g) (u v p : Int)
    (h : entradaInvalida g u v = false) : BemFormado (insereArestaAux g u v p).2 := by
  obtain ⟨h1, h2, h3, h4, h5⟩ := (entradaInvalida_falso g u v).mp h
  refine bemFormado_comLista g hg u _ h1 (insereNaLista_ordenada v p _ (hg.ordenada u)) ?_
  intro e he
  rcases (insereNaLista_mem v p _ e).mp he with he | ⟨_, he⟩
  · exact ⟨(hg.noIntervalo u e he).1, (hg.noIntervalo u e he).2, hg.semLaco u h1 e he⟩
  · subst he; exact ⟨h2, h4, Ne.symm h5⟩

theorem bemFormado_removeArestaAux (g : Grafo) (hg : BemFormado g) (u v : Int)
    (hu : 0 ≤ u) : BemFormado (removeArestaAux g u v).2 := by
  refine bemFormado_comLista g hg u _ hu (removeDaLista_ordenada v _ (hg.ordenada u)) ?_
  intro e he
  have he' := (removeDaLista_sublista v (g.lista u)).subset he
  exact ⟨(hg.noIntervalo u e he').1, (hg.noIntervalo u e he').2, hg.semLaco u hu e he'⟩

theorem entradaInvalida_insereArestaAux (g : Grafo) (a b p x y : Int) :
    entradaInvalida (insereArestaAux g a b p).2 x y = entradaInvalida g x y := rfl

theorem entradaInvalida_removeArestaAux (g : Grafo) (a b x y : Int) :
    entradaInvalida (removeArestaAux g a b).2 x y = entradaInvalida g x y := rfl

theorem entradaInvalida_troca (g : Grafo) (u v : Int) (h : entradaInvalida g u v = false) :
    entradaInvalida g v u = false := by
  rw [entradaInvalida_falso] at h ⊢
  obtain ⟨h1, h2, h3, h4, h5⟩ := h
  exact ⟨h2, h1, h4, h3, Ne.symm h5⟩

theorem bemFormado_adicionaComPeso (g : Grafo) (hg : BemFormado g) (u v p : Int)
    (h : entradaInvalida g u v = false) : BemFormado (adicionaComPeso g u v p) := by
  unfold adicionaComPeso
  split
  · split
    · apply bemFormado_comNumArestas
      apply bemFormado_insereArestaAux _ (bemFormado_insereArestaAux g hg u v p h)
      rw [entradaInvalida_insereArestaAux]
      exact entradaInvalida_troca g u v h
    · exact bemFormado_comNumArestas _ (bemFormado_insereArestaAux g hg u v p h) _
  · exact hg

theorem bemFormado_adicionaAresta (g : Grafo) (hg : BemFormado g) (u v w : Int) :
    BemFormado (adicionaAresta g u v w) := by
  unfold adicionaAresta
  cases h : entradaInvalida g u v
  · simp only [Bool.false_eq_true, if_false]
    split
    · exact bemFormado_adicionaComPeso g hg u v w h
    · exact bemFormado_adicionaComPeso g hg u v 1 h
  · simpa using hg

theorem bemFormado_adicionaArestaDirecionada (g : Grafo) (hg : BemFormado g) (u v w : Int) :
    BemFormado (adicionaArestaDirecionada g u v w) := by
  unfold adicionaArestaDirecionada adicionaDirComPeso
  cases h : entradaInvalida g u v
  · simp only [Bool.false_eq_true, if_false]
    split
    · split
      · exact bemFormado_comNumArestas _ (bemFormado_insereArestaAux g hg u v w h) _
      · exact hg
    · split
      · exact bemFormado_comNumArestas _ (bemFormado_insereArestaAux g hg u v 1 h) _
      · exact hg
  · simpa using hg

theorem bemFormado_removeAresta (g : Grafo) (hg : BemFormado g) (u v : Int) :
    BemFormado (removeAresta g u v).2 := by
  unfold removeAresta
  cases h : entradaInvalida g u v
  · obtain ⟨h1, h2, h3, h4, h5⟩ := (entradaInvalida_falso g u v).mp h
    simp only [Bool.false_eq_true, if_false]
    split
    · exact bemFormado_comNumArestas _
        (bemFormado_removeArestaAux _ (bemFormado_removeArestaAux g hg u v h1) v u h2) _
    · exact hg
  · simpa using hg

theorem bemFormado_de_alcancavel (g : Grafo) (h : Alcancavel g) : BemFormado g := by
  induction h with
  | novo n d p => exact bemFormado_novo n d p
  | adiciona g u v w _ ih => exact bemFormado_adicionaAresta g ih u v w
  | adicionaDir g u v w _ ih => exact bemFormado_adicionaArestaDirecionada g ih u v w
  | remove g u v _ ih => exact bemFormado_removeAresta g ih u v

theorem alcancavel_de_semDir (g : Grafo) (h : AlcancavelSemDir g) : Alcancavel g := by
  induction h with
  | novo n d p => exact Alcancavel.novo n d p
  | adiciona g u v w _ ih => exact Alcancavel.adiciona g u v w ih
  | remove g u v _ ih => exact Alcancavel.remove g u v ih

/-! ## Effect of the operations on the adjacency lists -/

theorem mem_lista_insereArestaAux (g : Grafo) (hg : g.A.length = g.numVertices) (u v p x : Int)
    (hu : 0 ≤ u ∧ u < (g.numVertices : Int)) (hx : 0 ≤ x) (e : ElemLista) :
    e ∈ (insereArestaAux g u v p).2.lista x ↔
      e ∈ g.lista x ∨ (x = u ∧ (insereArestaAux g u v p).1 = true ∧ e = ⟨v, p⟩) := by
  simp only [insereArestaAux, lista_comLista]
  by_cases hxu : x = u
  · subst hxu
    have : x.toNat < g.A.length := by omega
    simp [this, insereNaLista_mem]
  · have : ¬ (u.toNat = x.toNat ∧ u.toNat < g.A.length) := by omega
    simp [this, hxu]

theorem mem_lista_removeArestaAux (g : Grafo) (hg : BemFormado g) (u v x : Int)
    (hu : 0 ≤ u ∧ u < (g.numVertices : Int)) (hx : 0 ≤ x) (e : ElemLista) :
    e ∈ (removeArestaAux g u v).2.lista x ↔
      e ∈ g.lista x ∧ ¬ (x = u ∧ e.vertice = v) := by
  simp only [removeArestaAux, lista_comLista]
  have ht := hg.tamanho
  by_cases hxu : x = u
  · subst hxu
    have : x.toNat < g.A.length := by omega
    simp [this, removeDaLista_mem _ _ (hg.ordenada x)]
  · have : ¬ (u.toNat = x.toNat ∧ u.toNat < g.A.length) := by omega
    simp [this, hxu]

theorem lista_insereArestaAux_mesmo (g : Grafo) (hg : g.A.length = g.numVertices) (u v p : Int)
    (hu : 0 ≤ u ∧ u < (g.numVertices : Int)) :
    (insereArestaAux g u v p).2.lista u = (insereNaLista v p (g.lista u)).2 := by
  simp only [insereArestaAux, lista_comLista]
  have : u.toNat < g.A.length := by omega
  simp [this]

theorem lista_insereArestaAux_outro (g : Grafo) (u v p x : Int)
    (hu : 0 ≤ u) (hx : 0 ≤ x) (hxu : x ≠ u) :
    (insereArestaAux g u v p).2.lista x = g.lista x := by
  simp only [insereArestaAux, lista_comLista]
  have : ¬ (u.toNat = x.toNat ∧ u.toNat < g.A.length) := by omega
  simp [this]

theorem lista_removeArestaAux_mesmo (g : Grafo) (hg : g.A.length = g.numVertices) (u v : Int)
    (hu : 0 ≤ u ∧ u < (g.numVertices : Int)) :
    (removeArestaAux g u v).2.lista u = (removeDaLista v (g.lista u)).2 := by
  simp only [removeArestaAux, lista_comLista]
  have : u.toNat < g.A.length := by omega
  simp [this]

theorem lista_removeArestaAux_outro (g : Grafo) (u v x : Int)
    (hu : 0 ≤ u) (hx : 0 ≤ x) (hxu : x ≠ u) :
    (removeArestaAux g u v).2.lista x = g.lista x := by
  simp only [removeArestaAux, lista_comLista]
  have : ¬ (u.toNat = x.toNat ∧ u.toNat < g.A.length) := by omega
  simp [this]

theorem tamanho_insereArestaAux (g : Grafo) (u v p : Int) :
    (insereArestaAux g u v p).2.A.length = g.A.length := by
  simp [insereArestaAux, Grafo.comLista]

theorem tamanho_removeArestaAux (g : Grafo) (u v : Int) :
    (removeArestaAux g u v).2.A.length = g.A.length := by
  simp [removeArestaAux, Grafo.comLista]

theorem numVertices_adicionaComPeso (g : Grafo) (u v p : Int) :
    (adicionaComPeso g u v p).numVertices = g.numVertices := by
  unfold adicionaComPeso
  split
  · split <;> rfl
  · rfl

theorem numVertices_adicionaAresta (g : Grafo) (u v w : Int) :
    (adicionaAresta g u v w).numVertices = g.numVertices := by
  unfold adicionaAresta
  split
  · rfl
  · split <;> exact numVertices_adicionaComPeso _ _ _ _

theorem numVertices_removeAresta (g : Grafo) (u v : Int) :
    (removeAresta g u v).2.numVertices = g.numVertices := by
  unfold removeAresta
  split
  · rfl
  · split <;> rfl

theorem entradaInvalida_numVertices (g g' : Grafo) (h : g'.numVertices = g.numVertices)
    (u v : Int) : entradaInvalida g' u v = entradaInvalida g u v := by
  simp [entradaInvalida, h]

/-- After the validated body of `adicionaAresta` the entry `u -> v` is found by the scan. -/
theorem existe_adicionaComPeso (g : Grafo) (hg : g.A.length = g.numVertices) (u v p : Int)
    (h : entradaInvalida g u v = false) :
    existeNaLista v ((adicionaComPeso g u v p).lista u) = true := by
  obtain ⟨h1, h2, h3, h4, h5⟩ := (entradaInvalida_falso g u v).mp h
  unfold adicionaComPeso
  have hl := lista_insereArestaAux_mesmo g hg u v p ⟨h1, h3⟩
  cases hi : (insereArestaAux g u v p).1
  · simp only [Bool.false_eq_true, if_false]
    exact (insereNaLista_falso v p _).mp hi
  · simp only [if_true]
    split
    · rw [lista_comNumArestas, lista_insereArestaAux_outro _ v u p u h2 h1 h5, hl]
      exact insereNaLista_existe v p _
    · rw [lista_comNumArestas, hl]
      exact insereNaLista_existe v p _

/-- After the validated body of `adicionaAresta` on an undirected graph the mirrored entry
`v -> u` is found by the scan, provided `u -> v` was absent or `v -> u` was present. -/
theorem existe_espelho_adicionaComPeso (g : Grafo) (hg : g.A.length = g.numVertices)
    (u v p : Int) (h : entradaInvalida g u v = false) (hd : g.direcionado = false)
    (hc : existeNaLista v (g.lista u) = false ∨ existeNaLista u (g.lista v) = true) :
    existeNaLista u ((adicionaComPeso g u v p).lista v) = true := by
  obtain ⟨h1, h2, h3, h4, h5⟩ := (entradaInvalida_falso g u v).mp h
  unfold adicionaComPeso
  cases hi : (insereArestaAux g u v p).1
  · simp only [Bool.false_eq_true, if_false]
    have := (insereNaLista_falso v p _).mp hi
    rcases hc with hc | hc
    · rw [hc] at this; exact absurd this (by simp)
    · exact hc
  · simp only [if_true, hd, Bool.not_false]
    have hg1 : (insereArestaAux g u v p).2.A.length = (insereArestaAux g u v p).2.numVertices := by
      rw [tamanho_insereArestaAux]; exact hg
    rw [lista_comNumArestas, lista_insereArestaAux_mesmo (insereArestaAux g u v p).2 hg1
      v u p ⟨h2, h4⟩]
    exact insereNaLista_existe u p _

/-! ## Symmetry of undirected graphs -/

theorem existe_de_mem (g : Grafo) (hg : BemFormado g) (u v w : Int)
    (h : (⟨v, w⟩ : ElemLista) ∈ g.lista u) : existeNaLista v (g.lista u) = true :=
  (existeNaLista_iff v _ (hg.ordenada u)).mpr ⟨⟨v, w⟩, h, rfl⟩

theorem mem_de_existe (g : Grafo) (hg : BemFormado g) (u v : Int)
    (h : existeNaLista v (g.lista u) = true) : ∃ w, (⟨v, w⟩ : ElemLista) ∈ g.lista u := by
  obtain ⟨e, he, hv⟩ := (existeNaLista_iff v _ (hg.ordenada u)).mp h
  refine ⟨e.peso, ?_⟩
  have : e = ⟨v, e.peso⟩ := by cases e; simp at hv; simp [hv]
  rw [← this]; exact he

theorem existe_simetrico (g : Grafo) (hg : BemFormado g) (hs : Simetrico g) (u v : Int)
    (hu : 0 ≤ u) (hv : 0 ≤ v) :
    existeNaLista v (g.lista u) = existeNaLista u (g.lista v) := by
  rw [Bool.eq_iff_iff]
  constructor
  · intro h
    obtain ⟨w, hw⟩ := mem_de_existe g hg u v h
    exact existe_de_mem g hg v u w ((hs u v w hu hv).mp hw)
  · intro h
    obtain ⟨w, hw⟩ := mem_de_existe g hg v u h
    exact existe_de_mem g hg u v w ((hs v u w hv hu).mp hw)

theorem mem_lista_adicionaComPeso (g : Grafo) (hg : BemFormado g) (hs : Simetrico g)
    (u v p : Int) (h : entradaInvalida g u v = false) (hd : g.direcionado = false)
    (hi : (insereArestaAux g u v p).1 = true) (x : Int) (hx : 0 ≤ x) (e : ElemLista) :
    e ∈ (adicionaComPeso g u v p).lista x ↔
      e ∈ g.lista x ∨ (x = u ∧ e = ⟨v, p⟩) ∨ (x = v ∧ e = ⟨u, p⟩) := by
  obtain ⟨h1, h2, h3, h4, h5⟩ := (entradaInvalida_falso g u v).mp h
  have hg1 : (insereArestaAux g u v p).2.A.length = (insereArestaAux g u v p).2.numVertices := by
    rw [tamanho_insereArestaAux]; exact hg.tamanho
  have hi2 : (insereArestaAux (insereArestaAux g u v p).2 v u p).1 = true := by
    cases hc : (insereArestaAux (insereArestaAux g u v p).2 v u p).1
    · exfalso
      have hc' : (insereNaLista u p ((insereArestaAux g u v p).2.lista v)).1 = false := hc
      rw [lista_insereArestaAux_outro g u v p v h1 h2 (Ne.symm h5)] at hc'
      have he := (insereNaLista_falso u p _).mp hc'
      rw [← existe_simetrico g hg hs u v h1 h2] at he
      have := (insereNaLista_falso v p _).mpr he
      have hi' : (insereNaLista v p (g.lista u)).1 = true := hi
      rw [this] at hi'
      exact absurd hi' (by simp)
    · rfl
  unfold adicionaComPeso
  simp only [hi, if_true, hd, Bool.not_false, lista_comNumArestas]
  rw [mem_lista_insereArestaAux _ hg1 v u p x ⟨h2, h4⟩ hx,
    mem_lista_insereArestaAux g hg.tamanho u v p x ⟨h1, h3⟩ hx]
  simp only [hi, hi2, true_and]
  tauto

theorem simetrico_adicionaComPeso (g : Grafo) (hg : BemFormado g) (hs : Simetrico g)
    (u v p : Int) (h : entradaInvalida g u v = false) (hd : g.direcionado = false) :
    Simetrico (adicionaComPeso g u v p) := by
  cases hi : (insereArestaAux g u v p).1
  · have : adicionaComPeso g u v p = g := by simp [adicionaComPeso, hi]
    rw [this]; exact hs
  · intro x y w hx hy
    rw [mem_lista_adicionaComPeso g hg hs u v p h hd hi x hx,
      mem_lista_adicionaComPeso g hg hs u v p h hd hi y hy]
    have := hs x y w hx hy
    simp only [ElemLista.mk.injEq]
    constructor
    · rintro (h1 | ⟨h1, h2, h3⟩ | ⟨h1, h2, h3⟩)
      · exact Or.inl (this.mp h1)
      · exact Or.inr (Or.inr ⟨h2, h1, h3⟩)
      · exact Or.inr (Or.inl ⟨h2, h1, h3⟩)
    · rintro (h1 | ⟨h1, h2, h3⟩ | ⟨h1, h2, h3⟩)
      · exact Or.inl (this.mpr h1)
      · exact Or.inr (Or.inr ⟨h2, h1, h3⟩)
      · exact Or.inr (Or.inl ⟨h2, h1, h3⟩)

theorem direcionado_adicionaAresta (g : Grafo) (u v w : Int) :
    (adicionaAresta g u v w).direcionado = g.direcionado := by
  unfold adicionaAresta adicionaComPeso
  split
  · rfl
  · split
    · split
      · split <;> rfl
      · rfl
    · split
      · split <;> rfl
      · rfl

theorem direcionado_removeAresta (g : Grafo) (u v : Int) :
    (removeAresta g u v).2.direcionado = g.direcionado := by
  unfold removeAresta
  split
  · rfl
  · split <;> rfl

theorem simetrico_adicionaAresta (g : Grafo) (hg : BemFormado g) (hs : Simetrico g)
    (u v w : Int) (hd : g.direcionado = false) : Simetrico (adicionaAresta g u v w) := by
  unfold adicionaAresta
  cases h : entradaInvalida g u v
  · simp only [Bool.false_eq_true, if_false]
    split
    · exact simetrico_adicionaComPeso g hg hs u v w h hd
    · exact simetrico_adicionaComPeso g hg hs u v 1 h hd
  · simpa using hs

theorem mem_lista_removeAresta (g : Grafo) (hg : BemFormado g) (u v : Int)
    (h : entradaInvalida g u v = false) (hi : (removeArestaAux g u v).1 = true)
    (x : Int) (hx : 0 ≤ x) (e : ElemLista) :
    e ∈ (removeAresta g u v).2.lista x ↔
      e ∈ g.lista x ∧ ¬ (x = u ∧ e.vertice = v) ∧ ¬ (x = v ∧ e.vertice = u) := by
  obtain ⟨h1, h2, h3, h4, h5⟩ := (entradaInvalida_falso g u v).mp h
  unfold removeAresta
  simp only [h, hi, if_true, Bool.false_eq_true, if_false, lista_comNumArestas]
  rw [mem_lista_removeArestaAux _ (bemFormado_removeArestaAux g hg u v h1) v u x ⟨h2, h4⟩ hx,
    mem_lista_removeArestaAux g hg u v x ⟨h1, h3⟩ hx]
  tauto

theorem simetrico_removeAresta (g : Grafo) (hg : BemFormado g) (hs : Simetrico g)
    (u v : Int) : Simetrico (removeAresta g u v).2 := by
  cases h : entradaInvalida g u v
  · cases hi : (removeArestaAux g u v).1
    · have : (removeAresta g u v).2 = g := by simp [removeAresta, h, hi]
      rw [this]; exact hs
    · intro x y w hx hy
      rw [mem_lista_removeAresta g hg u v h hi x hx, mem_lista_removeAresta g hg u v h hi y hy]
      have := hs x y w hx hy
      simp only
      constructor
      · rintro ⟨h1, h2, h3⟩
        exact ⟨this.mp h1, fun ⟨a, b⟩ => h3 ⟨b, a⟩, fun ⟨a, b⟩ => h2 ⟨b, a⟩⟩
      · rintro ⟨h1, h2, h3⟩
        exact ⟨this.mpr h1, fun ⟨a, b⟩ => h3 ⟨b, a⟩, fun ⟨a, b⟩ => h2 ⟨b, a⟩⟩
  · have : (removeAresta g u v).2 = g := by simp [removeAresta, h]
    rw [this]; exact hs

theorem simetrico_novo (n : Nat) (d p : Bool) : Simetrico (Grafo.novo n d p) := by
  have h : ∀ u : Int, (Grafo.novo n d p).lista u = [] := by
    intro u
    simp only [Grafo.lista, Grafo.novo, List.getD_eq_getElem?_getD]
    by_cases hu : u.toNat < n
    · simp [List.getElem?_replicate, hu]
    · simp [List.getElem?_replicate, hu]
  intro u v w _ _
  rw [h u, h v]
  simp

theorem simetrico_de_alcancavel (g : Grafo) (h : AlcancavelSemDir g)
    (hd : g.direcionado = false) : Simetrico g := by
  induction h with
  | novo n d p => exact simetrico_novo n d p
  | adiciona g u v w hg ih =>
    rw [direcionado_adicionaAresta] at hd
    exact simetrico_adicionaAresta g (bemFormado_de_alcancavel g (alcancavel_de_semDir g hg))
      (ih hd) u v w hd
  | remove g u v hg ih =>
    rw [direcionado_removeAresta] at hd
    exact simetrico_removeAresta g (bemFormado_de_alcancavel g (alcancavel_de_semDir g hg))
      (ih hd) u v

/-! ## Claims on insertion, removal and query -/

theorem tamanho_adicionaComPeso (g : Grafo) (u v p : Int) :
    (adicionaComPeso g u v p).A.length = g.A.length := by
  unfold adicionaComPeso
  split
  · split
    · show ((insereArestaAux (insereArestaAux g u v p).2 v u p).2).A.length = _
      rw [tamanho_insereArestaAux, tamanho_insereArestaAux]
    · show ((insereArestaAux g u v p).2).A.length = _
      rw [tamanho_insereArestaAux]
  · rfl

theorem adicionaComPeso_de_falso (g : Grafo) (u v p : Int)
    (h : (insereArestaAux g u v p).1 = false) : adicionaComPeso g u v p = g := by
  simp [adicionaComPeso, h]

theorem adicionaAresta_valida (g : Grafo) (u v w : Int) (h : entradaInvalida g u v = false) :
    adicionaAresta g u v w = adicionaComPeso g u v (if g.ponderado then w else 1) := by
  unfold adicionaAresta
  simp only [h, Bool.false_eq_true, if_false]
  split <;> rfl

theorem adicionaComPeso_duplicada (g : Grafo) (hg : g.A.length = g.numVertices) (u v p p' : Int)
    (h : entradaInvalida g u v = false) :
    adicionaComPeso (adicionaComPeso g u v p) u v p' = adicionaComPeso g u v p := by
  have he := existe_adicionaComPeso g hg u v p h
  have hi : (insereArestaAux (adicionaComPeso g u v p) u v p').1 = false :=
    (insereNaLista_falso v p' _).mpr he
  exact adicionaComPeso_de_falso _ u v p' hi

theorem ponderado_adicionaComPeso (g : Grafo) (u v p : Int) :
    (adicionaComPeso g u v p).ponderado = g.ponderado := by
  unfold adicionaComPeso
  split
  · split <;> rfl
  · rfl

/-- C1 (amended): for every graph state reachable through the public operations and all
valid `u != v`, after `adicionaAresta(u, v, w)` the query `arestaExiste(u, v)` is true; on
an undirected graph `arestaExiste(v, u)` is true as well when the state was reached
without `adicionaArestaDirecionada`, or `u -> v` was absent before the call, or `v -> u`
was already present. -/
theorem adicionaAresta_arestaExiste (g : Grafo) (u v w : Int) (hg : Alcancavel g)
    (hu : 0 ≤ u ∧ u < (g.numVertices : Int)) (hv : 0 ≤ v ∧ v < (g.numVertices : Int))
    (huv : u ≠ v) :
    arestaExiste (adicionaAresta g u v w) u v = true ∧
    (g.direcionado = false →
      (AlcancavelSemDir g ∨ arestaExiste g u v = false ∨ arestaExiste g v u = true) →
      arestaExiste (adicionaAresta g u v w) v u = true) := by
  have hb := bemFormado_de_alcancavel g hg
  have hi : entradaInvalida g u v = false :=
    (entradaInvalida_falso g u v).mpr ⟨hu.1, hv.1, hu.2, hv.2, huv⟩
  have hi' := entradaInvalida_troca g u v hi
  have hn := numVertices_adicionaAresta g u v w
  constructor
  · unfold arestaExiste
    rw [entradaInvalida_numVertices g _ hn, hi]
    simp only [Bool.false_eq_true, if_false]
    unfold adicionaAresta
    simp only [hi, Bool.false_eq_true, if_false]
    split
    · exact existe_adicionaComPeso g hb.tamanho u v w hi
    · exact existe_adicionaComPeso g hb.tamanho u v 1 hi
  · intro hd hc
    have hc' : existeNaLista v (g.lista u) = false ∨ existeNaLista u (g.lista v) = true := by
      rcases hc with hc | hc | hc
      · have hs := simetrico_de_alcancavel g hc hd
        rw [existe_simetrico g hb hs u v hu.1 hv.1]
        cases existeNaLista u (g.lista v) <;> simp
      · left; simpa [arestaExiste, hi] using hc
      · right; simpa [arestaExiste, hi'] using hc
    unfold arestaExiste
    rw [entradaInvalida_numVertices g _ hn, hi']
    simp only [Bool.false_eq_true, if_false]
    unfold adicionaAresta
    simp only [hi, Bool.false_eq_true, if_false]
    split
    · exact existe_espelho_adicionaComPeso g hb.tamanho u v w hi hd hc'
    · exact existe_espelho_adicionaComPeso g hb.tamanho u v 1 hi hd hc'

/-- Witness for C1: the amended statement applied to the empty undirected graph on two
vertices with `u = 0`, `v = 1`, `w = 5`. -/
theorem adicionaAresta_arestaExiste_witness :
    arestaExiste (adicionaAresta (Grafo.novo 2 false true) 0 1 5) 0 1 = true ∧
    arestaExiste (adicionaAresta (Grafo.novo 2 false true) 0 1 5) 1 0 = true :=
  ⟨(adicionaAresta_arestaExiste (Grafo.novo 2 false true) 0 1 5 (Alcancavel.novo 2 false true)
      (by decide) (by decide) (by decide)).1,
   (adicionaAresta_arestaExiste (Grafo.novo 2 false true) 0 1 5 (Alcancavel.novo 2 false true)
      (by decide) (by decide) (by decide)).2 rfl (Or.inl (AlcancavelSemDir.novo 2 false true))⟩

/-- C1 counterexample: on the undirected two-vertex graph that already holds the one-way
entry `0 -> 1` (put there by `adicionaArestaDirecionada`), `adicionaAresta(0, 1, 7)` is
refused as a duplicate and `arestaExiste(1, 0)` stays false. -/
theorem adicionaAresta_arestaExiste_contraexemplo :
    ¬ (∀ (g : Grafo) (u v w : Int), Alcancavel g →
        (0 ≤ u ∧ u < (g.numVertices : Int)) → (0 ≤ v ∧ v < (g.numVertices : Int)) → u ≠ v →
        arestaExiste (adicionaAresta g u v w) u v = true ∧
        (g.direcionado = false → arestaExiste (adicionaAresta g u v w) v u = true)) := by
  intro h
  have h1 := (h (adicionaArestaDirecionada (Grafo.novo 2 false true) 0 1 5) 0 1 7
    (Alcancavel.adicionaDir _ 0 1 5 (Alcancavel.novo 2 false true))
    (by decide) (by decide) (by decide)).2 (by decide)
  revert h1
  decide

/-- C2: for every graph state reachable through the public operations and all valid
`u != v` with the entry `u -> v` present, `removeAresta(u, v)` returns true, afterwards
`arestaExiste(u, v)` is false, on an undirected graph `arestaExiste(v, u)` is false too, and
`numArestas` is exactly one less than before. -/
theorem removeAresta_existente (g : Grafo) (u v : Int) (hg : Alcancavel g)
    (hu : 0 ≤ u ∧ u < (g.numVertices : Int)) (hv : 0 ≤ v ∧ v < (g.numVertices : Int))
    (huv : u ≠ v) (he : arestaExiste g u v = true) :
    (removeAresta g u v).1 = true ∧
    arestaExiste (removeAresta g u v).2 u v = false ∧
    (g.direcionado = false → arestaExiste (removeAresta g u v).2 v u = false) ∧
    (removeAresta g u v).2.numArestas = g.numArestas - 1 := by
  have hb := bemFormado_de_alcancavel g hg
  have hi : entradaInvalida g u v = false :=
    (entradaInvalida_falso g u v).mpr ⟨hu.1, hv.1, hu.2, hv.2, huv⟩
  have hi' := entradaInvalida_troca g u v hi
  have hex : existeNaLista v (g.lista u) = true := by simpa [arestaExiste, hi] using he
  have hr : (removeArestaAux g u v).1 = true := by
    show (removeDaLista v (g.lista u)).1 = true
    rw [removeDaLista_resultado]; exact hex
  have hb1 := bemFormado_removeArestaAux g hb u v hu.1
  have hn := numVertices_removeAresta g u v
  have hres : removeAresta g u v = (true,
      ((removeArestaAux (removeArestaAux g u v).2 v u).2).comNumArestas (g.numArestas - 1)) := by
    simp [removeAresta, hi, hr]
  refine ⟨by rw [hres], ?_, ?_, by rw [hres]; rfl⟩
  · unfold arestaExiste
    rw [entradaInvalida_numVertices g _ hn, hi]
    simp only [Bool.false_eq_true, if_false]
    rw [hres]
    show existeNaLista v ((removeArestaAux (removeArestaAux g u v).2 v u).2.lista u) = false
    rw [lista_removeArestaAux_outro _ v u u hv.1 hu.1 huv,
      lista_removeArestaAux_mesmo g hb.tamanho u v hu]
    exact removeDaLista_existe v _ (hb.ordenada u)
  · intro _
    unfold arestaExiste
    rw [entradaInvalida_numVertices g _ hn, hi']
    simp only [Bool.false_eq_true, if_false]
    rw [hres]
    show existeNaLista u ((removeArestaAux (removeArestaAux g u v).2 v u).2.lista v) = false
    rw [lista_removeArestaAux_mesmo _ hb1.tamanho v u hv]
    exact removeDaLista_existe u _ (hb1.ordenada v)

/-- Witness for C2: the statement applied to the weighted five-vertex example and its
edge between 3 and 4. -/
theorem removeAresta_existente_witness :
    arestaExiste exemploPonderado 3 4 = true ∧
    (removeAresta exemploPonderado 3 4).1 = true ∧
    arestaExiste (removeAresta exemploPonderado 3 4).2 3 4 = false ∧
    (exemploPonderado.direcionado = false →
      arestaExiste (removeAresta exemploPonderado 3 4).2 4 3 = false) ∧
    (removeAresta exemploPonderado 3 4).2.numArestas = exemploPonderado.numArestas - 1 :=
  ⟨by decide, removeAresta_existente exemploPonderado 3 4
    (Alcancavel.adiciona _ _ _ _ (Alcancavel.adiciona _ _ _ _ (Alcancavel.adiciona _ _ _ _
      (Alcancavel.adiciona _ _ _ _ (Alcancavel.adiciona _ _ _ _ (Alcancavel.novo 5 false true))))))
    (by decide) (by decide) (by decide) (by decide)⟩

/-- C3: inserting a duplicate edge is a no-op. For every graph (whose array `A` has
`numVertices` lists, as the constructor allocates it) and valid `u != v`, the graph after
`adicionaAresta(u, v, w)` followed by `adicionaAresta(u, v, w')` is identical to the graph
after the first call: same `numArestas`, same adjacency sequences and same stored weights. -/
theorem adicionaAresta_duplicada (g : Grafo) (u v w w' : Int) (hg : g.A.length = g.numVertices)
    (hu : 0 ≤ u ∧ u < (g.numVertices : Int)) (hv : 0 ≤ v ∧ v < (g.numVertices : Int))
    (huv : u ≠ v) :
    adicionaAresta (adicionaAresta g u v w) u v w' = adicionaAresta g u v w := by
  have hi : entradaInvalida g u v = false :=
    (entradaInvalida_falso g u v).mpr ⟨hu.1, hv.1, hu.2, hv.2, huv⟩
  have hn := numVertices_adicionaAresta g u v w
  have hi2 : entradaInvalida (adicionaAresta g u v w) u v = false := by
    rw [entradaInvalida_numVertices g _ hn, hi]
  rw [adicionaAresta_valida _ u v w' hi2, adicionaAresta_valida g u v w hi]
  exact adicionaComPeso_duplicada g hg u v _ _ hi

/-- Witness for C3: the statement applied to the weighted five-vertex example, re-inserting
the edge between 0 and 1 with another weight. -/
theorem adicionaAresta_duplicada_witness :
    adicionaAresta (adicionaAresta exemploPonderado 0 1 5) 0 1 9 =
      adicionaAresta exemploPonderado 0 1 5 :=
  adicionaAresta_duplicada exemploPonderado 0 1 5 9 (by decide) (by decide) (by decide)
    (by decide)

/-- C4: for every graph and every pair `(u, v)` with `u` or `v` outside
`[0, numVertices)` or `u == v`, the operations `adicionaAresta`,
`adicionaArestaDirecionada` and `removeAresta` leave the graph (every adjacency sequence and
`numArestas`) unchanged, and `removeAresta` and `arestaExiste` return false. -/
theorem entrada_invalida_recusada (g : Grafo) (u v w : Int)
    (h : u < 0 ∨ v < 0 ∨ (g.numVertices : Int) ≤ u ∨ (g.numVertices : Int) ≤ v ∨ u = v) :
    adicionaAresta g u v w = g ∧ adicionaArestaDirecionada g u v w = g ∧
    removeAresta g u v = (false, g) ∧ arestaExiste g u v = false := by
  have hi := (entradaInvalida_verdadeiro g u v).mpr h
  simp [adicionaAresta, adicionaArestaDirecionada, removeAresta, arestaExiste, hi]

/-- Witness for C4: the statement applied to the weighted five-vertex example with the
out-of-range id 7. -/
theorem entrada_invalida_recusada_witness :
    adicionaAresta exemploPonderado 7 1 3 = exemploPonderado ∧
    adicionaArestaDirecionada exemploPonderado 7 1 3 = exemploPonderado ∧
    removeAresta exemploPonderado 7 1 = (false, exemploPonderado) ∧
    arestaExiste exemploPonderado 7 1 = false :=
  entrada_invalida_recusada exemploPonderado 7 1 3 (by decide)

/-! ## Breadth-first search -/

theorem getD_set_int {α : Type} (l : List α) (w x : Int) (a d : α) (hw : 0 ≤ w) (hx : 0 ≤ x)
    (hlen : w.toNat < l.length) :
    (l.set w.toNat a).getD x.toNat d = if x = w then a else l.getD x.toNat d := by
  rw [getD_set_lista]
  by_cases h : x = w
  · subst h; simp [hlen]
  · have : ¬ (w.toNat = x.toNat ∧ w.toNat < l.length) := by omega
    simp [this, h]

theorem caminho_valido (g : Grafo) (hg : BemFormado g) (s v : Int) (k : Nat)
    (hs : Valido g s) (h : Caminho g s v k) : Valido g v := by
  induction h with
  | nulo => exact hs
  | passo v k e _ he _ => exact hg.noIntervalo v e he

/-- The state after marking the neighbour `w` of `u`. -/
theorem bfsPasso_novo (u : Int) (st : EstadoBFS) (e : ElemLista) (h : ¬ st.vis e.vertice) :
    bfsPasso u st e =
      ⟨st.dist.set e.vertice.toNat (st.d u + 1), st.visitado.set e.vertice.toNat true,
        st.fila ++ [e.vertice]⟩ := by
  have h' : st.visitado.getD e.vertice.toNat true = false := by
    simpa [EstadoBFS.vis] using h
  unfold bfsPasso
  rw [if_pos h']
  rfl

theorem bfsPasso_velho (u : Int) (st : EstadoBFS) (e : ElemLista) (h : st.vis e.vertice) :
    bfsPasso u st e = st := by
  have h' : ¬ st.visitado.getD e.vertice.toNat true = false := by
    have h2 : st.visitado.getD e.vertice.toNat true = true := h
    rw [h2]; simp
  unfold bfsPasso
  rw [if_neg h']

theorem bfs_passo_inv (g : Grafo) (hg : BemFormado g) (s u : Int) (hs : Valido g s)
    (P : ElemLista → Prop)
    (st : EstadoBFS) (e : ElemLista) (he : e ∈ g.lista u)
    (hb : BfsBase g s st) (hd : BfsDentro g u P st) :
    BfsBase g s (bfsPasso u st e) ∧ BfsDentro g u (fun x => P x ∨ x = e) (bfsPasso u st e) := by
  have hw : Valido g e.vertice := hg.noIntervalo u e he
  by_cases hv : st.vis e.vertice
  · rw [bfsPasso_velho u st e hv]
    refine ⟨hb, ⟨hd.uOk, hd.perto, hd.limite, hd.proc, ?_⟩⟩
    intro x hx hp
    rcases hp with hp | hp
    · exact hd.procU x hx hp
    · subst hp; exact ⟨hv, hd.limite _ hw hv⟩
  · rw [bfsPasso_novo u st e hv]
    have hlenD : e.vertice.toNat < st.dist.length := by
      have := hb.tamDist; have := hw.1; have := hw.2; omega
    have hlenV : e.vertice.toNat < st.visitado.length := by
      have := hb.tamVis; have := hw.1; have := hw.2; omega
    generalize hst' : (⟨st.dist.set e.vertice.toNat (st.d u + 1),
        st.visitado.set e.vertice.toNat true, st.fila ++ [e.vertice]⟩ : EstadoBFS) = st'
    have hfila : st'.fila = st.fila ++ [e.vertice] := by rw [← hst']
    -- the new arrays, pointwise
    have hD : ∀ x, 0 ≤ x → st'.d x = if x = e.vertice then st.d u + 1 else st.d x := by
      intro x hx
      rw [← hst']
      exact getD_set_int st.dist e.vertice x _ 0 hw.1 hx hlenD
    have hV : ∀ x, 0 ≤ x → (st'.vis x ↔ (x = e.vertice ∨ st.vis x)) := by
      intro x hx
      rw [← hst']
      simp only [EstadoBFS.vis]
      rw [getD_set_int st.visitado e.vertice x true true hw.1 hx hlenV]
      by_cases h : x = e.vertice
      · simp [h]
      · simp [h]
    have hune : u ≠ e.vertice := fun h => hv (h ▸ hd.uOk.2)
    have hdu0 : 0 ≤ st.d u := (hb.caminho u hd.uOk.1 hd.uOk.2).1
    -- values of visited vertices are untouched
    have hDv : ∀ x, 0 ≤ x → st.vis x → st'.d x = st.d x := by
      intro x hx hxv
      rw [hD x hx]
      have : x ≠ e.vertice := fun h => hv (h ▸ hxv)
      simp [this]
    have hDw : st'.d e.vertice = st.d u + 1 := by rw [hD _ hw.1]; simp
    have hVv : ∀ x, 0 ≤ x → st.vis x → st'.vis x := fun x hx h => (hV x hx).mpr (Or.inr h)
    have hVw : st'.vis e.vertice := (hV _ hw.1).mpr (Or.inl rfl)
    constructor
    · refine ⟨by rw [← hst']; simpa using hb.tamDist, by rw [← hst']; simpa using hb.tamVis,
        ?_, ?_, ?_, ?_, ?_, ?_⟩
      · intro q hq
        rw [hfila] at hq
        rcases List.mem_append.mp hq with hq | hq
        · exact ⟨(hb.filaOk q hq).1, hVv q (hb.filaOk q hq).1.1 (hb.filaOk q hq).2⟩
        · have : q = e.vertice := by simpa using hq
          subst this
          exact ⟨hw, hVw⟩
      · exact ⟨hVv s hs.1 hb.fonte.1, by rw [hDv s hs.1 hb.fonte.1]; exact hb.fonte.2⟩
      · intro x hx hxv
        rcases (hV x hx.1).mp hxv with h | h
        · subst h
          rw [hDw]
          refine ⟨by omega, ?_⟩
          have hc := (hb.caminho u hd.uOk.1 hd.uOk.2).2
          have : (st.d u + 1).toNat = (st.d u).toNat + 1 := by omega
          rw [this]
          exact Caminho.passo u _ e hc he
        · rw [hDv x hx.1 h]; exact hb.caminho x hx h
      · intro x hx hxv
        have hnv : ¬ st.vis x := fun h => hxv (hVv x hx.1 h)
        have hne : x ≠ e.vertice := fun h => hxv ((hV x hx.1).mpr (Or.inl h))
        rw [hD x hx.1]; simp only [hne, if_false]
        exact hb.naoVis x hx hnv
      · intro x hx hxv j hj0 hjx
        have key : ∀ j : Int, 0 ≤ j → j ≤ st.d u → ∃ y, Valido g y ∧ st'.vis y ∧ st'.d y = j := by
          intro j hj0 hju
          obtain ⟨y, hy, hyv, hyd⟩ := hb.niveis u hd.uOk.1 hd.uOk.2 j hj0 hju
          exact ⟨y, hy, hVv y hy.1 hyv, by rw [hDv y hy.1 hyv]; exact hyd⟩
        rcases (hV x hx.1).mp hxv with h | h
        · subst h
          rw [hDw] at hjx
          by_cases hj : j = st.d u + 1
          · exact ⟨e.vertice, hw, hVw, by rw [hDw, hj]⟩
          · exact key j hj0 (by omega)
        · rw [hDv x hx.1 h] at hjx
          obtain ⟨y, hy, hyv, hyd⟩ := hb.niveis x hx h j hj0 hjx
          exact ⟨y, hy, hVv y hy.1 hyv, by rw [hDv y hy.1 hyv]; exact hyd⟩
      · rw [hfila]
        rw [List.pairwise_append]
        refine ⟨?_, List.pairwise_singleton _ _, ?_⟩
        · refine List.Pairwise.imp_of_mem ?_ hb.ordem
          intro a b ha hb' hab
          rw [hDv a (hb.filaOk a ha).1.1 (hb.filaOk a ha).2,
            hDv b (hb.filaOk b hb').1.1 (hb.filaOk b hb').2]
          exact hab
        · intro a ha b hb'
          have : b = e.vertice := by simpa using hb'
          subst this
          rw [hDv a (hb.filaOk a ha).1.1 (hb.filaOk a ha).2, hDw]
          exact (hd.perto a ha).2
    · have hDu : st'.d u = st.d u := hDv u hd.uOk.1.1 hd.uOk.2
      refine ⟨⟨hd.uOk.1, hVv u hd.uOk.1.1 hd.uOk.2⟩, ?_, ?_, ?_, ?_⟩
      · intro q hq
        rw [hfila] at hq
        rw [hDu]
        rcases List.mem_append.mp hq with hq | hq
        · rw [hDv q (hb.filaOk q hq).1.1 (hb.filaOk q hq).2]; exact hd.perto q hq
        · have : q = e.vertice := by simpa using hq
          subst this
          rw [hDw]; omega
      · intro x hx hxv
        rw [hDu]
        rcases (hV x hx.1).mp hxv with h | h
        · subst h; rw [hDw]
        · rw [hDv x hx.1 h]; exact hd.limite x hx h
      · intro x hx hxv hxf hxu y hy
        rw [hfila] at hxf
        have hxf1 : x ∉ st.fila := fun h => hxf (List.mem_append.mpr (Or.inl h))
        have hxw : x ≠ e.vertice := fun h => hxf (List.mem_append.mpr (Or.inr (by simp [h])))
        have hxv0 : st.vis x := by
          rcases (hV x hx.1).mp hxv with h | h
          · exact absurd h hxw
          · exact h
        have := hd.proc x hx hxv0 hxf1 hxu y hy
        have hyv := hg.noIntervalo x y hy
        rw [hDv x hx.1 hxv0, hDv _ hyv.1 this.1]
        exact ⟨hVv _ hyv.1 this.1, this.2⟩
      · intro y hy hp
        rw [hDu]
        rcases hp with hp | hp
        · have := hd.procU y hy hp
          have hyv := hg.noIntervalo u y hy
          rw [hDv _ hyv.1 this.1]
          exact ⟨hVv _ hyv.1 this.1, this.2⟩
        · subst hp
          exact ⟨hVw, by rw [hDw]⟩

theorem bfs_vizinhos_inv (g : Grafo) (hg : BemFormado g) (s u : Int) (hs : Valido g s)
    (l : List ElemLista) :
    ∀ (P : ElemLista → Prop) (st : EstadoBFS), (∀ e ∈ l, e ∈ g.lista u) →
      BfsBase g s st → BfsDentro g u P st →
      BfsBase g s (bfsVizinhos u l st) ∧
        BfsDentro g u (fun x => P x ∨ x ∈ l) (bfsVizinhos u l st) := by
  induction l with
  | nil =>
    intro P st _ hb hd
    refine ⟨hb, ⟨hd.uOk, hd.perto, hd.limite, hd.proc, ?_⟩⟩
    intro e he hp
    rcases hp with hp | hp
    · exact hd.procU e he hp
    · simp at hp
  | cons a t ih =>
    intro P st hl hb hd
    have h1 := bfs_passo_inv g hg s u hs P st a (hl a (List.mem_cons_self a t)) hb hd
    have h2 := ih (fun x => P x ∨ x = a) (bfsPasso u st a)
      (fun e he => hl e (List.mem_cons_of_mem a he)) h1.1 h1.2
    have heq : bfsVizinhos u (a :: t) st = bfsVizinhos u t (bfsPasso u st a) := rfl
    rw [heq]
    refine ⟨h2.1, ⟨h2.2.uOk, h2.2.perto, h2.2.limite, h2.2.proc, ?_⟩⟩
    intro e he hp
    apply h2.2.procU e he
    rcases hp with hp | hp
    · exact Or.inl (Or.inl hp)
    · rcases List.mem_cons.mp hp with hp | hp
      · exact Or.inl (Or.inr hp)
      · exact Or.inr hp

/-- Number of dequeues still possible: queued vertices plus unvisited ones. -/
theorem bfsPasso_medida (u : Int) (st : EstadoBFS) (e : ElemLista) :
    (bfsPasso u st e).fila.length + (bfsPasso u st e).visitado.count false =
      st.fila.length + st.visitado.count false := by
  unfold bfsPasso
  by_cases h : st.visitado.getD e.vertice.toNat true = false
  · rw [if_pos h]
    have hlen : e.vertice.toNat < st.visitado.length := by
      by_contra hc
      rw [List.getD_eq_default _ _ (Nat.le_of_not_lt hc)] at h
      exact absurd h (by simp)
    have hget : st.visitado[e.vertice.toNat] = false := by
      rw [List.getD_eq_getElem _ _ hlen] at h; exact h
    have hpos : 0 < st.visitado.count false := by
      rw [List.count_pos_iff]
      rw [← hget]; exact List.getElem_mem hlen
    simp only [List.length_append, List.length_singleton]
    rw [List.count_set _ _ _ _ hlen, hget]
    simp
    omega
  · rw [if_neg h]

theorem bfsVizinhos_medida (u : Int) (l : List ElemLista) :
    ∀ st : EstadoBFS, (bfsVizinhos u l st).fila.length + (bfsVizinhos u l st).visitado.count false =
      st.fila.length + st.visitado.count false := by
  induction l with
  | nil => intro st; rfl
  | cons a t ih =>
    intro st
    have heq : bfsVizinhos u (a :: t) st = bfsVizinhos u t (bfsPasso u st a) := rfl
    rw [heq, ih, bfsPasso_medida]

theorem bfsLaco_correto (g : Grafo) (hg : BemFormado g) (s : Int) (hs : Valido g s) :
    ∀ (k : Nat) (st : EstadoBFS), BfsBase g s st → BfsFora g st →
      st.fila.length + st.visitado.count false ≤ k →
      ∃ st', bfsLaco g k st = some st' ∧ BfsBase g s st' ∧ BfsFora g st' ∧ st'.fila = [] := by
  intro k
  induction k with
  | zero =>
    intro st hb hf hm
    have : st.fila = [] := List.eq_nil_of_length_eq_zero (by omega)
    exact ⟨st, by simp [bfsLaco, this], hb, hf, this⟩
  | succ k ih =>
    intro st hb hf hm
    cases hfila : st.fila with
    | nil => exact ⟨st, by simp [bfsLaco, hfila], hb, hf, hfila⟩
    | cons u resto =>
      have hstep : bfsLaco g (k + 1) st =
          bfsLaco g k (bfsVizinhos u (g.lista u) ⟨st.dist, st.visitado, resto⟩) := by
        simp [bfsLaco, hfila]
      rw [hstep]
      have hu := hb.filaOk u (by rw [hfila]; exact List.mem_cons_self u resto)
      have hord := hb.ordem
      rw [hfila] at hord
      have hb1 : BfsBase g s ⟨st.dist, st.visitado, resto⟩ :=
        ⟨hb.tamDist, hb.tamVis,
          fun q hq => hb.filaOk q (by rw [hfila]; exact List.mem_cons_of_mem u hq),
          hb.fonte, hb.caminho, hb.naoVis, hb.niveis, (List.pairwise_cons.mp hord).2⟩
      have hd1 : BfsDentro g u (fun _ => False) ⟨st.dist, st.visitado, resto⟩ := by
        refine ⟨hu, ?_, ?_, ?_, ?_⟩
        · intro q hq
          have hq' : q ∈ st.fila := by rw [hfila]; exact List.mem_cons_of_mem u hq
          exact ⟨(List.pairwise_cons.mp hord).1 q hq,
            hf.limite q (hb.filaOk q hq').1 (hb.filaOk q hq').2 u
              (by rw [hfila]; exact List.mem_cons_self u resto)⟩
        · intro x hx hxv
          exact hf.limite x hx hxv u (by rw [hfila]; exact List.mem_cons_self u resto)
        · intro x hx hxv hxf hxu
          apply hf.proc x hx hxv
          rw [hfila]
          intro hmem
          rcases List.mem_cons.mp hmem with h | h
          · exact hxu h
          · exact hxf h
        · intro e _ hp; exact absurd hp id
      obtain ⟨hb2, hd2⟩ := bfs_vizinhos_inv g hg s u hs (g.lista u) (fun _ => False)
        ⟨st.dist, st.visitado, resto⟩ (fun e he => he) hb1 hd1
      have hf2 : BfsFora g (bfsVizinhos u (g.lista u) ⟨st.dist, st.visitado, resto⟩) := by
        refine ⟨?_, ?_⟩
        · intro x hx hxv q hq
          have h1 := hd2.limite x hx hxv
          have h2 := (hd2.perto q hq).1
          omega
        · intro x hx hxv hxf e he
          by_cases hxu : x = u
          · subst hxu
            exact hd2.procU e he (Or.inr he)
          · exact hd2.proc x hx hxv hxf hxu e he
      apply ih _ hb2 hf2
      rw [bfsVizinhos_medida]
      rw [hfila] at hm
      simp only [List.length_cons] at hm
      show resto.length + st.visitado.count false ≤ k
      omega

theorem getD_replicate_int {α : Type} (n : Nat) (a d : α) (x : Int) (hx : 0 ≤ x)
    (hn : x < (n : Int)) : (List.replicate n a).getD x.toNat d = a := by
  have : x.toNat < n := by omega
  rw [List.getD_eq_getElem?_getD, List.getElem?_replicate]
  simp [this]

theorem bfs_inicial (g : Grafo) (s : Int) (hs : Valido g s) :
    BfsBase g s ⟨(List.replicate g.numVertices INF).set s.toNat 0,
      (List.replicate g.numVertices false).set s.toNat true, [s]⟩ ∧
    BfsFora g ⟨(List.replicate g.numVertices INF).set s.toNat 0,
      (List.replicate g.numVertices false).set s.toNat true, [s]⟩ := by
  generalize hst : (⟨(List.replicate g.numVertices INF).set s.toNat 0,
      (List.replicate g.numVertices false).set s.toNat true, [s]⟩ : EstadoBFS) = st
  have hlen : s.toNat < g.numVertices := by have := hs.1; have := hs.2; omega
  have hD : ∀ x, Valido g x → st.d x = if x = s then 0 else INF := by
    intro x hx
    rw [← hst]
    show ((List.replicate g.numVertices INF).set s.toNat 0).getD x.toNat 0 = _
    rw [getD_set_int _ s x 0 0 hs.1 hx.1 (by simpa using hlen)]
    by_cases h : x = s
    · simp [h]
    · simp only [h, if_false]
      exact getD_replicate_int _ _ _ x hx.1 hx.2
  have hV : ∀ x, Valido g x → (st.vis x ↔ x = s) := by
    intro x hx
    rw [← hst]
    show ((List.replicate g.numVertices false).set s.toNat true).getD x.toNat true = true ↔ _
    rw [getD_set_int _ s x true true hs.1 hx.1 (by simpa using hlen)]
    by_cases h : x = s
    · simp [h]
    · simp only [h, if_false, iff_false]
      rw [getD_replicate_int _ _ _ x hx.1 hx.2]
      simp
  have hfila : st.fila = [s] := by rw [← hst]
  have hDs : st.d s = 0 := by rw [hD s hs]; simp
  have hVs : st.vis s := (hV s hs).mpr rfl
  constructor
  · refine ⟨by rw [← hst]; simp, by rw [← hst]; simp, ?_, ⟨hVs, hDs⟩, ?_, ?_, ?_, ?_⟩
    · intro q hq
      rw [hfila] at hq
      have : q = s := by simpa using hq
      subst this
      exact ⟨hs, hVs⟩
    · intro x hx hxv
      have := (hV x hx).mp hxv
      subst this
      rw [hDs]
      exact ⟨le_refl 0, Caminho.nulo⟩
    · intro x hx hxv
      have hne : x ≠ s := fun h => hxv ((hV x hx).mpr h)
      rw [hD x hx]; simp [hne]
    · intro x hx hxv j hj0 hjx
      have := (hV x hx).mp hxv
      subst this
      rw [hDs] at hjx
      exact ⟨x, hs, hVs, by rw [hDs]; omega⟩
    · rw [hfila]; exact List.pairwise_singleton _ _
  · refine ⟨?_, ?_⟩
    · intro x hx hxv q hq
      rw [hfila] at hq
      have hq' : q = s := by simpa using hq
      have := (hV x hx).mp hxv
      subst this; subst hq'
      omega
    · intro x hx hxv hxf
      rw [hfila] at hxf
      have := (hV x hx).mp hxv
      subst this
      simp at hxf

theorem bfs_medida_inicial (n : Nat) (s : Int) (hs : 0 ≤ s ∧ s < (n : Int)) :
    ([s] : List Int).length + ((List.replicate n false).set s.toNat true).count false ≤ n := by
  have hlen : s.toNat < (List.replicate n false).length := by simp; omega
  rw [List.count_set _ _ _ _ hlen]
  simp
  omega

/-- What the final state of the BFS loop says about walks: every vertex at the end of a
walk from the source is visited and its distance is at most the length of the walk. -/
theorem bfs_final_caminho (g : Grafo) (hg : BemFormado g) (s : Int) (hs : Valido g s)
    (st : EstadoBFS) (hb : BfsBase g s st) (hf : BfsFora g st) (hfila : st.fila = [])
    (v : Int) (k : Nat) (h : Caminho g s v k) : st.vis v ∧ st.d v ≤ (k : Int) := by
  induction h with
  | nulo => exact ⟨hb.fonte.1, by rw [hb.fonte.2]; simp⟩
  | passo v k e hc he ih =>
    have hv := caminho_valido g hg s v k hs hc
    have := hf.proc v hv ih.1 (by rw [hfila]; simp) e he
    exact ⟨this.1, by push_cast; omega⟩

/-- The levels `0 .. d x` of a visited vertex are all inhabited, so `d x < numVertices`. -/
theorem bfs_dist_lt (g : Grafo) (s : Int) (st : EstadoBFS) (hb : BfsBase g s st)
    (x : Int) (hx : Valido g x) (hxv : st.vis x) : st.d x < (g.numVertices : Int) := by
  have h0 := (hb.caminho x hx hxv).1
  have hex : ∀ j : Fin ((st.d x).toNat + 1), ∃ y : Fin g.numVertices,
      st.d ((y : Nat) : Int) = ((j : Nat) : Int) := by
    intro j
    obtain ⟨y, hy, _, hyd⟩ := hb.niveis x hx hxv ((j : Nat) : Int) (by omega)
      (by have := j.isLt; omega)
    refine ⟨⟨y.toNat, by have := hy.1; have := hy.2; omega⟩, ?_⟩
    have : ((y.toNat : Nat) : Int) = y := Int.toNat_of_nonneg hy.1
    simp only [this, hyd]
  choose f hf using hex
  have hinj : Function.Injective f := by
    intro a b hab
    have h1 := hf a
    have h2 := hf b
    rw [hab] at h1
    rw [h1] at h2
    exact Fin.ext (by exact_mod_cast h2)
  have := Fintype.card_le_of_injective f hinj
  simp only [Fintype.card_fin] at this
  omega

/-- Correctness of `algoritmoBFS` on well-formed graphs: the routine terminates; the value
stored for the end of a walk from the source is a hop count of some walk, at most the
length of the given walk and below `numVertices`; the value stored for a vertex that no
walk reaches is `999999`. -/
theorem bfs_geral (g : Grafo) (s : Int) (hg : BemFormado g) (hs : Valido g s) :
    ∃ dist, algoritmoBFS g s = Except.ok dist ∧ dist.length = g.numVertices ∧
      ∀ v, Valido g v →
        (∀ k, Caminho g s v k →
          0 ≤ dist.getD v.toNat 0 ∧ dist.getD v.toNat 0 ≤ (k : Int) ∧
          dist.getD v.toNat 0 < (g.numVertices : Int) ∧
          Caminho g s v (dist.getD v.toNat 0).toNat) ∧
        ((¬ ∃ k, Caminho g s v k) → dist.getD v.toNat 0 = 999999) := by
  obtain ⟨hb0, hf0⟩ := bfs_inicial g s hs
  obtain ⟨st, hrun, hb, hf, hfila⟩ := bfsLaco_correto g hg s hs g.numVertices _ hb0 hf0
    (bfs_medida_inicial g.numVertices s hs)
  have halg : algoritmoBFS g s = Except.ok st.dist := by
    unfold algoritmoBFS escreve
    have h1 : 0 ≤ s ∧ s < ((List.replicate g.numVertices INF).length : Int) := by
      simpa using hs
    have h2 : 0 ≤ s ∧ s < ((List.replicate g.numVertices false).length : Int) := by
      simpa using hs
    rw [if_pos h1, if_pos h2]
    simp only [hrun]
  refine ⟨st.dist, halg, hb.tamDist, ?_⟩
  intro v hv
  constructor
  · intro k hk
    have h1 := bfs_final_caminho g hg s hs st hb hf hfila v k hk
    exact ⟨(hb.caminho v hv h1.1).1, h1.2, bfs_dist_lt g s st hb v hv h1.1,
      (hb.caminho v hv h1.1).2⟩
  · intro hno
    apply hb.naoVis v hv
    intro hvis
    exact hno ⟨_, (hb.caminho v hv hvis).2⟩

/-- C6 (amended): for every well-formed graph and every valid source `s`, `algoritmoBFS(s)`
returns a distance array that holds, for every vertex `v` reachable from `s`, the minimum
number of adjacency entries on a walk from `s` to `v`, and `999999` for every vertex that
is not reachable; when `numVertices <= 999999` the value `999999` appears exactly for the
unreachable vertices. -/
theorem algoritmoBFS_correto (g : Grafo) (s : Int) (hg : BemFormado g) (hs : Valido g s) :
    ∃ dist, algoritmoBFS g s = Except.ok dist ∧ dist.length = g.numVertices ∧
      ∀ v, Valido g v →
        ((∃ k, Caminho g s v k) →
          0 ≤ dist.getD v.toNat 0 ∧ Caminho g s v (dist.getD v.toNat 0).toNat ∧
          ∀ k, Caminho g s v k → dist.getD v.toNat 0 ≤ (k : Int)) ∧
        ((¬ ∃ k, Caminho g s v k) → dist.getD v.toNat 0 = 999999) ∧
        (g.numVertices ≤ 999999 →
          (dist.getD v.toNat 0 = 999999 ↔ ¬ ∃ k, Caminho g s v k)) := by
  obtain ⟨dist, hrun, hlen, hall⟩ := bfs_geral g s hg hs
  refine ⟨dist, hrun, hlen, ?_⟩
  intro v hv
  obtain ⟨hreach, hunreach⟩ := hall v hv
  refine ⟨?_, hunreach, ?_⟩
  · rintro ⟨k, hk⟩
    obtain ⟨h0, _, _, hcam⟩ := hreach k hk
    exact ⟨h0, hcam, fun k' hk' => (hreach k' hk').2.1⟩
  · intro hn
    constructor
    · rintro hd ⟨k, hk⟩
      have h2 := (hreach k hk).2.2.1
      omega
    · exact hunreach

/-- Witness for C6: the statement applied to the unweighted five-vertex example and the
source 0, where the routine returns `[0, 1, 1, 2, 3]`. -/
theorem algoritmoBFS_correto_witness :
    algoritmoBFS exemploNaoPonderado 0 = Except.ok [0, 1, 1, 2, 3] ∧
    ∃ dist, algoritmoBFS exemploNaoPonderado 0 = Except.ok dist ∧
      dist.length = exemploNaoPonderado.numVertices ∧
      ∀ v, Valido exemploNaoPonderado v →
        ((∃ k, Caminho exemploNaoPonderado 0 v k) →
          0 ≤ dist.getD v.toNat 0 ∧ Caminho exemploNaoPonderado 0 v (dist.getD v.toNat 0).toNat ∧
          ∀ k, Caminho exemploNaoPonderado 0 v k → dist.getD v.toNat 0 ≤ (k : Int)) ∧
        ((¬ ∃ k, Caminho exemploNaoPonderado 0 v k) → dist.getD v.toNat 0 = 999999) ∧
        (exemploNaoPonderado.numVertices ≤ 999999 →
          (dist.getD v.toNat 0 = 999999 ↔ ¬ ∃ k, Caminho exemploNaoPonderado 0 v k)) :=
  ⟨rfl, algoritmoBFS_correto exemploNaoPonderado 0
    (bemFormado_de_alcancavel _
      (Alcancavel.adiciona _ _ _ _ (Alcancavel.adiciona _ _ _ _ (Alcancavel.adiciona _ _ _ _
        (Alcancavel.adiciona _ _ _ _ (Alcancavel.adiciona _ _ _ _
          (Alcancavel.novo 5 false false)))))))
    ⟨by decide, by decide⟩⟩

theorem numVertices_adicionaArestaDirecionada (g : Grafo) (u v w : Int) :
    (adicionaArestaDirecionada g u v w).numVertices = g.numVertices := by
  unfold adicionaArestaDirecionada adicionaDirComPeso
  split
  · rfl
  · split
    · split <;> rfl
    · split <;> rfl

theorem ponderado_adicionaArestaDirecionada (g : Grafo) (u v w : Int) :
    (adicionaArestaDirecionada g u v w).ponderado = g.ponderado := by
  unfold adicionaArestaDirecionada adicionaDirComPeso
  split
  · rfl
  · split
    · split <;> rfl
    · split <;> rfl

theorem numVertices_grafoLinha (n k : Nat) : (grafoLinha n k).numVertices = n := by
  induction k with
  | zero => rfl
  | succ k ih => rw [grafoLinha, numVertices_adicionaArestaDirecionada, ih]

theorem ponderado_grafoLinha (n k : Nat) : (grafoLinha n k).ponderado = false := by
  induction k with
  | zero => rfl
  | succ k ih => rw [grafoLinha, ponderado_adicionaArestaDirecionada, ih]

theorem alcancavel_grafoLinha (n k : Nat) : Alcancavel (grafoLinha n k) := by
  induction k with
  | zero => exact Alcancavel.novo n true false
  | succ k ih => exact Alcancavel.adicionaDir _ _ _ _ ih

theorem lista_novo (n : Nat) (d p : Bool) (u : Int) : (Grafo.novo n d p).lista u = [] := by
  simp only [Grafo.lista, Grafo.novo, List.getD_eq_getElem?_getD]
  by_cases hu : u.toNat < n
  · simp [List.getElem?_replicate, hu]
  · simp [List.getElem?_replicate, hu]

theorem lista_grafoLinha (n k : Nat) (hk : k < n) :
    ∀ x : Int, 0 ≤ x → (grafoLinha n k).lista x = if x < (k : Int) then [⟨x + 1, 1⟩] else [] := by
  induction k with
  | zero =>
    intro x hx
    have : ¬ x < ((0 : Nat) : Int) := by omega
    rw [if_neg this]
    exact lista_novo n true false x
  | succ k ih =>
    intro x hx
    have ih' := ih (by omega)
    have hb := bemFormado_de_alcancavel _ (alcancavel_grafoLinha n k)
    have hnv := numVertices_grafoLinha n k
    have hinv : entradaInvalida (grafoLinha n k) (k : Int) ((k : Int) + 1) = false := by
      rw [entradaInvalida_falso, hnv]
      omega
    have hlk : (grafoLinha n k).lista (k : Int) = [] := by
      rw [ih' (k : Int) (by omega)]
      simp
    have hins : insereNaLista ((k : Int) + 1) 1 ((grafoLinha n k).lista (k : Int)) =
        (true, [⟨(k : Int) + 1, 1⟩]) := by
      rw [hlk]; rfl
    have hg' : grafoLinha n (k + 1) =
        ((grafoLinha n k).comLista (k : Int) [⟨(k : Int) + 1, 1⟩]).comNumArestas
          ((grafoLinha n k).numArestas + 1) := by
      rw [grafoLinha]
      unfold adicionaArestaDirecionada adicionaDirComPeso insereArestaAux
      simp only [hinv, ponderado_grafoLinha, hins, Bool.false_eq_true, if_false, if_true]
    rw [hg', lista_comNumArestas, lista_comLista, ih' x hx]
    have hlen : (k : Int).toNat < (grafoLinha n k).A.length := by
      rw [hb.tamanho, hnv]; omega
    by_cases hxk : x = (k : Int)
    · subst hxk
      have h1 : (k : Int).toNat = (k : Int).toNat ∧ (k : Int).toNat < (grafoLinha n k).A.length :=
        ⟨rfl, hlen⟩
      rw [if_pos h1]
      have h3 : (k : Int) < ((k + 1 : Nat) : Int) := by omega
      rw [if_pos h3]
    · have h1 : ¬ ((k : Int).toNat = x.toNat ∧ (k : Int).toNat < (grafoLinha n k).A.length) := by
        omega
      rw [if_neg h1]
      by_cases h2 : x < (k : Int)
      · have h3 : x < ((k + 1 : Nat) : Int) := by omega
        rw [if_pos h2, if_pos h3]
      · have h3 : ¬ x < ((k + 1 : Nat) : Int) := by omega
        rw [if_neg h2, if_neg h3]

theorem caminho_grafoLinha (n k : Nat) (hk : k < n) (x : Int) (j : Nat)
    (h : Caminho (grafoLinha n k) 0 x j) : x = (j : Int) := by
  induction h with
  | nulo => rfl
  | passo v j e _ he ih =>
    rw [lista_grafoLinha n k hk v (by omega)] at he
    split at he
    · have : e = ⟨v + 1, 1⟩ := by simpa using he
      rw [this, ih]
      push_cast; rfl
    · simp at he

theorem caminho_grafoLinha_existe (n k : Nat) (hk : k < n) (j : Nat) (hj : j ≤ k) :
    Caminho (grafoLinha n k) 0 (j : Int) j := by
  induction j with
  | zero => exact Caminho.nulo
  | succ j ih =>
    have h := ih (by omega)
    have he : (⟨(j : Int) + 1, 1⟩ : ElemLista) ∈ (grafoLinha n k).lista (j : Int) := by
      rw [lista_grafoLinha n k hk (j : Int) (by omega)]
      have : (j : Int) < (k : Int) := by omega
      simp [this]
    exact Caminho.passo (j : Int) j ⟨(j : Int) + 1, 1⟩ h he

/-- C6 counterexample: on the directed path `0 -> 1 -> ... -> 999999` (one million
vertices, built with `adicionaArestaDirecionada`) vertex 999999 is reachable from 0 by a
walk of 999999 entries, and `algoritmoBFS(0)` stores 999999 for it, the value that stands
for "unreachable". -/
theorem algoritmoBFS_contraexemplo :
    Alcancavel (grafoLinha 1000000 999999) ∧
    Caminho (grafoLinha 1000000 999999) 0 999999 999999 ∧
    ∃ dist, algoritmoBFS (grafoLinha 1000000 999999) 0 = Except.ok dist ∧
      dist.getD 999999 0 = 999999 := by
  have hk : 999999 < 1000000 := by norm_num
  have hal := alcancavel_grafoLinha 1000000 999999
  have hc := caminho_grafoLinha_existe 1000000 999999 hk 999999 (le_refl _)
  have hnv := numVertices_grafoLinha 1000000 999999
  have hs : Valido (grafoLinha 1000000 999999) 0 := by
    unfold Valido; rw [hnv]; norm_num
  have hv : Valido (grafoLinha 1000000 999999) ((999999 : Nat) : Int) := by
    unfold Valido; rw [hnv]; norm_num
  obtain ⟨dist, hrun, _, hall⟩ := bfs_geral (grafoLinha 1000000 999999) 0
    (bemFormado_de_alcancavel _ hal) hs
  obtain ⟨h1, _⟩ := hall _ hv
  obtain ⟨h0, _, _, hcam⟩ := h1 _ hc
  have := caminho_grafoLinha 1000000 999999 hk _ _ hcam
  refine ⟨hal, by exact_mod_cast hc, dist, hrun, ?_⟩
  have htn : (((999999 : Nat) : Int)).toNat = 999999 := Int.toNat_ofNat 999999
  rw [htn] at this h0
  omega

/-- C5 (the code at the failing inputs): for every graph and every source id `s` outside
`[0, numVertices)`, neither `algoritmoBFS(s)` nor `algoritmoDijkstra(s)` refuses the
argument; both reach the write `dist[s] = 0`, which lies outside the array. -/
theorem fonte_invalida_sem_validacao (g : Grafo) (s : Int)
    (h : s < 0 ∨ (g.numVertices : Int) ≤ s) :
    algoritmoBFS g s = Except.error Falha.foraDosLimites ∧
    algoritmoDijkstra g s = Except.error Falha.foraDosLimites := by
  have h1 : ¬ (0 ≤ s ∧ s < ((List.replicate g.numVertices INF).length : Int)) := by
    simp only [List.length_replicate]; omega
  have h2 : ¬ (0 ≤ s ∧ s < ((List.replicate g.numVertices false).length : Int)) := by
    simp only [List.length_replicate]; omega
  constructor
  · unfold algoritmoBFS escreve
    rw [if_neg h1, if_neg h2]
  · unfold algoritmoDijkstra escreve
    rw [if_neg h1]

/-- Witness for C5: the five-vertex examples with the source id 5. -/
theorem fonte_invalida_sem_validacao_witness :
    algoritmoBFS exemploNaoPonderado 5 = Except.error Falha.foraDosLimites ∧
    algoritmoDijkstra exemploNaoPonderado 5 = Except.error Falha.foraDosLimites :=
  fonte_invalida_sem_validacao exemploNaoPonderado 5 (by decide)

/-! ## Dijkstra -/

theorem caminhoPeso_valido (g : Grafo) (hg : BemFormado g) (s v c : Int)
    (hs : Valido g s) (h : CaminhoPeso g s v c) : Valido g v := by
  induction h with
  | nulo => exact hs
  | passo v c e _ he _ => exact hg.noIntervalo v e he

theorem caminhoPeso_naoNeg (g : Grafo) (hp : PesosNaoNegativos g) (s v c : Int)
    (h : CaminhoPeso g s v c) : 0 ≤ c := by
  induction h with
  | nulo => exact le_refl 0
  | passo v c e _ he ih => have := hp v e he; omega

/-- Every walk from the source either ends in a visited vertex or is at least as heavy as
the tentative distance of some unvisited vertex. -/
theorem dij_fronteira (g : Grafo) (hg : BemFormado g) (hp : PesosNaoNegativos g) (s : Int)
    (hs : Valido g s) (st : EstadoDijkstra) (hi : DijInv g s st) (v c : Int)
    (h : CaminhoPeso g s v c) :
    st.vis v ∨ ∃ y, Valido g y ∧ ¬ st.vis y ∧ st.d y ≤ c := by
  induction h with
  | nulo =>
    by_cases hv : st.vis s
    · exact Or.inl hv
    · exact Or.inr ⟨s, hs, hv, by rw [hi.fonte]⟩
  | passo v c e hc he ih =>
    have hv := caminhoPeso_valido g hg s v c hs hc
    have hpe := hp v e he
    rcases ih with ih | ⟨y, hy, hyv, hyd⟩
    · by_cases hev : st.vis e.vertice
      · exact Or.inl hev
      · refine Or.inr ⟨e.vertice, hg.noIntervalo v e he, hev, ?_⟩
        have h1 := hi.relaxado v hv ih e he hev
        have h2 := (hi.otimo v hv ih).2 c hc
        omega
    · exact Or.inr ⟨y, hy, hyv, by omega⟩

/-- Result of the selection loop over the first `n` indices. -/
theorem selecionaMenor_spec (dist : List Int) (visitado : List Bool) (n : Nat) :
    ((selecionaMenor n dist visitado).1 = -1 ∧ (selecionaMenor n dist visitado).2 = INF ∧
      ∀ j : Nat, j < n → visitado.getD j true = false → INF ≤ dist.getD j 0) ∨
    (∃ u : Nat, (selecionaMenor n dist visitado).1 = (u : Int) ∧ u < n ∧
      visitado.getD u true = false ∧
      (selecionaMenor n dist visitado).2 = dist.getD u 0 ∧ dist.getD u 0 < INF ∧
      ∀ j : Nat, j < n → visitado.getD j true = false → dist.getD u 0 ≤ dist.getD j 0) := by
  induction n with
  | zero =>
    left
    exact ⟨rfl, rfl, fun j hj => absurd hj (Nat.not_lt_zero j)⟩
  | succ n ih =>
    have hstep : selecionaMenor (n + 1) dist visitado =
        passoSelecao dist visitado (selecionaMenor n dist visitado) n := by
      simp [selecionaMenor, List.range_succ, List.foldl_append]
    rw [hstep]
    unfold passoSelecao
    by_cases hc : visitado.getD n true = false ∧
        dist.getD n 0 < (selecionaMenor n dist visitado).2
    · rw [if_pos hc]
      right
      refine ⟨n, rfl, Nat.lt_succ_self n, hc.1, rfl, ?_, ?_⟩
      · rcases ih with ⟨_, h2, _⟩ | ⟨u, _, _, _, h2, h3, _⟩
        · rw [h2] at hc; exact hc.2
        · rw [h2] at hc; omega
      · intro j hj hjv
        rcases Nat.lt_succ_iff_lt_or_eq.mp hj with hj | hj
        · rcases ih with ⟨_, h2, h3⟩ | ⟨u, _, _, _, h2, _, h4⟩
          · have := h3 j hj hjv
            rw [h2] at hc; omega
          · have := h4 j hj hjv
            rw [h2] at hc; omega
        · rw [hj]
    · rw [if_neg hc]
      rcases ih with ⟨h1, h2, h3⟩ | ⟨u, h1, hu, huv, h2, h3, h4⟩
      · left
        refine ⟨h1, h2, ?_⟩
        intro j hj hjv
        rcases Nat.lt_succ_iff_lt_or_eq.mp hj with hj | hj
        · exact h3 j hj hjv
        · subst hj
          rw [h2] at hc
          by_contra hlt
          exact hc ⟨hjv, by omega⟩
      · right
        refine ⟨u, h1, Nat.lt_succ_of_lt hu, huv, h2, h3, ?_⟩
        intro j hj hjv
        rcases Nat.lt_succ_iff_lt_or_eq.mp hj with hj | hj
        · exact h4 j hj hjv
        · subst hj
          rw [h2] at hc
          by_contra hlt
          exact hc ⟨hjv, by omega⟩

theorem paraInt_eq (x : Int) (h1 : -2147483648 ≤ x) (h2 : x ≤ 2147483647) : paraInt x = x := by
  unfold paraInt
  omega

theorem somaInt_eq (a b : Int) (h1 : -2147483648 ≤ a + b) (h2 : a + b ≤ 2147483647) :
    somaInt a b = a + b := by
  unfold somaInt
  exact paraInt_eq _ h1 h2

/-- Adding to a reduced total gives the reduction of the full sum. -/
theorem somaInt_paraInt (x y : Int) : somaInt (paraInt x) y = paraInt (x + y) := by
  unfold somaInt paraInt
  omega

theorem relaxaPasso_visitado (u : Int) (st : EstadoDijkstra) (e : ElemLista) :
    (relaxaPasso u st e).visitado = st.visitado := by
  unfold relaxaPasso
  split <;> rfl

theorem relaxaPasso_tam (u : Int) (st : EstadoDijkstra) (e : ElemLista) :
    (relaxaPasso u st e).dist.length = st.dist.length := by
  unfold relaxaPasso
  split
  · simp
  · rfl

theorem relaxaPasso_d (u : Int) (st : EstadoDijkstra) (e : ElemLista) (x : Int)
    (he : 0 ≤ e.vertice ∧ e.vertice.toNat < st.dist.length) (hx : 0 ≤ x)
    (hsoma : somaInt (st.d u) e.peso = st.d u + e.peso) :
    (relaxaPasso u st e).d x =
      if x = e.vertice ∧ ¬ st.vis e.vertice ∧ st.d u + e.peso < st.d e.vertice then
        st.d u + e.peso
      else st.d x := by
  unfold relaxaPasso
  rw [show somaInt (st.dist.getD u.toNat 0) e.peso = st.dist.getD u.toNat 0 + e.peso from hsoma]
  by_cases hc : st.visitado.getD e.vertice.toNat true = false ∧
      st.dist.getD u.toNat 0 + e.peso < st.dist.getD e.vertice.toNat 0
  · rw [if_pos hc]
    have hnv : ¬ st.vis e.vertice := by
      unfold EstadoDijkstra.vis; rw [hc.1]; simp
    have hlt : st.d u + e.peso < st.d e.vertice := hc.2
    show (st.dist.set e.vertice.toNat (st.dist.getD u.toNat 0 + e.peso)).getD x.toNat 0 = _
    rw [getD_set_int st.dist e.vertice x _ 0 he.1 hx he.2]
    by_cases hxe : x = e.vertice
    · rw [if_pos hxe, if_pos ⟨hxe, hnv, hlt⟩]; rfl
    · rw [if_neg hxe, if_neg (fun h => hxe h.1)]; rfl
  · rw [if_neg hc]
    have : ¬ (x = e.vertice ∧ ¬ st.vis e.vertice ∧ st.d u + e.peso < st.d e.vertice) := by
      rintro ⟨_, h2, h3⟩
      apply hc
      refine ⟨?_, h3⟩
      unfold EstadoDijkstra.vis at h2
      cases hb : st.visitado.getD e.vertice.toNat true
      · rfl
      · exact absurd hb h2
    rw [if_neg this]

theorem relaxa_visitado (u : Int) (l : List ElemLista) :
    ∀ st : EstadoDijkstra, (relaxa u l st).visitado = st.visitado := by
  induction l with
  | nil => intro st; rfl
  | cons a t ih =>
    intro st
    show (relaxa u t (relaxaPasso u st a)).visitado = _
    rw [ih, relaxaPasso_visitado]

/-- Effect of the relaxation loop of the visited vertex `u` over a list `l` of entries
with valid targets, when no sum `dist[u] + peso` leaves `int`. -/
theorem relaxa_spec (u : Int) (hu : 0 ≤ u) (l : List ElemLista) :
    ∀ st : EstadoDijkstra, st.vis u →
      (∀ e ∈ l, 0 ≤ e.vertice ∧ e.vertice.toNat < st.dist.length) →
      (∀ e ∈ l, somaInt (st.d u) e.peso = st.d u + e.peso) →
      (relaxa u l st).visitado = st.visitado ∧
      (relaxa u l st).dist.length = st.dist.length ∧
      (∀ x, 0 ≤ x → st.vis x → (relaxa u l st).d x = st.d x) ∧
      (∀ x, 0 ≤ x → (relaxa u l st).d x ≤ st.d x) ∧
      (∀ x, 0 ≤ x → (relaxa u l st).d x = st.d x ∨
        ∃ e ∈ l, e.vertice = x ∧ (relaxa u l st).d x = st.d u + e.peso ∧
          (relaxa u l st).d x < st.d x) ∧
      (∀ e ∈ l, ¬ st.vis e.vertice → (relaxa u l st).d e.vertice ≤ st.d u + e.peso) := by
  induction l with
  | nil =>
    intro st _ _ _
    refine ⟨rfl, rfl, fun _ _ _ => rfl, fun _ _ => le_refl _, fun _ _ => Or.inl rfl, ?_⟩
    intro e he; simp at he
  | cons a t ih =>
    intro st hvu hl hso
    have heq : relaxa u (a :: t) st = relaxa u t (relaxaPasso u st a) := rfl
    rw [heq]
    have ha := hl a (List.mem_cons_self a t)
    have hvis1 : ∀ x, (relaxaPasso u st a).vis x ↔ st.vis x := by
      intro x; unfold EstadoDijkstra.vis; rw [relaxaPasso_visitado]
    have hd1 := fun x hx => relaxaPasso_d u st a x ha hx (hso a (List.mem_cons_self a t))
    have hd1v : ∀ x, 0 ≤ x → st.vis x → (relaxaPasso u st a).d x = st.d x := by
      intro x hx hxv
      rw [hd1 x hx]
      have : ¬ (x = a.vertice ∧ ¬ st.vis a.vertice ∧ st.d u + a.peso < st.d a.vertice) := by
        rintro ⟨h1, h2, _⟩; exact h2 (h1 ▸ hxv)
      rw [if_neg this]
    have hd1le : ∀ x, 0 ≤ x → (relaxaPasso u st a).d x ≤ st.d x := by
      intro x hx
      rw [hd1 x hx]
      split
      · rename_i h; rw [h.1]; omega
      · exact le_refl _
    have hdu : (relaxaPasso u st a).d u = st.d u := hd1v u hu hvu
    obtain ⟨i1, i2, i3, i4, i5, i6⟩ := ih (relaxaPasso u st a) ((hvis1 u).mpr hvu)
      (fun e he => by rw [relaxaPasso_tam]; exact hl e (List.mem_cons_of_mem a he))
      (fun e he => by rw [hdu]; exact hso e (List.mem_cons_of_mem a he))
    refine ⟨by rw [i1, relaxaPasso_visitado], by rw [i2, relaxaPasso_tam], ?_, ?_, ?_, ?_⟩
    · intro x hx hxv
      rw [i3 x hx ((hvis1 x).mpr hxv), hd1v x hx hxv]
    · intro x hx
      exact le_trans (i4 x hx) (hd1le x hx)
    · intro x hx
      rcases i5 x hx with h | ⟨e, he, h1, h2, h3⟩
      · rw [h, hd1 x hx]
        split
        · rename_i hc
          right
          refine ⟨a, List.mem_cons_self a t, hc.1.symm, rfl, ?_⟩
          rw [hc.1]; exact hc.2.2
        · left; rfl
      · right
        refine ⟨e, List.mem_cons_of_mem a he, h1, by rw [h2, hdu], ?_⟩
        exact lt_of_lt_of_le h3 (hd1le x hx)
    · intro e he hev
      rcases List.mem_cons.mp he with he | he
      · subst he
        refine le_trans (i4 _ ha.1) ?_
        rw [hd1 _ ha.1]
        split
        · exact le_refl _
        · rename_i hc
          by_contra hlt
          exact hc ⟨rfl, hev, by omega⟩
      · have := i6 e he ((hvis1 _).not.mpr hev)
        rw [hdu] at this
        exact this

theorem getD_false_lt (l : List Bool) (i : Nat) (h : l.getD i true = false) : i < l.length := by
  by_contra hc
  rw [List.getD_eq_default _ _ (Nat.le_of_not_lt hc)] at h
  exact absurd h (by simp)

theorem count_false_set (l : List Bool) (i : Nat) (h : l.getD i true = false) :
    (l.set i true).count false + 1 = l.count false := by
  have hlen := getD_false_lt l i h
  have hget : l[i] = false := by
    rw [List.getD_eq_getElem _ _ hlen] at h; exact h
  have hpos : 0 < l.count false := by
    rw [List.count_pos_iff, ← hget]; exact List.getElem_mem hlen
  rw [List.count_set _ _ _ _ hlen, hget]
  simp
  omega

theorem count_false_unico (l : List Bool) (i j : Nat) (hi : l.getD i true = false)
    (hj : l.getD j true = false) (hc : l.count false ≤ 1) : i = j := by
  by_contra hne
  have h1 := count_false_set l i hi
  have hj' : (l.set i true).getD j true = false := by
    rw [getD_set_lista]
    have : ¬ (i = j ∧ i < l.length) := fun h => hne h.1
    rw [if_neg this]; exact hj
  have hlen := getD_false_lt _ j hj'
  have hget : (l.set i true)[j] = false := by
    rw [List.getD_eq_getElem _ _ hlen] at hj'; exact hj'
  have hpos : 0 < (l.set i true).count false := by
    rw [List.count_pos_iff, ← hget]; exact List.getElem_mem hlen
  omega

/-- One iteration of the main loop of `algoritmoDijkstra` that selects the vertex `u`
keeps the invariant. -/
theorem dij_passo_inv (g : Grafo) (hg : BemFormado g) (hp : PesosNaoNegativos g)
    (hmax : ∀ u : Int, ∀ e ∈ g.lista u, e.peso ≤ 2146483649) (s : Int)
    (hs : Valido g s) (st : EstadoDijkstra) (hi : DijInv g s st) (u : Nat)
    (hun : u < g.numVertices) (huv : st.visitado.getD u true = false)
    (hulim : st.dist.getD u 0 < INF)
    (hmin : ∀ j : Nat, j < g.numVertices → st.visitado.getD j true = false →
      st.dist.getD u 0 ≤ st.dist.getD j 0) :
    DijInv g s (relaxa (u : Int) (g.lista (u : Int)) ⟨st.dist, st.visitado.set u true⟩) := by
  have huval : Valido g (u : Int) := ⟨by omega, by omega⟩
  have hutn : ((u : Int)).toNat = u := Int.toNat_ofNat u
  have hdu : st.d (u : Int) = st.dist.getD u 0 := by unfold EstadoDijkstra.d; rw [hutn]
  have hunv : ¬ st.vis (u : Int) := by
    unfold EstadoDijkstra.vis; rw [hutn, huv]; simp
  have hdulim : st.d (u : Int) < INF := by rw [hdu]; exact hulim
  have hcu := hi.caminho _ huval hdulim
  have hdu0 := caminhoPeso_naoNeg g hp s _ _ hcu
  -- the selected vertex is optimal
  have hopt : ∀ c, CaminhoPeso g s (u : Int) c → st.d (u : Int) ≤ c := by
    intro c hc
    rcases dij_fronteira g hg hp s hs st hi _ c hc with h | ⟨y, hy, hyv, hyd⟩
    · exact absurd h hunv
    · have hy1 : y.toNat < g.numVertices := by have := hy.1; have := hy.2; omega
      have hy2 : st.visitado.getD y.toNat true = false := by
        unfold EstadoDijkstra.vis at hyv
        cases hb : st.visitado.getD y.toNat true
        · rfl
        · exact absurd hb hyv
      have := hmin y.toNat hy1 hy2
      rw [hdu]
      have h3 : st.d y = st.dist.getD y.toNat 0 := rfl
      omega
  generalize hst1 : (⟨st.dist, st.visitado.set u true⟩ : EstadoDijkstra) = st1
  have hd1 : ∀ x, st1.d x = st.d x := by intro x; rw [← hst1]; rfl
  have hlenV : u < st.visitado.length := by rw [hi.tamVis]; exact hun
  have hv1 : ∀ x, 0 ≤ x → (st1.vis x ↔ (x = (u : Int) ∨ st.vis x)) := by
    intro x hx
    rw [← hst1]
    unfold EstadoDijkstra.vis
    show (st.visitado.set u true).getD x.toNat true = true ↔ _
    rw [getD_set_lista]
    by_cases hxu : x = (u : Int)
    · subst hxu
      simp [hutn, hlenV]
    · have : ¬ (u = x.toNat ∧ u < st.visitado.length) := by omega
      rw [if_neg this]
      simp [hxu]
  have hl : ∀ e ∈ g.lista (u : Int), 0 ≤ e.vertice ∧ e.vertice.toNat < st1.dist.length := by
    intro e he
    have := hg.noIntervalo _ e he
    have h2 : st1.dist.length = g.numVertices := by rw [← hst1]; exact hi.tamDist
    rw [h2]; omega
  have hso : ∀ e ∈ g.lista (u : Int), somaInt (st1.d (u : Int)) e.peso =
      st1.d (u : Int) + e.peso := by
    intro e he
    have h1 := hp _ e he
    have h2 := hmax _ e he
    have h3 : INF = 999999 := rfl
    rw [hd1]
    exact somaInt_eq _ _ (by omega) (by omega)
  obtain ⟨r1, r2, r3, r4, r5, r6⟩ := relaxa_spec (u : Int) huval.1 (g.lista (u : Int)) st1
    ((hv1 _ huval.1).mpr (Or.inl rfl)) hl hso
  generalize relaxa (u : Int) (g.lista (u : Int)) st1 = st2 at r1 r2 r3 r4 r5 r6 ⊢
  have hv2 : ∀ x, 0 ≤ x → (st2.vis x ↔ (x = (u : Int) ∨ st.vis x)) := by
    intro x hx
    rw [← hv1 x hx]
    unfold EstadoDijkstra.vis; rw [r1]
  have hd2v : ∀ x, 0 ≤ x → st2.vis x → st2.d x = st.d x := by
    intro x hx hxv
    rw [r3 x hx (by unfold EstadoDijkstra.vis at hxv ⊢; rw [← r1]; exact hxv), hd1]
  have hd2le : ∀ x, 0 ≤ x → st2.d x ≤ st.d x := by
    intro x hx; rw [← hd1]; exact r4 x hx
  refine ⟨?_, ?_, ?_, ?_, ?_, ?_, ?_⟩
  · rw [r2, ← hst1]; exact hi.tamDist
  · rw [r1, ← hst1]; simpa using hi.tamVis
  · rcases r5 s hs.1 with h | ⟨e, he, _, h2, h3⟩
    · rw [h, hd1]; exact hi.fonte
    · rw [hd1] at h2 h3
      have := hp _ e he
      have := hi.fonte
      omega
  · intro x hx
    exact le_trans (hd2le x hx.1) (hi.limite x hx)
  · intro x hx hlt
    rcases r5 x hx.1 with h | ⟨e, he, h1, h2, _⟩
    · rw [h, hd1] at hlt ⊢
      exact hi.caminho x hx hlt
    · rw [h2, hd1, ← h1]
      exact CaminhoPeso.passo _ _ e hcu he
  · intro x hx hxv
    rw [hd2v x hx.1 hxv]
    rcases (hv2 x hx.1).mp hxv with h | h
    · subst h; exact ⟨hdulim, hopt⟩
    · exact hi.otimo x hx h
  · intro x hx hxv e he hev
    have hevv := hg.noIntervalo x e he
    rw [hd2v x hx.1 hxv]
    have hev1 : ¬ st.vis e.vertice := fun h => hev ((hv2 _ hevv.1).mpr (Or.inr h))
    have hev2 : e.vertice ≠ (u : Int) := fun h => hev ((hv2 _ hevv.1).mpr (Or.inl h))
    rcases (hv2 x hx.1).mp hxv with h | h
    · subst h
      have := r6 e he (fun h => hev (by
        unfold EstadoDijkstra.vis at h ⊢; rw [r1]; exact h))
      rw [hd1] at this
      exact this
    · exact le_trans (hd2le _ hevv.1) (hi.relaxado x hx h e he hev1)

theorem dijkstraLaco_inv (g : Grafo) (hg : BemFormado g) (hp : PesosNaoNegativos g)
    (hmax : ∀ u : Int, ∀ e ∈ g.lista u, e.peso ≤ 2146483649) (s : Int)
    (hs : Valido g s) :
    ∀ (k : Nat) (st : EstadoDijkstra), DijInv g s st → st.visitado.count false ≤ k + 1 →
      DijInv g s (dijkstraLaco g k st) ∧
      ∀ y z, Valido g y → Valido g z → ¬ (dijkstraLaco g k st).vis y →
        ¬ (dijkstraLaco g k st).vis z → (dijkstraLaco g k st).d y < INF →
        (dijkstraLaco g k st).d z ≤ (dijkstraLaco g k st).d y := by
  intro k
  induction k with
  | zero =>
    intro st hi hc
    refine ⟨hi, ?_⟩
    intro y z hy hz hyv hzv _
    have h1 : st.visitado.getD y.toNat true = false := by
      unfold EstadoDijkstra.vis at hyv
      cases hb : st.visitado.getD y.toNat true
      · rfl
      · exact absurd hb hyv
    have h2 : st.visitado.getD z.toNat true = false := by
      unfold EstadoDijkstra.vis at hzv
      cases hb : st.visitado.getD z.toNat true
      · rfl
      · exact absurd hb hzv
    have := count_false_unico st.visitado _ _ h1 h2 (by simpa using hc)
    have hyz : y = z := by have := hy.1; have := hz.1; omega
    show st.d z ≤ st.d y
    rw [hyz]
  | succ k ih =>
    intro st hi hc
    rcases selecionaMenor_spec st.dist st.visitado g.numVertices with
      ⟨h1, _, h3⟩ | ⟨u, h1, hu, huv, _, hlim, hmin⟩
    · have hres : dijkstraLaco g (k + 1) st = st := by
        simp [dijkstraLaco, h1]
      rw [hres]
      refine ⟨hi, ?_⟩
      intro y z hy hz hyv _ hlt
      have hy1 : y.toNat < g.numVertices := by have := hy.1; have := hy.2; omega
      have hy2 : st.visitado.getD y.toNat true = false := by
        unfold EstadoDijkstra.vis at hyv
        cases hb : st.visitado.getD y.toNat true
        · rfl
        · exact absurd hb hyv
      have := h3 y.toNat hy1 hy2
      have h4 : st.d y = st.dist.getD y.toNat 0 := rfl
      omega
    · have hne : ¬ (selecionaMenor g.numVertices st.dist st.visitado).1 = -1 := by
        rw [h1]; omega
      have hres : dijkstraLaco g (k + 1) st =
          dijkstraLaco g k (relaxa (u : Int) (g.lista (u : Int))
            ⟨st.dist, st.visitado.set u true⟩) := by
        have hutn : ((u : Int)).toNat = u := Int.toNat_ofNat u
        conv_lhs => unfold dijkstraLaco
        rw [if_neg hne, h1, hutn]
      rw [hres]
      have hinv := dij_passo_inv g hg hp hmax s hs st hi u hu huv hlim hmin
      apply ih _ hinv
      rw [relaxa_visitado]
      have := count_false_set st.visitado u huv
      show (st.visitado.set u true).count false ≤ k + 1
      omega

theorem dij_inicial (g : Grafo) (s : Int) (hs : Valido g s) :
    DijInv g s ⟨(List.replicate g.numVertices INF).set s.toNat 0,
      List.replicate g.numVertices false⟩ := by
  generalize hst : (⟨(List.replicate g.numVertices INF).set s.toNat 0,
      List.replicate g.numVertices false⟩ : EstadoDijkstra) = st
  have hlen : s.toNat < g.numVertices := by have := hs.1; have := hs.2; omega
  have hD : ∀ x, Valido g x → st.d x = if x = s then 0 else INF := by
    intro x hx
    rw [← hst]
    show ((List.replicate g.numVertices INF).set s.toNat 0).getD x.toNat 0 = _
    rw [getD_set_int _ s x 0 0 hs.1 hx.1 (by simpa using hlen)]
    by_cases h : x = s
    · simp [h]
    · simp only [h, if_false]
      exact getD_replicate_int _ _ _ x hx.1 hx.2
  have hV : ∀ x, Valido g x → ¬ st.vis x := by
    intro x hx
    rw [← hst]
    unfold EstadoDijkstra.vis
    show ¬ (List.replicate g.numVertices false).getD x.toNat true = true
    rw [getD_replicate_int _ _ _ x hx.1 hx.2]
    simp
  have hDs : st.d s = 0 := by rw [hD s hs]; simp
  refine ⟨by rw [← hst]; simp, by rw [← hst]; simp, hDs, ?_, ?_, ?_, ?_⟩
  · intro x hx
    rw [hD x hx]
    split
    · unfold INF; omega
    · exact le_refl _
  · intro x hx hlt
    rw [hD x hx] at hlt
    by_cases h : x = s
    · subst h; rw [hDs]; exact CaminhoPeso.nulo
    · rw [if_neg h] at hlt; omega
  · intro x hx hxv; exact absurd hxv (hV x hx)
  · intro x hx hxv; exact absurd hxv (hV x hx)

/-- Correctness of `algoritmoDijkstra` on well-formed graphs with non-negative weights:
the stored value never exceeds `999999`, is at most the weight of every walk from the
source, and is the weight of some walk whenever it is below `999999`. -/
theorem dijkstra_geral (g : Grafo) (s : Int) (hg : BemFormado g)
    (hp : PesosNaoNegativos g) (hmax : ∀ u : Int, ∀ e ∈ g.lista u, e.peso ≤ 2146483649)
    (hs : Valido g s) :
    ∃ dist, algoritmoDijkstra g s = Except.ok dist ∧ dist.length = g.numVertices ∧
      ∀ v, Valido g v →
        dist.getD v.toNat 0 ≤ 999999 ∧
        (∀ c, CaminhoPeso g s v c → dist.getD v.toNat 0 ≤ c) ∧
        (dist.getD v.toNat 0 < 999999 → CaminhoPeso g s v (dist.getD v.toNat 0)) := by
  have h0 := dij_inicial g s hs
  have hn : 0 < g.numVertices := by have := hs.1; have := hs.2; omega
  have hc0 : (List.replicate g.numVertices false).count false ≤ (g.numVertices - 1) + 1 := by
    simp
    omega
  obtain ⟨hi, hfin⟩ := dijkstraLaco_inv g hg hp hmax s hs (g.numVertices - 1) _ h0 hc0
  have halg : algoritmoDijkstra g s = Except.ok (dijkstraLaco g (g.numVertices - 1)
      ⟨(List.replicate g.numVertices INF).set s.toNat 0,
        List.replicate g.numVertices false⟩).dist := by
    unfold algoritmoDijkstra escreve
    have h1 : 0 ≤ s ∧ s < ((List.replicate g.numVertices INF).length : Int) := by
      simpa using hs
    rw [if_pos h1]
  generalize dijkstraLaco g (g.numVertices - 1)
      ⟨(List.replicate g.numVertices INF).set s.toNat 0,
        List.replicate g.numVertices false⟩ = st at hi hfin halg
  have hmin : ∀ v, Valido g v → ∀ c, CaminhoPeso g s v c → st.d v ≤ c := by
    intro v hv c hc
    by_cases hvv : st.vis v
    · exact (hi.otimo v hv hvv).2 c hc
    · rcases dij_fronteira g hg hp s hs st hi v c hc with h | ⟨y, hy, hyv, hyd⟩
      · exact absurd h hvv
      · by_cases hlt : st.d y < INF
        · exact le_trans (hfin y v hy hv hyv hvv hlt) hyd
        · exact le_trans (hi.limite v hv) (by omega)
  refine ⟨st.dist, halg, hi.tamDist, ?_⟩
  intro v hv
  exact ⟨hi.limite v hv, hmin v hv, hi.caminho v hv⟩

/-- C7 (amended): for every well-formed graph whose stored weights all lie in
`[0, 2146483649]` (so that no sum `dist[u] + peso`, with `dist[u]` below 999999, leaves
`int`) and every valid source `s`, `algoritmoDijkstra(s)` returns a distance array that
holds, for every vertex `v`: the minimum total weight over all walks from `s` to `v` when
some walk of total weight below 999999 exists, and 999999 otherwise (in particular when no
walk from `s` to `v` exists). -/
theorem algoritmoDijkstra_correto (g : Grafo) (s : Int) (hg : BemFormado g)
    (hp : PesosNaoNegativos g) (hmax : ∀ u : Int, ∀ e ∈ g.lista u, e.peso ≤ 2146483649)
    (hs : Valido g s) :
    ∃ dist, algoritmoDijkstra g s = Except.ok dist ∧ dist.length = g.numVertices ∧
      ∀ v, Valido g v →
        ((∃ c, CaminhoPeso g s v c ∧ c < 999999) →
          CaminhoPeso g s v (dist.getD v.toNat 0) ∧
          ∀ c, CaminhoPeso g s v c → dist.getD v.toNat 0 ≤ c) ∧
        ((¬ ∃ c, CaminhoPeso g s v c ∧ c < 999999) → dist.getD v.toNat 0 = 999999) := by
  obtain ⟨dist, hrun, hlen, hall⟩ := dijkstra_geral g s hg hp hmax hs
  refine ⟨dist, hrun, hlen, ?_⟩
  intro v hv
  obtain ⟨hteto, hmin, hreal⟩ := hall v hv
  constructor
  · rintro ⟨c, hc, hlt⟩
    have h1 := hmin c hc
    exact ⟨hreal (by omega), hmin⟩
  · intro hno
    by_contra hne
    have hlt : dist.getD v.toNat 0 < 999999 := by omega
    exact hno ⟨_, hreal hlt, hlt⟩

theorem mem_lista_mem_A (g : Grafo) (u : Int) (e : ElemLista) (h : e ∈ g.lista u) :
    ∃ l ∈ g.A, e ∈ l := by
  unfold Grafo.lista at h
  by_cases hlen : u.toNat < g.A.length
  · rw [List.getD_eq_getElem _ _ hlen] at h
    exact ⟨_, List.getElem_mem hlen, h⟩
  · rw [List.getD_eq_default _ _ (Nat.le_of_not_lt hlen)] at h
    simp at h

theorem pesosNaoNegativos_de_todos (g : Grafo)
    (h : ∀ l ∈ g.A, ∀ e ∈ l, 0 ≤ e.peso) : PesosNaoNegativos g := by
  intro u e he
  obtain ⟨l, hl, hel⟩ := mem_lista_mem_A g u e he
  exact h l hl e hel

theorem pesosAte_de_todos (g : Grafo) (m : Int)
    (h : ∀ l ∈ g.A, ∀ e ∈ l, e.peso ≤ m) : ∀ u : Int, ∀ e ∈ g.lista u, e.peso ≤ m := by
  intro u e he
  obtain ⟨l, hl, hel⟩ := mem_lista_mem_A g u e he
  exact h l hl e hel

theorem alcancavel_exemploPonderado : Alcancavel exemploPonderado :=
  Alcancavel.adiciona _ _ _ _ (Alcancavel.adiciona _ _ _ _ (Alcancavel.adiciona _ _ _ _
    (Alcancavel.adiciona _ _ _ _ (Alcancavel.adiciona _ _ _ _ (Alcancavel.novo 5 false true)))))

/-- Witness for C7: the statement applied to the weighted five-vertex example and the
source 0, where the routine returns `[0, 5, 3, 5, 6]`. -/
theorem algoritmoDijkstra_correto_witness :
    algoritmoDijkstra exemploPonderado 0 = Except.ok [0, 5, 3, 5, 6] ∧
    ∃ dist, algoritmoDijkstra exemploPonderado 0 = Except.ok dist ∧
      dist.length = exemploPonderado.numVertices ∧
      ∀ v, Valido exemploPonderado v →
        ((∃ c, CaminhoPeso exemploPonderado 0 v c ∧ c < 999999) →
          CaminhoPeso exemploPonderado 0 v (dist.getD v.toNat 0) ∧
          ∀ c, CaminhoPeso exemploPonderado 0 v c → dist.getD v.toNat 0 ≤ c) ∧
        ((¬ ∃ c, CaminhoPeso exemploPonderado 0 v c ∧ c < 999999) →
          dist.getD v.toNat 0 = 999999) :=
  ⟨rfl, algoritmoDijkstra_correto exemploPonderado 0
    (bemFormado_de_alcancavel _ alcancavel_exemploPonderado)
    (pesosNaoNegativos_de_todos _ (by decide))
    (pesosAte_de_todos _ _ (by decide)) ⟨by decide, by decide⟩⟩

/-- C7 counterexample: on the undirected two-vertex graph with the single edge `0 - 1` of
weight 1000000 a walk from 0 to 1 of weight 1000000 exists, every walk from 0 to 1 weighs at
least 1000000, and `algoritmoDijkstra(0)` stores 999999 for vertex 1: neither the minimum
total weight nor a sign that no path exists. -/
theorem algoritmoDijkstra_contraexemplo :
    Alcancavel (adicionaAresta (Grafo.novo 2 false true) 0 1 1000000) ∧
    PesosNaoNegativos (adicionaAresta (Grafo.novo 2 false true) 0 1 1000000) ∧
    CaminhoPeso (adicionaAresta (Grafo.novo 2 false true) 0 1 1000000) 0 1 1000000 ∧
    (∀ c, CaminhoPeso (adicionaAresta (Grafo.novo 2 false true) 0 1 1000000) 0 1 c →
      1000000 ≤ c) ∧
    algoritmoDijkstra (adicionaAresta (Grafo.novo 2 false true) 0 1 1000000) 0 =
      Except.ok [0, 999999] := by
  refine ⟨Alcancavel.adiciona _ _ _ _ (Alcancavel.novo 2 false true),
    pesosNaoNegativos_de_todos _ (by decide), ?_, ?_, rfl⟩
  · have h := @CaminhoPeso.passo (adicionaAresta (Grafo.novo 2 false true) 0 1 1000000)
      0 0 0 ⟨1, 1000000⟩ CaminhoPeso.nulo (by decide)
    exact h
  · have hpeso : ∀ l ∈ (adicionaAresta (Grafo.novo 2 false true) 0 1 1000000).A,
        ∀ e ∈ l, e.peso = 1000000 := by decide
    have key : ∀ v c, CaminhoPeso (adicionaAresta (Grafo.novo 2 false true) 0 1 1000000) 0 v c →
        (v = 0 ∧ c = 0) ∨ 1000000 ≤ c := by
      intro v c h
      induction h with
      | nulo => exact Or.inl ⟨rfl, rfl⟩
      | passo v c e _ he ih =>
        obtain ⟨l, hl, hel⟩ := mem_lista_mem_A _ v e he
        have := hpeso l hl e hel
        right
        rcases ih with ⟨_, h0⟩ | h1
        · omega
        · omega
    intro c hc
    rcases key 1 c hc with ⟨h, _⟩ | h
    · omega
    · exact h

/-! ## Floyd-Warshall: the matrix -/

theorem entrada_set (n : Nat) (d : List (List Int)) (hq : Quadrada n d) (i j : Nat) (v : Int)
    (hi : i < n) (hj : j < n) (a b : Nat) :
    entrada (d.set i ((d.getD i []).set j v)) a b =
      if a = i ∧ b = j then v else entrada d a b := by
  unfold entrada
  rw [getD_set_lista]
  have hlen : i < d.length := by rw [hq.1]; exact hi
  have hrow : (d.getD i []).length = n := by
    rw [List.getD_eq_getElem _ _ hlen]
    exact hq.2 _ (List.getElem_mem hlen)
  by_cases hai : a = i
  · subst hai
    rw [if_pos ⟨rfl, hlen⟩, getD_set_lista]
    by_cases hbj : b = j
    · subst hbj
      rw [if_pos ⟨rfl, by rw [hrow]; exact hj⟩, if_pos ⟨rfl, rfl⟩]
    · have h1 : ¬ (j = b ∧ j < (d.getD a []).length) := fun h => hbj h.1.symm
      have h2 : ¬ (a = a ∧ b = j) := fun h => hbj h.2
      rw [if_neg h1, if_neg h2]
  · have h1 : ¬ (i = a ∧ i < d.length) := fun h => hai h.1.symm
    have h2 : ¬ (a = i ∧ b = j) := fun h => hai h.1
    rw [if_neg h1, if_neg h2]

theorem quadrada_set (n : Nat) (d : List (List Int)) (hq : Quadrada n d) (i j : Nat) (v : Int) :
    Quadrada n (d.set i ((d.getD i []).set j v)) := by
  by_cases hlen : i < d.length
  · refine ⟨by rw [List.length_set]; exact hq.1, ?_⟩
    intro linha hl
    rcases List.mem_or_eq_of_mem_set hl with h | h
    · exact hq.2 linha h
    · rw [h, List.length_set, List.getD_eq_getElem _ _ hlen]
      exact hq.2 _ (List.getElem_mem hlen)
  · rw [List.set_eq_of_length_le (Nat.le_of_not_lt hlen)]
    exact hq

theorem floydPasso_quadrada (n k i j : Nat) (d : List (List Int)) (hq : Quadrada n d) :
    Quadrada n (floydPasso k i j d) := by
  unfold floydPasso
  split
  · exact quadrada_set n d hq i j _
  · exact hq

theorem floydPasso_entrada (n k i j : Nat) (d : List (List Int)) (hq : Quadrada n d)
    (hi : i < n) (hj : j < n) (a b : Nat) :
    entrada (floydPasso k i j d) a b =
      if a = i ∧ b = j then relaxVal d k i j else entrada d a b := by
  unfold floydPasso relaxVal
  by_cases hc : entrada d i k ≠ INF ∧ entrada d k j ≠ INF ∧
      somaInt (entrada d i k) (entrada d k j) < entrada d i j
  · rw [if_pos hc, if_pos hc, entrada_set n d hq i j _ hi hj]
  · rw [if_neg hc, if_neg hc]
    by_cases hab : a = i ∧ b = j
    · rw [if_pos hab, hab.1, hab.2]
    · rw [if_neg hab]

theorem relaxVal_coluna (d : List (List Int)) (k a : Nat) (h : 0 ≤ entrada d k k)
    (hs : somaInt (entrada d a k) (entrada d k k) = entrada d a k + entrada d k k) :
    relaxVal d k a k = entrada d a k := by
  unfold relaxVal
  rw [hs]
  split
  · rename_i hc; omega
  · rfl

theorem relaxVal_linha (d : List (List Int)) (k b : Nat) (h : 0 ≤ entrada d k k)
    (hs : somaInt (entrada d k k) (entrada d k b) = entrada d k k + entrada d k b) :
    relaxVal d k k b = entrada d k b := by
  unfold relaxVal
  rw [hs]
  split
  · rename_i hc; omega
  · rfl

/-- The loop over the destinations, run over the first `m` columns, when the relaxation
through `k` leaves `dist[i][k]` as it is. -/
theorem floydLinha_prefixo (n k i : Nat) (d : List (List Int)) (hq : Quadrada n d)
    (hi : i < n) (hcol : relaxVal d k i k = entrada d i k) (m : Nat) (hm : m ≤ n) :
    Quadrada n ((List.range m).foldl (fun d j => floydPasso k i j d) d) ∧
    ∀ a b, entrada ((List.range m).foldl (fun d j => floydPasso k i j d) d) a b =
      if a = i ∧ b < m then relaxVal d k a b else entrada d a b := by
  induction m with
  | zero =>
    refine ⟨hq, ?_⟩
    intro a b
    have : ¬ (a = i ∧ b < 0) := fun h => Nat.not_lt_zero b h.2
    rw [if_neg this]; rfl
  | succ m ih =>
    obtain ⟨ihq, ihe⟩ := ih (by omega)
    rw [List.range_succ, List.foldl_append]
    simp only [List.foldl_cons, List.foldl_nil]
    generalize (List.range m).foldl (fun d j => floydPasso k i j d) d = d' at ihq ihe ⊢
    refine ⟨floydPasso_quadrada n k i m d' ihq, ?_⟩
    intro a b
    rw [floydPasso_entrada n k i m d' ihq hi (by omega)]
    have hrel : relaxVal d' k i m = relaxVal d k i m := by
      unfold relaxVal
      have h1 : entrada d' i k = entrada d i k := by
        rw [ihe]
        split
        · exact hcol
        · rfl
      have h2 : entrada d' k m = entrada d k m := by
        rw [ihe]
        have : ¬ (k = i ∧ m < m) := fun h => Nat.lt_irrefl m h.2
        rw [if_neg this]
      have h3 : entrada d' i m = entrada d i m := by
        rw [ihe]
        have : ¬ (i = i ∧ m < m) := fun h => Nat.lt_irrefl m h.2
        rw [if_neg this]
      rw [h1, h2, h3]
    by_cases hab : a = i ∧ b = m
    · rw [if_pos hab, hrel, if_pos ⟨hab.1, by omega⟩, hab.1, hab.2]
    · rw [if_neg hab, ihe]
      by_cases h1 : a = i ∧ b < m
      · rw [if_pos h1, if_pos ⟨h1.1, by omega⟩]
      · have h2 : ¬ (a = i ∧ b < m + 1) := by
          rintro ⟨h3, h4⟩
          rcases Nat.lt_succ_iff_lt_or_eq.mp h4 with h5 | h5
          · exact h1 ⟨h3, h5⟩
          · exact hab ⟨h3, h5⟩
        rw [if_neg h1, if_neg h2]

theorem floydLinha_spec (n k i : Nat) (d : List (List Int)) (hq : Quadrada n d)
    (hi : i < n) (hcol : relaxVal d k i k = entrada d i k) :
    Quadrada n (floydLinha n k i d) ∧
    ∀ a b, b < n → entrada (floydLinha n k i d) a b =
      if a = i then relaxVal d k a b else entrada d a b := by
  obtain ⟨h1, h2⟩ := floydLinha_prefixo n k i d hq hi hcol n (le_refl n)
  refine ⟨h1, ?_⟩
  intro a b hb
  unfold floydLinha
  rw [h2]
  by_cases ha : a = i
  · rw [if_pos ⟨ha, hb⟩, if_pos ha]
  · rw [if_neg (fun h => ha h.1), if_neg ha]

/-- The loop over the origins, run over the first `m` rows, when the relaxation through
`k` leaves row `k` and column `k` as they are. -/
theorem floydRodada_prefixo (n k : Nat) (d : List (List Int)) (hq : Quadrada n d)
    (hcol : ∀ a, a < n → relaxVal d k a k = entrada d a k)
    (hlin : ∀ b, b < n → relaxVal d k k b = entrada d k b) (hk : k < n) (m : Nat)
    (hm : m ≤ n) :
    Quadrada n ((List.range m).foldl (fun d i => floydLinha n k i d) d) ∧
    ∀ a b, b < n → entrada ((List.range m).foldl (fun d i => floydLinha n k i d) d) a b =
      if a < m then relaxVal d k a b else entrada d a b := by
  induction m with
  | zero =>
    refine ⟨hq, ?_⟩
    intro a b _
    rw [if_neg (Nat.not_lt_zero a)]; rfl
  | succ m ih =>
    obtain ⟨ihq, ihe⟩ := ih (by omega)
    rw [List.range_succ, List.foldl_append]
    simp only [List.foldl_cons, List.foldl_nil]
    generalize (List.range m).foldl (fun d i => floydLinha n k i d) d = d' at ihq ihe ⊢
    have hdk : ∀ a, entrada d' a k = entrada d a k := by
      intro a
      rw [ihe a k hk]
      split
      · rename_i ham
        exact hcol a (by omega)
      · rfl
    have hcol' : relaxVal d' k m k = entrada d' m k := by
      have h1 : relaxVal d' k m k = relaxVal d k m k := by
        unfold relaxVal
        rw [hdk m, hdk k]
      rw [h1, hcol m (by omega), hdk m]
    obtain ⟨hq2, he2⟩ := floydLinha_spec n k m d' ihq (by omega) hcol'
    refine ⟨hq2, ?_⟩
    intro a b hb
    rw [he2 a b hb]
    by_cases ham : a = m
    · subst ham
      rw [if_pos rfl, if_pos (Nat.lt_succ_self a)]
      unfold relaxVal
      have h1 : entrada d' a k = entrada d a k := by
        rw [ihe a k hk, if_neg (Nat.lt_irrefl a)]
      have h2 : entrada d' k b = entrada d k b := by
        rw [ihe k b hb]
        split
        · exact hlin b hb
        · rfl
      have h3 : entrada d' a b = entrada d a b := by
        rw [ihe a b hb, if_neg (Nat.lt_irrefl a)]
      rw [h1, h2, h3]
    · rw [if_neg ham, ihe a b hb]
      by_cases h1 : a < m
      · rw [if_pos h1, if_pos (by omega)]
      · rw [if_neg h1, if_neg (by omega)]

/-- One round of `algoritmoFloyd` for the intermediate vertex `k`, when the relaxation
through `k` leaves row `k` and column `k` as they are: every entry is relaxed once through
`k`, from the values before the round. -/
theorem floydRodada_spec (n k : Nat) (d : List (List Int)) (hq : Quadrada n d)
    (hcol : ∀ a, a < n → relaxVal d k a k = entrada d a k)
    (hlin : ∀ b, b < n → relaxVal d k k b = entrada d k b) (hk : k < n) :
    Quadrada n (floydRodada n k d) ∧
    ∀ a b, a < n → b < n → entrada (floydRodada n k d) a b = relaxVal d k a b := by
  obtain ⟨h1, h2⟩ := floydRodada_prefixo n k d hq hcol hlin hk n (le_refl n)
  refine ⟨h1, ?_⟩
  intro a b ha hb
  unfold floydRodada
  rw [h2 a b hb, if_pos ha]

theorem floydLinhaFold_tam (l : List ElemLista) :
    ∀ linha : List Int,
      (l.foldl (fun linha e => linha.set e.vertice.toNat e.peso) linha).length = linha.length := by
  induction l with
  | nil => intro linha; rfl
  | cons a t ih => intro linha; simp only [List.foldl_cons]; rw [ih, List.length_set]

theorem floydLinhaFold_fora (l : List ElemLista) (j : Nat) :
    ∀ linha : List Int, (∀ e ∈ l, e.vertice.toNat ≠ j) →
      (l.foldl (fun linha e => linha.set e.vertice.toNat e.peso) linha).getD j 0 =
        linha.getD j 0 := by
  induction l with
  | nil => intro linha _; rfl
  | cons a t ih =>
    intro linha h
    simp only [List.foldl_cons]
    rw [ih _ (fun e he => h e (List.mem_cons_of_mem a he)), getD_set_lista]
    have : ¬ (a.vertice.toNat = j ∧ a.vertice.toNat < linha.length) :=
      fun hc => h a (List.mem_cons_self a t) hc.1
    rw [if_neg this]

theorem floydLinhaFold_dentro (l : List ElemLista) (j : Nat)
    (hd : l.Pairwise (fun a b => a.vertice.toNat ≠ b.vertice.toNat)) :
    ∀ linha : List Int, j < linha.length → ∀ e ∈ l, e.vertice.toNat = j →
      (l.foldl (fun linha e => linha.set e.vertice.toNat e.peso) linha).getD j 0 = e.peso := by
  induction l with
  | nil => intro linha _ e he; simp at he
  | cons a t ih =>
    intro linha hj e he hej
    simp only [List.foldl_cons]
    have hp := List.pairwise_cons.mp hd
    rcases List.mem_cons.mp he with h | h
    · subst h
      rw [floydLinhaFold_fora t j _ (fun x hx hxj => hp.1 x hx (by rw [hej, hxj])),
        getD_set_lista, if_pos ⟨hej, by rw [hej]; exact hj⟩]
    · exact ih hp.2 _ (by rw [List.length_set]; exact hj) e h hej

theorem ordenada_distintos (l : List ElemLista) (h : Ordenada l)
    (hv : ∀ e ∈ l, 0 ≤ e.vertice) :
    l.Pairwise (fun a b => a.vertice.toNat ≠ b.vertice.toNat) := by
  refine List.Pairwise.imp_of_mem ?_ h
  intro a b ha hb hab
  have := hv a ha
  have := hv b hb
  omega

theorem entrada_floydInicial (g : Grafo) (i j : Nat) (hi : i < g.numVertices) :
    entrada (floydInicial g) i j =
      (floydLinhaInicial g.numVertices i (g.lista (i : Int))).getD j 0 := by
  unfold entrada floydInicial
  have h : ((List.range g.numVertices).map
      (fun i => floydLinhaInicial g.numVertices i (g.lista (i : Int)))).getD i [] =
      floydLinhaInicial g.numVertices i (g.lista (i : Int)) := by
    rw [List.getD_eq_getElem?_getD, List.getElem?_map, List.getElem?_range hi]
    rfl
  rw [h]

theorem quadrada_floydInicial (g : Grafo) : Quadrada g.numVertices (floydInicial g) := by
  refine ⟨by simp [floydInicial], ?_⟩
  intro linha hl
  unfold floydInicial at hl
  obtain ⟨i, _, rfl⟩ := List.mem_map.mp hl
  unfold floydLinhaInicial
  rw [floydLinhaFold_tam]
  simp

/-- The initial matrix of `algoritmoFloyd` on a well-formed graph: zero on the diagonal,
the stored weight where an entry exists, `INF` elsewhere. -/
theorem floydInicial_spec (g : Grafo) (hg : BemFormado g) (i : Int) (hi : Valido g i) :
    entrada (floydInicial g) i.toNat i.toNat = 0 ∧
    (∀ e ∈ g.lista i, entrada (floydInicial g) i.toNat e.vertice.toNat = e.peso) ∧
    (∀ j, Valido g j → j ≠ i → (∀ e ∈ g.lista i, e.vertice ≠ j) →
      entrada (floydInicial g) i.toNat j.toNat = INF) := by
  have hin : i.toNat < g.numVertices := by have := hi.1; have := hi.2; omega
  have hcast : ((i.toNat : Nat) : Int) = i := Int.toNat_of_nonneg hi.1
  have hent : ∀ j : Nat, entrada (floydInicial g) i.toNat j =
      (floydLinhaInicial g.numVertices i.toNat (g.lista i)).getD j 0 := by
    intro j
    rw [entrada_floydInicial g i.toNat j hin, hcast]
  have hdist := ordenada_distintos (g.lista i) (hg.ordenada i)
    (fun e he => (hg.noIntervalo i e he).1)
  refine ⟨?_, ?_, ?_⟩
  · rw [hent]
    unfold floydLinhaInicial
    rw [floydLinhaFold_fora]
    · rw [getD_set_lista, if_pos ⟨rfl, by simpa using hin⟩]
    · intro e he hc
      have := hg.semLaco i hi.1 e he
      have := (hg.noIntervalo i e he).1
      have := hi.1
      omega
  · intro e he
    rw [hent]
    unfold floydLinhaInicial
    have hev := hg.noIntervalo i e he
    exact floydLinhaFold_dentro (g.lista i) e.vertice.toNat hdist _
      (by simp; omega) e he rfl
  · intro j hj hji hno
    rw [hent]
    unfold floydLinhaInicial
    rw [floydLinhaFold_fora]
    · rw [getD_set_lista]
      have : ¬ (i.toNat = j.toNat ∧ i.toNat < (List.replicate g.numVertices INF).length) := by
        have := hi.1; have := hj.1
        omega
      rw [if_neg this]
      exact getD_replicate_int _ _ _ j hj.1 hj.2
    · intro e he hc
      have := (hg.noIntervalo i e he).1
      have := hj.1
      exact hno e he (by omega)

/-! ## Walks as lists of entries -/

theorem cadeia_append (g : Grafo) (a b : List (Int × ElemLista)) :
    ∀ u v, Cadeia g u (a ++ b) v ↔ ∃ m, Cadeia g u a m ∧ Cadeia g m b v := by
  induction a with
  | nil =>
    intro u v
    simp only [List.nil_append, Cadeia]
    constructor
    · intro h; exact ⟨u, rfl, h⟩
    · rintro ⟨m, rfl, h⟩; exact h
  | cons x t ih =>
    intro u v
    show (x.1 = u ∧ x.2 ∈ g.lista u ∧ Cadeia g x.2.vertice (t ++ b) v) ↔
      ∃ m, (x.1 = u ∧ x.2 ∈ g.lista u ∧ Cadeia g x.2.vertice t m) ∧ Cadeia g m b v
    rw [ih]
    constructor
    · rintro ⟨h1, h2, m, h3, h4⟩; exact ⟨m, ⟨h1, h2, h3⟩, h4⟩
    · rintro ⟨m, ⟨h1, h2, h3⟩, h4⟩; exact ⟨h1, h2, m, h3, h4⟩

theorem pesoCadeia_append (a b : List (Int × ElemLista)) :
    pesoCadeia (a ++ b) = pesoCadeia a + pesoCadeia b := by
  simp [pesoCadeia]

theorem pesoCadeia_cons (x : Int × ElemLista) (t : List (Int × ElemLista)) :
    pesoCadeia (x :: t) = x.2.peso + pesoCadeia t := by
  simp [pesoCadeia]

theorem cadeia_de_caminhoPeso (g : Grafo) (u v c : Int) (h : CaminhoPeso g u v c) :
    ∃ p, Cadeia g u p v ∧ pesoCadeia p = c := by
  induction h with
  | nulo => exact ⟨[], rfl, rfl⟩
  | passo v c e _ he ih =>
    obtain ⟨p, hp, hc⟩ := ih
    refine ⟨p ++ [(v, e)], ?_, ?_⟩
    · rw [cadeia_append]
      exact ⟨v, hp, rfl, he, rfl⟩
    · rw [pesoCadeia_append, hc]
      simp [pesoCadeia]

theorem caminhoPeso_trans (g : Grafo) (u m v c1 c2 : Int) (h1 : CaminhoPeso g u m c1)
    (h2 : CaminhoPeso g m v c2) : CaminhoPeso g u v (c1 + c2) := by
  induction h2 with
  | nulo => simpa using h1
  | passo v c e _ he ih =>
    have := CaminhoPeso.passo v (c1 + c) e ih he
    rw [← add_assoc]
    exact this

theorem caminhoPeso_de_cadeia (g : Grafo) (p : List (Int × ElemLista)) :
    ∀ u v, Cadeia g u p v → CaminhoPeso g u v (pesoCadeia p) := by
  induction p with
  | nil =>
    intro u v h
    have : u = v := h
    subst this
    exact CaminhoPeso.nulo
  | cons x t ih =>
    intro u v h
    obtain ⟨h1, h2, h3⟩ := h
    have hstep : CaminhoPeso g u x.2.vertice (0 + x.2.peso) :=
      CaminhoPeso.passo u 0 x.2 CaminhoPeso.nulo h2
    have := caminhoPeso_trans g u _ v _ _ hstep (ih _ v h3)
    rw [pesoCadeia_cons]
    simpa using this

theorem cadeia_valido (g : Grafo) (hg : BemFormado g) (p : List (Int × ElemLista)) :
    ∀ u v, Valido g u → Cadeia g u p v → Valido g v ∧ ∀ x ∈ fontes p, Valido g x := by
  induction p with
  | nil =>
    intro u v hu h
    have : u = v := h
    subst this
    exact ⟨hu, fun x hx => by simp [fontes] at hx⟩
  | cons a t ih =>
    intro u v hu h
    obtain ⟨h1, h2, h3⟩ := h
    obtain ⟨i1, i2⟩ := ih _ v (hg.noIntervalo u a.2 h2) h3
    refine ⟨i1, ?_⟩
    intro x hx
    simp only [fontes, List.map_cons, List.mem_cons] at hx
    rcases hx with hx | hx
    · rw [hx, h1]; exact hu
    · exact i2 x hx

/-- Cycle removal: when no closed walk is negative, every walk can be replaced by one that
leaves each vertex at most once, is not heavier and has no new intermediate vertex. -/
theorem cadeia_simples (g : Grafo) (hn : SemCicloNegativo g) (p : List (Int × ElemLista)) :
    ∀ u v, Cadeia g u p v →
      ∃ q, Cadeia g u q v ∧ pesoCadeia q ≤ pesoCadeia p ∧ (fontes q).Nodup ∧
        (∀ x ∈ fontes q, x ∈ fontes p) ∧ (∀ x ∈ (fontes q).tail, x ∈ (fontes p).tail) := by
  induction p with
  | nil =>
    intro u v h
    exact ⟨[], h, le_refl _, List.nodup_nil, fun x hx => hx, fun x hx => hx⟩
  | cons a t ih =>
    intro u v h
    obtain ⟨h1, h2, h3⟩ := h
    obtain ⟨q, hq, hpq, hnd, hsub, _⟩ := ih _ v h3
    by_cases hu : u ∈ fontes q
    · -- the walk comes back to `u`: drop the closed part
      obtain ⟨y, hy, hyu⟩ := List.mem_map.mp hu
      obtain ⟨q1, q2, hsplit⟩ := List.append_of_mem hy
      rw [hsplit, cadeia_append] at hq
      obtain ⟨m, hq1, hq2⟩ := hq
      have hm : m = u := by
        obtain ⟨hh, _, _⟩ := hq2
        rw [← hh, hyu]
      subst hm
      have hciclo : Cadeia g m (a :: q1) m := ⟨h1, h2, hq1⟩
      have hpos := hn m _ (caminhoPeso_de_cadeia g _ m m hciclo)
      rw [pesoCadeia_cons] at hpos
      refine ⟨y :: q2, hq2, ?_, ?_, ?_, ?_⟩
      · rw [hsplit, pesoCadeia_append] at hpq
        rw [pesoCadeia_cons a t]
        omega
      · rw [hsplit] at hnd
        simp only [fontes, List.map_append] at hnd
        exact (List.nodup_append.mp hnd).2.1
      · intro x hx
        simp only [fontes, List.map_cons, List.mem_cons]
        right
        apply hsub
        rw [hsplit]
        simp only [fontes, List.map_append, List.mem_append]
        exact Or.inr hx
      · intro x hx
        simp only [fontes, List.map_cons, List.tail_cons] at hx ⊢
        apply hsub
        rw [hsplit]
        simp only [fontes, List.map_append, List.map_cons, List.mem_append, List.mem_cons]
        exact Or.inr (Or.inr hx)
    · refine ⟨a :: q, ⟨h1, h2, hq⟩, ?_, ?_, ?_, ?_⟩
      · rw [pesoCadeia_cons, pesoCadeia_cons]; omega
      · simp only [fontes, List.map_cons]
        rw [List.nodup_cons]
        exact ⟨by rw [h1]; exact hu, hnd⟩
      · intro x hx
        simp only [fontes, List.map_cons, List.mem_cons] at hx ⊢
        rcases hx with hx | hx
        · exact Or.inl hx
        · exact Or.inr (hsub x hx)
      · intro x hx
        simp only [fontes, List.map_cons, List.tail_cons] at hx ⊢
        exact hsub x hx

theorem cadeia_mem (g : Grafo) (p : List (Int × ElemLista)) :
    ∀ u v, Cadeia g u p v → ∀ a ∈ p, a.2 ∈ g.lista a.1 := by
  induction p with
  | nil => intro u v _ a ha; simp at ha
  | cons x t ih =>
    intro u v hc a ha
    obtain ⟨h1, h2, h3⟩ := hc
    rcases List.mem_cons.mp ha with h | h
    · rw [h, h1]; exact h2
    · exact ih _ v h3 a h

theorem pesoCadeia_naoNeg (g : Grafo) (hp : PesosNaoNegativos g) (p : List (Int × ElemLista))
    (u v : Int) (hc : Cadeia g u p v) : 0 ≤ pesoCadeia p := by
  unfold pesoCadeia
  apply List.sum_nonneg
  intro x hx
  obtain ⟨a, ha, rfl⟩ := List.mem_map.mp hx
  exact hp a.1 a.2 (cadeia_mem g p u v hc a ha)

theorem semCiclo_de_naoNeg (g : Grafo) (hp : PesosNaoNegativos g) : SemCicloNegativo g :=
  fun v c h => caminhoPeso_naoNeg g hp v v c h

/-- A contiguous part of a walk whose parts all weigh less than `INF` has the same
property. -/
theorem limitada_infixo (p s : List (Int × ElemLista)) (h : Limitada p)
    (hs : List.IsInfix s p) : Limitada s :=
  fun t ht => h t (List.IsInfix.trans ht hs)

theorem limitada_peso (p : List (Int × ElemLista)) (h : Limitada p) : pesoCadeia p < INF :=
  h p (List.infix_refl p)

/-- With non-negative weights every part of a walk below `INF` is below `INF`. -/
theorem limitada_de_naoNeg (g : Grafo) (hp : PesosNaoNegativos g)
    (p : List (Int × ElemLista)) (u v : Int) (hc : Cadeia g u p v)
    (hlt : pesoCadeia p < INF) : Limitada p := by
  rintro s ⟨a, b, hab⟩
  subst hab
  obtain ⟨m, h1, h2⟩ := (cadeia_append g (a ++ s) b u v).mp hc
  obtain ⟨m', h3, _⟩ := (cadeia_append g a s u m).mp h1
  have := pesoCadeia_naoNeg g hp a u m' h3
  have := pesoCadeia_naoNeg g hp b m v h2
  rw [pesoCadeia_append, pesoCadeia_append] at hlt
  omega

/-- Every part of a lightest walk is a lightest walk between its ends; when every two
vertices joined by a walk are joined by one below `INF`, all parts weigh less than `INF`. -/
theorem limitada_de_minima (g : Grafo) (hg : BemFormado g)
    (hperto : ∀ u v, Valido g u → Valido g v → (∃ c, CaminhoPeso g u v c) →
      ∃ c, CaminhoPeso g u v c ∧ c < 999999)
    (i j : Int) (hi : Valido g i) (q : List (Int × ElemLista)) (hc : Cadeia g i q j)
    (hminq : ∀ c, CaminhoPeso g i j c → pesoCadeia q ≤ c) : Limitada q := by
  rintro s ⟨a, b, hab⟩
  subst hab
  obtain ⟨m2, h1, h2⟩ := (cadeia_append g (a ++ s) b i j).mp hc
  obtain ⟨m1, h3, h4⟩ := (cadeia_append g a s i m2).mp h1
  have hm1 := (cadeia_valido g hg a i m1 hi h3).1
  have hm2 := (cadeia_valido g hg s m1 m2 hm1 h4).1
  obtain ⟨c, hcw, hclt⟩ := hperto m1 m2 hm1 hm2 ⟨_, caminhoPeso_de_cadeia g s m1 m2 h4⟩
  have hw := caminhoPeso_trans g i m2 j _ _
    (caminhoPeso_trans g i m1 m2 _ _ (caminhoPeso_de_cadeia g a i m1 h3) hcw)
    (caminhoPeso_de_cadeia g b m2 j h2)
  have := hminq _ hw
  rw [pesoCadeia_append, pesoCadeia_append] at this
  have hINF : INF = 999999 := rfl
  omega

theorem relaxVal_le (d : List (List Int)) (k a b : Nat) : relaxVal d k a b ≤ entrada d a b := by
  unfold relaxVal
  split
  · rename_i h; omega
  · exact le_refl _

/-- No entry of the initial matrix exceeds a bound that holds for `INF` and for every
stored weight. -/
theorem floydInicial_teto (g : Grafo) (hg : BemFormado g) (m : Int) (hm : INF ≤ m)
    (hmax : ∀ u : Int, ∀ e ∈ g.lista u, e.peso ≤ m) (i j : Int) (hi : Valido g i)
    (hj : Valido g j) : entrada (floydInicial g) i.toNat j.toNat ≤ m := by
  obtain ⟨h0, h1, h2⟩ := floydInicial_spec g hg i hi
  by_cases hij : j = i
  · subst hij
    rw [h0]; unfold INF at hm; omega
  · by_cases hex : ∃ e ∈ g.lista i, e.vertice = j
    · obtain ⟨e, he, hev⟩ := hex
      rw [← hev, h1 e he]
      exact hmax i e he
    · rw [h2 j hj hij (fun e he hev => hex ⟨e, he, hev⟩)]
      exact hm

theorem floyd_inicial_inv (g : Grafo) (hg : BemFormado g) : FloydInv g 0 (floydInicial g) := by
  refine ⟨quadrada_floydInicial g, ?_, ?_, fun _ _ _ _ => le_refl _⟩
  · intro i j hi hj p hc hnd hint _
    obtain ⟨h0, h1, _⟩ := floydInicial_spec g hg i hi
    have hval := (cadeia_valido g hg p i j hi hc).2
    cases p with
    | nil =>
      have : i = j := hc
      subst this
      rw [h0]; exact le_refl _
    | cons a t =>
      cases t with
      | nil =>
        obtain ⟨c1, c2, c3⟩ := hc
        have c3' : a.2.vertice = j := c3
        rw [← c3', h1 a.2 c2]
        simp [pesoCadeia]
      | cons b t' =>
        exfalso
        have hb : b.1 ∈ (fontes (a :: b :: t')).tail := by simp [fontes]
        have h2 := hint b.1 hb
        have h3 := (hval b.1 (by simp [fontes])).1
        omega
  · intro i j hi hj hne
    obtain ⟨h0, h1, h2⟩ := floydInicial_spec g hg i hi
    by_cases hij : j = i
    · subst hij
      exact ⟨[], rfl, by rw [h0]; rfl⟩
    · by_cases hex : ∃ e ∈ g.lista i, e.vertice = j
      · obtain ⟨e, he, hev⟩ := hex
        refine ⟨[(i, e)], ⟨rfl, he, hev⟩, ?_⟩
        rw [← hev, h1 e he]
        simp [pesoCadeia]
      · exfalso
        apply hne
        apply h2 j hj hij
        intro e he hev
        exact hex ⟨e, he, hev⟩

/-- Under the invariant every entry of the matrix lies in `[-1073741824, 1073741823]`, when
no stored weight is above and no walk is below that range: the sum of two entries is inside
`int`. -/
theorem floyd_faixa (g : Grafo) (hg : BemFormado g)
    (hmax : ∀ u : Int, ∀ e ∈ g.lista u, e.peso ≤ 1073741823)
    (hmin : ∀ u v c, Valido g u → CaminhoPeso g u v c → -1073741824 ≤ c)
    (k : Nat) (d : List (List Int)) (hi : FloydInv g k d) (a b : Nat)
    (ha : a < g.numVertices) (hb : b < g.numVertices) :
    -1073741824 ≤ entrada d a b ∧ entrada d a b ≤ 1073741823 := by
  have hINF : INF = 999999 := rfl
  have hav : Valido g (a : Int) := ⟨by omega, by omega⟩
  have hbv : Valido g (b : Int) := ⟨by omega, by omega⟩
  have h1 := hi.desce _ _ hav hbv
  have h2 := floydInicial_teto g hg 1073741823 (by rw [hINF]; norm_num) hmax _ _ hav hbv
  have h3 : entrada d (a : Int).toNat (b : Int).toNat = INF ∨
      -1073741824 ≤ entrada d (a : Int).toNat (b : Int).toNat := by
    by_cases h : entrada d (a : Int).toNat (b : Int).toNat = INF
    · exact Or.inl h
    · obtain ⟨p, hp, hw⟩ := hi.realizado _ _ hav hbv h
      have := hmin _ _ _ hav (caminhoPeso_de_cadeia g p _ _ hp)
      rw [hw] at this
      exact Or.inr this
  simp only [Int.toNat_ofNat] at h1 h2 h3
  constructor
  · rcases h3 with h | h
    · rw [h, hINF]; norm_num
    · exact h
  · omega

/-- One round of `algoritmoFloyd` carries the invariant from `k` to `k + 1`, when no stored
weight is above 1073741823 and no walk weighs less than -1073741824. -/
theorem floyd_rodada_inv (g : Grafo) (hg : BemFormado g) (hn : SemCicloNegativo g)
    (hmax : ∀ u : Int, ∀ e ∈ g.lista u, e.peso ≤ 1073741823)
    (hmin : ∀ u v c, Valido g u → CaminhoPeso g u v c → -1073741824 ≤ c)
    (k : Nat) (hk : k < g.numVertices)
    (d : List (List Int)) (hi : FloydInv g k d) :
    FloydInv g (k + 1) (floydRodada g.numVertices k d) := by
  have hkval : Valido g (k : Int) := ⟨by omega, by omega⟩
  have hktn : ((k : Int)).toNat = k := Int.toNat_ofNat k
  have hkk : 0 ≤ entrada d k k := by
    by_cases h : entrada d k k = INF
    · rw [h]; unfold INF; omega
    · have h' : entrada d (k : Int).toNat (k : Int).toNat ≠ INF := by rw [hktn]; exact h
      obtain ⟨p, hp, hw⟩ := hi.realizado _ _ hkval hkval h'
      have := hn _ _ (caminhoPeso_de_cadeia g p _ _ hp)
      rw [hw, hktn] at this
      exact this
  have hfx := floyd_faixa g hg hmax hmin k d hi
  have hsoma : ∀ a b c e : Nat, a < g.numVertices → b < g.numVertices → c < g.numVertices →
      e < g.numVertices →
      somaInt (entrada d a b) (entrada d c e) = entrada d a b + entrada d c e := by
    intro a b c e ha hb hc he
    have h1 := hfx a b ha hb
    have h2 := hfx c e hc he
    exact somaInt_eq _ _ (by omega) (by omega)
  obtain ⟨hq, hent⟩ := floydRodada_spec g.numVertices k d hi.quadrada
    (fun a ha => relaxVal_coluna d k a hkk (hsoma a k k k ha hk hk hk))
    (fun b hb => relaxVal_linha d k b hkk (hsoma k k k b hk hk hk hb)) hk
  have htn : ∀ i, Valido g i → i.toNat < g.numVertices := by
    intro i hi'
    have := hi'.1
    have := hi'.2
    omega
  have hent' : ∀ i j, Valido g i → Valido g j →
      entrada (floydRodada g.numVertices k d) i.toNat j.toNat = relaxVal d k i.toNat j.toNat := by
    intro i j hi' hj'
    exact hent _ _ (htn i hi') (htn j hj')
  refine ⟨hq, ?_, ?_, ?_⟩
  · intro i j hiv hjv p hc hnd hint hlim
    rw [hent' i j hiv hjv]
    by_cases hall : ∀ x ∈ (fontes p).tail, x < (k : Int)
    · exact le_trans (relaxVal_le d k _ _) (hi.inferior i j hiv hjv p hc hnd hall hlim)
    · -- the walk passes through `k` exactly once
      have hex : ∃ x ∈ (fontes p).tail, ¬ x < (k : Int) := by
        by_contra hcon
        apply hall
        intro x hx
        by_contra hx2
        exact hcon ⟨x, hx, hx2⟩
      obtain ⟨x, hx, hxk⟩ := hex
      have hxk' : x = (k : Int) := by
        have := hint x hx
        push_cast at this
        omega
      subst hxk'
      cases p with
      | nil => simp [fontes] at hx
      | cons a t =>
        have hx' : (k : Int) ∈ fontes t := by simpa [fontes] using hx
        obtain ⟨y, hy, hyk⟩ := List.mem_map.mp hx'
        obtain ⟨t1, t2, hsplit⟩ := List.append_of_mem hy
        have hp : a :: t = (a :: t1) ++ (y :: t2) := by rw [hsplit]; rfl
        rw [hp] at hc hnd hint hlim
        obtain ⟨m, hc1, hc2⟩ := (cadeia_append g _ _ i j).mp hc
        have hm : m = (k : Int) := by
          obtain ⟨hh1, _, _⟩ := hc2
          rw [← hh1, hyk]
        subst hm
        have hlim1 : Limitada (a :: t1) :=
          limitada_infixo _ _ hlim ⟨[], y :: t2, by simp⟩
        have hlim2 : Limitada (y :: t2) :=
          limitada_infixo _ _ hlim ⟨a :: t1, [], by simp⟩
        have hl1 := limitada_peso _ hlim1
        have hl2 := limitada_peso _ hlim2
        have hfont : fontes ((a :: t1) ++ (y :: t2)) =
            a.1 :: (fontes t1 ++ (k : Int) :: fontes t2) := by
          simp [fontes, hyk]
        rw [hfont] at hnd hint
        have hnd' := List.nodup_cons.mp hnd
        have hnd2 := List.nodup_append.mp hnd'.2
        have hkt1 : (k : Int) ∉ fontes t1 := by
          intro hmem
          exact hnd2.2.2 hmem (List.mem_cons_self _ _)
        have hkt2 : (k : Int) ∉ fontes t2 := (List.nodup_cons.mp hnd2.2.1).1
        have hint1 : ∀ z ∈ (fontes (a :: t1)).tail, z < (k : Int) := by
          intro z hz
          have hz' : z ∈ fontes t1 := by simpa [fontes] using hz
          have h1 := hint z (by
            simp only [List.tail_cons, List.mem_append]
            exact Or.inl hz')
          have h2 : z ≠ (k : Int) := fun h => hkt1 (h ▸ hz')
          push_cast at h1
          omega
        have hint2 : ∀ z ∈ (fontes (y :: t2)).tail, z < (k : Int) := by
          intro z hz
          have hz' : z ∈ fontes t2 := by simpa [fontes] using hz
          have h1 := hint z (by
            simp only [List.tail_cons, List.mem_append, List.mem_cons]
            exact Or.inr (Or.inr hz'))
          have h2 : z ≠ (k : Int) := fun h => hkt2 (h ▸ hz')
          push_cast at h1
          omega
        have hndp1 : (fontes (a :: t1)).Nodup := by
          have : fontes (a :: t1) = a.1 :: fontes t1 := by simp [fontes]
          rw [this, List.nodup_cons]
          refine ⟨?_, hnd2.1⟩
          intro hmem
          exact hnd'.1 (List.mem_append.mpr (Or.inl hmem))
        have hndp2 : (fontes (y :: t2)).Nodup := by
          have : fontes (y :: t2) = (k : Int) :: fontes t2 := by simp [fontes, hyk]
          rw [this]
          exact hnd2.2.1
        have b1 := hi.inferior i _ hiv hkval _ hc1 hndp1 hint1 hlim1
        have b2 := hi.inferior _ j hkval hjv _ hc2 hndp2 hint2 hlim2
        rw [hktn] at b1 b2
        rw [hp, pesoCadeia_append]
        unfold relaxVal
        rw [hsoma _ _ _ _ (htn i hiv) hk hk (htn j hjv)]
        split
        · omega
        · rename_i hcond
          by_contra hgt
          apply hcond
          refine ⟨by omega, by omega, by omega⟩
  · intro i j hiv hjv hne
    rw [hent' i j hiv hjv] at hne ⊢
    unfold relaxVal at hne ⊢
    rw [hsoma _ _ _ _ (htn i hiv) hk hk (htn j hjv)] at hne ⊢
    split at hne
    · rename_i hcond
      rw [if_pos hcond]
      have h1 : entrada d i.toNat (k : Int).toNat ≠ INF := by rw [hktn]; exact hcond.1
      have h2 : entrada d (k : Int).toNat j.toNat ≠ INF := by rw [hktn]; exact hcond.2.1
      obtain ⟨p1, hp1, hw1⟩ := hi.realizado i _ hiv hkval h1
      obtain ⟨p2, hp2, hw2⟩ := hi.realizado _ j hkval hjv h2
      refine ⟨p1 ++ p2, (cadeia_append g p1 p2 i j).mpr ⟨_, hp1, hp2⟩, ?_⟩
      rw [pesoCadeia_append, hw1, hw2, hktn]
    · rename_i hcond
      rw [if_neg hcond]
      exact hi.realizado i j hiv hjv hne
  · intro i j hiv hjv
    rw [hent' i j hiv hjv]
    exact le_trans (relaxVal_le d k _ _) (hi.desce i j hiv hjv)

theorem floyd_laco_inv (g : Grafo) (hg : BemFormado g) (hn : SemCicloNegativo g)
    (hmax : ∀ u : Int, ∀ e ∈ g.lista u, e.peso ≤ 1073741823)
    (hmin : ∀ u v c, Valido g u → CaminhoPeso g u v c → -1073741824 ≤ c)
    (m : Nat) (hm : m ≤ g.numVertices) :
    FloydInv g m ((List.range m).foldl (fun d k => floydRodada g.numVertices k d)
      (floydInicial g)) := by
  induction m with
  | zero => exact floyd_inicial_inv g hg
  | succ m ih =>
    rw [List.range_succ, List.foldl_append]
    simp only [List.foldl_cons, List.foldl_nil]
    exact floyd_rodada_inv g hg hn hmax hmin m (by omega) _ (ih (by omega))

/-- The matrix returned by `algoritmoFloyd` on a well-formed graph without negative closed
walks, when no stored weight is above 1073741823 and no walk weighs less than -1073741824:
an entry is at most the weight of every duplicate-free walk whose parts all weigh less than
`INF`, an entry other than `INF` is the weight of a walk, and no entry exceeds its initial
value. -/
theorem floyd_geral (g : Grafo) (hg : BemFormado g) (hn : SemCicloNegativo g)
    (hmax : ∀ u : Int, ∀ e ∈ g.lista u, e.peso ≤ 1073741823)
    (hmin : ∀ u v c, Valido g u → CaminhoPeso g u v c → -1073741824 ≤ c)
    (i j : Int) (hi : Valido g i) (hj : Valido g j) :
    (∀ p, Cadeia g i p j → (fontes p).Nodup → Limitada p →
      entrada (algoritmoFloyd g) i.toNat j.toNat ≤ pesoCadeia p) ∧
    (entrada (algoritmoFloyd g) i.toNat j.toNat ≠ INF →
      CaminhoPeso g i j (entrada (algoritmoFloyd g) i.toNat j.toNat)) ∧
    entrada (algoritmoFloyd g) i.toNat j.toNat ≤ entrada (floydInicial g) i.toNat j.toNat := by
  have hinv := floyd_laco_inv g hg hn hmax hmin g.numVertices (le_refl _)
  have halg : algoritmoFloyd g = (List.range g.numVertices).foldl
      (fun d k => floydRodada g.numVertices k d) (floydInicial g) := rfl
  rw [← halg] at hinv
  refine ⟨?_, ?_, hinv.desce i j hi hj⟩
  · intro p hp hnd hlim
    have hval := (cadeia_valido g hg p i j hi hp).2
    exact hinv.inferior i j hi hj p hp hnd
      (fun x hx => (hval x (List.mem_of_mem_tail hx)).2) hlim
  · intro hne
    obtain ⟨p, hp, hw⟩ := hinv.realizado i j hi hj hne
    rw [← hw]
    exact caminhoPeso_de_cadeia g p i j hp

/-! ## Floyd-Warshall: the claims -/

/-- C8 (amended): for every well-formed graph without negative closed walks (negative
weights allowed) in which every two vertices joined by a walk are joined by one of total
weight below 999999, no stored weight is above 1073741823 and no walk weighs less than
-1073741824 (so that no sum of two entries leaves `int`), the matrix computed by
`algoritmoFloyd` satisfies, for all vertices `i` and `j`: when a walk from `i` to `j`
exists, `dist[i][j]` is the minimum total weight over all walks from `i` to `j`;
`dist[i][j]` is 999999 exactly when no walk from `i` to `j` exists; and `dist[i][i]` is 0. -/
theorem algoritmoFloyd_correto (g : Grafo) (hg : BemFormado g) (hn : SemCicloNegativo g)
    (hperto : ∀ u v, Valido g u → Valido g v → (∃ c, CaminhoPeso g u v c) →
      ∃ c, CaminhoPeso g u v c ∧ c < 999999)
    (hmax : ∀ u : Int, ∀ e ∈ g.lista u, e.peso ≤ 1073741823)
    (hmin : ∀ u v c, Valido g u → CaminhoPeso g u v c → -1073741824 ≤ c)
    (i j : Int) (hi : Valido g i) (hj : Valido g j) :
    ((∃ c, CaminhoPeso g i j c) →
      CaminhoPeso g i j (entrada (algoritmoFloyd g) i.toNat j.toNat) ∧
      ∀ c, CaminhoPeso g i j c → entrada (algoritmoFloyd g) i.toNat j.toNat ≤ c) ∧
    (entrada (algoritmoFloyd g) i.toNat j.toNat = 999999 ↔ ¬ ∃ c, CaminhoPeso g i j c) ∧
    entrada (algoritmoFloyd g) i.toNat i.toNat = 0 := by
  have hINF : INF = 999999 := rfl
  -- the entry of two vertices joined by a walk is the least weight of a walk
  have hexato : ∀ a b, Valido g a → Valido g b → (∃ c, CaminhoPeso g a b c) →
      entrada (algoritmoFloyd g) a.toNat b.toNat < 999999 ∧
      CaminhoPeso g a b (entrada (algoritmoFloyd g) a.toNat b.toNat) ∧
      ∀ c, CaminhoPeso g a b c → entrada (algoritmoFloyd g) a.toNat b.toNat ≤ c := by
    intro a b ha hb hex
    obtain ⟨f1, f2, _⟩ := floyd_geral g hg hn hmax hmin a b ha hb
    obtain ⟨c0, hc0, hleast⟩ := Int.exists_least_of_bdd
      ⟨-1073741824, fun z hz => hmin a b z ha hz⟩ hex
    obtain ⟨p, hp, hw⟩ := cadeia_de_caminhoPeso g a b c0 hc0
    obtain ⟨q, hq, hle, hnd, _, _⟩ := cadeia_simples g hn p a b hp
    have hqc := caminhoPeso_de_cadeia g q a b hq
    have hq0 : pesoCadeia q = c0 := le_antisymm (by omega) (hleast _ hqc)
    have hlim := limitada_de_minima g hg hperto a b ha q hq
      (fun c hc => by rw [hq0]; exact hleast c hc)
    have h1 := f1 q hq hnd hlim
    obtain ⟨c1, hc1, hlt1⟩ := hperto a b ha hb hex
    have h2 := hleast c1 hc1
    have hne : entrada (algoritmoFloyd g) a.toNat b.toNat ≠ INF := by rw [hINF]; omega
    have h3 := hleast _ (f2 hne)
    refine ⟨by omega, f2 hne, ?_⟩
    intro c hc
    have := hleast c hc
    omega
  obtain ⟨_, f2, _⟩ := floyd_geral g hg hn hmax hmin i j hi hj
  refine ⟨?_, ?_, ?_⟩
  · intro hex
    exact (hexato i j hi hj hex).2
  · constructor
    · intro heq hex
      have := (hexato i j hi hj hex).1
      omega
    · intro hno
      by_contra hne
      exact hno ⟨_, f2 (by rw [hINF]; exact hne)⟩
  · obtain ⟨_, h2, h3⟩ := hexato i i hi hi ⟨0, CaminhoPeso.nulo⟩
    have := h3 0 CaminhoPeso.nulo
    have := hn i _ h2
    omega

set_option maxRecDepth 100000 in
/-- On the weighted five-vertex example every two vertices are joined by a walk of total
weight below 999999. -/
theorem perto_exemploPonderado (u v : Int) (hu : Valido exemploPonderado u)
    (hv : Valido exemploPonderado v) :
    ∃ c, CaminhoPeso exemploPonderado u v c ∧ c < 999999 := by
  have hb := bemFormado_de_alcancavel _ alcancavel_exemploPonderado
  have hp : PesosNaoNegativos exemploPonderado := pesosNaoNegativos_de_todos _ (by decide)
  obtain ⟨_, f2, _⟩ := floyd_geral exemploPonderado hb (semCiclo_de_naoNeg _ hp)
    (pesosAte_de_todos _ _ (by decide))
    (fun a b c _ hc => le_trans (by norm_num) (caminhoPeso_naoNeg _ hp a b c hc)) u v hu hv
  have hM : algoritmoFloyd exemploPonderado =
      [[0, 5, 3, 5, 6], [5, 0, 8, 7, 8], [3, 8, 0, 2, 3], [5, 7, 2, 0, 1], [6, 8, 3, 1, 0]] := by
    decide
  have hall : ∀ a : Nat, a < 5 → ∀ b : Nat, b < 5 →
      entrada [[0, 5, 3, 5, 6], [5, 0, 8, 7, 8], [3, 8, 0, 2, 3], [5, 7, 2, 0, 1],
        [6, 8, 3, 1, 0]] a b < 999999 := by decide
  have hn5 : exemploPonderado.numVertices = 5 := by decide
  have h1 : u.toNat < 5 := by
    have := hu.1
    have h := hu.2
    rw [hn5] at h
    omega
  have h2 : v.toNat < 5 := by
    have := hv.1
    have h := hv.2
    rw [hn5] at h
    omega
  have h3 := hall _ h1 _ h2
  rw [← hM] at h3
  exact ⟨_, f2 (by unfold INF; omega), h3⟩

set_option maxRecDepth 100000 in
/-- Witness for C8: the statement applied to the weighted five-vertex example and the
pair `(0, 4)`. -/
theorem algoritmoFloyd_correto_witness :
    algoritmoFloyd exemploPonderado =
      [[0, 5, 3, 5, 6], [5, 0, 8, 7, 8], [3, 8, 0, 2, 3], [5, 7, 2, 0, 1], [6, 8, 3, 1, 0]] ∧
    ((∃ c, CaminhoPeso exemploPonderado 0 4 c) →
      CaminhoPeso exemploPonderado 0 4
        (entrada (algoritmoFloyd exemploPonderado) (0 : Int).toNat (4 : Int).toNat) ∧
      ∀ c, CaminhoPeso exemploPonderado 0 4 c →
        entrada (algoritmoFloyd exemploPonderado) (0 : Int).toNat (4 : Int).toNat ≤ c) ∧
    (entrada (algoritmoFloyd exemploPonderado) (0 : Int).toNat (4 : Int).toNat = 999999 ↔
      ¬ ∃ c, CaminhoPeso exemploPonderado 0 4 c) ∧
    entrada (algoritmoFloyd exemploPonderado) (0 : Int).toNat (0 : Int).toNat = 0 :=
  ⟨by decide, algoritmoFloyd_correto exemploPonderado
    (bemFormado_de_alcancavel _ alcancavel_exemploPonderado)
    (semCiclo_de_naoNeg _ (pesosNaoNegativos_de_todos _ (by decide)))
    (fun u v hu hv _ => perto_exemploPonderado u v hu hv)
    (pesosAte_de_todos _ _ (by decide))
    (fun a b c _ hc => le_trans (by norm_num)
      (caminhoPeso_naoNeg _ (pesosNaoNegativos_de_todos _ (by decide)) a b c hc))
    0 4 ⟨by decide, by decide⟩ ⟨by decide, by decide⟩⟩

theorem lista_de_A (g : Grafo) (u : Int) (l0 l1 l2 : List ElemLista) (h : g.A = [l0, l1, l2])
    (e : ElemLista) (he : e ∈ g.lista u) :
    (u ≤ 0 ∧ e ∈ l0) ∨ (u = 1 ∧ e ∈ l1) ∨ (u = 2 ∧ e ∈ l2) := by
  unfold Grafo.lista at he
  rw [h] at he
  rcases Nat.lt_or_ge u.toNat 3 with h3 | h3
  · interval_cases hu : u.toNat
    · left; exact ⟨by omega, by simpa using he⟩
    · right; left; exact ⟨by omega, by simpa using he⟩
    · right; right; exact ⟨by omega, by simpa using he⟩
  · rw [List.getD_eq_default _ _ (by simpa using h3)] at he
    simp at he

set_option maxRecDepth 100000 in
/-- C8 counterexample: on the directed three-vertex graph with the entries `0 -> 1` of
weight 999999 and `1 -> 2` of weight -5 there is no closed walk other than the empty ones,
the walk `0 -> 1 -> 2` weighs 999994, and `algoritmoFloyd` leaves `dist[0][2] = 999999`:
the round of the intermediate vertex 1 is skipped because `dist[0][1]` equals `INF`. -/
theorem algoritmoFloyd_contraexemplo :
    Alcancavel (adicionaArestaDirecionada
      (adicionaArestaDirecionada (Grafo.novo 3 true true) 0 1 999999) 1 2 (-5)) ∧
    SemCicloNegativo (adicionaArestaDirecionada
      (adicionaArestaDirecionada (Grafo.novo 3 true true) 0 1 999999) 1 2 (-5)) ∧
    CaminhoPeso (adicionaArestaDirecionada
      (adicionaArestaDirecionada (Grafo.novo 3 true true) 0 1 999999) 1 2 (-5)) 0 2 999994 ∧
    entrada (algoritmoFloyd (adicionaArestaDirecionada
      (adicionaArestaDirecionada (Grafo.novo 3 true true) 0 1 999999) 1 2 (-5))) 0 2 = 999999 := by
  generalize hG : adicionaArestaDirecionada
      (adicionaArestaDirecionada (Grafo.novo 3 true true) 0 1 999999) 1 2 (-5) = G
  have hA : G.A = [[⟨1, 999999⟩], [⟨2, -5⟩], []] := by rw [← hG]; decide
  refine ⟨?_, ?_, ?_, ?_⟩
  · rw [← hG]
    exact Alcancavel.adicionaDir _ _ _ _ (Alcancavel.adicionaDir _ _ _ _
      (Alcancavel.novo 3 true true))
  · have key : ∀ u v c, CaminhoPeso G u v c → (v = u ∧ c = 0) ∨ (u < v ∧ 0 < v) := by
      intro u v c h
      induction h with
      | nulo => exact Or.inl ⟨rfl, rfl⟩
      | passo v c e _ he ih =>
        right
        rcases lista_de_A G v _ _ _ hA e he with ⟨h1, h2⟩ | ⟨h1, h2⟩ | ⟨_, h2⟩
        · have : e = ⟨1, 999999⟩ := by simpa using h2
          subst this
          rcases ih with ⟨h3, _⟩ | ⟨h3, _⟩
          · exact ⟨by show u < 1; omega, by show (0 : Int) < 1; omega⟩
          · exact ⟨by show u < 1; omega, by show (0 : Int) < 1; omega⟩
        · have : e = ⟨2, -5⟩ := by simpa using h2
          subst this
          rcases ih with ⟨h3, _⟩ | ⟨h3, _⟩
          · exact ⟨by show u < 2; omega, by show (0 : Int) < 2; omega⟩
          · exact ⟨by show u < 2; omega, by show (0 : Int) < 2; omega⟩
        · simp at h2
    intro v c h
    rcases key v v c h with ⟨_, h0⟩ | ⟨h1, _⟩
    · omega
    · omega
  · have h1 : CaminhoPeso G 0 1 (0 + 999999) :=
      @CaminhoPeso.passo G 0 0 0 ⟨1, 999999⟩ CaminhoPeso.nulo
        (by unfold Grafo.lista; rw [hA]; decide)
    have h2 : CaminhoPeso G 0 2 (0 + 999999 + -5) :=
      @CaminhoPeso.passo G 0 1 (0 + 999999) ⟨2, -5⟩ h1
        (by unfold Grafo.lista; rw [hA]; decide)
    exact h2
  · rw [← hG]; decide

/-! ## Dijkstra and Floyd-Warshall agree -/

/-- C9 (amended): for every well-formed graph whose stored weights all lie in
`[0, 999999]`, every valid source `s` and every vertex `i`, the entry `dist[s][i]` of the
matrix computed by `algoritmoFloyd` equals the distance to `i` computed by
`algoritmoDijkstra(s)`. -/
theorem floyd_igual_dijkstra (g : Grafo) (hg : BemFormado g) (hp : PesosNaoNegativos g)
    (hteto : ∀ u : Int, ∀ e ∈ g.lista u, e.peso ≤ 999999) (s i : Int) (hs : Valido g s)
    (hi : Valido g i) :
    ∃ dist, algoritmoDijkstra g s = Except.ok dist ∧
      entrada (algoritmoFloyd g) s.toNat i.toNat = dist.getD i.toNat 0 := by
  have hINF : INF = 999999 := rfl
  obtain ⟨dist, hrun, _, hall⟩ := dijkstra_geral g s hg hp
    (fun u e he => le_trans (hteto u e he) (by norm_num)) hs
  obtain ⟨d1, d2, d3⟩ := hall i hi
  have hn := semCiclo_de_naoNeg g hp
  obtain ⟨g1, f2, g3⟩ := floyd_geral g hg hn
    (fun u e he => le_trans (hteto u e he) (by norm_num))
    (fun a b c _ hc => le_trans (by norm_num) (caminhoPeso_naoNeg g hp a b c hc)) s i hs hi
  have f3 : entrada (algoritmoFloyd g) s.toNat i.toNat ≤ INF :=
    le_trans g3 (floydInicial_teto g hg INF (le_refl _) (by rw [hINF]; exact hteto) s i hs hi)
  have f1 : ∀ c, CaminhoPeso g s i c → c < INF →
      entrada (algoritmoFloyd g) s.toNat i.toNat ≤ c := by
    intro c hc hlt
    obtain ⟨p, hp', hw⟩ := cadeia_de_caminhoPeso g s i c hc
    obtain ⟨q, hq, hle, hnd, _, _⟩ := cadeia_simples g hn p s i hp'
    have := g1 q hq hnd (limitada_de_naoNeg g hp q s i hq (by omega))
    omega
  rw [hINF] at f1 f2 f3
  refine ⟨dist, hrun, ?_⟩
  by_cases hlt : dist.getD i.toNat 0 < 999999
  · have h1 := f1 _ (d3 hlt) hlt
    have h2 := d2 _ (f2 (by omega))
    omega
  · by_cases hf : entrada (algoritmoFloyd g) s.toNat i.toNat = 999999
    · omega
    · have h2 := d2 _ (f2 hf)
      omega

/-- Witness for C9: the statement applied to the weighted five-vertex example, the source 0
and the vertex 4. -/
theorem floyd_igual_dijkstra_witness :
    ∃ dist, algoritmoDijkstra exemploPonderado 0 = Except.ok dist ∧
      entrada (algoritmoFloyd exemploPonderado) (0 : Int).toNat (4 : Int).toNat =
        dist.getD (4 : Int).toNat 0 :=
  floyd_igual_dijkstra exemploPonderado
    (bemFormado_de_alcancavel _ alcancavel_exemploPonderado)
    (pesosNaoNegativos_de_todos _ (by decide))
    (fun u e he => by
      obtain ⟨l, hl, hel⟩ := mem_lista_mem_A exemploPonderado u e he
      have h : ∀ l ∈ exemploPonderado.A, ∀ e ∈ l, e.peso ≤ 999999 := by decide
      exact h l hl e hel)
    0 4 ⟨by decide, by decide⟩ ⟨by decide, by decide⟩

/-- C9 counterexample: on the undirected two-vertex graph with the single edge `0 - 1` of
weight 2000000 (non-negative weights) `algoritmoFloyd` stores `dist[0][1] = 2000000` while
`algoritmoDijkstra(0)` stores 999999 for vertex 1. -/
theorem floyd_igual_dijkstra_contraexemplo :
    Alcancavel (adicionaAresta (Grafo.novo 2 false true) 0 1 2000000) ∧
    PesosNaoNegativos (adicionaAresta (Grafo.novo 2 false true) 0 1 2000000) ∧
    algoritmoDijkstra (adicionaAresta (Grafo.novo 2 false true) 0 1 2000000) 0 =
      Except.ok [0, 999999] ∧
    algoritmoFloyd (adicionaAresta (Grafo.novo 2 false true) 0 1 2000000) =
      [[0, 2000000], [2000000, 0]] :=
  ⟨Alcancavel.adiciona _ _ _ _ (Alcancavel.novo 2 false true),
    pesosNaoNegativos_de_todos _ (by decide), rfl, by decide⟩

/-! ## Connectivity and forests -/

theorem con_mono (E F : Finset Aresta) (h : E ⊆ F) (a b : Int) (hc : Con E a b) : Con F a b := by
  induction hc with
  | rel x y hxy =>
    obtain ⟨e, he, h1, h2⟩ := hxy
    exact Relation.EqvGen.rel _ _ ⟨e, h he, h1, h2⟩
  | refl x => exact Relation.EqvGen.refl x
  | symm x y _ ih => exact Relation.EqvGen.symm _ _ ih
  | trans x y z _ _ ih1 ih2 => exact Relation.EqvGen.trans _ _ _ ih1 ih2

theorem con_refl (E : Finset Aresta) (a : Int) : Con E a a := Relation.EqvGen.refl a

theorem con_symm (E : Finset Aresta) (a b : Int) (h : Con E a b) : Con E b a :=
  Relation.EqvGen.symm _ _ h

theorem con_trans (E : Finset Aresta) (a b c : Int) (h1 : Con E a b) (h2 : Con E b c) :
    Con E a c := Relation.EqvGen.trans _ _ _ h1 h2

theorem con_aresta (E : Finset Aresta) (e : Aresta) (he : e ∈ E) :
    Con E e.origem e.destino := Relation.EqvGen.rel _ _ ⟨e, he, rfl, rfl⟩

/-- Adding one edge connects two vertices only through that edge. -/
theorem con_insert (E : Finset Aresta) (e : Aresta) (a b : Int)
    (h : Con (insert e E) a b) :
    Con E a b ∨ (Con E a e.origem ∧ Con E e.destino b) ∨
      (Con E a e.destino ∧ Con E e.origem b) := by
  induction h with
  | rel x y hxy =>
    obtain ⟨f, hf, h1, h2⟩ := hxy
    rcases Finset.mem_insert.mp hf with hfe | hfE
    · subst hfe
      right; left
      rw [← h1, ← h2]
      exact ⟨con_refl E _, con_refl E _⟩
    · left
      rw [← h1, ← h2]
      exact con_aresta E f hfE
  | refl x => exact Or.inl (con_refl E x)
  | symm x y _ ih =>
    rcases ih with h | ⟨h1, h2⟩ | ⟨h1, h2⟩
    · exact Or.inl (con_symm E _ _ h)
    · exact Or.inr (Or.inr ⟨con_symm E _ _ h2, con_symm E _ _ h1⟩)
    · exact Or.inr (Or.inl ⟨con_symm E _ _ h2, con_symm E _ _ h1⟩)
  | trans x y z _ _ ih1 ih2 =>
    rcases ih1 with h | ⟨h1, h2⟩ | ⟨h1, h2⟩
    · rcases ih2 with k | ⟨k1, k2⟩ | ⟨k1, k2⟩
      · exact Or.inl (con_trans E _ _ _ h k)
      · exact Or.inr (Or.inl ⟨con_trans E _ _ _ h k1, k2⟩)
      · exact Or.inr (Or.inr ⟨con_trans E _ _ _ h k1, k2⟩)
    · rcases ih2 with k | ⟨k1, k2⟩ | ⟨k1, k2⟩
      · exact Or.inr (Or.inl ⟨h1, con_trans E _ _ _ h2 k⟩)
      · exact Or.inr (Or.inl ⟨h1, k2⟩)
      · exact Or.inl (con_trans E _ _ _ h1 k2)
    · rcases ih2 with k | ⟨k1, k2⟩ | ⟨k1, k2⟩
      · exact Or.inr (Or.inr ⟨h1, con_trans E _ _ _ h2 k⟩)
      · exact Or.inl (con_trans E _ _ _ h1 k2)
      · exact Or.inr (Or.inr ⟨h1, k2⟩)

theorem con_insert_de (E : Finset Aresta) (e : Aresta) (a b : Int)
    (h : Con E a b ∨ (Con E a e.origem ∧ Con E e.destino b) ∨
      (Con E a e.destino ∧ Con E e.origem b)) : Con (insert e E) a b := by
  have hsub : E ⊆ insert e E := Finset.subset_insert e E
  have he : Con (insert e E) e.origem e.destino := con_aresta _ e (Finset.mem_insert_self e E)
  rcases h with h | ⟨h1, h2⟩ | ⟨h1, h2⟩
  · exact con_mono E _ hsub a b h
  · exact con_trans _ _ _ _ (con_mono E _ hsub _ _ h1)
      (con_trans _ _ _ _ he (con_mono E _ hsub _ _ h2))
  · exact con_trans _ _ _ _ (con_mono E _ hsub _ _ h1)
      (con_trans _ _ _ _ (con_symm _ _ _ he) (con_mono E _ hsub _ _ h2))

theorem floresta_sub (T S : Finset Aresta) (h : S ⊆ T) (hT : Floresta T) : Floresta S := by
  intro e he hc
  exact hT e (h he) (con_mono _ _ (Finset.erase_subset_erase e h) _ _ hc)

/-- In a forest `T` that connects `a` and `b`, while its part `S` does not, some edge of `T`
outside `S` separates `a` from `b`. -/
theorem aresta_separadora (a b : Int) (S : Finset Aresta) (hS : ¬ Con S a b) :
    ∀ (m : Nat) (T : Finset Aresta), T.card = m → Floresta T → S ⊆ T → Con T a b →
      ∃ f ∈ T, f ∉ S ∧ ¬ Con (T.erase f) a b := by
  intro m
  induction m with
  | zero =>
    intro T hcard _ hST hcon
    have : T = ∅ := Finset.card_eq_zero.mp hcard
    subst this
    have : S = ∅ := Finset.subset_empty.mp hST
    subst this
    exact absurd hcon hS
  | succ m ih =>
    intro T hcard hT hST hcon
    by_cases hall : T ⊆ S
    · exact absurd (con_mono T S hall a b hcon) hS
    · obtain ⟨f, hfT, hfS⟩ := Finset.not_subset.mp hall
      by_cases hsep : Con (T.erase f) a b
      · have hcard1 : (T.erase f).card = m := by
          rw [Finset.card_erase_of_mem hfT, hcard]; rfl
        have hS1 : S ⊆ T.erase f := by
          intro x hx
          exact Finset.mem_erase.mpr ⟨fun h => hfS (h ▸ hx), hST hx⟩
        obtain ⟨f', hf'T, hf'S, hf'sep⟩ := ih (T.erase f) hcard1
          (floresta_sub T _ (Finset.erase_subset f T) hT) hS1 hsep
        refine ⟨f', (Finset.mem_erase.mp hf'T).2, hf'S, ?_⟩
        have hne : f ≠ f' := fun h => (Finset.mem_erase.mp hf'T).1 h.symm
        have heq : T.erase f' = insert f ((T.erase f).erase f') := by
          ext x
          simp only [Finset.mem_erase, Finset.mem_insert]
          constructor
          · rintro ⟨h1, h2⟩
            by_cases hxf : x = f
            · exact Or.inl hxf
            · exact Or.inr ⟨h1, hxf, h2⟩
          · rintro (h | ⟨h1, _, h3⟩)
            · subst h; exact ⟨hne, hfT⟩
            · exact ⟨h1, h3⟩
        have heq1 : T.erase f = insert f' ((T.erase f).erase f') :=
          (Finset.insert_erase hf'T).symm
        intro hcon'
        rw [heq] at hcon'
        have hsub : (T.erase f).erase f' ⊆ T.erase f := Finset.erase_subset _ _
        have hf' : Con (T.erase f) f'.origem f'.destino := con_aresta _ f' hf'T
        -- both `f` and `f'` bridge `a` and `b` over the remaining edges
        have k1 := con_insert _ f a b hcon'
        rw [heq1] at hsep
        have k2 := con_insert _ f' a b hsep
        apply hT f hfT
        have up : ∀ x y, Con ((T.erase f).erase f') x y → Con (T.erase f) x y :=
          fun x y h => con_mono _ _ hsub x y h
        rcases k1 with k1 | ⟨p1, p2⟩ | ⟨p1, p2⟩
        · exact absurd k1 hf'sep
        · rcases k2 with k2 | ⟨q1, q2⟩ | ⟨q1, q2⟩
          · exact absurd k2 hf'sep
          · -- f.o ~ a ~ f'.o, f'.d ~ b ~ f.d
            exact con_trans _ _ _ _ (con_symm _ _ _ (up _ _ p1))
              (con_trans _ _ _ _ (up _ _ q1)
                (con_trans _ _ _ _ hf' (con_trans _ _ _ _ (up _ _ q2)
                  (con_symm _ _ _ (up _ _ p2)))))
          · exact con_trans _ _ _ _ (con_symm _ _ _ (up _ _ p1))
              (con_trans _ _ _ _ (up _ _ q1)
                (con_trans _ _ _ _ (con_symm _ _ _ hf') (con_trans _ _ _ _ (up _ _ q2)
                  (con_symm _ _ _ (up _ _ p2)))))
        · rcases k2 with k2 | ⟨q1, q2⟩ | ⟨q1, q2⟩
          · exact absurd k2 hf'sep
          · -- f.d ~ a ~ f'.o, f'.d ~ b ~ f.o
            exact con_symm _ _ _ (con_trans _ _ _ _ (con_symm _ _ _ (up _ _ p1))
              (con_trans _ _ _ _ (up _ _ q1)
                (con_trans _ _ _ _ hf' (con_trans _ _ _ _ (up _ _ q2)
                  (con_symm _ _ _ (up _ _ p2))))))
          · exact con_symm _ _ _ (con_trans _ _ _ _ (con_symm _ _ _ (up _ _ p1))
              (con_trans _ _ _ _ (up _ _ q1)
                (con_trans _ _ _ _ (con_symm _ _ _ hf') (con_trans _ _ _ _ (up _ _ q2)
                  (con_symm _ _ _ (up _ _ p2))))))
      · exact ⟨f, hfT, hfS, hsep⟩

/-- Exchange step: in a spanning forest, an edge that separates the endpoints of an outside
edge `e` can be swapped for `e`. -/
theorem troca_aresta (G T : Finset Aresta) (hT : FlorestaGeradora G T) (e f : Aresta)
    (heG : e ∈ G) (heT : e ∉ T) (hfT : f ∈ T)
    (hsep : ¬ Con (T.erase f) e.origem e.destino) :
    FlorestaGeradora G (insert e (T.erase f)) ∧
      custo (insert e (T.erase f)) = custo T - f.peso + e.peso := by
  obtain ⟨hsub, hfor, hspan⟩ := hT
  have heT' : e ∉ T.erase f := fun h => heT (Finset.mem_erase.mp h).2
  have hTeq : T = insert f (T.erase f) := (Finset.insert_erase hfT).symm
  have hconT : Con T e.origem e.destino := hspan _ _ (con_aresta G e heG)
  -- `f` bridges the endpoints of `e`
  have hbr : (Con (T.erase f) e.origem f.origem ∧ Con (T.erase f) f.destino e.destino) ∨
      (Con (T.erase f) e.origem f.destino ∧ Con (T.erase f) f.origem e.destino) := by
    rw [hTeq] at hconT
    rcases con_insert _ f _ _ hconT with h | h | h
    · exact absurd h hsep
    · exact Or.inl h
    · exact Or.inr h
  have hup : ∀ x y, Con (T.erase f) x y → Con (insert e (T.erase f)) x y :=
    fun x y h => con_mono _ _ (Finset.subset_insert _ _) x y h
  have he' : Con (insert e (T.erase f)) e.origem e.destino :=
    con_aresta _ e (Finset.mem_insert_self _ _)
  have hf' : Con (insert e (T.erase f)) f.origem f.destino := by
    rcases hbr with ⟨h1, h2⟩ | ⟨h1, h2⟩
    · exact con_trans _ _ _ _ (con_symm _ _ _ (hup _ _ h1))
        (con_trans _ _ _ _ he' (con_symm _ _ _ (hup _ _ h2)))
    · exact con_trans _ _ _ _ (hup _ _ h2)
        (con_trans _ _ _ _ (con_symm _ _ _ he') (hup _ _ h1))
  refine ⟨⟨?_, ?_, ?_⟩, ?_⟩
  · intro x hx
    rcases Finset.mem_insert.mp hx with h | h
    · rw [h]; exact heG
    · exact hsub (Finset.mem_erase.mp h).2
  · intro x hx hcon
    rcases Finset.mem_insert.mp hx with h | h
    · subst h
      rw [Finset.erase_insert heT'] at hcon
      exact hsep hcon
    · have hxT : x ∈ T := (Finset.mem_erase.mp h).2
      have hxe : x ≠ e := fun hh => heT' (hh ▸ h)
      have heq : (insert e (T.erase f)).erase x = insert e ((T.erase f).erase x) := by
        rw [Finset.erase_insert_of_ne (Ne.symm hxe)]
      rw [heq] at hcon
      have hsub2 : (T.erase f).erase x ⊆ T.erase x := by
        intro y hy
        have := Finset.mem_erase.mp hy
        exact Finset.mem_erase.mpr ⟨this.1, (Finset.mem_erase.mp this.2).2⟩
      have hsub3 : (T.erase f).erase x ⊆ T.erase f := Finset.erase_subset _ _
      have hx' : Con (T.erase f) x.origem x.destino := con_aresta _ x h
      rcases con_insert _ e _ _ hcon with k | ⟨k1, k2⟩ | ⟨k1, k2⟩
      · exact hfor x hxT (con_mono _ _ hsub2 _ _ k)
      · apply hsep
        exact con_trans _ _ _ _ (con_symm _ _ _ (con_mono _ _ hsub3 _ _ k1))
          (con_trans _ _ _ _ hx' (con_symm _ _ _ (con_mono _ _ hsub3 _ _ k2)))
      · apply hsep
        exact con_trans _ _ _ _ (con_mono _ _ hsub3 _ _ k2)
          (con_trans _ _ _ _ (con_symm _ _ _ hx') (con_mono _ _ hsub3 _ _ k1))
  · intro a b hab
    have h1 := hspan a b hab
    rw [hTeq] at h1
    rcases con_insert _ f a b h1 with k | ⟨k1, k2⟩ | ⟨k1, k2⟩
    · exact hup _ _ k
    · exact con_trans _ _ _ _ (hup _ _ k1) (con_trans _ _ _ _ hf' (hup _ _ k2))
    · exact con_trans _ _ _ _ (hup _ _ k1)
        (con_trans _ _ _ _ (con_symm _ _ _ hf') (hup _ _ k2))
  · unfold custo
    rw [Finset.sum_insert heT']
    rw [← Finset.sum_erase_add T (fun x => x.peso) hfT]
    ring

theorem guloso_sub (E F : List Aresta) (h : Guloso E F) : ∀ x ∈ F, x ∈ E := by
  induction h with
  | nil => intro x hx; exact hx
  | aceita E F e _ _ ih =>
    intro x hx
    rcases List.mem_append.mp hx with h | h
    · exact List.mem_append.mpr (Or.inl (ih x h))
    · exact List.mem_append.mpr (Or.inr h)
  | rejeita E F e _ _ ih =>
    intro x hx
    exact List.mem_append.mpr (Or.inl (ih x hx))

theorem toFinset_snoc (F : List Aresta) (e : Aresta) :
    (F ++ [e]).toFinset = insert e F.toFinset := by
  ext x
  simp only [List.mem_toFinset, List.mem_append, List.mem_singleton, Finset.mem_insert]
  tauto

theorem guloso_liga (E F : List Aresta) (h : Guloso E F) :
    ∀ x ∈ E, Con F.toFinset x.origem x.destino := by
  induction h with
  | nil => intro x hx; simp at hx
  | aceita E F e _ _ ih =>
    intro x hx
    rw [toFinset_snoc]
    rcases List.mem_append.mp hx with h | h
    · exact con_mono _ _ (Finset.subset_insert _ _) _ _ (ih x h)
    · have : x = e := by simpa using h
      subst this
      exact con_aresta _ x (Finset.mem_insert_self _ _)
  | rejeita E F e _ hc ih =>
    intro x hx
    rcases List.mem_append.mp hx with h | h
    · exact ih x h
    · have : x = e := by simpa using h
      subst this
      exact hc

theorem guloso_floresta (E F : List Aresta) (h : Guloso E F) :
    F.Nodup ∧ Floresta F.toFinset := by
  induction h with
  | nil =>
    refine ⟨List.nodup_nil, ?_⟩
    intro e he
    simp at he
  | aceita E F e _ hn ih =>
    have heF : e ∉ F.toFinset := fun h => hn (con_aresta _ e h)
    refine ⟨?_, ?_⟩
    · rw [List.nodup_append]
      refine ⟨ih.1, List.nodup_singleton e, ?_⟩
      intro x hx hx'
      have : x = e := by simpa using hx'
      subst this
      exact heF (List.mem_toFinset.mpr hx)
    · rw [toFinset_snoc]
      intro x hx hcon
      rcases Finset.mem_insert.mp hx with h | h
      · subst h
        rw [Finset.erase_insert heF] at hcon
        exact hn hcon
      · have hxe : x ≠ e := fun hh => heF (hh ▸ h)
        rw [Finset.erase_insert_of_ne (Ne.symm hxe)] at hcon
        have hsub : F.toFinset.erase x ⊆ F.toFinset := Finset.erase_subset _ _
        have hx' : Con F.toFinset x.origem x.destino := con_aresta _ x h
        rcases con_insert _ e _ _ hcon with k | ⟨k1, k2⟩ | ⟨k1, k2⟩
        · exact ih.2 x h k
        · apply hn
          exact con_trans _ _ _ _ (con_symm _ _ _ (con_mono _ _ hsub _ _ k1))
            (con_trans _ _ _ _ hx' (con_symm _ _ _ (con_mono _ _ hsub _ _ k2)))
        · apply hn
          exact con_trans _ _ _ _ (con_mono _ _ hsub _ _ k2)
            (con_trans _ _ _ _ (con_symm _ _ _ hx') (con_mono _ _ hsub _ _ k1))
  | rejeita E F e _ _ ih => exact ih

theorem guloso_gera (E F : List Aresta) (h : Guloso E F) (a b : Int)
    (hc : Con E.toFinset a b) : Con F.toFinset a b := by
  induction hc with
  | rel x y hxy =>
    obtain ⟨e, he, h1, h2⟩ := hxy
    rw [← h1, ← h2]
    exact guloso_liga E F h e (List.mem_toFinset.mp he)
  | refl x => exact con_refl _ x
  | symm x y _ ih => exact con_symm _ _ _ ih
  | trans x y z _ _ ih1 ih2 => exact con_trans _ _ _ _ ih1 ih2

/-- Every spanning forest can be turned, without increasing its weight, into one that
contains the edges accepted so far by the greedy run over a list sorted by weight. -/
theorem guloso_promissor (E F : List Aresta) (h : Guloso E F) :
    ∀ (R : List Aresta), (E ++ R).Pairwise (fun a b => a.peso ≤ b.peso) →
      ∀ T, FlorestaGeradora (E ++ R).toFinset T →
        ∃ T', FlorestaGeradora (E ++ R).toFinset T' ∧ custo T' ≤ custo T ∧
          F.toFinset ⊆ T' := by
  induction h with
  | nil =>
    intro R _ T hT
    exact ⟨T, hT, le_refl _, by simp⟩
  | aceita E F e hg hn ih =>
    intro R hsort T hT
    have hL : E ++ [e] ++ R = E ++ (e :: R) := by simp
    rw [hL] at hsort hT ⊢
    obtain ⟨T1, hT1, hc1, hF1⟩ := ih (e :: R) hsort T hT
    rw [toFinset_snoc]
    by_cases heT : e ∈ T1
    · refine ⟨T1, hT1, hc1, ?_⟩
      intro x hx
      rcases Finset.mem_insert.mp hx with h | h
      · rw [h]; exact heT
      · exact hF1 h
    · have heG : e ∈ (E ++ e :: R).toFinset := by simp
      have hcon : Con T1 e.origem e.destino := hT1.2.2 _ _ (con_aresta _ e heG)
      obtain ⟨f, hfT, hfF, hsep⟩ := aresta_separadora e.origem e.destino F.toFinset hn
        T1.card T1 rfl hT1.2.1 hF1 hcon
      have hFsub : F.toFinset ⊆ T1.erase f := by
        intro x hx
        exact Finset.mem_erase.mpr ⟨fun hh => hfF (hh ▸ hx), hF1 hx⟩
      -- `f` has not been looked at yet, so it is not lighter than `e`
      have hfG := hT1.1 hfT
      have hfR : f ∈ R := by
        have hmem : f ∈ E ++ e :: R := List.mem_toFinset.mp hfG
        rcases List.mem_append.mp hmem with h1 | h1
        · exfalso
          exact hT1.2.1 f hfT (con_mono _ _ hFsub _ _ (guloso_liga E F hg f h1))
        · rcases List.mem_cons.mp h1 with h2 | h2
          · exfalso; exact heT (h2 ▸ hfT)
          · exact h2
      have hpeso : e.peso ≤ f.peso := by
        have h1 := (List.pairwise_append.mp hsort).2.1
        exact (List.pairwise_cons.mp h1).1 f hfR
      obtain ⟨hT', hcusto⟩ := troca_aresta _ T1 hT1 e f heG heT hfT hsep
      refine ⟨insert e (T1.erase f), hT', by rw [hcusto]; omega, ?_⟩
      intro x hx
      rcases Finset.mem_insert.mp hx with h | h
      · rw [h]; exact Finset.mem_insert_self _ _
      · exact Finset.mem_insert_of_mem (hFsub h)
  | rejeita E F e _ _ ih =>
    intro R hsort T hT
    have hL : E ++ [e] ++ R = E ++ (e :: R) := by simp
    rw [hL] at hsort hT ⊢
    exact ih (e :: R) hsort T hT

/-- The greedy run over a list sorted by weight accepts a minimum spanning forest of the
edges of the list. -/
theorem guloso_minimo (E F : List Aresta) (h : Guloso E F)
    (hsort : E.Pairwise (fun a b => a.peso ≤ b.peso)) :
    F.Nodup ∧ FlorestaGeradora E.toFinset F.toFinset ∧
      ∀ T, FlorestaGeradora E.toFinset T → custo F.toFinset ≤ custo T := by
  obtain ⟨hnd, hfor⟩ := guloso_floresta E F h
  refine ⟨hnd, ⟨?_, hfor, guloso_gera E F h⟩, ?_⟩
  · intro x hx
    exact List.mem_toFinset.mpr (guloso_sub E F h x (List.mem_toFinset.mp hx))
  · intro T hT
    have h0 := guloso_promissor E F h [] (by simpa using hsort) T (by simpa using hT)
    obtain ⟨T', hT', hc, hsub⟩ := h0
    rw [List.append_nil] at hT'
    have heq : T' = F.toFinset := by
      apply Finset.Subset.antisymm _ hsub
      intro x hx
      by_contra hxF
      have hxE : x ∈ E := List.mem_toFinset.mp (hT'.1 hx)
      have hsub' : F.toFinset ⊆ T'.erase x := by
        intro y hy
        exact Finset.mem_erase.mpr ⟨fun hh => hxF (hh ▸ hy), hsub hy⟩
      exact hT'.2.1 x hx (con_mono _ _ hsub' _ _ (guloso_liga E F h x hxE))
    rw [← heq]
    exact hc

/-! ## Union-find -/

theorem raiz_unica (ds : DisjointSet) (x r r' : Int) (h : Raiz ds x r) (h' : Raiz ds x r') :
    r = r' := by
  induction h with
  | base x hx =>
    cases h' with
    | base _ _ => rfl
    | passo _ _ hne _ => exact absurd hx hne
  | passo x r hne _ ih =>
    cases h' with
    | base _ hx => exact absurd hx hne
    | passo _ _ _ hr => exact ih hr

theorem raiz_fixa (ds : DisjointSet) (x r : Int) (h : Raiz ds x r) : ds.p r = r := by
  induction h with
  | base x hx => exact hx
  | passo x r _ _ ih => exact ih

theorem raiz_valida (n : Nat) (ds : DisjointSet) (hi : DSInv n ds) (x r : Int)
    (hx : 0 ≤ x ∧ x < (n : Int)) (h : Raiz ds x r) : 0 ≤ r ∧ r < (n : Int) := by
  induction h with
  | base x _ => exact hx
  | passo x r _ _ ih => exact ih (hi.paiValido x hx.1 hx.2)

theorem raiz_rank (n : Nat) (ds : DisjointSet) (hi : DSInv n ds) (x r : Int)
    (hx : 0 ≤ x ∧ x < (n : Int)) (h : Raiz ds x r) : ds.r x ≤ ds.r r ∧ (x ≠ r → ds.r x < ds.r r) := by
  induction h with
  | base x _ => exact ⟨le_refl _, fun h => absurd rfl h⟩
  | passo x r hne _ ih =>
    have h1 := hi.sobe x hx.1 hx.2 hne
    have h2 := (ih (hi.paiValido x hx.1 hx.2)).1
    exact ⟨by omega, fun _ => by omega⟩

theorem altura_desce (n : Nat) (ds : DisjointSet) (x y : Int) (hy : 0 ≤ y ∧ y < (n : Int))
    (h : ds.r x < ds.r y) : altura n ds y < altura n ds x := by
  unfold altura
  apply Finset.card_lt_card
  rw [Finset.ssubset_iff_of_subset]
  · refine ⟨y.toNat, ?_, ?_⟩
    · rw [Finset.mem_filter, Finset.mem_range]
      have : ((y.toNat : Nat) : Int) = y := Int.toNat_of_nonneg hy.1
      rw [this]
      exact ⟨by omega, h⟩
    · rw [Finset.mem_filter]
      have : ((y.toNat : Nat) : Int) = y := Int.toNat_of_nonneg hy.1
      rw [this]
      intro hc
      exact lt_irrefl _ hc.2
  · intro z hz
    rw [Finset.mem_filter] at hz ⊢
    exact ⟨hz.1, lt_trans h hz.2⟩

theorem altura_lt (n : Nat) (ds : DisjointSet) (x : Int) (hx : 0 ≤ x ∧ x < (n : Int)) :
    altura n ds x < n := by
  unfold altura
  have h1 : ((Finset.range n).filter (fun y : Nat => ds.r x < ds.r (y : Int))) ⊂
      Finset.range n := by
    rw [Finset.ssubset_iff_of_subset (Finset.filter_subset _ _)]
    refine ⟨x.toNat, ?_, ?_⟩
    · rw [Finset.mem_range]; omega
    · rw [Finset.mem_filter]
      have : ((x.toNat : Nat) : Int) = x := Int.toNat_of_nonneg hx.1
      rw [this]
      intro hc
      exact lt_irrefl _ hc.2
  have := Finset.card_lt_card h1
  simpa using this

/-- Every element has a root. -/
theorem raiz_existe (n : Nat) (ds : DisjointSet) (hi : DSInv n ds) :
    ∀ (m : Nat) (x : Int), altura n ds x < m → 0 ≤ x ∧ x < (n : Int) → ∃ r, Raiz ds x r := by
  intro m
  induction m with
  | zero => intro x h; exact absurd h (Nat.not_lt_zero _)
  | succ m ih =>
    intro x hm hx
    by_cases hp : ds.p x = x
    · exact ⟨x, Raiz.base x hp⟩
    · have hpv := hi.paiValido x hx.1 hx.2
      have := altura_desce n ds x (ds.p x) hpv (hi.sobe x hx.1 hx.2 hp)
      obtain ⟨r, hr⟩ := ih (ds.p x) (by omega) hpv
      exact ⟨r, Raiz.passo x r hp hr⟩

theorem raiz_total (n : Nat) (ds : DisjointSet) (hi : DSInv n ds) (x : Int)
    (hx : 0 ≤ x ∧ x < (n : Int)) : ∃ r, Raiz ds x r :=
  raiz_existe n ds hi (altura n ds x + 1) x (Nat.lt_succ_self _) hx

theorem p_set (ds : DisjointSet) (x v : Int) (rk : List Int) (y : Int) (hx : 0 ≤ x)
    (hy : 0 ≤ y) (hlen : x.toNat < ds.pai.length) :
    DisjointSet.p ⟨ds.pai.set x.toNat v, rk⟩ y = if y = x then v else ds.p y := by
  unfold DisjointSet.p
  exact getD_set_int ds.pai x y v 0 hx hy hlen

/-- Path compression of one element: pointing `x` straight at its root keeps the invariant
and every root. -/
theorem compressao (n : Nat) (ds : DisjointSet) (hi : DSInv n ds) (x r : Int)
    (hx : 0 ≤ x ∧ x < (n : Int)) (hr : Raiz ds x r) :
    DSInv n ⟨ds.pai.set x.toNat r, ds.rank⟩ ∧
    ∀ y, 0 ≤ y ∧ y < (n : Int) → ∀ r', Raiz ⟨ds.pai.set x.toNat r, ds.rank⟩ y r' ↔ Raiz ds y r' := by
  have hlen : x.toNat < ds.pai.length := by rw [hi.tamPai]; omega
  have hrv := raiz_valida n ds hi x r hx hr
  have hrfix := raiz_fixa ds x r hr
  generalize hds' : (⟨ds.pai.set x.toNat r, ds.rank⟩ : DisjointSet) = ds'
  have hp : ∀ y, 0 ≤ y → ds'.p y = if y = x then r else ds.p y := by
    intro y hy; rw [← hds']; exact p_set ds x r ds.rank y hx.1 hy hlen
  have hrk : ∀ y, ds'.r y = ds.r y := by intro y; rw [← hds']; rfl
  have hinv : DSInv n ds' := by
    refine ⟨by rw [← hds']; simpa using hi.tamPai, by rw [← hds']; exact hi.tamRank, ?_, ?_⟩
    · intro y hy0 hyn
      rw [hp y hy0]
      split
      · exact hrv
      · exact hi.paiValido y hy0 hyn
    · intro y hy0 hyn hne
      rw [hp y hy0] at hne ⊢
      rw [hrk, hrk]
      by_cases hyx : y = x
      · rw [if_pos hyx] at hne ⊢
        rw [hyx] at hne ⊢
        exact (raiz_rank n ds hi x r hx hr).2 (Ne.symm hne)
      · rw [if_neg hyx] at hne ⊢
        exact hi.sobe y hy0 hyn hne
  have hfwd : ∀ y r', 0 ≤ y ∧ y < (n : Int) → Raiz ds y r' → Raiz ds' y r' := by
    intro y r' hy h
    induction h with
    | base y hfix =>
      apply Raiz.base
      rw [hp y hy.1]
      split
      · rename_i hyx
        subst hyx
        exact raiz_unica ds y r y hr (Raiz.base y hfix)
      · exact hfix
    | passo y r' hne hrest ih =>
      have ih' := ih (hi.paiValido y hy.1 hy.2)
      by_cases hyx : y = x
      · subst hyx
        have hrr : r' = r := raiz_unica ds y r' r (Raiz.passo y r' hne hrest) hr
        subst hrr
        have hry : r' ≠ y := fun h => hne (h ▸ hrfix)
        have hpy : ds'.p y = r' := by rw [hp y hy.1, if_pos rfl]
        have hroot : Raiz ds' r' r' := by
          apply Raiz.base
          rw [hp r' hrv.1, if_neg hry]; exact hrfix
        apply Raiz.passo y r' (by rw [hpy]; exact hry)
        rw [hpy]; exact hroot
      · have hpy : ds'.p y = ds.p y := by rw [hp y hy.1, if_neg hyx]
        apply Raiz.passo y r' (by rw [hpy]; exact hne)
        rw [hpy]; exact ih'
  refine ⟨hinv, ?_⟩
  intro y hy r'
  constructor
  · intro h
    obtain ⟨r'', hr''⟩ := raiz_total n ds hi y hy
    have := raiz_unica ds' y r' r'' h (hfwd y r'' hy hr'')
    rw [this]; exact hr''
  · exact hfwd y r' hy

/-- `find` returns the root, keeps the invariant, the ranks and every root. -/
theorem find_spec (n : Nat) :
    ∀ (fuel : Nat) (ds : DisjointSet) (x : Int), DSInv n ds → 0 ≤ x ∧ x < (n : Int) →
      altura n ds x < fuel →
      ∃ ds' r, DisjointSet.find fuel ds x = some (ds', r) ∧ Raiz ds x r ∧ DSInv n ds' ∧
        ds'.rank = ds.rank ∧
        ∀ y, 0 ≤ y ∧ y < (n : Int) → ∀ r', Raiz ds' y r' ↔ Raiz ds y r' := by
  intro fuel
  induction fuel with
  | zero => intro ds x _ _ h; exact absurd h (Nat.not_lt_zero _)
  | succ k ih =>
    intro ds x hi hx hfuel
    by_cases hp : ds.p x = x
    · refine ⟨ds, x, ?_, Raiz.base x hp, hi, rfl, fun y _ r' => Iff.rfl⟩
      simp [DisjointSet.find, hp]
    · have hpv := hi.paiValido x hx.1 hx.2
      have hdesce := altura_desce n ds x (ds.p x) hpv (hi.sobe x hx.1 hx.2 hp)
      obtain ⟨ds1, r, hrun, hraiz, hi1, hrk1, hiff1⟩ := ih ds (ds.p x) hi hpv (by omega)
      have hrx : Raiz ds x r := Raiz.passo x r hp hraiz
      have hrx1 : Raiz ds1 x r := (hiff1 x hx r).mpr hrx
      obtain ⟨hi2, hiff2⟩ := compressao n ds1 hi1 x r hx hrx1
      refine ⟨⟨ds1.pai.set x.toNat r, ds1.rank⟩, r, ?_, hrx, hi2, hrk1, ?_⟩
      · simp [DisjointSet.find, hp, hrun]
      · intro y hy r'
        rw [hiff2 y hy r', hiff1 y hy r']

theorem find_n (n : Nat) (ds : DisjointSet) (x : Int) (hi : DSInv n ds)
    (hx : 0 ≤ x ∧ x < (n : Int)) :
    ∃ ds' r, DisjointSet.find n ds x = some (ds', r) ∧ Raiz ds x r ∧ DSInv n ds' ∧
      ds'.rank = ds.rank ∧
      ∀ y, 0 ≤ y ∧ y < (n : Int) → ∀ r', Raiz ds' y r' ↔ Raiz ds y r' :=
  find_spec n n ds x hi hx (altura_lt n ds x hx)

/-- Linking the root `c` below the root `q`. -/
theorem ligacao (n : Nat) (ds : DisjointSet) (hi : DSInv n ds) (c q : Int)
    (hc : 0 ≤ c ∧ c < (n : Int)) (hq : 0 ≤ q ∧ q < (n : Int)) (hcfix : ds.p c = c)
    (hqfix : ds.p q = q) (hne : c ≠ q) (rk : List Int) (hlen : rk.length = n)
    (hmono : ∀ y : Int, ds.r y ≤ rk.getD y.toNat 0)
    (hsame : ∀ y : Int, 0 ≤ y → y ≠ q → rk.getD y.toNat 0 = ds.r y)
    (hlt : rk.getD c.toNat 0 < rk.getD q.toNat 0) :
    DSInv n ⟨ds.pai.set c.toNat q, rk⟩ ∧
    ∀ y, 0 ≤ y ∧ y < (n : Int) → ∀ r', Raiz ⟨ds.pai.set c.toNat q, rk⟩ y r' ↔
      ((Raiz ds y r' ∧ r' ≠ c) ∨ (Raiz ds y c ∧ r' = q)) := by
  have hlenp : c.toNat < ds.pai.length := by rw [hi.tamPai]; omega
  generalize hds' : (⟨ds.pai.set c.toNat q, rk⟩ : DisjointSet) = ds'
  have hp : ∀ y, 0 ≤ y → ds'.p y = if y = c then q else ds.p y := by
    intro y hy; rw [← hds']; exact p_set ds c q rk y hc.1 hy hlenp
  have hrk : ∀ y, ds'.r y = rk.getD y.toNat 0 := by intro y; rw [← hds']; rfl
  have hinv : DSInv n ds' := by
    refine ⟨by rw [← hds']; simpa using hi.tamPai, by rw [← hds']; exact hlen, ?_, ?_⟩
    · intro y hy0 hyn
      rw [hp y hy0]
      split
      · exact hq
      · exact hi.paiValido y hy0 hyn
    · intro y hy0 hyn hnefix
      rw [hp y hy0] at hnefix ⊢
      rw [hrk, hrk]
      by_cases hyc : y = c
      · rw [if_pos hyc, hyc]; exact hlt
      · rw [if_neg hyc] at hnefix ⊢
        have hyq : y ≠ q := fun h => hnefix (h ▸ hqfix)
        rw [hsame y hy0 hyq]
        exact lt_of_lt_of_le (hi.sobe y hy0 hyn hnefix) (hmono _)
  have hfwd : ∀ y r0, 0 ≤ y ∧ y < (n : Int) → Raiz ds y r0 →
      Raiz ds' y (if r0 = c then q else r0) := by
    intro y r0 hy h
    induction h with
    | base y hfix =>
      by_cases hyc : y = c
      · rw [if_pos hyc]
        have hpy : ds'.p y = q := by rw [hp y hy.1, if_pos hyc]
        apply Raiz.passo y q (by rw [hpy, hyc]; exact Ne.symm hne)
        rw [hpy]
        apply Raiz.base
        rw [hp q hq.1, if_neg (Ne.symm hne)]; exact hqfix
      · rw [if_neg hyc]
        apply Raiz.base
        rw [hp y hy.1, if_neg hyc]; exact hfix
    | passo y r0 hnefix _ ih =>
      have hyc : y ≠ c := fun h => hnefix (h ▸ hcfix)
      have hpy : ds'.p y = ds.p y := by rw [hp y hy.1, if_neg hyc]
      apply Raiz.passo y _ (by rw [hpy]; exact hnefix)
      rw [hpy]
      exact ih (hi.paiValido y hy.1 hy.2)
  refine ⟨hinv, ?_⟩
  intro y hy r'
  constructor
  · intro h
    obtain ⟨r0, hr0⟩ := raiz_total n ds hi y hy
    have := raiz_unica ds' y r' _ h (hfwd y r0 hy hr0)
    by_cases hrc : r0 = c
    · rw [if_pos hrc] at this
      right; exact ⟨hrc ▸ hr0, this⟩
    · rw [if_neg hrc] at this
      left; rw [this]; exact ⟨hr0, hrc⟩
  · rintro (⟨h1, h2⟩ | ⟨h1, h2⟩)
    · have := hfwd y r' hy h1
      rw [if_neg h2] at this; exact this
    · have := hfwd y c hy h1
      rw [if_pos rfl] at this; rw [h2]; exact this

theorem mesma_iff (ds : DisjointSet) (a b ra rb : Int) (ha : Raiz ds a ra) (hb : Raiz ds b rb) :
    Mesma ds a b ↔ ra = rb := by
  constructor
  · rintro ⟨r, h1, h2⟩
    rw [raiz_unica ds a ra r ha h1, raiz_unica ds b rb r hb h2]
  · intro h
    exact ⟨ra, ha, h ▸ hb⟩

theorem r_set (ds : DisjointSet) (x v : Int) (y : Int) (hx : 0 ≤ x) (hy : 0 ≤ y)
    (hlen : x.toNat < ds.rank.length) :
    (ds.rank.set x.toNat v).getD y.toNat 0 = if y = x then v else ds.r y := by
  unfold DisjointSet.r
  exact getD_set_int ds.rank x y v 0 hx hy hlen

/-- `unir` keeps the invariant and merges exactly the classes of `x` and `y`. -/
theorem unir_spec (n : Nat) (ds : DisjointSet) (hi : DSInv n ds) (x y : Int)
    (hx : 0 ≤ x ∧ x < (n : Int)) (hy : 0 ≤ y ∧ y < (n : Int)) :
    ∃ ds', DisjointSet.unir n ds x y = some ds' ∧ DSInv n ds' ∧
      ∀ a b, 0 ≤ a ∧ a < (n : Int) → 0 ≤ b ∧ b < (n : Int) →
        (Mesma ds' a b ↔
          (Mesma ds a b ∨ (Mesma ds a x ∧ Mesma ds b y) ∨ (Mesma ds a y ∧ Mesma ds b x))) := by
  obtain ⟨ds1, rx, hrun1, hrx, hi1, hrk1, hiff1⟩ := find_n n ds x hi hx
  obtain ⟨ds2, ry, hrun2, hry1, hi2, hrk2, hiff2⟩ := find_n n ds1 y hi1 hy
  have hry : Raiz ds y ry := (hiff1 y hy ry).mp hry1
  have hiff : ∀ z, 0 ≤ z ∧ z < (n : Int) → ∀ r', Raiz ds2 z r' ↔ Raiz ds z r' := by
    intro z hz r'
    rw [hiff2 z hz r', hiff1 z hz r']
  have hrxv := raiz_valida n ds hi x rx hx hrx
  have hryv := raiz_valida n ds hi y ry hy hry
  have hrx2 : Raiz ds2 x rx := (hiff x hx rx).mpr hrx
  have hry2 : Raiz ds2 y ry := (hiff y hy ry).mpr hry
  have hrxfix : ds2.p rx = rx := raiz_fixa ds2 x rx hrx2
  have hryfix : ds2.p ry = ry := raiz_fixa ds2 y ry hry2
  -- classes in terms of the roots in `ds`
  have hclasse : ∀ a b, 0 ≤ a ∧ a < (n : Int) → 0 ≤ b ∧ b < (n : Int) →
      ∀ ra rb, Raiz ds a ra → Raiz ds b rb →
      ((Mesma ds a b ∨ (Mesma ds a x ∧ Mesma ds b y) ∨ (Mesma ds a y ∧ Mesma ds b x)) ↔
        (ra = rb ∨ (ra = rx ∧ rb = ry) ∨ (ra = ry ∧ rb = rx))) := by
    intro a b _ _ ra rb hra hrb
    rw [mesma_iff ds a b ra rb hra hrb, mesma_iff ds a x ra rx hra hrx,
      mesma_iff ds b y rb ry hrb hry, mesma_iff ds a y ra ry hra hry,
      mesma_iff ds b x rb rx hrb hrx]
  by_cases heq : rx = ry
  · refine ⟨ds2, ?_, hi2, ?_⟩
    · simp [DisjointSet.unir, hrun1, hrun2, heq]
    · intro a b ha hb
      obtain ⟨ra, hra⟩ := raiz_total n ds hi a ha
      obtain ⟨rb, hrb⟩ := raiz_total n ds hi b hb
      rw [hclasse a b ha hb ra rb hra hrb,
        mesma_iff ds2 a b ra rb ((hiff a ha ra).mpr hra) ((hiff b hb rb).mpr hrb)]
      constructor
      · intro h; exact Or.inl h
      · rintro (h | ⟨h1, h2⟩ | ⟨h1, h2⟩)
        · exact h
        · rw [h1, h2, heq]
        · rw [h1, h2, heq]
  · -- the classes of the link, in terms of the roots
    have hfinal : ∀ (ds3 : DisjointSet) (c q : Int),
        ((c = rx ∧ q = ry) ∨ (c = ry ∧ q = rx)) →
        (∀ z, 0 ≤ z ∧ z < (n : Int) → ∀ r', Raiz ds3 z r' ↔
          ((Raiz ds2 z r' ∧ r' ≠ c) ∨ (Raiz ds2 z c ∧ r' = q))) →
        ∀ a b, 0 ≤ a ∧ a < (n : Int) → 0 ≤ b ∧ b < (n : Int) →
          (Mesma ds3 a b ↔
            (Mesma ds a b ∨ (Mesma ds a x ∧ Mesma ds b y) ∨ (Mesma ds a y ∧ Mesma ds b x))) := by
      intro ds3 c q hcq hr3 a b ha hb
      obtain ⟨ra, hra⟩ := raiz_total n ds hi a ha
      obtain ⟨rb, hrb⟩ := raiz_total n ds hi b hb
      have hra2 : Raiz ds2 a ra := (hiff a ha ra).mpr hra
      have hrb2 : Raiz ds2 b rb := (hiff b hb rb).mpr hrb
      have hcq' : c ≠ q := by
        rcases hcq with ⟨h1, h2⟩ | ⟨h1, h2⟩
        · rw [h1, h2]; exact heq
        · rw [h1, h2]; exact Ne.symm heq
      have ha3 : Raiz ds3 a (if ra = c then q else ra) := by
        rw [hr3 a ha]
        by_cases h : ra = c
        · rw [if_pos h]; right; exact ⟨h ▸ hra2, rfl⟩
        · rw [if_neg h]; left; exact ⟨hra2, h⟩
      have hb3 : Raiz ds3 b (if rb = c then q else rb) := by
        rw [hr3 b hb]
        by_cases h : rb = c
        · rw [if_pos h]; right; exact ⟨h ▸ hrb2, rfl⟩
        · rw [if_neg h]; left; exact ⟨hrb2, h⟩
      rw [hclasse a b ha hb ra rb hra hrb, mesma_iff ds3 a b _ _ ha3 hb3]
      rcases hcq with ⟨h1, h2⟩ | ⟨h1, h2⟩
      · subst h1; subst h2
        by_cases h3 : ra = c
        · by_cases h4 : rb = c
          · rw [if_pos h3, if_pos h4]; simp [h3, h4]
          · rw [if_pos h3, if_neg h4]
            constructor
            · intro h; right; left; exact ⟨h3, h.symm⟩
            · rintro (h | ⟨_, h⟩ | ⟨h, _⟩)
              · exact absurd (h ▸ h3) h4
              · exact h.symm
              · exact absurd (h3 ▸ h) hcq'
        · by_cases h4 : rb = c
          · rw [if_neg h3, if_pos h4]
            constructor
            · intro h; right; right; exact ⟨h, h4⟩
            · rintro (h | ⟨h, _⟩ | ⟨h, _⟩)
              · exact absurd (h ▸ h4) h3
              · exact absurd h h3
              · exact h
          · rw [if_neg h3, if_neg h4]
            constructor
            · intro h; exact Or.inl h
            · rintro (h | ⟨h, _⟩ | ⟨_, h⟩)
              · exact h
              · exact absurd h h3
              · exact absurd h h4
      · subst h1; subst h2
        by_cases h3 : ra = c
        · by_cases h4 : rb = c
          · rw [if_pos h3, if_pos h4]; simp [h3, h4]
          · rw [if_pos h3, if_neg h4]
            constructor
            · intro h; right; right; exact ⟨h3, h.symm⟩
            · rintro (h | ⟨h, _⟩ | ⟨_, h⟩)
              · exact absurd (h ▸ h3) h4
              · exact absurd (h3 ▸ h) hcq'
              · exact h.symm
        · by_cases h4 : rb = c
          · rw [if_neg h3, if_pos h4]
            constructor
            · intro h; right; left; exact ⟨h, h4⟩
            · rintro (h | ⟨h, _⟩ | ⟨h, _⟩)
              · exact absurd (h ▸ h4) h3
              · exact h
              · exact absurd h h3
          · rw [if_neg h3, if_neg h4]
            constructor
            · intro h; exact Or.inl h
            · rintro (h | ⟨_, h⟩ | ⟨h, _⟩)
              · exact h
              · exact absurd h h4
              · exact absurd h h3
    by_cases hlt : ds2.r rx < ds2.r ry
    · obtain ⟨hi3, hr3⟩ := ligacao n ds2 hi2 rx ry hrxv hryv hrxfix hryfix heq ds2.rank
        hi2.tamRank (fun z => le_refl _) (fun z _ _ => rfl) hlt
      refine ⟨⟨ds2.pai.set rx.toNat ry, ds2.rank⟩, ?_, hi3, ?_⟩
      · simp [DisjointSet.unir, hrun1, hrun2, heq, hlt]
      · exact hfinal _ rx ry (Or.inl ⟨rfl, rfl⟩) hr3
    · have hlenr : rx.toNat < ds2.rank.length := by rw [hi2.tamRank]; omega
      generalize hrk : (if ds2.r rx = ds2.r ry then ds2.rank.set rx.toNat (ds2.r rx + 1)
          else ds2.rank) = rk
      have hrkv : ∀ z : Int, 0 ≤ z → rk.getD z.toNat 0 =
          if z = rx ∧ ds2.r rx = ds2.r ry then ds2.r rx + 1 else ds2.r z := by
        intro z hz
        rw [← hrk]
        by_cases he : ds2.r rx = ds2.r ry
        · rw [if_pos he, r_set ds2 rx _ z hrxv.1 hz hlenr]
          by_cases hzx : z = rx
          · rw [if_pos hzx, if_pos ⟨hzx, he⟩]
          · rw [if_neg hzx, if_neg (fun h => hzx h.1)]
        · rw [if_neg he, if_neg (fun h => he h.2)]; rfl
      have hlen : rk.length = n := by
        rw [← hrk]
        split
        · rw [List.length_set]; exact hi2.tamRank
        · exact hi2.tamRank
      have hmono : ∀ z : Int, ds2.r z ≤ rk.getD z.toNat 0 := by
        intro z
        by_cases hz : 0 ≤ z
        · rw [hrkv z hz]
          split
          · rename_i h; rw [h.1]; omega
          · exact le_refl _
        · -- a negative index reads entry 0
          have hz0 : z.toNat = (0 : Int).toNat := by omega
          have h1 : ds2.r z = ds2.r 0 := by unfold DisjointSet.r; rw [hz0]
          rw [h1, hz0, hrkv 0 (le_refl 0)]
          split
          · rename_i h; rw [← h.1]; omega
          · exact le_refl _
      obtain ⟨hi3, hr3⟩ := ligacao n ds2 hi2 ry rx hryv hrxv hryfix hrxfix (Ne.symm heq) rk
        hlen hmono
        (fun z hz hzq => by rw [hrkv z hz, if_neg (fun h => hzq h.1)])
        (by
          rw [hrkv ry hryv.1, hrkv rx hrxv.1, if_neg (fun h => heq h.1.symm)]
          split
          · omega
          · rename_i h
            have : ¬ ds2.r rx = ds2.r ry := fun he => h ⟨rfl, he⟩
            omega)
      refine ⟨⟨ds2.pai.set ry.toNat rx, rk⟩, ?_, hi3, ?_⟩
      · simp only [DisjointSet.unir, hrun1, hrun2, heq, hlt, if_false, hrk]
      · exact hfinal _ ry rx (Or.inr ⟨rfl, rfl⟩) hr3

/-! ## Kruskal -/

theorem p_novo (n : Nat) (x : Int) (hx : 0 ≤ x ∧ x < (n : Int)) :
    (DisjointSet.novo n).p x = x := by
  unfold DisjointSet.p DisjointSet.novo
  have h : x.toNat < n := by omega
  rw [List.getD_eq_getElem?_getD, List.getElem?_map, List.getElem?_range h]
  simp
  omega

theorem dsInv_novo (n : Nat) : DSInv n (DisjointSet.novo n) := by
  refine ⟨by simp [DisjointSet.novo], by simp [DisjointSet.novo], ?_, ?_⟩
  · intro x h0 hn
    rw [p_novo n x ⟨h0, hn⟩]; exact ⟨h0, hn⟩
  · intro x h0 hn hne
    exact absurd (p_novo n x ⟨h0, hn⟩) hne

theorem mesma_novo (n : Nat) (a b : Int) (ha : 0 ≤ a ∧ a < (n : Int))
    (hb : 0 ≤ b ∧ b < (n : Int)) : Mesma (DisjointSet.novo n) a b ↔ a = b :=
  mesma_iff _ a b a b (Raiz.base a (p_novo n a ha)) (Raiz.base b (p_novo n b hb))

theorem mem_coletaArestas (g : Grafo) (x : Aresta) :
    x ∈ coletaArestas g ↔
      ∃ i : Nat, i < g.numVertices ∧ ∃ e ∈ g.lista (i : Int),
        (i : Int) < e.vertice ∧ x = ⟨(i : Int), e.vertice, e.peso⟩ := by
  unfold coletaArestas
  simp only [List.mem_flatMap, List.mem_range, List.mem_map, List.mem_filter,
    decide_eq_true_eq]
  constructor
  · rintro ⟨i, hi, e, ⟨he, hlt⟩, hx⟩
    exact ⟨i, hi, e, he, hlt, hx.symm⟩
  · rintro ⟨i, hi, e, he, hlt, hx⟩
    exact ⟨i, hi, e, ⟨he, hlt⟩, hx.symm⟩

theorem coletaArestas_valida (g : Grafo) (hg : BemFormado g) (x : Aresta)
    (hx : x ∈ coletaArestas g) : Valido g x.origem ∧ Valido g x.destino := by
  obtain ⟨i, hi, e, he, _, rfl⟩ := (mem_coletaArestas g x).mp hx
  exact ⟨⟨by simp, by simpa using hi⟩, hg.noIntervalo _ e he⟩

/-- Con in terms of the three ways an added edge can be used. -/
theorem con_snoc (F : List Aresta) (e : Aresta) (a b : Int) :
    Con (F ++ [e]).toFinset a b ↔
      (Con F.toFinset a b ∨ (Con F.toFinset a e.origem ∧ Con F.toFinset b e.destino) ∨
        (Con F.toFinset a e.destino ∧ Con F.toFinset b e.origem)) := by
  rw [toFinset_snoc]
  constructor
  · intro h
    rcases con_insert _ e a b h with k | ⟨k1, k2⟩ | ⟨k1, k2⟩
    · exact Or.inl k
    · exact Or.inr (Or.inl ⟨k1, con_symm _ _ _ k2⟩)
    · exact Or.inr (Or.inr ⟨k1, con_symm _ _ _ k2⟩)
  · intro h
    apply con_insert_de
    rcases h with k | ⟨k1, k2⟩ | ⟨k1, k2⟩
    · exact Or.inl k
    · exact Or.inr (Or.inl ⟨k1, con_symm _ _ _ k2⟩)
    · exact Or.inr (Or.inr ⟨k1, con_symm _ _ _ k2⟩)

/-- One iteration of the main loop of `algoritmoKruskal` is one step of the greedy run. -/
theorem kruskalPasso_spec (n : Nat) (proc : List Aresta) (st : EstadoKruskal) (e : Aresta)
    (hds : DSInv n st.ds) (hgul : Guloso proc st.mst)
    (hcon : ∀ a b, 0 ≤ a ∧ a < (n : Int) → 0 ≤ b ∧ b < (n : Int) →
      (Mesma st.ds a b ↔ Con st.mst.toFinset a b))
    (hcusto : st.custoTotal = paraInt (st.mst.map (fun x => x.peso)).sum)
    (ho : 0 ≤ e.origem ∧ e.origem < (n : Int)) (hd : 0 ≤ e.destino ∧ e.destino < (n : Int)) :
    ∃ st', kruskalPasso n st e = some st' ∧ DSInv n st'.ds ∧ Guloso (proc ++ [e]) st'.mst ∧
      (∀ a b, 0 ≤ a ∧ a < (n : Int) → 0 ≤ b ∧ b < (n : Int) →
        (Mesma st'.ds a b ↔ Con st'.mst.toFinset a b)) ∧
      st'.custoTotal = paraInt (st'.mst.map (fun x => x.peso)).sum := by
  obtain ⟨ds1, r1, hrun1, hr1, hi1, _, hiff1⟩ := find_n n st.ds e.origem hds ho
  obtain ⟨ds2, r2, hrun2, hr2', hi2, _, hiff2⟩ := find_n n ds1 e.destino hi1 hd
  have hr2 : Raiz st.ds e.destino r2 := (hiff1 _ hd r2).mp hr2'
  have hiff : ∀ z, 0 ≤ z ∧ z < (n : Int) → ∀ r', Raiz ds2 z r' ↔ Raiz st.ds z r' := by
    intro z hz r'
    rw [hiff2 z hz r', hiff1 z hz r']
  have hmesma : ∀ a b, 0 ≤ a ∧ a < (n : Int) → 0 ≤ b ∧ b < (n : Int) →
      (Mesma ds2 a b ↔ Mesma st.ds a b) := by
    intro a b ha hb
    constructor
    · rintro ⟨r, h1, h2⟩; exact ⟨r, (hiff a ha r).mp h1, (hiff b hb r).mp h2⟩
    · rintro ⟨r, h1, h2⟩; exact ⟨r, (hiff a ha r).mpr h1, (hiff b hb r).mpr h2⟩
  have htest : r1 = r2 ↔ Con st.mst.toFinset e.origem e.destino := by
    rw [← hcon _ _ ho hd, mesma_iff st.ds _ _ r1 r2 hr1 hr2]
  by_cases heq : r1 = r2
  · refine ⟨⟨ds2, st.mst, st.custoTotal⟩, ?_, hi2, Guloso.rejeita proc st.mst e hgul
      (htest.mp heq), ?_, hcusto⟩
    · simp [kruskalPasso, hrun1, hrun2, heq]
    · intro a b ha hb
      rw [hmesma a b ha hb]; exact hcon a b ha hb
  · obtain ⟨ds3, hrun3, hi3, hm3⟩ := unir_spec n ds2 hi2 e.origem e.destino ho hd
    refine ⟨⟨ds3, st.mst ++ [e], somaInt st.custoTotal e.peso⟩, ?_, hi3,
      Guloso.aceita proc st.mst e hgul (fun h => heq (htest.mpr h)), ?_, ?_⟩
    · simp [kruskalPasso, hrun1, hrun2, heq, hrun3]
    · intro a b ha hb
      show Mesma ds3 a b ↔ Con (st.mst ++ [e]).toFinset a b
      rw [hm3 a b ha hb, con_snoc, hmesma a b ha hb, hmesma a _ ha ho, hmesma b _ hb hd,
        hmesma a _ ha hd, hmesma b _ hb ho, hcon a b ha hb, hcon a _ ha ho, hcon b _ hb hd,
        hcon a _ ha hd, hcon b _ hb ho]
    · show somaInt st.custoTotal e.peso = paraInt ((st.mst ++ [e]).map (fun x => x.peso)).sum
      rw [hcusto, somaInt_paraInt]
      simp

theorem kruskalLaco_spec (n : Nat) (E : List Aresta) :
    ∀ (proc : List Aresta) (st : EstadoKruskal), DSInv n st.ds → Guloso proc st.mst →
      (∀ a b, 0 ≤ a ∧ a < (n : Int) → 0 ≤ b ∧ b < (n : Int) →
        (Mesma st.ds a b ↔ Con st.mst.toFinset a b)) →
      st.custoTotal = paraInt (st.mst.map (fun x => x.peso)).sum →
      (∀ e ∈ E, (0 ≤ e.origem ∧ e.origem < (n : Int)) ∧
        (0 ≤ e.destino ∧ e.destino < (n : Int))) →
      ∃ st', kruskalLaco n E st = some st' ∧ DSInv n st'.ds ∧ Guloso (proc ++ E) st'.mst ∧
        st'.custoTotal = paraInt (st'.mst.map (fun x => x.peso)).sum := by
  induction E with
  | nil =>
    intro proc st hds hgul _ hcusto _
    exact ⟨st, rfl, hds, by simpa using hgul, hcusto⟩
  | cons e t ih =>
    intro proc st hds hgul hcon hcusto hval
    have hv := hval e (List.mem_cons_self e t)
    obtain ⟨st1, hrun, h1, h2, h3, h4⟩ := kruskalPasso_spec n proc st e hds hgul hcon hcusto
      hv.1 hv.2
    obtain ⟨st2, hrun2, k1, k2, k3⟩ := ih (proc ++ [e]) st1 h1 h2 h3 h4
      (fun x hx => hval x (List.mem_cons_of_mem e hx))
    refine ⟨st2, ?_, k1, ?_, k3⟩
    · simp [kruskalLaco, hrun, hrun2]
    · simpa using k2

/-- Correctness of `algoritmoKruskal` on a well-formed graph, for every sorting routine
that meets the contract of `std::sort`: the run terminates, it is a greedy run over the
sorted edges, the accepted edges form a minimum spanning forest of the collected edges, and
`custoTotal` is their total weight reduced to `int`. -/
theorem kruskal_geral (ordena : List Aresta → List Aresta) (hord : OrdenaCrescente ordena)
    (g : Grafo) (hg : BemFormado g) :
    ∃ mst custoTotal, algoritmoKruskal ordena g = some (mst, custoTotal) ∧
      Guloso (ordena (coletaArestas g)) mst ∧ mst.Nodup ∧
      custoTotal = paraInt (custo mst.toFinset) ∧
      FlorestaGeradora (coletaArestas g).toFinset mst.toFinset ∧
      ∀ T, FlorestaGeradora (coletaArestas g).toFinset T → custo mst.toFinset ≤ custo T := by
  obtain ⟨hperm, hsort⟩ := hord (coletaArestas g)
  have hval : ∀ e ∈ ordena (coletaArestas g),
      (0 ≤ e.origem ∧ e.origem < (g.numVertices : Int)) ∧
        (0 ≤ e.destino ∧ e.destino < (g.numVertices : Int)) := by
    intro e he
    exact coletaArestas_valida g hg e (hperm.mem_iff.mp he)
  have hvazio : ∀ a b : Int, Con ([] : List Aresta).toFinset a b → a = b := by
    intro a b h
    induction h with
    | rel x y hxy =>
      obtain ⟨e, he, _, _⟩ := hxy
      simp at he
    | refl x => rfl
    | symm x y _ ih => exact ih.symm
    | trans x y z _ _ ih1 ih2 => exact ih1.trans ih2
  have hcon0 : ∀ a b, 0 ≤ a ∧ a < (g.numVertices : Int) → 0 ≤ b ∧ b < (g.numVertices : Int) →
      (Mesma (DisjointSet.novo g.numVertices) a b ↔ Con ([] : List Aresta).toFinset a b) := by
    intro a b ha hb
    rw [mesma_novo g.numVertices a b ha hb]
    constructor
    · intro h; rw [h]; exact con_refl _ b
    · exact hvazio a b
  obtain ⟨st, hrun, _, hgul, hcusto⟩ := kruskalLaco_spec g.numVertices
    (ordena (coletaArestas g)) [] ⟨DisjointSet.novo g.numVertices, [], 0⟩
    (dsInv_novo g.numVertices) Guloso.nil hcon0 rfl hval
  rw [List.nil_append] at hgul
  obtain ⟨hnd, hfg, hmin⟩ := guloso_minimo _ _ hgul hsort
  have hfin : (ordena (coletaArestas g)).toFinset = (coletaArestas g).toFinset :=
    List.toFinset_eq_of_perm _ _ hperm
  rw [hfin] at hfg hmin
  have hc : st.custoTotal = paraInt (custo st.mst.toFinset) := by
    rw [hcusto]
    unfold custo
    rw [List.sum_toFinset _ hnd]
  refine ⟨st.mst, st.custoTotal, ?_, hgul, hnd, hc, hfg, ?_⟩
  · simp [algoritmoKruskal, hrun]
  · intro T hT
    exact hmin T hT

/-- In a symmetric well-formed graph every walk runs inside one component of the collected
edges. -/
theorem con_de_caminho (g : Grafo) (hg : BemFormado g) (hs : Simetrico g) (a b : Int)
    (k : Nat) (ha : Valido g a) (h : Caminho g a b k) :
    Con (coletaArestas g).toFinset a b := by
  induction h with
  | nulo => exact con_refl _ a
  | passo v k e hc he ih =>
    have hv := caminho_valido g hg a v k ha hc
    have hev := hg.noIntervalo v e he
    have hne := hg.semLaco v hv.1 e he
    apply con_trans _ _ _ _ ih
    have hvn : ((v.toNat : Nat) : Int) = v := Int.toNat_of_nonneg hv.1
    have hen : ((e.vertice.toNat : Nat) : Int) = e.vertice := Int.toNat_of_nonneg hev.1
    rcases lt_or_gt_of_ne hne with hlt | hgt
    · -- the stored entry points downwards: use the mirrored entry
      have hm : (⟨v, e.peso⟩ : ElemLista) ∈ g.lista e.vertice := by
        have : e = ⟨e.vertice, e.peso⟩ := rfl
        rw [this] at he
        exact (hs v e.vertice e.peso hv.1 hev.1).mp he
      have hmem : (⟨e.vertice, v, e.peso⟩ : Aresta) ∈ (coletaArestas g).toFinset := by
        rw [List.mem_toFinset, mem_coletaArestas]
        refine ⟨e.vertice.toNat, by have := hev.2; omega, ⟨v, e.peso⟩, ?_, ?_, ?_⟩
        · rw [hen]; exact hm
        · rw [hen]; exact hlt
        · rw [hen]
      exact con_symm _ _ _ (con_aresta _ _ hmem)
    · have hmem : (⟨v, e.vertice, e.peso⟩ : Aresta) ∈ (coletaArestas g).toFinset := by
        rw [List.mem_toFinset, mem_coletaArestas]
        refine ⟨v.toNat, by have := hv.2; omega, e, ?_, ?_, ?_⟩
        · rw [hvn]; exact he
        · rw [hvn]; exact hgt
        · rw [hvn]
      exact con_aresta _ _ hmem

theorem arvoreGeradoraDe_iff (g : Grafo) (hg : BemFormado g) (hs : Simetrico g)
    (T : Finset Aresta) :
    ArvoreGeradoraDe g T ↔ FlorestaGeradora (coletaArestas g).toFinset T := by
  constructor
  · rintro ⟨h1, h2, h3⟩
    refine ⟨h1, h2, ?_⟩
    intro a b hab
    induction hab with
    | rel x y hxy =>
      obtain ⟨e, he, rfl, rfl⟩ := hxy
      obtain ⟨i, hi, el, hel, _, rfl⟩ := (mem_coletaArestas g e).mp (List.mem_toFinset.mp he)
      exact h3 _ _ 1 ⟨by simp, by simpa using hi⟩
        (Caminho.passo (i : Int) 0 el Caminho.nulo hel)
    | refl x => exact con_refl _ x
    | symm x y _ ih => exact con_symm _ _ _ ih
    | trans x y z _ _ ih1 ih2 => exact con_trans _ _ _ _ ih1 ih2
  · rintro ⟨h1, h2, h3⟩
    exact ⟨h1, h2, fun a b k ha hc => h3 a b (con_de_caminho g hg hs a b k ha hc)⟩

theorem ordenaPorPeso_contrato : OrdenaCrescente ordenaPorPeso := by
  intro l
  refine ⟨List.perm_insertionSort _ l, ?_⟩
  exact @List.sorted_insertionSort Aresta (fun a b => a.peso ≤ b.peso) _
    ⟨fun a b => le_total a.peso b.peso⟩ ⟨fun a b c h1 h2 => le_trans h1 h2⟩ l

theorem alcancavelSemDir_exemploPonderado : AlcancavelSemDir exemploPonderado :=
  AlcancavelSemDir.adiciona _ _ _ _ (AlcancavelSemDir.adiciona _ _ _ _
    (AlcancavelSemDir.adiciona _ _ _ _ (AlcancavelSemDir.adiciona _ _ _ _
      (AlcancavelSemDir.adiciona _ _ _ _ (AlcancavelSemDir.novo 5 false true)))))

/-! ## Frame and weight properties of the insertions -/

theorem mem_insereArestaAux_sub (g : Grafo) (u v p x : Int) (e : ElemLista)
    (h : e ∈ (insereArestaAux g u v p).2.lista x) : e ∈ g.lista x ∨ e = ⟨v, p⟩ := by
  simp only [insereArestaAux, lista_comLista] at h
  split at h
  · rename_i hc
    have hl : g.lista u = g.lista x := by
      unfold Grafo.lista
      rw [hc.1]
    rcases (insereNaLista_mem v p (g.lista u) e).mp h with h1 | ⟨_, h2⟩
    · exact Or.inl (hl ▸ h1)
    · exact Or.inr h2
  · exact Or.inl h

theorem mem_adicionaComPeso_sub (g : Grafo) (u v p x : Int) (e : ElemLista)
    (h : e ∈ (adicionaComPeso g u v p).lista x) : e ∈ g.lista x ∨ e.peso = p := by
  unfold adicionaComPeso at h
  split at h
  · split at h
    · rw [lista_comNumArestas] at h
      rcases mem_insereArestaAux_sub _ _ _ _ _ _ h with h1 | h1
      · rcases mem_insereArestaAux_sub _ _ _ _ _ _ h1 with h2 | h2
        · exact Or.inl h2
        · exact Or.inr (by rw [h2])
      · exact Or.inr (by rw [h1])
    · rw [lista_comNumArestas] at h
      rcases mem_insereArestaAux_sub _ _ _ _ _ _ h with h1 | h1
      · exact Or.inl h1
      · exact Or.inr (by rw [h1])
  · exact Or.inl h

theorem mem_adicionaDirComPeso_sub (g : Grafo) (u v p x : Int) (e : ElemLista)
    (h : e ∈ (adicionaDirComPeso g u v p).lista x) : e ∈ g.lista x ∨ e.peso = p := by
  unfold adicionaDirComPeso at h
  split at h
  · rw [lista_comNumArestas] at h
    rcases mem_insereArestaAux_sub _ _ _ _ _ _ h with h1 | h1
    · exact Or.inl h1
    · exact Or.inr (by rw [h1])
  · exact Or.inl h

theorem mem_removeArestaAux_sub (g : Grafo) (u v x : Int) (e : ElemLista)
    (h : e ∈ (removeArestaAux g u v).2.lista x) : e ∈ g.lista x := by
  simp only [removeArestaAux, lista_comLista] at h
  split at h
  · rename_i hc
    have hl : g.lista u = g.lista x := by
      unfold Grafo.lista
      rw [hc.1]
    exact hl ▸ (removeDaLista_sublista v (g.lista u)).subset h
  · exact h

theorem mem_removeAresta_sub (g : Grafo) (u v x : Int) (e : ElemLista)
    (h : e ∈ (removeAresta g u v).2.lista x) : e ∈ g.lista x := by
  unfold removeAresta at h
  split at h
  · exact h
  · split at h
    · rw [lista_comNumArestas] at h
      exact mem_removeArestaAux_sub _ _ _ _ _ (mem_removeArestaAux_sub _ _ _ _ _ h)
    · exact h

theorem ponderado_adicionaAresta (g : Grafo) (u v w : Int) :
    (adicionaAresta g u v w).ponderado = g.ponderado := by
  unfold adicionaAresta
  split
  · rfl
  · split <;> exact ponderado_adicionaComPeso _ _ _ _

theorem ponderado_removeAresta (g : Grafo) (u v : Int) :
    (removeAresta g u v).2.ponderado = g.ponderado := by
  unfold removeAresta
  split
  · rfl
  · split <;> rfl

theorem pesos_um_de_alcancavel (g : Grafo) (hg : Alcancavel g) (hp : g.ponderado = false) :
    ∀ x e, e ∈ g.lista x → e.peso = 1 := by
  induction hg with
  | novo n d p =>
    intro x e he
    rw [lista_novo] at he
    simp at he
  | adiciona g u v w _ ih =>
    rw [ponderado_adicionaAresta] at hp
    intro x e he
    unfold adicionaAresta at he
    split at he
    · exact ih hp x e he
    · simp only [hp, Bool.false_eq_true, if_false] at he
      rcases mem_adicionaComPeso_sub _ _ _ _ _ _ he with h | h
      · exact ih hp x e h
      · exact h
  | adicionaDir g u v w _ ih =>
    rw [ponderado_adicionaArestaDirecionada] at hp
    intro x e he
    unfold adicionaArestaDirecionada at he
    split at he
    · exact ih hp x e he
    · simp only [hp, Bool.false_eq_true, if_false] at he
      rcases mem_adicionaDirComPeso_sub _ _ _ _ _ _ he with h | h
      · exact ih hp x e h
      · exact h
  | remove g u v _ ih =>
    rw [ponderado_removeAresta] at hp
    intro x e he
    exact ih hp x e (mem_removeAresta_sub _ _ _ _ _ he)

/-- C18: on an unweighted graph (`ponderado == false`) every entry that `adicionaAresta` or
`adicionaArestaDirecionada` stores has weight 1, whatever weight the caller supplies (an
entry of the new graph is an entry of the old one or has weight 1); hence in every
unweighted graph reachable through the public operations all stored weights are 1. -/
theorem naoPonderado_peso_um (g : Grafo) (hp : g.ponderado = false) :
    (∀ u v w x e, e ∈ (adicionaAresta g u v w).lista x → e ∈ g.lista x ∨ e.peso = 1) ∧
    (∀ u v w x e, e ∈ (adicionaArestaDirecionada g u v w).lista x →
      e ∈ g.lista x ∨ e.peso = 1) ∧
    (Alcancavel g → ∀ x e, e ∈ g.lista x → e.peso = 1) := by
  refine ⟨?_, ?_, fun hg => pesos_um_de_alcancavel g hg hp⟩
  · intro u v w x e he
    unfold adicionaAresta at he
    split at he
    · exact Or.inl he
    · simp only [hp, Bool.false_eq_true, if_false] at he
      exact mem_adicionaComPeso_sub _ _ _ _ _ _ he
  · intro u v w x e he
    unfold adicionaArestaDirecionada at he
    split at he
    · exact Or.inl he
    · simp only [hp, Bool.false_eq_true, if_false] at he
      exact mem_adicionaDirComPeso_sub _ _ _ _ _ _ he

/-- Witness for C18: the statement at the empty unweighted graph on two vertices, where
`adicionaAresta(0, 1, 7)` and `adicionaArestaDirecionada(0, 1, 7)` store the weight 1. -/
theorem naoPonderado_peso_um_witness :
    (adicionaAresta (Grafo.novo 2 false false) 0 1 7).A = [[⟨1, 1⟩], [⟨0, 1⟩]] ∧
    (adicionaArestaDirecionada (Grafo.novo 2 false false) 0 1 7).A = [[⟨1, 1⟩], []] ∧
    ((∀ u v w x e, e ∈ (adicionaAresta (Grafo.novo 2 false false) u v w).lista x →
        e ∈ (Grafo.novo 2 false false).lista x ∨ e.peso = 1) ∧
      (∀ u v w x e, e ∈ (adicionaArestaDirecionada (Grafo.novo 2 false false) u v w).lista x →
        e ∈ (Grafo.novo 2 false false).lista x ∨ e.peso = 1) ∧
      (Alcancavel (Grafo.novo 2 false false) →
        ∀ x e, e ∈ (Grafo.novo 2 false false).lista x → e.peso = 1)) :=
  ⟨by decide, by decide, naoPonderado_peso_um (Grafo.novo 2 false false) rfl⟩

/-- C20: in every graph reachable from the empty graph by `adicionaAresta`,
`adicionaArestaDirecionada` and `removeAresta`, there is one adjacency list per vertex and
the list of every vertex `u` is strictly ascending by neighbour id (sorted, no duplicate
neighbour), holds only ids in `[0, numVertices)` and never `u` itself. -/
theorem adjacencia_ordenada_unica (g : Grafo) (hg : Alcancavel g) (u : Int)
    (hu : Valido g u) :
    g.A.length = g.numVertices ∧
    (g.lista u).Pairwise (fun a b => a.vertice < b.vertice) ∧
    ∀ e ∈ g.lista u, 0 ≤ e.vertice ∧ e.vertice < (g.numVertices : Int) ∧ e.vertice ≠ u := by
  have hb := bemFormado_de_alcancavel g hg
  refine ⟨hb.tamanho, hb.ordenada u, ?_⟩
  intro e he
  exact ⟨(hb.noIntervalo u e he).1, (hb.noIntervalo u e he).2, hb.semLaco u hu.1 e he⟩

/-- Witness for C20: the statement at vertex 3 of the weighted five-vertex example, whose
list is `1, 2, 4`. -/
theorem adjacencia_ordenada_unica_witness :
    exemploPonderado.lista 3 = [⟨1, 7⟩, ⟨2, 2⟩, ⟨4, 1⟩] ∧
    (exemploPonderado.A.length = exemploPonderado.numVertices ∧
      (exemploPonderado.lista 3).Pairwise (fun a b => a.vertice < b.vertice) ∧
      ∀ e ∈ exemploPonderado.lista 3,
        0 ≤ e.vertice ∧ e.vertice < (exemploPonderado.numVertices : Int) ∧ e.vertice ≠ 3) :=
  ⟨by decide, adjacencia_ordenada_unica exemploPonderado alcancavel_exemploPonderado 3
    ⟨by decide, by decide⟩⟩

/-- Two entries of a strictly ascending list with the same neighbour id are the same
entry. -/
theorem ordenada_unica (l : List ElemLista) (h : Ordenada l) (a b : ElemLista)
    (ha : a ∈ l) (hb : b ∈ l) (hab : a.vertice = b.vertice) : a = b := by
  induction l with
  | nil => simp at ha
  | cons c t ih =>
    have ht : Ordenada t := (List.pairwise_cons.mp h).2
    have hc := (List.pairwise_cons.mp h).1
    rcases List.mem_cons.mp ha with h1 | h1
    · rcases List.mem_cons.mp hb with h2 | h2
      · rw [h1, h2]
      · have := hc b h2
        rw [h1] at hab
        omega
    · rcases List.mem_cons.mp hb with h2 | h2
      · have := hc a h1
        rw [h2] at hab
        omega
      · exact ih ht h1 h2

theorem mem_coletaArestas_iff (g : Grafo) (x : Aresta) :
    x ∈ coletaArestas g ↔
      Valido g x.origem ∧ x.origem < x.destino ∧
        (⟨x.destino, x.peso⟩ : ElemLista) ∈ g.lista x.origem := by
  rw [mem_coletaArestas]
  constructor
  · rintro ⟨i, hi, e, he, hlt, rfl⟩
    exact ⟨⟨by simp, by simpa using hi⟩, hlt, he⟩
  · rintro ⟨hv, hlt, he⟩
    refine ⟨x.origem.toNat, by have := hv.2; have := hv.1; omega, ⟨x.destino, x.peso⟩, ?_, ?_, ?_⟩
    · rw [Int.toNat_of_nonneg hv.1]; exact he
    · rw [Int.toNat_of_nonneg hv.1]; exact hlt
    · rw [Int.toNat_of_nonneg hv.1]

theorem coletaArestas_nodup (g : Grafo) (hg : BemFormado g) : (coletaArestas g).Nodup := by
  unfold coletaArestas
  rw [List.nodup_flatMap]
  constructor
  · intro i _
    apply List.Nodup.map_on
    · intro a ha b hb hab
      have ha' := (List.mem_filter.mp ha).1
      have hb' := (List.mem_filter.mp hb).1
      have hv : a.vertice = b.vertice := by
        have := congrArg Aresta.destino hab
        exact this
      exact ordenada_unica _ (hg.ordenada (i : Int)) a b ha' hb' hv
    · apply List.Nodup.filter
      have h := hg.ordenada (i : Int)
      unfold Ordenada at h
      exact h.imp (fun hab heq => by rw [heq] at hab; omega)
  · apply (List.pairwise_lt_range g.numVertices).imp
    intro a b hab
    show List.Disjoint _ _
    intro x hx hy
    simp only [List.mem_map, List.mem_filter] at hx hy
    obtain ⟨e1, _, rfl⟩ := hx
    obtain ⟨e2, _, h2⟩ := hy
    have := congrArg Aresta.origem h2
    simp only at this
    omega

/-! ## The total weight returned by Kruskal -/

/-- The total weight of a set of collected edges lies inside `int` when the absolute values
of the weights of all collected edges add up to at most 2147483647. -/
theorem custo_cabe (g : Grafo) (hg : BemFormado g) (T : Finset Aresta)
    (hT : T ⊆ (coletaArestas g).toFinset) (h : pesoAbsoluto g ≤ 2147483647) :
    -2147483648 ≤ custo T ∧ custo T ≤ 2147483647 := by
  have h1 : |custo T| ≤ T.sum (fun e => |e.peso|) := by
    unfold custo
    exact Finset.abs_sum_le_sum_abs _ _
  have h2 : T.sum (fun e => |e.peso|) ≤ (coletaArestas g).toFinset.sum (fun e => |e.peso|) :=
    Finset.sum_le_sum_of_subset_of_nonneg hT (fun e _ _ => abs_nonneg _)
  have h3 : (coletaArestas g).toFinset.sum (fun e => |e.peso|) = pesoAbsoluto g := by
    unfold pesoAbsoluto
    rw [List.sum_toFinset _ (coletaArestas_nodup g hg)]
    congr 1
    apply List.map_congr_left
    intro e _
    exact (Int.natCast_natAbs e.peso).symm
  have h4 := abs_le.mp (le_trans h1 (le_trans h2 (le_of_eq h3)))
  constructor <;> omega

/-- The total weight of a duplicate-free list of collected edges lies inside `int` when its
running totals do, and when the absolute values of the weights of all collected edges add
up to at most 2147483647. -/
theorem custo_cabe_ou (g : Grafo) (hg : BemFormado g) (es : List Aresta) (hnd : es.Nodup)
    (hT : es.toFinset ⊆ (coletaArestas g).toFinset)
    (h : TotaisCabem es ∨ pesoAbsoluto g ≤ 2147483647) :
    -2147483648 ≤ custo es.toFinset ∧ custo es.toFinset ≤ 2147483647 := by
  rcases h with h | h
  · have := h es (List.prefix_refl es)
    unfold custo
    rw [List.sum_toFinset _ hnd]
    exact this
  · exact custo_cabe g hg es.toFinset hT h

/-- C10 (amended): for every undirected graph built with `adicionaAresta` (and
`removeAresta`) and every sorting routine that meets the contract of `std::sort`,
`algoritmoKruskal` terminates and the accepted edges form a spanning forest of the graph
whose total weight is the minimum over all spanning forests of the graph (spanning trees
when the graph is connected); when no running total of the accepted weights leaves `int`,
in particular when the absolute values of the weights of all edges add up to at most
2147483647, `custoTotal` is that minimum total weight. -/
theorem algoritmoKruskal_minimo (ordena : List Aresta → List Aresta)
    (hord : OrdenaCrescente ordena) (g : Grafo) (hg : AlcancavelSemDir g)
    (hd : g.direcionado = false) :
    ∃ mst custoTotal, algoritmoKruskal ordena g = some (mst, custoTotal) ∧
      mst.Nodup ∧ ArvoreGeradoraDe g mst.toFinset ∧
      (∀ T, ArvoreGeradoraDe g T → custo mst.toFinset ≤ custo T) ∧
      (TotaisCabem mst ∨ pesoAbsoluto g ≤ 2147483647 →
        custoTotal = custo mst.toFinset ∧ ∀ T, ArvoreGeradoraDe g T → custoTotal ≤ custo T) := by
  have hb := bemFormado_de_alcancavel g (alcancavel_de_semDir g hg)
  have hs := simetrico_de_alcancavel g hg hd
  obtain ⟨mst, c, hrun, _, hnd, hc, hfg, hmin⟩ := kruskal_geral ordena hord g hb
  have hmin' : ∀ T, ArvoreGeradoraDe g T → custo mst.toFinset ≤ custo T :=
    fun T hT => hmin T ((arvoreGeradoraDe_iff g hb hs T).mp hT)
  refine ⟨mst, c, hrun, hnd, (arvoreGeradoraDe_iff g hb hs _).mpr hfg, hmin', ?_⟩
  intro hcabe
  obtain ⟨h1, h2⟩ := custo_cabe_ou g hb mst hnd hfg.1 hcabe
  have hc' : c = custo mst.toFinset := by rw [hc, paraInt_eq _ h1 h2]
  exact ⟨hc', fun T hT => by rw [hc']; exact hmin' T hT⟩

/-- Witness for C10: the statement applied to the weighted five-vertex example, where the
accepted edges are `(3,4,1)`, `(2,3,2)`, `(0,2,3)`, `(0,1,5)` (in order of acceptance) with
total 11, and the absolute values of the weights add up to 18. -/
theorem algoritmoKruskal_minimo_witness :
    algoritmoKruskal ordenaPorPeso exemploPonderado =
      some ([⟨3, 4, 1⟩, ⟨2, 3, 2⟩, ⟨0, 2, 3⟩, ⟨0, 1, 5⟩], 11) ∧
    pesoAbsoluto exemploPonderado = 18 ∧
    ∃ mst custoTotal, algoritmoKruskal ordenaPorPeso exemploPonderado = some (mst, custoTotal) ∧
      mst.Nodup ∧ ArvoreGeradoraDe exemploPonderado mst.toFinset ∧
      (∀ T, ArvoreGeradoraDe exemploPonderado T → custo mst.toFinset ≤ custo T) ∧
      (TotaisCabem mst ∨ pesoAbsoluto exemploPonderado ≤ 2147483647 →
        custoTotal = custo mst.toFinset ∧
        ∀ T, ArvoreGeradoraDe exemploPonderado T → custoTotal ≤ custo T) :=
  ⟨by decide, by decide, algoritmoKruskal_minimo ordenaPorPeso ordenaPorPeso_contrato
    exemploPonderado alcancavelSemDir_exemploPonderado rfl⟩

theorem alcancavelSemDir_exemploTransbordo : AlcancavelSemDir exemploTransbordo :=
  AlcancavelSemDir.adiciona _ _ _ _ (AlcancavelSemDir.adiciona _ _ _ _
    (AlcancavelSemDir.novo 3 false true))

/-- C10 counterexample: on the undirected path `0 - 1 - 2` with the weights 2147483647 and
1 (both values of type `int`) `algoritmoKruskal` accepts both edges, which form the only
spanning tree, of total weight 2147483648, and returns `custoTotal = -2147483648`: the sum
left `int`. -/
theorem algoritmoKruskal_contraexemplo :
    AlcancavelSemDir exemploTransbordo ∧ exemploTransbordo.direcionado = false ∧
    exemploTransbordo.ponderado = true ∧
    algoritmoKruskal ordenaPorPeso exemploTransbordo =
      some ([⟨1, 2, 1⟩, ⟨0, 1, 2147483647⟩], -2147483648) ∧
    ArvoreGeradoraDe exemploTransbordo
      ([⟨1, 2, 1⟩, ⟨0, 1, 2147483647⟩] : List Aresta).toFinset ∧
    custo ([⟨1, 2, 1⟩, ⟨0, 1, 2147483647⟩] : List Aresta).toFinset = 2147483648 ∧
    ∀ T, ArvoreGeradoraDe exemploTransbordo T → 2147483648 ≤ custo T := by
  have hg := alcancavelSemDir_exemploTransbordo
  have hb := bemFormado_de_alcancavel _ (alcancavel_de_semDir _ hg)
  have hs := simetrico_de_alcancavel _ hg rfl
  have hK : algoritmoKruskal ordenaPorPeso exemploTransbordo =
      some ([⟨1, 2, 1⟩, ⟨0, 1, 2147483647⟩], -2147483648) := by decide
  obtain ⟨mst, c, hrun, _, hnd, _, hfg, hmin⟩ :=
    kruskal_geral ordenaPorPeso ordenaPorPeso_contrato exemploTransbordo hb
  rw [hK] at hrun
  have hm : ([⟨1, 2, 1⟩, ⟨0, 1, 2147483647⟩] : List Aresta) = mst :=
    congrArg Prod.fst (Option.some.inj hrun)
  subst hm
  have hcusto : custo ([⟨1, 2, 1⟩, ⟨0, 1, 2147483647⟩] : List Aresta).toFinset =
      2147483648 := by
    unfold custo
    rw [List.sum_toFinset _ hnd]
    decide
  refine ⟨hg, rfl, rfl, hK, (arvoreGeradoraDe_iff _ hb hs _).mpr hfg, hcusto, ?_⟩
  intro T hT
  rw [← hcusto]
  exact hmin T ((arvoreGeradoraDe_iff _ hb hs T).mp hT)

/-! ## Sorted edge listing -/

theorem ordenaPorPesoDec_contrato : OrdenaDecrescente ordenaPorPesoDec := by
  intro l
  refine ⟨List.perm_insertionSort _ l, ?_⟩
  exact @List.sorted_insertionSort Aresta (fun a b => a.peso ≥ b.peso) _
    ⟨fun a b => le_total b.peso a.peso⟩ ⟨fun a b c h1 h2 => le_trans h2 h1⟩ l

/-- C14: for every undirected graph built with `adicionaAresta` (and `removeAresta`), both
values of the flag and all sorting routines that meet the contract of `std::sort`, the
sequence produced by `ordenarArestas` has no repetition, holds exactly the edges
`(u, v, w)` with `u < v` and `v` stored with weight `w` in the list of `u` (so every stored
entry appears as the edge of its two endpoints, once), is non-decreasing by weight when
`crescente` is true and non-increasing when it is false, and the graph is unchanged. -/
theorem ordenarArestas_correto (ordena ordenaDec : List Aresta → List Aresta)
    (hord : OrdenaCrescente ordena) (hdec : OrdenaDecrescente ordenaDec) (g : Grafo)
    (hg : AlcancavelSemDir g) (hd : g.direcionado = false) (crescente : Bool) :
    (ordenarArestas ordena ordenaDec g crescente).2 = g ∧
    (ordenarArestas ordena ordenaDec g crescente).1.Nodup ∧
    (∀ x, x ∈ (ordenarArestas ordena ordenaDec g crescente).1 ↔
      (Valido g x.origem ∧ x.origem < x.destino ∧
        (⟨x.destino, x.peso⟩ : ElemLista) ∈ g.lista x.origem)) ∧
    (∀ u v w, Valido g u → (⟨v, w⟩ : ElemLista) ∈ g.lista u →
      (⟨min u v, max u v, w⟩ : Aresta) ∈ (ordenarArestas ordena ordenaDec g crescente).1) ∧
    (∀ x ∈ (ordenarArestas ordena ordenaDec g crescente).1,
      ∀ y ∈ (ordenarArestas ordena ordenaDec g crescente).1,
        x.origem = y.origem → x.destino = y.destino → x = y) ∧
    (crescente = true →
      (ordenarArestas ordena ordenaDec g crescente).1.Pairwise (fun a b => a.peso ≤ b.peso)) ∧
    (crescente = false →
      (ordenarArestas ordena ordenaDec g crescente).1.Pairwise (fun a b => a.peso ≥ b.peso)) := by
  have hb := bemFormado_de_alcancavel g (alcancavel_de_semDir g hg)
  have hs := simetrico_de_alcancavel g hg hd
  have hperm : (ordenarArestas ordena ordenaDec g crescente).1.Perm (coletaArestas g) := by
    unfold ordenarArestas
    cases crescente
    · exact (hdec _).1
    · exact (hord _).1
  have hmem : ∀ x, x ∈ (ordenarArestas ordena ordenaDec g crescente).1 ↔
      (Valido g x.origem ∧ x.origem < x.destino ∧
        (⟨x.destino, x.peso⟩ : ElemLista) ∈ g.lista x.origem) := by
    intro x
    rw [hperm.mem_iff]
    exact mem_coletaArestas_iff g x
  refine ⟨?_, ?_, hmem, ?_, ?_, ?_, ?_⟩
  · unfold ordenarArestas
    cases crescente <;> rfl
  · exact hperm.nodup_iff.mpr (coletaArestas_nodup g hb)
  · intro u v w hu he
    rw [hmem]
    have hv := hb.noIntervalo u _ he
    have hne := hb.semLaco u hu.1 _ he
    simp only at hv hne
    rcases lt_or_gt_of_ne hne with hlt | hgt
    · -- `v < u`: the mirrored entry is the one collected
      have hm : (⟨u, w⟩ : ElemLista) ∈ g.lista v := (hs u v w hu.1 hv.1).mp he
      rw [min_eq_right (le_of_lt hlt), max_eq_left (le_of_lt hlt)]
      exact ⟨⟨hv.1, hv.2⟩, hlt, hm⟩
    · rw [min_eq_left (le_of_lt hgt), max_eq_right (le_of_lt hgt)]
      exact ⟨hu, hgt, he⟩
  · intro x hx y hy ho hdst
    have h1 := (hmem x).mp hx
    have h2 := (hmem y).mp hy
    rw [← ho] at h2
    have := ordenada_unica _ (hb.ordenada x.origem) _ _ h1.2.2 h2.2.2 hdst
    cases x
    cases y
    simp only [ElemLista.mk.injEq] at this
    simp only at ho hdst
    simp [ho, hdst, this.2]
  · intro hc
    subst hc
    exact (hord _).2
  · intro hc
    subst hc
    exact (hdec _).2

/-- Witness for C14: the two listings of the weighted five-vertex example and the statement
applied to it. -/
theorem ordenarArestas_correto_witness :
    (ordenarArestas ordenaPorPeso ordenaPorPesoDec exemploPonderado true).1 =
      [⟨3, 4, 1⟩, ⟨2, 3, 2⟩, ⟨0, 2, 3⟩, ⟨0, 1, 5⟩, ⟨1, 3, 7⟩] ∧
    (ordenarArestas ordenaPorPeso ordenaPorPesoDec exemploPonderado false).1 =
      [⟨1, 3, 7⟩, ⟨0, 1, 5⟩, ⟨0, 2, 3⟩, ⟨2, 3, 2⟩, ⟨3, 4, 1⟩] ∧
    (ordenarArestas ordenaPorPeso ordenaPorPesoDec exemploPonderado false).2 =
      exemploPonderado ∧
    (ordenarArestas ordenaPorPeso ordenaPorPesoDec exemploPonderado false).1.Nodup ∧
    (∀ x, x ∈ (ordenarArestas ordenaPorPeso ordenaPorPesoDec exemploPonderado false).1 ↔
      (Valido exemploPonderado x.origem ∧ x.origem < x.destino ∧
        (⟨x.destino, x.peso⟩ : ElemLista) ∈ exemploPonderado.lista x.origem)) ∧
    (∀ u v w, Valido exemploPonderado u → (⟨v, w⟩ : ElemLista) ∈ exemploPonderado.lista u →
      (⟨min u v, max u v, w⟩ : Aresta) ∈
        (ordenarArestas ordenaPorPeso ordenaPorPesoDec exemploPonderado false).1) ∧
    (∀ x ∈ (ordenarArestas ordenaPorPeso ordenaPorPesoDec exemploPonderado false).1,
      ∀ y ∈ (ordenarArestas ordenaPorPeso ordenaPorPesoDec exemploPonderado false).1,
        x.origem = y.origem → x.destino = y.destino → x = y) ∧
    (false = true →
      (ordenarArestas ordenaPorPeso ordenaPorPesoDec exemploPonderado false).1.Pairwise
        (fun a b => a.peso ≤ b.peso)) ∧
    (false = false →
      (ordenarArestas ordenaPorPeso ordenaPorPesoDec exemploPonderado false).1.Pairwise
        (fun a b => a.peso ≥ b.peso)) :=
  ⟨by decide, by decide,
    ordenarArestas_correto ordenaPorPeso ordenaPorPesoDec ordenaPorPeso_contrato
      ordenaPorPesoDec_contrato exemploPonderado alcancavelSemDir_exemploPonderado rfl false⟩

/-- C15 (the code departs from the claim): `ordenarArestas` lists only edges with
`origem < destino`, also on a directed graph: the test `i < atual->vertice` of the
collection loop does not look at `direcionado`, so a stored entry `u -> v` with `u > v` is
never listed.  On the directed graph with the single entry `1 -> 0` of weight 5 the listing
is empty. -/
theorem ordenarArestas_omite_descendentes (ordena ordenaDec : List Aresta → List Aresta)
    (hord : OrdenaCrescente ordena) (hdec : OrdenaDecrescente ordenaDec) (g : Grafo)
    (crescente : Bool) (u v w : Int) (huv : v ≤ u) :
    (⟨u, v, w⟩ : Aresta) ∉ (ordenarArestas ordena ordenaDec g crescente).1 := by
  have hperm : (ordenarArestas ordena ordenaDec g crescente).1.Perm (coletaArestas g) := by
    unfold ordenarArestas
    cases crescente
    · exact (hdec _).1
    · exact (hord _).1
  intro h
  have h1 := (mem_coletaArestas_iff g _).mp (hperm.mem_iff.mp h)
  have := h1.2.1
  simp only at this
  omega

/-- Failing input for C15: the directed graph on two vertices after
`adicionaAresta(1, 0, 5)` stores the entry `1 -> 0`, and the edge `(1, 0, 5)` is not in the
listing, which is empty. -/
theorem ordenarArestas_omite_descendentes_witness :
    (adicionaAresta (Grafo.novo 2 true true) 1 0 5).direcionado = true ∧
    (adicionaAresta (Grafo.novo 2 true true) 1 0 5).lista 1 = [⟨0, 5⟩] ∧
    (ordenarArestas ordenaPorPeso ordenaPorPesoDec
      (adicionaAresta (Grafo.novo 2 true true) 1 0 5) true).1 = [] ∧
    (⟨1, 0, 5⟩ : Aresta) ∉ (ordenarArestas ordenaPorPeso ordenaPorPesoDec
      (adicionaAresta (Grafo.novo 2 true true) 1 0 5) true).1 :=
  ⟨by decide, by decide, by decide,
    ordenarArestas_omite_descendentes ordenaPorPeso ordenaPorPesoDec ordenaPorPeso_contrato
      ordenaPorPesoDec_contrato _ true 1 0 5 (by decide)⟩

/-- C16 (the code departs from the claim): `removeAresta` removes the reverse entry whatever
the value of `direcionado`.  For every well-formed graph, also a directed one, and valid
`u != v` with the entry `u -> v` present, the list of `v` holds no entry `v -> u` after
`removeAresta(u, v)`. -/
theorem removeAresta_remove_reverso (g : Grafo) (u v : Int) (hg : BemFormado g)
    (hd : g.direcionado = true) (hu : Valido g u) (hv : Valido g v) (huv : u ≠ v)
    (he : ∃ e ∈ g.lista u, e.vertice = v) :
    (removeAresta g u v).1 = true ∧ (removeAresta g u v).2.direcionado = true ∧
      ∀ e ∈ (removeAresta g u v).2.lista v, e.vertice ≠ u := by
  have hinv : entradaInvalida g u v = false :=
    (entradaInvalida_falso g u v).mpr ⟨hu.1, hv.1, hu.2, hv.2, huv⟩
  have hex : existeNaLista v (g.lista u) = true :=
    (existeNaLista_iff v (g.lista u) (hg.ordenada u)).mpr he
  have hi : (removeArestaAux g u v).1 = true := by
    show (removeDaLista v (g.lista u)).1 = true
    rw [removeDaLista_resultado]
    exact hex
  refine ⟨?_, ?_, ?_⟩
  · simp [removeAresta, hinv, hi]
  · rw [direcionado_removeAresta]; exact hd
  · intro e hmem heq
    have := (mem_lista_removeAresta g hg u v hinv hi v hv.1 e).mp hmem
    exact this.2.2 ⟨rfl, heq⟩

/-- Failing input for C16: on the directed graph with the entries `0 -> 1` (weight 5) and
`1 -> 0` (weight 7), `removeAresta(0, 1)` empties both lists and leaves `numArestas = 1`. -/
theorem removeAresta_remove_reverso_witness :
    (adicionaAresta (adicionaAresta (Grafo.novo 2 true true) 0 1 5) 1 0 7).A =
      [[⟨1, 5⟩], [⟨0, 7⟩]] ∧
    (removeAresta (adicionaAresta (adicionaAresta (Grafo.novo 2 true true) 0 1 5) 1 0 7)
      0 1).2.A = [[], []] ∧
    (removeAresta (adicionaAresta (adicionaAresta (Grafo.novo 2 true true) 0 1 5) 1 0 7)
      0 1).2.numArestas = 1 ∧
    ((removeAresta (adicionaAresta (adicionaAresta (Grafo.novo 2 true true) 0 1 5) 1 0 7)
        0 1).1 = true ∧
      (removeAresta (adicionaAresta (adicionaAresta (Grafo.novo 2 true true) 0 1 5) 1 0 7)
        0 1).2.direcionado = true ∧
      ∀ e ∈ (removeAresta (adicionaAresta (adicionaAresta (Grafo.novo 2 true true) 0 1 5)
        1 0 7) 0 1).2.lista 1, e.vertice ≠ 0) :=
  ⟨by decide, by decide, by decide,
    removeAresta_remove_reverso _ 0 1
      (bemFormado_adicionaAresta _ (bemFormado_adicionaAresta _ (bemFormado_novo 2 true true)
        0 1 5) 1 0 7)
      rfl ⟨by decide, by decide⟩ ⟨by decide, by decide⟩ (by decide)
      ⟨⟨1, 5⟩, by decide, rfl⟩⟩

/-! ## The edge counter `numArestas` -/

theorem soma_range_igual (f f' : Nat → Int) (n : Nat) (h : ∀ i, i < n → f' i = f i) :
    ((List.range n).map f').sum = ((List.range n).map f).sum := by
  congr 1
  apply List.map_congr_left
  intro i hi
  exact h i (List.mem_range.mp hi)

theorem soma_range_altera (f f' : Nat → Int) (n u : Nat) (hu : u < n)
    (h : ∀ i, i ≠ u → f' i = f i) :
    ((List.range n).map f').sum = ((List.range n).map f).sum + (f' u - f u) := by
  induction n with
  | zero => omega
  | succ n ih =>
    rw [List.range_succ, List.map_append, List.map_append, List.sum_append, List.sum_append]
    simp only [List.map_cons, List.map_nil, List.sum_cons, List.sum_nil, add_zero]
    by_cases hun : u = n
    · subst hun
      rw [soma_range_igual f f' u (fun i hi => h i (by omega))]
      omega
    · rw [ih (by omega), h n (fun hh => hun hh.symm)]
      omega

theorem contaEntradas_comLista (q : Int → ElemLista → Bool) (g : Grafo)
    (hg : g.A.length = g.numVertices) (u : Int) (hu : Valido g u) (l : List ElemLista) :
    contaEntradas q (g.comLista u l) =
      contaEntradas q g + (((l.filter (q u)).length : Int) -
        (((g.lista u).filter (q u)).length : Int)) := by
  unfold contaEntradas
  have hn : (g.comLista u l).numVertices = g.numVertices := rfl
  rw [hn]
  have hun : ((u.toNat : Nat) : Int) = u := Int.toNat_of_nonneg hu.1
  rw [soma_range_altera
    (fun i : Nat => (((g.lista (i : Int)).filter (q (i : Int))).length : Int))
    (fun i : Nat => ((((g.comLista u l).lista (i : Int)).filter (q (i : Int))).length : Int))
    g.numVertices u.toNat (by have := hu.2; omega)]
  · simp only [hun]
    rw [lista_comLista_mesmo g u l (by have := hu.2; omega)]
  · intro i hi
    rw [lista_comLista_outro g u (i : Int) l (by simpa using fun h => hi h.symm)]

theorem contaEntradas_comNumArestas (q : Int → ElemLista → Bool) (g : Grafo) (k : Int) :
    contaEntradas q (g.comNumArestas k) = contaEntradas q g := rfl

theorem insereNaLista_perm (v p : Int) (l : List ElemLista)
    (h : (insereNaLista v p l).1 = true) : (insereNaLista v p l).2.Perm (⟨v, p⟩ :: l) := by
  induction l with
  | nil => simp [insereNaLista]
  | cons a t ih =>
    by_cases h1 : a.vertice < v
    · simp only [insereNaLista, h1, if_true] at h ⊢
      exact ((ih h).cons a).trans (List.Perm.swap _ _ _)
    · by_cases h2 : a.vertice = v
      · simp [insereNaLista, h1, h2] at h
      · simp [insereNaLista, h1, h2]

theorem removeDaLista_perm (v : Int) (l : List ElemLista)
    (h : (removeDaLista v l).1 = true) :
    ∃ e ∈ l, e.vertice = v ∧ l.Perm (e :: (removeDaLista v l).2) := by
  induction l with
  | nil => simp [removeDaLista] at h
  | cons a t ih =>
    by_cases h1 : a.vertice < v
    · simp only [removeDaLista, h1, if_true] at h ⊢
      obtain ⟨e, he, hv, hp⟩ := ih h
      exact ⟨e, List.mem_cons_of_mem a he, hv, (hp.cons a).trans (List.Perm.swap _ _ _)⟩
    · by_cases h2 : a.vertice = v
      · refine ⟨a, List.mem_cons_self a t, h2, ?_⟩
        simp [removeDaLista, h1, h2]
      · simp [removeDaLista, h1, h2] at h

theorem contaEntradas_insereArestaAux (q : Int → ElemLista → Bool) (g : Grafo)
    (hg : g.A.length = g.numVertices) (u v p : Int) (hu : Valido g u)
    (h : (insereArestaAux g u v p).1 = true) :
    contaEntradas q (insereArestaAux g u v p).2 =
      contaEntradas q g + (if q u ⟨v, p⟩ = true then 1 else 0) := by
  show contaEntradas q (g.comLista u (insereNaLista v p (g.lista u)).2) = _
  rw [contaEntradas_comLista q g hg u hu]
  have hp := insereNaLista_perm v p (g.lista u) h
  have := (hp.filter (q u)).length_eq
  rw [this, List.filter_cons]
  split <;> simp

theorem contaEntradas_removeArestaAux (q : Int → ElemLista → Bool) (g : Grafo)
    (hg : g.A.length = g.numVertices) (u v : Int) (hu : Valido g u)
    (h : (removeArestaAux g u v).1 = true) :
    ∃ e ∈ g.lista u, e.vertice = v ∧
      contaEntradas q (removeArestaAux g u v).2 =
        contaEntradas q g - (if q u e = true then 1 else 0) := by
  obtain ⟨e, he, hv, hp⟩ := removeDaLista_perm v (g.lista u) h
  refine ⟨e, he, hv, ?_⟩
  show contaEntradas q (g.comLista u (removeDaLista v (g.lista u)).2) = _
  rw [contaEntradas_comLista q g hg u hu]
  have := (hp.filter (q u)).length_eq
  rw [this, List.filter_cons]
  split
  · simp only [List.length_cons]; push_cast; omega
  · simp

theorem contaEntradas_novo (q : Int → ElemLista → Bool) (n : Nat) (d p : Bool) :
    contaEntradas q (Grafo.novo n d p) = 0 := by
  unfold contaEntradas
  apply List.sum_eq_zero
  intro x hx
  simp only [List.mem_map, List.mem_range] at hx
  obtain ⟨i, _, rfl⟩ := hx
  rw [lista_novo]
  simp

/-- The counter and the two directed counts move together under `adicionaComPeso` on a
symmetric undirected graph. -/
theorem conta_adicionaComPeso (g : Grafo) (hg : BemFormado g) (hs : Simetrico g)
    (hd : g.direcionado = false) (u v p : Int) (h : entradaInvalida g u v = false)
    (h1 : g.numArestas = contaEntradas paraCima g)
    (h2 : g.numArestas = contaEntradas paraBaixo g) :
    (adicionaComPeso g u v p).numArestas = contaEntradas paraCima (adicionaComPeso g u v p) ∧
    (adicionaComPeso g u v p).numArestas = contaEntradas paraBaixo (adicionaComPeso g u v p) := by
  obtain ⟨hu0, hv0, hun, hvn, huv⟩ := (entradaInvalida_falso g u v).mp h
  unfold adicionaComPeso
  cases hi : (insereArestaAux g u v p).1
  · simp only [Bool.false_eq_true, if_false]
    exact ⟨h1, h2⟩
  · simp only [if_true, hd, Bool.not_false]
    have hg1 : (insereArestaAux g u v p).2.A.length = (insereArestaAux g u v p).2.numVertices := by
      rw [tamanho_insereArestaAux]; exact hg.tamanho
    have hex : existeNaLista v (g.lista u) = false := by
      cases hb : existeNaLista v (g.lista u)
      · rfl
      · have := (insereNaLista_falso v p (g.lista u)).mpr hb
        have h3 : (insereArestaAux g u v p).1 = (insereNaLista v p (g.lista u)).1 := rfl
        rw [h3, this] at hi
        exact absurd hi (by simp)
    have hi2 : (insereArestaAux (insereArestaAux g u v p).2 v u p).1 = true := by
      show (insereNaLista u p ((insereArestaAux g u v p).2.lista v)).1 = true
      rw [lista_insereArestaAux_outro g u v p v hu0 hv0 (Ne.symm huv)]
      cases hb : (insereNaLista u p (g.lista v)).1
      · have := (insereNaLista_falso u p (g.lista v)).mp hb
        rw [← existe_simetrico g hg hs u v hu0 hv0, hex] at this
        exact absurd this (by simp)
      · rfl
    have c1 := fun q => contaEntradas_insereArestaAux q g hg.tamanho u v p ⟨hu0, hun⟩ hi
    have c2 := fun q => contaEntradas_insereArestaAux q (insereArestaAux g u v p).2 hg1 v u p
      ⟨hv0, hvn⟩ hi2
    constructor
    · show g.numArestas + 1 = contaEntradas paraCima (insereArestaAux _ v u p).2
      rw [c2, c1, ← h1]
      simp only [paraCima, decide_eq_true_eq]
      split <;> split <;> omega
    · show g.numArestas + 1 = contaEntradas paraBaixo (insereArestaAux _ v u p).2
      rw [c2, c1, ← h2]
      simp only [paraBaixo, decide_eq_true_eq]
      split <;> split <;> omega

theorem conta_removeAresta (g : Grafo) (hg : BemFormado g) (hs : Simetrico g)
    (u v : Int) (h1 : g.numArestas = contaEntradas paraCima g)
    (h2 : g.numArestas = contaEntradas paraBaixo g) :
    (removeAresta g u v).2.numArestas = contaEntradas paraCima (removeAresta g u v).2 ∧
    (removeAresta g u v).2.numArestas = contaEntradas paraBaixo (removeAresta g u v).2 := by
  unfold removeAresta
  cases h : entradaInvalida g u v
  · obtain ⟨hu0, hv0, hun, hvn, huv⟩ := (entradaInvalida_falso g u v).mp h
    simp only [Bool.false_eq_true, if_false]
    cases hi : (removeArestaAux g u v).1
    · simp only [Bool.false_eq_true, if_false]
      exact ⟨h1, h2⟩
    · simp only [if_true]
      have hb1 := bemFormado_removeArestaAux g hg u v hu0
      have hex : existeNaLista v (g.lista u) = true := by
        rw [← removeDaLista_resultado]; exact hi
      have hi2 : (removeArestaAux (removeArestaAux g u v).2 v u).1 = true := by
        show (removeDaLista u ((removeArestaAux g u v).2.lista v)).1 = true
        rw [lista_removeArestaAux_outro g u v v hu0 hv0 (Ne.symm huv), removeDaLista_resultado,
          ← existe_simetrico g hg hs u v hu0 hv0]
        exact hex
      have c1 := fun q => contaEntradas_removeArestaAux q g hg.tamanho u v ⟨hu0, hun⟩ hi
      have c2 := fun q => contaEntradas_removeArestaAux q (removeArestaAux g u v).2 hb1.tamanho
        v u ⟨hv0, hvn⟩ hi2
      constructor
      · show g.numArestas - 1 = contaEntradas paraCima (removeArestaAux _ v u).2
        obtain ⟨e1, _, hv1, k1⟩ := c1 paraCima
        obtain ⟨e2, _, hv2, k2⟩ := c2 paraCima
        rw [k2, k1, ← h1]
        simp only [paraCima, decide_eq_true_eq, hv1, hv2]
        split <;> split <;> omega
      · show g.numArestas - 1 = contaEntradas paraBaixo (removeArestaAux _ v u).2
        obtain ⟨e1, _, hv1, k1⟩ := c1 paraBaixo
        obtain ⟨e2, _, hv2, k2⟩ := c2 paraBaixo
        rw [k2, k1, ← h2]
        simp only [paraBaixo, decide_eq_true_eq, hv1, hv2]
        split <;> split <;> omega
  · simp only [if_true]
    exact ⟨h1, h2⟩

theorem conta_de_alcancavel (g : Grafo) (hg : AlcancavelSemDir g) (hd : g.direcionado = false) :
    g.numArestas = contaEntradas paraCima g ∧ g.numArestas = contaEntradas paraBaixo g := by
  induction hg with
  | novo n d p =>
    rw [contaEntradas_novo, contaEntradas_novo]
    exact ⟨rfl, rfl⟩
  | adiciona g u v w hg ih =>
    rw [direcionado_adicionaAresta] at hd
    have hb := bemFormado_de_alcancavel g (alcancavel_de_semDir g hg)
    have hs := simetrico_de_alcancavel g hg hd
    obtain ⟨h1, h2⟩ := ih hd
    unfold adicionaAresta
    cases h : entradaInvalida g u v
    · simp only [Bool.false_eq_true, if_false]
      split
      · exact conta_adicionaComPeso g hb hs hd u v w h h1 h2
      · exact conta_adicionaComPeso g hb hs hd u v 1 h h1 h2
    · simp only [if_true]
      exact ⟨h1, h2⟩
  | remove g u v hg ih =>
    rw [direcionado_removeAresta] at hd
    have hb := bemFormado_de_alcancavel g (alcancavel_de_semDir g hg)
    have hs := simetrico_de_alcancavel g hg hd
    obtain ⟨h1, h2⟩ := ih hd
    exact conta_removeAresta g hb hs u v h1 h2

theorem length_coletaArestas (g : Grafo) :
    ((coletaArestas g).length : Int) = contaEntradas paraCima g := by
  unfold coletaArestas contaEntradas
  rw [List.length_flatMap]
  push_cast
  rw [List.map_map]
  congr 1
  apply List.map_congr_left
  intro i _
  simp only [Function.comp_def, List.length_map]
  rfl

theorem caminho_trans (g : Grafo) (a b c : Int) (j k : Nat) (h1 : Caminho g a b j)
    (h2 : Caminho g b c k) : Caminho g a c (j + k) := by
  induction h2 with
  | nulo => exact h1
  | passo v k e _ he ih => exact Caminho.passo v (j + k) e ih he

theorem caminho_aresta (g : Grafo) (v : Int) (e : ElemLista) (he : e ∈ g.lista v) :
    Caminho g v e.vertice 1 :=
  Caminho.passo v 0 e Caminho.nulo he

/-- Entry `visitado[x]` of a vector of marks. -/
theorem marca_set (vis : List Bool) (v x : Int) (hv : 0 ≤ v) (hx : 0 ≤ x)
    (hlen : v.toNat < vis.length) :
    (vis.set v.toNat true).getD x.toNat true = true ↔ (x = v ∨ vis.getD x.toNat true = true) := by
  rw [getD_set_int vis v x true true hv hx hlen]
  by_cases h : x = v
  · simp [h]
  · simp [h]

theorem dfsVizinhos_spec (g : Grafo) (k : Nat)
    (ih : ∀ v vis, Valido g v → vis.length = g.numVertices → vis.getD v.toNat true = false →
      vis.count false ≤ k → ∃ vis', dfs g k v vis = Except.ok vis' ∧ DfsPos g v vis vis')
    (l : List ElemLista) :
    ∀ vis, (∀ e ∈ l, Valido g e.vertice) → vis.length = g.numVertices →
      vis.count false ≤ k →
      ∃ vis', dfsVizinhos (dfs g k) l vis = Except.ok vis' ∧
        vis'.length = g.numVertices ∧ vis'.count false ≤ vis.count false ∧
        (∀ x : Int, vis.getD x.toNat true = true → vis'.getD x.toNat true = true) ∧
        (∀ e ∈ l, vis'.getD e.vertice.toNat true = true) ∧
        (∀ x, Valido g x → vis'.getD x.toNat true = true → vis.getD x.toNat true = false →
          ∃ e ∈ l, ∃ j, Caminho g e.vertice x j) ∧
        (∀ x, Valido g x → vis'.getD x.toNat true = true → vis.getD x.toNat true = false →
          ∀ e ∈ g.lista x, vis'.getD e.vertice.toNat true = true) := by
  induction l with
  | nil =>
    intro vis _ hlen _
    refine ⟨vis, rfl, hlen, le_refl _, fun _ h => h, ?_, ?_, ?_⟩
    · intro e he; simp at he
    · intro x _ h1 h2; rw [h1] at h2; exact absurd h2 (by simp)
    · intro x _ h1 h2; rw [h1] at h2; exact absurd h2 (by simp)
  | cons a t iht =>
    intro vis hval hlen hcount
    have hva := hval a (List.mem_cons_self a t)
    have hvt : ∀ e ∈ t, Valido g e.vertice := fun e he => hval e (List.mem_cons_of_mem a he)
    by_cases hm : vis.getD a.vertice.toNat true = false
    · obtain ⟨vis1, hrun1, hl1, hc1, hmono1, hself1, hreach1, hclos1⟩ :=
        ih a.vertice vis hva hlen hm hcount
      obtain ⟨vis2, hrun2, hl2, hc2, hmono2, hall2, hreach2, hclos2⟩ :=
        iht vis1 hvt hl1 (le_trans hc1 hcount)
      refine ⟨vis2, ?_, hl2, le_trans hc2 hc1, fun x h => hmono2 x (hmono1 x h), ?_, ?_, ?_⟩
      · simp only [dfsVizinhos, hm, if_true, hrun1, hrun2]
      · intro e he
        rcases List.mem_cons.mp he with h | h
        · rw [h]; exact hmono2 _ hself1
        · exact hall2 e h
      · intro x hx h2 h0
        by_cases h1 : vis1.getD x.toNat true = true
        · obtain ⟨j, hj⟩ := hreach1 x hx h1 h0
          exact ⟨a, List.mem_cons_self a t, j, hj⟩
        · have h1' : vis1.getD x.toNat true = false := by simpa using h1
          obtain ⟨e, he, j, hj⟩ := hreach2 x hx h2 h1'
          exact ⟨e, List.mem_cons_of_mem a he, j, hj⟩
      · intro x hx h2 h0 e he
        by_cases h1 : vis1.getD x.toNat true = true
        · exact hmono2 _ (hclos1 x hx h1 h0 e he)
        · have h1' : vis1.getD x.toNat true = false := by simpa using h1
          exact hclos2 x hx h2 h1' e he
    · have hm' : vis.getD a.vertice.toNat true = true := by simpa using hm
      obtain ⟨vis2, hrun2, hl2, hc2, hmono2, hall2, hreach2, hclos2⟩ := iht vis hvt hlen hcount
      refine ⟨vis2, ?_, hl2, hc2, hmono2, ?_, ?_, hclos2⟩
      · rw [dfsVizinhos, if_neg hm]; exact hrun2
      · intro e he
        rcases List.mem_cons.mp he with h | h
        · rw [h]; exact hmono2 _ hm'
        · exact hall2 e h
      · intro x hx h2 h0
        obtain ⟨e, he, j, hj⟩ := hreach2 x hx h2 h0
        exact ⟨e, List.mem_cons_of_mem a he, j, hj⟩

theorem dfs_spec (g : Grafo) (hg : BemFormado g) (k : Nat) :
    ∀ v vis, Valido g v → vis.length = g.numVertices → vis.getD v.toNat true = false →
      vis.count false ≤ k → ∃ vis', dfs g k v vis = Except.ok vis' ∧ DfsPos g v vis vis' := by
  induction k with
  | zero =>
    intro v vis _ _ hm hc
    have := count_false_set vis v.toNat hm
    omega
  | succ k ih =>
    intro v vis hv hlen hm hc
    have hvl : v.toNat < vis.length := getD_false_lt vis v.toNat hm
    have hesc : escreve vis v true = Except.ok (vis.set v.toNat true) := by
      unfold escreve
      rw [if_pos ⟨hv.1, by rw [hlen]; exact hv.2⟩]
    have hc1 : (vis.set v.toNat true).count false ≤ k := by
      have := count_false_set vis v.toNat hm
      omega
    obtain ⟨vis', hrun, hl, hcnt, hmono, hall, hreach, hclos⟩ :=
      dfsVizinhos_spec g k ih (g.lista v) (vis.set v.toNat true)
        (fun e he => hg.noIntervalo v e he) (by simpa using hlen) hc1
    refine ⟨vis', ?_, hl, ?_, ?_, ?_, ?_, ?_⟩
    · simp only [dfs, hesc, hrun]
    · have := count_false_set vis v.toNat hm
      omega
    · intro x hx
      by_cases hx0 : 0 ≤ x
      · exact hmono x ((marca_set vis v x hv.1 hx0 hvl).mpr (Or.inr hx))
      · have hxz : x.toNat = (0 : Int).toNat := by omega
        rw [hxz] at hx ⊢
        exact hmono 0 ((marca_set vis v 0 hv.1 (le_refl 0) hvl).mpr (Or.inr hx))
    · exact hmono v ((marca_set vis v v hv.1 hv.1 hvl).mpr (Or.inl rfl))
    · intro x hx h2 h0
      by_cases hxv : x = v
      · rw [hxv]; exact ⟨0, Caminho.nulo⟩
      · have h1 : (vis.set v.toNat true).getD x.toNat true = false := by
          rw [getD_set_int vis v x true true hv.1 hx.1 hvl, if_neg hxv]; exact h0
        obtain ⟨e, he, j, hj⟩ := hreach x hx h2 h1
        exact ⟨1 + j, caminho_trans g v e.vertice x 1 j (caminho_aresta g v e he) hj⟩
    · intro x hx h2 h0 e he
      by_cases hxv : x = v
      · rw [hxv] at he; exact hall e he
      · have h1 : (vis.set v.toNat true).getD x.toNat true = false := by
          rw [getD_set_int vis v x true true hv.1 hx.1 hvl, if_neg hxv]; exact h0
        exact hclos x hx h2 h1 e he

theorem all_marcados (vis : List Bool) (n : Nat) (hlen : vis.length = n) :
    vis.all (fun v => v) = true ↔
      ∀ x : Int, 0 ≤ x ∧ x < (n : Int) → vis.getD x.toNat true = true := by
  rw [List.all_eq_true]
  constructor
  · intro h x hx
    have hl : x.toNat < vis.length := by omega
    rw [List.getD_eq_getElem _ _ hl]
    exact h _ (List.getElem_mem hl)
  · intro h b hb
    obtain ⟨i, hi, rfl⟩ := List.getElem_of_mem hb
    have := h (i : Int) ⟨by simp, by omega⟩
    rw [Int.toNat_ofNat, List.getD_eq_getElem _ _ hi] at this
    exact this

/-- The connectivity test on a well-formed graph with at least one vertex: it returns, and
the vector of marks it builds marks exactly the vertices reachable from vertex 0. -/
theorem estaConectadoDFS_geral (g : Grafo) (hg : BemFormado g) (hn : 1 ≤ g.numVertices) :
    ∃ b, estaConectadoDFS g = Except.ok b ∧
      (b = true ↔ ∀ v, Valido g v → ∃ k, Caminho g 0 v k) := by
  have h0 : Valido g 0 := ⟨le_refl 0, by omega⟩
  have hrep : ∀ x : Int, Valido g x →
      (List.replicate g.numVertices false).getD x.toNat true = false :=
    fun x hx => getD_replicate_int g.numVertices false true x hx.1 hx.2
  obtain ⟨vis, hrun, hl, _, _, hself, hreach, hclos⟩ :=
    dfs_spec g hg (g.numVertices + 1) 0 (List.replicate g.numVertices false) h0
      (by simp) (hrep 0 h0) (by
        have := List.count_le_length false (List.replicate g.numVertices false)
        simp only [List.length_replicate] at this
        omega)
  have hmarca : ∀ v, Valido g v → (vis.getD v.toNat true = true ↔ ∃ k, Caminho g 0 v k) := by
    intro v hv
    constructor
    · intro h
      exact hreach v hv h (hrep v hv)
    · rintro ⟨k, hk⟩
      induction hk with
      | nulo => exact hself
      | passo x j e hc he ih =>
        have hx := caminho_valido g hg 0 x j h0 hc
        exact hclos x hx (ih hx) (hrep x hx) e he
  refine ⟨vis.all (fun v => v), ?_, ?_⟩
  · simp only [estaConectadoDFS, hrun]
  · rw [all_marcados vis g.numVertices hl]
    constructor
    · intro h v hv
      exact (hmarca v hv).mp (h v hv)
    · intro h v hv
      exact (hmarca v hv).mpr (h v hv)

/-- C13: for every well-formed graph with `numVertices >= 1`, `estaConectadoDFS` returns,
and it returns true if and only if every vertex is reachable from vertex 0 by following
adjacency entries. -/
theorem estaConectadoDFS_correto (g : Grafo) (hg : BemFormado g) (hn : 1 ≤ g.numVertices) :
    ∃ b, estaConectadoDFS g = Except.ok b ∧
      (b = true ↔ ∀ v, Valido g v → ∃ k, Caminho g 0 v k) :=
  estaConectadoDFS_geral g hg hn

/-- Witness for C13: the weighted five-vertex example is connected; after
`removeAresta(3, 4)` vertex 4 is unreachable and the check returns false. -/
theorem estaConectadoDFS_correto_witness :
    estaConectadoDFS exemploPonderado = Except.ok true ∧
    estaConectadoDFS (removeAresta exemploPonderado 3 4).2 = Except.ok false ∧
    ∃ b, estaConectadoDFS (removeAresta exemploPonderado 3 4).2 = Except.ok b ∧
      (b = true ↔ ∀ v, Valido (removeAresta exemploPonderado 3 4).2 v →
        ∃ k, Caminho (removeAresta exemploPonderado 3 4).2 0 v k) :=
  ⟨rfl, rfl, estaConectadoDFS_correto _
    (bemFormado_removeAresta _ (bemFormado_de_alcancavel _ alcancavel_exemploPonderado) 3 4)
    (by decide)⟩

/-! ## More on forests: cuts, maximality, edge count -/

theorem con_vazio (a b : Int) (h : Con (∅ : Finset Aresta) a b) : a = b := by
  induction h with
  | rel x y hxy =>
    obtain ⟨e, he, _, _⟩ := hxy
    simp at he
  | refl x => rfl
  | symm x y _ ih => exact ih.symm
  | trans x y z _ _ ih1 ih2 => exact ih1.trans ih2

/-- A connection between a vertex inside `P` and one outside uses an edge that crosses. -/
theorem con_cruza (E : Finset Aresta) (P : Int → Prop) (a b : Int) (h : Con E a b) :
    (P a ↔ P b) ∨ ∃ f ∈ E, ¬ (P f.origem ↔ P f.destino) := by
  induction h with
  | rel x y hxy =>
    obtain ⟨e, he, rfl, rfl⟩ := hxy
    by_cases hc : (P e.origem ↔ P e.destino)
    · exact Or.inl hc
    · exact Or.inr ⟨e, he, hc⟩
  | refl x => exact Or.inl Iff.rfl
  | symm x y _ ih =>
    rcases ih with h | h
    · exact Or.inl h.symm
    · exact Or.inr h
  | trans x y z _ _ ih1 ih2 =>
    rcases ih1 with h1 | h1
    · rcases ih2 with h2 | h2
      · exact Or.inl (h1.trans h2)
      · exact Or.inr h2
    · exact Or.inr h1

/-- Endpoints of connected distinct vertices are endpoints of edges. -/
theorem con_valido (E : Finset Aresta) (Q : Int → Prop)
    (hE : ∀ e ∈ E, Q e.origem ∧ Q e.destino) (a b : Int) (h : Con E a b) :
    a = b ∨ (Q a ∧ Q b) := by
  induction h with
  | rel x y hxy =>
    obtain ⟨e, he, rfl, rfl⟩ := hxy
    exact Or.inr (hE e he)
  | refl x => exact Or.inl rfl
  | symm x y _ ih =>
    rcases ih with h | h
    · exact Or.inl h.symm
    · exact Or.inr ⟨h.2, h.1⟩
  | trans x y z _ _ ih1 ih2 =>
    rcases ih1 with h1 | h1
    · rw [h1]; exact ih2
    · rcases ih2 with h2 | h2
      · rw [← h2]; exact Or.inr h1
      · exact Or.inr ⟨h1.1, h2.2⟩

/-- A forest that contains an edge set connecting the endpoints of all its edges is that
edge set. -/
theorem floresta_maximal (T F : Finset Aresta) (hT : Floresta T) (hF : F ⊆ T)
    (hcon : ∀ x ∈ T, Con F x.origem x.destino) : T = F := by
  apply Finset.Subset.antisymm _ hF
  intro x hx
  by_contra hxF
  have hsub : F ⊆ T.erase x := by
    intro y hy
    exact Finset.mem_erase.mpr ⟨fun hh => hxF (hh ▸ hy), hF hy⟩
  exact hT x hx (con_mono _ _ hsub _ _ (hcon x hx))

/-- The cut property: a lightest edge that crosses a cut can be added to any edge set that
does not cross it and lies inside some spanning forest, at no cost. -/
theorem corte_seguro (G T : Finset Aresta) (hT : FlorestaGeradora G T) (P : Int → Prop)
    (F : Finset Aresta) (hF : F ⊆ T) (hFP : ∀ x ∈ F, (P x.origem ↔ P x.destino))
    (e : Aresta) (heG : e ∈ G) (hcr : ¬ (P e.origem ↔ P e.destino))
    (hmin : ∀ f ∈ G, ¬ (P f.origem ↔ P f.destino) → e.peso ≤ f.peso) :
    ∃ T', FlorestaGeradora G T' ∧ custo T' ≤ custo T ∧ insert e F ⊆ T' := by
  classical
  by_cases heT : e ∈ T
  · refine ⟨T, hT, le_refl _, ?_⟩
    intro x hx
    rcases Finset.mem_insert.mp hx with h | h
    · rw [h]; exact heT
    · exact hF h
  · have hcon : Con T e.origem e.destino := hT.2.2 _ _ (con_aresta G e heG)
    have hS : ¬ Con (T.filter (fun x => (P x.origem ↔ P x.destino))) e.origem e.destino := by
      intro hc
      rcases con_cruza _ P _ _ hc with h | ⟨f, hf, hfc⟩
      · exact hcr h
      · exact hfc (Finset.mem_filter.mp hf).2
    obtain ⟨f, hfT, hfS, hsep⟩ := aresta_separadora e.origem e.destino _ hS T.card T rfl
      hT.2.1 (Finset.filter_subset _ _) hcon
    have hfc : ¬ (P f.origem ↔ P f.destino) := fun h =>
      hfS (Finset.mem_filter.mpr ⟨hfT, h⟩)
    have hpeso := hmin f (hT.1 hfT) hfc
    obtain ⟨hT', hcusto⟩ := troca_aresta G T hT e f heG heT hfT hsep
    refine ⟨insert e (T.erase f), hT', by rw [hcusto]; omega, ?_⟩
    intro x hx
    rcases Finset.mem_insert.mp hx with h | h
    · rw [h]; exact Finset.mem_insert_self _ _
    · apply Finset.mem_insert_of_mem
      exact Finset.mem_erase.mpr ⟨fun hh => hfc (hFP f (hh ▸ h)), hF h⟩

/-- Every forest on the vertices `0 .. n-1` has a set of representatives, one for each of
its components, and its edges and its components add up to `n`. -/
theorem floresta_representantes (n : Nat) (T : Finset Aresta) :
    Floresta T →
    (∀ e ∈ T, (0 ≤ e.origem ∧ e.origem < (n : Int)) ∧ (0 ≤ e.destino ∧ e.destino < (n : Int))) →
    ∃ R : Finset Int, (∀ r ∈ R, 0 ≤ r ∧ r < (n : Int)) ∧
      (∀ x : Int, 0 ≤ x ∧ x < (n : Int) → ∃ r ∈ R, Con T x r) ∧
      (∀ r ∈ R, ∀ r' ∈ R, Con T r r' → r = r') ∧ T.card + R.card = n := by
  classical
  induction T using Finset.induction_on with
  | empty =>
    intro _ _
    refine ⟨Finset.Ico (0 : Int) (n : Int), ?_, ?_, ?_, ?_⟩
    · intro r hr
      exact Finset.mem_Ico.mp hr
    · intro x hx
      exact ⟨x, Finset.mem_Ico.mpr hx, con_refl _ x⟩
    · intro r _ r' _ h
      exact con_vazio r r' h
    · simp
  | insert he ih =>
    rename_i e T0
    intro hfor hval
    have hfor0 : Floresta T0 := floresta_sub _ _ (Finset.subset_insert e T0) hfor
    have hsep : ¬ Con T0 e.origem e.destino := by
      have := hfor e (Finset.mem_insert_self e T0)
      rwa [Finset.erase_insert he] at this
    obtain ⟨R0, hR0, hrep, huniq, hcard⟩ := ih hfor0
      (fun x hx => hval x (Finset.mem_insert_of_mem hx))
    have hve := hval e (Finset.mem_insert_self e T0)
    obtain ⟨r1, hr1, hc1⟩ := hrep e.origem hve.1
    obtain ⟨r2, hr2, hc2⟩ := hrep e.destino hve.2
    have hne : r1 ≠ r2 := by
      intro h
      apply hsep
      rw [← h] at hc2
      exact con_trans _ _ _ _ hc1 (con_symm _ _ _ hc2)
    have hup : ∀ x y, Con T0 x y → Con (insert e T0) x y :=
      fun x y h => con_mono _ _ (Finset.subset_insert e T0) x y h
    have hee : Con (insert e T0) e.origem e.destino :=
      con_aresta _ e (Finset.mem_insert_self e T0)
    refine ⟨R0.erase r2, ?_, ?_, ?_, ?_⟩
    · intro r hr
      exact hR0 r (Finset.mem_erase.mp hr).2
    · intro x hx
      obtain ⟨r, hr, hc⟩ := hrep x hx
      by_cases h2 : r = r2
      · refine ⟨r1, Finset.mem_erase.mpr ⟨hne, hr1⟩, ?_⟩
        rw [h2] at hc
        exact con_trans _ _ _ _ (hup _ _ hc) (con_trans _ _ _ _ (con_symm _ _ _ (hup _ _ hc2))
          (con_trans _ _ _ _ (con_symm _ _ _ hee) (hup _ _ hc1)))
      · exact ⟨r, Finset.mem_erase.mpr ⟨h2, hr⟩, hup _ _ hc⟩
    · intro r hr r' hr' hc
      have hrR := (Finset.mem_erase.mp hr).2
      have hrR' := (Finset.mem_erase.mp hr').2
      rcases con_insert T0 e r r' hc with k | ⟨k1, k2⟩ | ⟨k1, k2⟩
      · exact huniq r hrR r' hrR' k
      · exfalso
        have : r' = r2 := huniq r' hrR' r2 hr2
          (con_trans _ _ _ _ (con_symm _ _ _ k2) hc2)
        exact (Finset.mem_erase.mp hr').1 this
      · exfalso
        have : r = r2 := huniq r hrR r2 hr2 (con_trans _ _ _ _ k1 hc2)
        exact (Finset.mem_erase.mp hr).1 this
    · rw [Finset.card_insert_of_not_mem he, Finset.card_erase_of_mem hr2]
      have : 0 < R0.card := Finset.card_pos.mpr ⟨r2, hr2⟩
      omega

/-- A forest that connects all the vertices `0 .. n-1` has `n - 1` edges. -/
theorem arvore_contagem (n : Nat) (hn : 1 ≤ n) (T : Finset Aresta) (hT : Floresta T)
    (hval : ∀ e ∈ T, (0 ≤ e.origem ∧ e.origem < (n : Int)) ∧
      (0 ≤ e.destino ∧ e.destino < (n : Int)))
    (hcon : Conexo n T) : T.card + 1 = n := by
  obtain ⟨R, hR, hrep, huniq, hcard⟩ := floresta_representantes n T hT hval
  have h1 : R.card = 1 := by
    rw [Finset.card_eq_one]
    obtain ⟨r, hr, _⟩ := hrep 0 ⟨le_refl 0, by omega⟩
    refine ⟨r, ?_⟩
    ext x
    rw [Finset.mem_singleton]
    constructor
    · intro hx
      exact huniq x hx r hr (hcon x r (hR x hx) (hR r hr))
    · intro hx
      rw [hx]; exact hr
  omega

/-! ## Reverse-delete on edge sets -/

/-- When an edge set connects all vertices and stops doing so once `e` is dropped, the
other edges do not connect the endpoints of `e`. -/
theorem ponte_de_desconexo (n : Nat) (H : Finset Aresta) (e : Aresta) (heH : e ∈ H)
    (hH : Conexo n H) (hd : ¬ Conexo n (H.erase e)) :
    ¬ Con (H.erase e) e.origem e.destino := by
  intro hc
  apply hd
  intro a b ha hb
  have h := hH a b ha hb
  rw [← Finset.insert_erase heH] at h
  rcases con_insert _ e a b h with k | ⟨k1, k2⟩ | ⟨k1, k2⟩
  · exact k
  · exact con_trans _ _ _ _ k1 (con_trans _ _ _ _ hc k2)
  · exact con_trans _ _ _ _ k1 (con_trans _ _ _ _ (con_symm _ _ _ hc) k2)

/-- Dropping an edge whose endpoints stay connected: a spanning forest inside `H` can be
turned into one inside `H.erase e` that is not heavier, provided every edge of `H` that is
no bridge of `H` is at most as heavy as `e`. -/
theorem apaga_troca (G H T : Finset Aresta) (e : Aresta) (hHG : H ⊆ G)
    (hT : FlorestaGeradora G T) (hTH : T ⊆ H)
    (hcon : Con (H.erase e) e.origem e.destino)
    (hleve : ∀ f ∈ H.erase e, Con (H.erase f) f.origem f.destino → f.peso ≤ e.peso) :
    ∃ T', FlorestaGeradora G T' ∧ T' ⊆ H.erase e ∧ custo T' ≤ custo T := by
  by_cases heT : e ∈ T
  · have hsepT : ¬ Con (T.erase e) e.origem e.destino := hT.2.1 e heT
    rcases con_cruza (H.erase e) (fun x => Con (T.erase e) e.origem x) _ _ hcon with h | h
    · exact absurd (h.mp (con_refl _ _)) hsepT
    · obtain ⟨f, hfH, hfc⟩ := h
      have hfsep : ¬ Con (T.erase e) f.origem f.destino := by
        intro hc
        apply hfc
        constructor
        · intro h1; exact con_trans _ _ _ _ h1 hc
        · intro h1; exact con_trans _ _ _ _ h1 (con_symm _ _ _ hc)
      have hfe : f ≠ e := (Finset.mem_erase.mp hfH).1
      have hfH' : f ∈ H := (Finset.mem_erase.mp hfH).2
      have hfT : f ∉ T := fun h =>
        hfsep (con_aresta _ f (Finset.mem_erase.mpr ⟨hfe, h⟩))
      have hfG : f ∈ G := hHG hfH'
      have hpeso : f.peso ≤ e.peso := by
        apply hleve f hfH
        have hsub : T ⊆ H.erase f := by
          intro x hx
          exact Finset.mem_erase.mpr ⟨fun hh => hfT (hh ▸ hx), hTH hx⟩
        exact con_mono _ _ hsub _ _ (hT.2.2 _ _ (con_aresta G f hfG))
      obtain ⟨hT', hcusto⟩ := troca_aresta G T hT f e hfG hfT heT hfsep
      refine ⟨insert f (T.erase e), hT', ?_, by rw [hcusto]; omega⟩
      intro x hx
      rcases Finset.mem_insert.mp hx with h | h
      · rw [h]; exact hfH
      · have := Finset.mem_erase.mp h
        exact Finset.mem_erase.mpr ⟨this.1, hTH this.2⟩
  · refine ⟨T, hT, ?_, le_refl _⟩
    intro x hx
    exact Finset.mem_erase.mpr ⟨fun hh => heT (hh ▸ hx), hTH hx⟩

/-- Invariant of the reverse-delete run over edges in non-increasing order of weight. -/
theorem apagado_inv (n : Nat) (G : Finset Aresta)
    (R : List Aresta) (H H' : Finset Aresta) (hrun : Apagado n R H H') :
    H ⊆ G → Conexo n H → R.Nodup → R.Pairwise (fun a b => a.peso ≥ b.peso) →
    (∀ x ∈ R, x ∈ H) →
    (∀ x ∈ H, (0 ≤ x.origem ∧ x.origem < (n : Int)) ∧
      (0 ≤ x.destino ∧ x.destino < (n : Int))) →
    (∀ x ∈ H, x ∉ R → ¬ Con (H.erase x) x.origem x.destino) →
    H' ⊆ H ∧ Conexo n H' ∧ Floresta H' ∧
      ∀ T, FlorestaGeradora G T → T ⊆ H →
        ∃ T', FlorestaGeradora G T' ∧ T' ⊆ H' ∧ custo T' ≤ custo T := by
  induction hrun with
  | nil H =>
    intro _ hcon _ _ _ _ hpontes
    refine ⟨Finset.Subset.refl H, hcon, ?_, ?_⟩
    · intro x hx
      exact hpontes x hx (by simp)
    · intro T hT hTH
      exact ⟨T, hT, hTH, le_refl _⟩
  | remove e R H H' hc _ ih =>
    intro hHG hcon hnd hsort hRH hval hpontes
    have hndR : R.Nodup := (List.nodup_cons.mp hnd).2
    have heR : e ∉ R := (List.nodup_cons.mp hnd).1
    have heH : e ∈ H := hRH e (List.mem_cons_self e R)
    have hsub : H.erase e ⊆ H := Finset.erase_subset e H
    obtain ⟨h1, h2, h3, h4⟩ := ih (hsub.trans hHG) hc hndR (List.pairwise_cons.mp hsort).2
      (fun x hx => Finset.mem_erase.mpr
        ⟨fun hh => heR (hh ▸ hx), hRH x (List.mem_cons_of_mem e hx)⟩)
      (fun x hx => hval x (hsub hx))
      (fun x hx hxR hcx => by
        have hxH := (Finset.mem_erase.mp hx).2
        have hxe := (Finset.mem_erase.mp hx).1
        apply hpontes x hxH (fun hm => by
          rcases List.mem_cons.mp hm with h | h
          · exact hxe h
          · exact hxR h)
        exact con_mono _ _ (Finset.erase_subset_erase x hsub) _ _ hcx)
    refine ⟨h1.trans hsub, h2, h3, ?_⟩
    intro T hT hTH
    have hve := hval e heH
    obtain ⟨T1, hT1, hT1H, hc1⟩ := apaga_troca G H T e hHG hT hTH
      (hc _ _ hve.1 hve.2)
      (fun f hf hcf => by
        have hfH := (Finset.mem_erase.mp hf).2
        have hfe := (Finset.mem_erase.mp hf).1
        have hfR : f ∈ R := by
          by_contra hfR
          exact hpontes f hfH (fun hm => by
            rcases List.mem_cons.mp hm with h | h
            · exact hfe h
            · exact hfR h) hcf
        exact (List.pairwise_cons.mp hsort).1 f hfR)
    obtain ⟨T2, hT2, hT2H, hc2⟩ := h4 T1 hT1 hT1H
    exact ⟨T2, hT2, hT2H, le_trans hc2 hc1⟩
  | mantem e R H H' hd _ ih =>
    intro hHG hcon hnd hsort hRH hval hpontes
    have hndR : R.Nodup := (List.nodup_cons.mp hnd).2
    have heH : e ∈ H := hRH e (List.mem_cons_self e R)
    exact ih hHG hcon hndR (List.pairwise_cons.mp hsort).2
      (fun x hx => hRH x (List.mem_cons_of_mem e hx)) hval
      (fun x hx hxR => by
        by_cases hxe : x = e
        · rw [hxe]; exact ponte_de_desconexo n H e heH hcon hd
        · exact hpontes x hx (fun hm => by
            rcases List.mem_cons.mp hm with h | h
            · exact hxe h
            · exact hxR h))

/-- The reverse-delete run over all the edges of a connected edge set, in non-increasing
order of weight, leaves a minimum spanning tree. -/
theorem apagado_minimo (n : Nat) (L : List Aresta) (H' : Finset Aresta)
    (hrun : Apagado n L L.toFinset H') (hnd : L.Nodup)
    (hsort : L.Pairwise (fun a b => a.peso ≥ b.peso)) (hcon : Conexo n L.toFinset)
    (hval : ∀ x ∈ L, (0 ≤ x.origem ∧ x.origem < (n : Int)) ∧
      (0 ≤ x.destino ∧ x.destino < (n : Int))) :
    H' ⊆ L.toFinset ∧ Conexo n H' ∧ FlorestaGeradora L.toFinset H' ∧
      ∀ T, FlorestaGeradora L.toFinset T → custo H' ≤ custo T := by
  obtain ⟨h1, h2, h3, h4⟩ := apagado_inv n L.toFinset L L.toFinset H' hrun
    (Finset.Subset.refl _) hcon hnd hsort (fun x hx => List.mem_toFinset.mpr hx)
    (fun x hx => hval x (List.mem_toFinset.mp hx))
    (fun x hx hxL => absurd (List.mem_toFinset.mp hx) hxL)
  have hval' : ∀ x ∈ L.toFinset, (0 ≤ x.origem ∧ x.origem < (n : Int)) ∧
      (0 ≤ x.destino ∧ x.destino < (n : Int)) := fun x hx => hval x (List.mem_toFinset.mp hx)
  have hger : ∀ a b, Con L.toFinset a b → Con H' a b := by
    intro a b hab
    rcases con_valido L.toFinset (fun x => 0 ≤ x ∧ x < (n : Int)) hval' a b hab with h | h
    · rw [h]; exact con_refl _ b
    · exact h2 a b h.1 h.2
  refine ⟨h1, h2, ⟨h1, h3, hger⟩, ?_⟩
  intro T hT
  obtain ⟨T', hT', hsub, hc⟩ := h4 T hT hT.1
  have heq : H' = T' := by
    apply floresta_maximal H' T' h3 hsub
    intro x hx
    exact hT'.2.2 _ _ (con_aresta _ x (h1 hx))
  rw [heq]; exact hc

/-! ## Removing an edge and inserting it again -/

theorem grafo_ext (g g' : Grafo) (hn : g.numVertices = g'.numVertices)
    (ha : g.numArestas = g'.numArestas) (hd : g.direcionado = g'.direcionado)
    (hp : g.ponderado = g'.ponderado) (hl : g.A.length = g.numVertices)
    (hl' : g'.A.length = g'.numVertices)
    (h : ∀ x : Int, Valido g x → g.lista x = g'.lista x) : g = g' := by
  have hA : g.A = g'.A := by
    apply List.ext_getElem
    · rw [hl, hl', hn]
    · intro i h1 h2
      have := h (i : Int) ⟨by simp, by rw [← hl]; exact_mod_cast h1⟩
      unfold Grafo.lista at this
      rw [Int.toNat_ofNat, List.getD_eq_getElem _ _ h1, List.getD_eq_getElem _ _ h2] at this
      exact this
  cases g
  cases g'
  simp only at hn ha hd hp hA
  simp [hn, ha, hd, hp, hA]

theorem insereNaLista_frente (v w : Int) (l : List ElemLista)
    (h : ∀ e ∈ l, v < e.vertice) : insereNaLista v w l = (true, ⟨v, w⟩ :: l) := by
  cases l with
  | nil => rfl
  | cons a t =>
    have := h a (List.mem_cons_self a t)
    have h1 : ¬ a.vertice < v := by omega
    have h2 : ¬ a.vertice = v := by omega
    simp [insereNaLista, h1, h2]

theorem insere_remove (v w : Int) (l : List ElemLista) (h : Ordenada l)
    (hm : (⟨v, w⟩ : ElemLista) ∈ l) :
    insereNaLista v w (removeDaLista v l).2 = (true, l) := by
  induction l with
  | nil => simp at hm
  | cons a t ih =>
    have ht : Ordenada t := (List.pairwise_cons.mp h).2
    have ha := (List.pairwise_cons.mp h).1
    by_cases h1 : a.vertice < v
    · have hmt : (⟨v, w⟩ : ElemLista) ∈ t := by
        rcases List.mem_cons.mp hm with h2 | h2
        · rw [← h2] at h1; simp at h1
        · exact h2
      have := ih ht hmt
      simp only [removeDaLista, h1, if_true, insereNaLista, this]
    · by_cases h2 : a.vertice = v
      · have hav : a = ⟨v, w⟩ :=
          ordenada_unica _ h a ⟨v, w⟩ (List.mem_cons_self a t) hm h2
        have hr : removeDaLista v (a :: t) = (true, t) := by
          simp [removeDaLista, h1, h2]
        rw [hr]
        show insereNaLista v w t = _
        rw [insereNaLista_frente v w t (fun e he => by have := ha e he; omega), hav]
      · exfalso
        rcases List.mem_cons.mp hm with h3 | h3
        · rw [← h3] at h2; simp at h2
        · have := ha _ h3
          simp only at this
          omega

theorem remove_insere (v w : Int) (l : List ElemLista)
    (hm : existeNaLista v l = false) :
    removeDaLista v (insereNaLista v w l).2 = (true, l) := by
  induction l with
  | nil => simp [insereNaLista, removeDaLista]
  | cons a t ih =>
    by_cases h1 : a.vertice < v
    · simp only [existeNaLista, h1, if_true] at hm
      simp only [insereNaLista, h1, if_true, removeDaLista, ih hm]
    · by_cases h2 : a.vertice = v
      · simp [existeNaLista, h1, h2] at hm
      · simp [insereNaLista, removeDaLista, h1, h2]

theorem direcionado_adicionaComPeso (g : Grafo) (u v p : Int) :
    (adicionaComPeso g u v p).direcionado = g.direcionado := by
  unfold adicionaComPeso
  split
  · split <;> rfl
  · rfl

/-- Removing a stored edge of an undirected graph and inserting it again with its weight
gives back the graph. -/
theorem adicionaAresta_removeAresta (g : Grafo) (hg : BemFormado g) (hs : Simetrico g)
    (hd : g.direcionado = false) (u v w : Int) (hu : Valido g u)
    (hm : (⟨v, w⟩ : ElemLista) ∈ g.lista u) (hw : g.ponderado = false → w = 1) :
    adicionaAresta (removeAresta g u v).2 u v w = g := by
  have hv := hg.noIntervalo u _ hm
  have huv : u ≠ v := fun h => hg.semLaco u hu.1 _ hm h.symm
  simp only at hv
  have hinv : entradaInvalida g u v = false :=
    (entradaInvalida_falso g u v).mpr ⟨hu.1, hv.1, hu.2, hv.2, huv⟩
  have hm' : (⟨u, w⟩ : ElemLista) ∈ g.lista v := (hs u v w hu.1 hv.1).mp hm
  have hi : (removeArestaAux g u v).1 = true := by
    show (removeDaLista v (g.lista u)).1 = true
    rw [removeDaLista_resultado]
    exact existe_de_mem g hg u v w hm
  have hb1 := bemFormado_removeArestaAux g hg u v hu.1
  have hb2 := bemFormado_removeArestaAux _ hb1 v u hv.1
  have hrem : (removeAresta g u v).2 =
      ((removeArestaAux (removeArestaAux g u v).2 v u).2).comNumArestas (g.numArestas - 1) := by
    simp [removeAresta, hinv, hi]
  have hbr : BemFormado (removeAresta g u v).2 := bemFormado_removeAresta g hg u v
  -- the lists of the graph after the removal
  have hl1u : (removeAresta g u v).2.lista u = (removeDaLista v (g.lista u)).2 := by
    rw [hrem, lista_comNumArestas,
      lista_removeArestaAux_outro _ v u u hv.1 hu.1 huv,
      lista_removeArestaAux_mesmo g hg.tamanho u v hu]
  have hl1v : (removeAresta g u v).2.lista v = (removeDaLista u (g.lista v)).2 := by
    rw [hrem, lista_comNumArestas,
      lista_removeArestaAux_mesmo _ hb1.tamanho v u hv,
      lista_removeArestaAux_outro g u v v hu.1 hv.1 (Ne.symm huv)]
  have hl1x : ∀ x, 0 ≤ x → x ≠ u → x ≠ v → (removeAresta g u v).2.lista x = g.lista x := by
    intro x hx hxu hxv
    rw [hrem, lista_comNumArestas,
      lista_removeArestaAux_outro _ v u x hv.1 hx hxv,
      lista_removeArestaAux_outro g u v x hu.1 hx hxu]
  have hn1 : (removeAresta g u v).2.numVertices = g.numVertices := numVertices_removeAresta g u v
  have hinv1 : entradaInvalida (removeAresta g u v).2 u v = false := by
    rw [entradaInvalida_numVertices g _ hn1]; exact hinv
  have hp1 : (removeAresta g u v).2.ponderado = g.ponderado := by rw [hrem]; rfl
  have hd1 : (removeAresta g u v).2.direcionado = false := by
    rw [direcionado_removeAresta]; exact hd
  have hpeso : (if (removeAresta g u v).2.ponderado then w else 1) = w := by
    rw [hp1]
    cases hp : g.ponderado
    · simp [hw hp]
    · simp
  rw [adicionaAresta_valida _ u v w hinv1, hpeso]
  have hins1 : insereNaLista v w ((removeAresta g u v).2.lista u) = (true, g.lista u) := by
    rw [hl1u]; exact insere_remove v w _ (hg.ordenada u) hm
  have hi1 : (insereArestaAux (removeAresta g u v).2 u v w).1 = true := by
    show (insereNaLista v w ((removeAresta g u v).2.lista u)).1 = true
    rw [hins1]
  have hbi := bemFormado_insereArestaAux _ hbr u v w hinv1
  have hadd : adicionaComPeso (removeAresta g u v).2 u v w =
      ((insereArestaAux (insereArestaAux (removeAresta g u v).2 u v w).2 v u w).2).comNumArestas
        ((removeAresta g u v).2.numArestas + 1) := by
    unfold adicionaComPeso
    simp [hi1, hd1]
  have hn2 : (adicionaComPeso (removeAresta g u v).2 u v w).numVertices = g.numVertices := by
    rw [numVertices_adicionaComPeso]; exact hn1
  have hbf := bemFormado_adicionaComPeso _ hbr u v w hinv1
  apply grafo_ext _ g hn2 _ _ _ hbf.tamanho hg.tamanho
  · intro x hx0
    have hx : Valido g x := ⟨hx0.1, by have := hx0.2; rw [hn2] at this; exact this⟩
    rw [hadd, lista_comNumArestas]
    by_cases hxv : x = v
    · subst hxv
      rw [lista_insereArestaAux_mesmo _ hbi.tamanho x u w (by
          show 0 ≤ x ∧ x < ((removeAresta g u x).2.numVertices : Int)
          rw [hn1]; exact hv),
        lista_insereArestaAux_outro _ u x w x hu.1 hv.1 (Ne.symm huv), hl1v,
        insere_remove u w _ (hg.ordenada x) hm']
    · rw [lista_insereArestaAux_outro _ v u w x hv.1 hx.1 hxv]
      by_cases hxu : x = u
      · subst hxu
        rw [lista_insereArestaAux_mesmo _ hbr.tamanho x v w (by rw [hn1]; exact hu), hins1]
      · rw [lista_insereArestaAux_outro _ u v w x hu.1 hx.1 hxu, hl1x x hx.1 hxu hxv]
  · rw [hadd, hrem]
    show g.numArestas - 1 + 1 = g.numArestas
    omega
  · rw [direcionado_adicionaComPeso]
    exact direcionado_removeAresta g u v
  · rw [ponderado_adicionaComPeso]; exact hp1

/-! ## Reverse-delete on the graph -/

/-- In a symmetric well-formed graph, the vertices connected by the collected edges are
joined by walks in both directions. -/
theorem caminho_de_con (g : Grafo) (hg : BemFormado g) (hs : Simetrico g) (a b : Int)
    (h : Con (coletaArestas g).toFinset a b) :
    (Valido g a ↔ Valido g b) ∧ (Valido g a → ∃ k, Caminho g a b k) ∧
      (Valido g b → ∃ k, Caminho g b a k) := by
  induction h with
  | rel x y hxy =>
    obtain ⟨e, he, rfl, rfl⟩ := hxy
    have hm := (mem_coletaArestas_iff g e).mp (List.mem_toFinset.mp he)
    have hvd := hg.noIntervalo e.origem _ hm.2.2
    simp only at hvd
    have hm' : (⟨e.origem, e.peso⟩ : ElemLista) ∈ g.lista e.destino :=
      (hs e.origem e.destino e.peso hm.1.1 hvd.1).mp hm.2.2
    refine ⟨⟨fun _ => hvd, fun _ => hm.1⟩, fun _ => ⟨1, ?_⟩, fun _ => ⟨1, ?_⟩⟩
    · exact caminho_aresta g e.origem ⟨e.destino, e.peso⟩ hm.2.2
    · exact caminho_aresta g e.destino ⟨e.origem, e.peso⟩ hm'
  | refl x => exact ⟨Iff.rfl, fun _ => ⟨0, Caminho.nulo⟩, fun _ => ⟨0, Caminho.nulo⟩⟩
  | symm x y _ ih => exact ⟨ih.1.symm, ih.2.2, ih.2.1⟩
  | trans x y z _ _ ih1 ih2 =>
    refine ⟨ih1.1.trans ih2.1, ?_, ?_⟩
    · intro hx
      obtain ⟨j, hj⟩ := ih1.2.1 hx
      obtain ⟨k, hk⟩ := ih2.2.1 (ih1.1.mp hx)
      exact ⟨j + k, caminho_trans g x y z j k hj hk⟩
    · intro hz
      obtain ⟨j, hj⟩ := ih2.2.2 hz
      obtain ⟨k, hk⟩ := ih1.2.2 (ih2.1.mpr hz)
      exact ⟨j + k, caminho_trans g z y x j k hj hk⟩

/-- In a symmetric well-formed graph with a vertex 0, all vertices are reachable from 0
exactly when the collected edges connect all vertices. -/
theorem conexo_iff_alcanca (g : Grafo) (hg : BemFormado g) (hs : Simetrico g)
    (hn : 1 ≤ g.numVertices) :
    (∀ v, Valido g v → ∃ k, Caminho g 0 v k) ↔
      Conexo g.numVertices (coletaArestas g).toFinset := by
  have h0 : Valido g 0 := ⟨le_refl 0, by omega⟩
  constructor
  · intro h a b ha hb
    obtain ⟨j, hj⟩ := h a ha
    obtain ⟨k, hk⟩ := h b hb
    exact con_trans _ _ _ _ (con_symm _ _ _ (con_de_caminho g hg hs 0 a j h0 hj))
      (con_de_caminho g hg hs 0 b k h0 hk)
  · intro h v hv
    exact (caminho_de_con g hg hs 0 v (h 0 v h0 hv)).2.1 h0

/-- The edges collected after a successful removal of a collected edge. -/
theorem coletaArestas_removeAresta (g : Grafo) (hg : BemFormado g) (e : Aresta)
    (he : e ∈ coletaArestas g) :
    (coletaArestas (removeAresta g e.origem e.destino).2).toFinset =
      (coletaArestas g).toFinset.erase e := by
  have hm := (mem_coletaArestas_iff g e).mp he
  have hvd := hg.noIntervalo e.origem _ hm.2.2
  simp only at hvd
  have hinv : entradaInvalida g e.origem e.destino = false :=
    (entradaInvalida_falso g _ _).mpr ⟨hm.1.1, hvd.1, hm.1.2, hvd.2, by omega⟩
  have hi : (removeArestaAux g e.origem e.destino).1 = true := by
    show (removeDaLista e.destino (g.lista e.origem)).1 = true
    rw [removeDaLista_resultado]
    exact existe_de_mem g hg _ _ e.peso hm.2.2
  ext x
  rw [List.mem_toFinset, Finset.mem_erase, List.mem_toFinset, mem_coletaArestas_iff,
    mem_coletaArestas_iff]
  have hval : Valido (removeAresta g e.origem e.destino).2 x.origem ↔ Valido g x.origem := by
    unfold Valido
    rw [numVertices_removeAresta]
  rw [hval]
  constructor
  · rintro ⟨h1, h2, h3⟩
    have := (mem_lista_removeAresta g hg _ _ hinv hi x.origem h1.1 _).mp h3
    simp only at this
    refine ⟨?_, h1, h2, this.1⟩
    intro hxe
    apply this.2.1
    rw [hxe]
    exact ⟨rfl, rfl⟩
  · rintro ⟨hne, h1, h2, h3⟩
    refine ⟨h1, h2, ?_⟩
    apply (mem_lista_removeAresta g hg _ _ hinv hi x.origem h1.1 _).mpr
    refine ⟨h3, ?_, ?_⟩
    · rintro ⟨ho, hdst⟩
      simp only at hdst
      apply hne
      rw [ho] at h3
      have := ordenada_unica _ (hg.ordenada e.origem) _ _ h3 hm.2.2 hdst
      cases x
      cases e
      simp only [ElemLista.mk.injEq] at this
      simp only at ho hdst
      simp [ho, hdst, this.2]
    · rintro ⟨ho, hdst⟩
      simp only at hdst
      have := hm.2.1
      omega

/-- One iteration of the main loop of `algoritmoApagaReverso` on an undirected graph built
with `adicionaAresta` and `removeAresta`, for an edge collected from the graph. -/
theorem apagaPasso_spec (g : Grafo) (hg : AlcancavelSemDir g) (hd : g.direcionado = false)
    (hn : 1 ≤ g.numVertices) (e : Aresta) (he : e ∈ coletaArestas g) :
    ∃ g', apagaPasso g e = Except.ok g' ∧ AlcancavelSemDir g' ∧ g'.direcionado = false ∧
      g'.numVertices = g.numVertices ∧ (∀ u x, x ∈ g'.lista u → x ∈ g.lista u) ∧
      ((Conexo g.numVertices ((coletaArestas g).toFinset.erase e) ∧
          (coletaArestas g').toFinset = (coletaArestas g).toFinset.erase e) ∨
        (¬ Conexo g.numVertices ((coletaArestas g).toFinset.erase e) ∧ g' = g)) := by
  have hb := bemFormado_de_alcancavel g (alcancavel_de_semDir g hg)
  have hs := simetrico_de_alcancavel g hg hd
  have hg1 : AlcancavelSemDir (removeAresta g e.origem e.destino).2 :=
    AlcancavelSemDir.remove g _ _ hg
  have hd1 : (removeAresta g e.origem e.destino).2.direcionado = false := by
    rw [direcionado_removeAresta]; exact hd
  have hn1 : (removeAresta g e.origem e.destino).2.numVertices = g.numVertices :=
    numVertices_removeAresta g _ _
  have hb1 := bemFormado_de_alcancavel _ (alcancavel_de_semDir _ hg1)
  have hs1 := simetrico_de_alcancavel _ hg1 hd1
  obtain ⟨b, hrun, hiff⟩ := estaConectadoDFS_geral _ hb1 (by rw [hn1]; exact hn)
  rw [conexo_iff_alcanca _ hb1 hs1 (by rw [hn1]; exact hn), hn1,
    coletaArestas_removeAresta g hb e he] at hiff
  have hm := (mem_coletaArestas_iff g e).mp he
  cases b
  · -- the test fails: the edge is inserted again
    have hnc : ¬ Conexo g.numVertices ((coletaArestas g).toFinset.erase e) := by
      intro h
      have := hiff.mpr h
      exact absurd this (by simp)
    have hrest : adicionaAresta (removeAresta g e.origem e.destino).2 e.origem e.destino
        e.peso = g :=
      adicionaAresta_removeAresta g hb hs hd _ _ _ hm.1 hm.2.2
        (fun hp => pesos_um_de_alcancavel g (alcancavel_de_semDir g hg) hp _ _ hm.2.2)
    refine ⟨g, ?_, hg, hd, rfl, fun _ _ h => h, Or.inr ⟨hnc, rfl⟩⟩
    unfold apagaPasso
    rw [hrun]
    show (if (!false) = true then _ else _) = _
    rw [if_pos (show (!false) = true from rfl), hrest]
  · have hc : Conexo g.numVertices ((coletaArestas g).toFinset.erase e) := hiff.mp rfl
    refine ⟨(removeAresta g e.origem e.destino).2, ?_, hg1, hd1, hn1,
      fun u x h => mem_removeAresta_sub g _ _ u x h,
      Or.inl ⟨hc, coletaArestas_removeAresta g hb e he⟩⟩
    unfold apagaPasso
    rw [hrun]
    rfl

/-- The main loop of `algoritmoApagaReverso` is a reverse-delete run on the collected
edges. -/
theorem apagaLaco_spec (R : List Aresta) :
    ∀ g : Grafo, AlcancavelSemDir g → g.direcionado = false → 1 ≤ g.numVertices → R.Nodup →
      (∀ x ∈ R, x ∈ coletaArestas g) →
      ∃ g', apagaLaco R g = Except.ok g' ∧ AlcancavelSemDir g' ∧ g'.direcionado = false ∧
        g'.numVertices = g.numVertices ∧ (∀ u x, x ∈ g'.lista u → x ∈ g.lista u) ∧
        Apagado g.numVertices R (coletaArestas g).toFinset (coletaArestas g').toFinset := by
  induction R with
  | nil =>
    intro g hg hd _ _ _
    exact ⟨g, rfl, hg, hd, rfl, fun _ _ h => h, Apagado.nil _⟩
  | cons e R ih =>
    intro g hg hd hn hnd hmem
    have heR : e ∉ R := (List.nodup_cons.mp hnd).1
    have hndR : R.Nodup := (List.nodup_cons.mp hnd).2
    obtain ⟨g1, hrun1, hg1, hd1, hn1, hsub1, hcase⟩ :=
      apagaPasso_spec g hg hd hn e (hmem e (List.mem_cons_self e R))
    have hmem1 : ∀ x ∈ R, x ∈ coletaArestas g1 := by
      intro x hx
      have hxg := hmem x (List.mem_cons_of_mem e hx)
      rcases hcase with ⟨_, heq⟩ | ⟨_, heq⟩
      · rw [← List.mem_toFinset, heq]
        exact Finset.mem_erase.mpr ⟨fun h => heR (h ▸ hx), List.mem_toFinset.mpr hxg⟩
      · rw [heq]; exact hxg
    obtain ⟨g2, hrun2, hg2, hd2, hn2, hsub2, hap⟩ := ih g1 hg1 hd1 (by rw [hn1]; exact hn)
      hndR hmem1
    refine ⟨g2, ?_, hg2, hd2, hn2.trans hn1, fun u x h => hsub1 u x (hsub2 u x h), ?_⟩
    · have hdef : apagaLaco (e :: R) g =
          (match apagaPasso g e with
            | Except.ok g1 => apagaLaco R g1
            | Except.error f => Except.error f) := rfl
      rw [hdef, hrun1]
      exact hrun2
    · have hap' : Apagado g.numVertices R (coletaArestas g1).toFinset
          (coletaArestas g2).toFinset := hn1 ▸ hap
      rcases hcase with ⟨hc, heq⟩ | ⟨hc, heq⟩
      · rw [heq] at hap'
        exact Apagado.remove e R _ _ hc hap'
      · rw [heq] at hap'
        exact Apagado.mantem e R _ _ hc hap'

/-- Correctness of `algoritmoApagaReverso` on a connected undirected graph built with
`adicionaAresta` and `removeAresta`, for every sorting routine that meets the contract of
`std::sort`. -/
theorem apagaReverso_geral (ordenaDec : List Aresta → List Aresta)
    (hdec : OrdenaDecrescente ordenaDec) (g : Grafo) (hg : AlcancavelSemDir g)
    (hd : g.direcionado = false) (hn : 1 ≤ g.numVertices)
    (hcon : ∀ v, Valido g v → ∃ k, Caminho g 0 v k) :
    ∃ g', algoritmoApagaReverso ordenaDec g = Except.ok g' ∧ AlcancavelSemDir g' ∧
      g'.direcionado = false ∧ g'.numVertices = g.numVertices ∧
      (∀ u x, x ∈ g'.lista u → x ∈ g.lista u) ∧
      Conexo g.numVertices (coletaArestas g').toFinset ∧
      FlorestaGeradora (coletaArestas g).toFinset (coletaArestas g').toFinset ∧
      ∀ T, FlorestaGeradora (coletaArestas g).toFinset T →
        custo (coletaArestas g').toFinset ≤ custo T := by
  have hb := bemFormado_de_alcancavel g (alcancavel_de_semDir g hg)
  have hs := simetrico_de_alcancavel g hg hd
  obtain ⟨hperm, hsort⟩ := hdec (coletaArestas g)
  have hnd : (ordenaDec (coletaArestas g)).Nodup :=
    hperm.nodup_iff.mpr (coletaArestas_nodup g hb)
  obtain ⟨g', hrun, hg', hd', hn', hsub, hap⟩ := apagaLaco_spec (ordenaDec (coletaArestas g))
    g hg hd hn hnd (fun x hx => hperm.mem_iff.mp hx)
  have hfin : (ordenaDec (coletaArestas g)).toFinset = (coletaArestas g).toFinset :=
    List.toFinset_eq_of_perm _ _ hperm
  rw [← hfin] at hap
  have hc0 : Conexo g.numVertices (ordenaDec (coletaArestas g)).toFinset := by
    rw [hfin]; exact (conexo_iff_alcanca g hb hs hn).mp hcon
  obtain ⟨_, h2, h3, h4⟩ := apagado_minimo g.numVertices _ _ hap hnd hsort hc0
    (fun x hx => coletaArestas_valida g hb x (hperm.mem_iff.mp hx))
  rw [hfin] at h3 h4
  exact ⟨g', hrun, hg', hd', hn', hsub, h2, h3, h4⟩

theorem alcanca_exemploPonderado :
    ∀ v, Valido exemploPonderado v → ∃ k, Caminho exemploPonderado 0 v k := by
  obtain ⟨b, hrun, hiff⟩ := estaConectadoDFS_geral exemploPonderado
    (bemFormado_de_alcancavel _ alcancavel_exemploPonderado) (by decide)
  have h : estaConectadoDFS exemploPonderado = Except.ok true := rfl
  rw [h] at hrun
  injection hrun with hb
  exact hiff.mp hb.symm

/-- C12 (amended): for every connected undirected graph built with `adicionaAresta` (and
`removeAresta`) with at least one vertex, and all sorting routines that meet the contract
of `std::sort`, `algoritmoApagaReverso` returns and the surviving graph is a minimum
spanning tree of the original graph: it has the same vertices, every vertex is reachable
from vertex 0, it keeps exactly `numVertices - 1` logical edges (`numArestas` and the
number of collected edges), every surviving entry is an entry of the original graph with
the same weight, the surviving edges are a spanning tree of the original graph of minimum
total weight, which is also the total weight of the edges that `algoritmoKruskal` accepts
on the original graph; when no running total of the weights accepted by `algoritmoKruskal`
leaves `int`, in particular when the absolute values of the weights of all edges add up to
at most 2147483647, the surviving weights add up to the `custoTotal` of
`algoritmoKruskal`. -/
theorem algoritmoApagaReverso_minimo (ordena ordenaDec : List Aresta → List Aresta)
    (hord : OrdenaCrescente ordena) (hdec : OrdenaDecrescente ordenaDec) (g : Grafo)
    (hg : AlcancavelSemDir g) (hd : g.direcionado = false) (hn : 1 ≤ g.numVertices)
    (hcon : ∀ v, Valido g v → ∃ k, Caminho g 0 v k) :
    ∃ g' mst custoTotal, algoritmoApagaReverso ordenaDec g = Except.ok g' ∧
      algoritmoKruskal ordena g = some (mst, custoTotal) ∧
      g'.numVertices = g.numVertices ∧
      (∀ v, Valido g' v → ∃ k, Caminho g' 0 v k) ∧
      g'.numArestas = (g.numVertices : Int) - 1 ∧
      (coletaArestas g').length + 1 = g.numVertices ∧
      (∀ u x, x ∈ g'.lista u → x ∈ g.lista u) ∧
      ((coletaArestas g').map (fun e => e.peso)).sum = (mst.map (fun e => e.peso)).sum ∧
      (TotaisCabem mst ∨ pesoAbsoluto g ≤ 2147483647 →
        ((coletaArestas g').map (fun e => e.peso)).sum = custoTotal) ∧
      ArvoreGeradoraDe g (coletaArestas g').toFinset ∧
      ∀ T, ArvoreGeradoraDe g T → custo (coletaArestas g').toFinset ≤ custo T := by
  have hb := bemFormado_de_alcancavel g (alcancavel_de_semDir g hg)
  have hs := simetrico_de_alcancavel g hg hd
  obtain ⟨g', hrun, hg', hd', hn', hsub, hcx, hfg, hmin⟩ :=
    apagaReverso_geral ordenaDec hdec g hg hd hn hcon
  obtain ⟨mst, c, hrunK, _, hndK, hc, hfgK, hminK⟩ := kruskal_geral ordena hord g hb
  have hb' := bemFormado_de_alcancavel g' (alcancavel_de_semDir g' hg')
  have hs' := simetrico_de_alcancavel g' hg' hd'
  have hnd' := coletaArestas_nodup g' hb'
  have hcard : (coletaArestas g').toFinset.card + 1 = g.numVertices :=
    arvore_contagem g.numVertices hn _ hfg.2.1
      (fun x hx => by
        have := coletaArestas_valida g' hb' x (List.mem_toFinset.mp hx)
        unfold Valido at this
        rw [hn'] at this
        exact this) hcx
  have hlen : (coletaArestas g').length + 1 = g.numVertices := by
    rw [← List.toFinset_card_of_nodup hnd']; exact hcard
  have h1 : ((coletaArestas g').map (fun e => e.peso)).sum =
      custo (coletaArestas g').toFinset := by
    unfold custo
    rw [List.sum_toFinset _ hnd']
  have h2 : (mst.map (fun e => e.peso)).sum = custo mst.toFinset := by
    unfold custo
    rw [List.sum_toFinset _ hndK]
  have higual : custo (coletaArestas g').toFinset = custo mst.toFinset :=
    le_antisymm (hmin _ hfgK) (hminK _ hfg)
  refine ⟨g', mst, c, hrun, hrunK, hn', ?_, ?_, hlen, hsub, ?_, ?_,
    (arvoreGeradoraDe_iff g hb hs _).mpr hfg, ?_⟩
  · apply (conexo_iff_alcanca g' hb' hs' (by rw [hn']; exact hn)).mpr
    rw [hn']; exact hcx
  · rw [(conta_de_alcancavel g' hg' hd').1, ← length_coletaArestas]
    omega
  · rw [h1, h2, higual]
  · intro hcabe
    obtain ⟨k1, k2⟩ := custo_cabe_ou g hb mst hndK hfgK.1 hcabe
    rw [h1, higual, hc, paraInt_eq _ k1 k2]
  · intro T hT
    exact hmin T ((arvoreGeradoraDe_iff g hb hs T).mp hT)

/-- Witness for C12: on the weighted five-vertex example the routine removes the edge
`(1, 3, 7)` and keeps the other four, of total weight 11. -/
theorem algoritmoApagaReverso_minimo_witness :
    algoritmoApagaReverso ordenaPorPesoDec exemploPonderado =
      Except.ok ⟨5, 4, false, true,
        [[⟨1, 5⟩, ⟨2, 3⟩], [⟨0, 5⟩], [⟨0, 3⟩, ⟨3, 2⟩], [⟨2, 2⟩, ⟨4, 1⟩], [⟨3, 1⟩]]⟩ ∧
    ∃ g' mst custoTotal, algoritmoApagaReverso ordenaPorPesoDec exemploPonderado =
        Except.ok g' ∧
      algoritmoKruskal ordenaPorPeso exemploPonderado = some (mst, custoTotal) ∧
      g'.numVertices = exemploPonderado.numVertices ∧
      (∀ v, Valido g' v → ∃ k, Caminho g' 0 v k) ∧
      g'.numArestas = (exemploPonderado.numVertices : Int) - 1 ∧
      (coletaArestas g').length + 1 = exemploPonderado.numVertices ∧
      (∀ u x, x ∈ g'.lista u → x ∈ exemploPonderado.lista u) ∧
      ((coletaArestas g').map (fun e => e.peso)).sum = (mst.map (fun e => e.peso)).sum ∧
      (TotaisCabem mst ∨ pesoAbsoluto exemploPonderado ≤ 2147483647 →
        ((coletaArestas g').map (fun e => e.peso)).sum = custoTotal) ∧
      ArvoreGeradoraDe exemploPonderado (coletaArestas g').toFinset ∧
      ∀ T, ArvoreGeradoraDe exemploPonderado T → custo (coletaArestas g').toFinset ≤ custo T :=
  ⟨rfl, algoritmoApagaReverso_minimo ordenaPorPeso ordenaPorPesoDec ordenaPorPeso_contrato
    ordenaPorPesoDec_contrato exemploPonderado alcancavelSemDir_exemploPonderado rfl
    (by decide) alcanca_exemploPonderado⟩

theorem alcanca_exemploTransbordo :
    ∀ v, Valido exemploTransbordo v → ∃ k, Caminho exemploTransbordo 0 v k := by
  obtain ⟨b, hrun, hiff⟩ := estaConectadoDFS_geral exemploTransbordo
    (bemFormado_de_alcancavel _ (alcancavel_de_semDir _ alcancavelSemDir_exemploTransbordo))
    (by decide)
  have h : estaConectadoDFS exemploTransbordo = Except.ok true := rfl
  rw [h] at hrun
  injection hrun with hb
  exact hiff.mp hb.symm

/-- C12 counterexample: the undirected path `0 - 1 - 2` with the weights 2147483647 and 1
is connected and built with `adicionaAresta`; `algoritmoApagaReverso` keeps both edges,
whose weights add up to 2147483648, while `algoritmoKruskal` returns
`custoTotal = -2147483648` on the same graph. -/
theorem algoritmoApagaReverso_contraexemplo :
    AlcancavelSemDir exemploTransbordo ∧ exemploTransbordo.direcionado = false ∧
    exemploTransbordo.ponderado = true ∧ 1 ≤ exemploTransbordo.numVertices ∧
    (∀ v, Valido exemploTransbordo v → ∃ k, Caminho exemploTransbordo 0 v k) ∧
    algoritmoApagaReverso ordenaPorPesoDec exemploTransbordo =
      Except.ok ⟨3, 2, false, true, [[⟨1, 2147483647⟩], [⟨0, 2147483647⟩, ⟨2, 1⟩], [⟨1, 1⟩]]⟩ ∧
    ((coletaArestas ⟨3, 2, false, true,
      [[⟨1, 2147483647⟩], [⟨0, 2147483647⟩, ⟨2, 1⟩], [⟨1, 1⟩]]⟩).map
        (fun e => e.peso)).sum = 2147483648 ∧
    algoritmoKruskal ordenaPorPeso exemploTransbordo =
      some ([⟨1, 2, 1⟩, ⟨0, 1, 2147483647⟩], -2147483648) :=
  ⟨alcancavelSemDir_exemploTransbordo, rfl, rfl, by decide, alcanca_exemploTransbordo, rfl,
    by decide, by decide⟩

/-! ## Prim: the relaxation loop -/

theorem primPasso_naArvore (u : Int) (st : EstadoPrim) (e : ElemLista) :
    (primPasso u st e).naArvore = st.naArvore := by
  unfold primPasso
  split <;> rfl

theorem primPasso_tam (u : Int) (st : EstadoPrim) (e : ElemLista) :
    (primPasso u st e).chave.length = st.chave.length ∧
      (primPasso u st e).pai.length = st.pai.length := by
  unfold primPasso
  split
  · exact ⟨by simp, by simp⟩
  · exact ⟨rfl, rfl⟩

theorem primPasso_efeito (u : Int) (st : EstadoPrim) (e : ElemLista) (x : Int)
    (he : 0 ≤ e.vertice ∧ e.vertice.toNat < st.chave.length ∧ e.vertice.toNat < st.pai.length)
    (hx : 0 ≤ x) :
    (primPasso u st e).c x =
      (if x = e.vertice ∧ ¬ st.m e.vertice ∧ e.peso < st.c e.vertice then e.peso
        else st.c x) ∧
    (primPasso u st e).p x =
      (if x = e.vertice ∧ ¬ st.m e.vertice ∧ e.peso < st.c e.vertice then u
        else st.p x) := by
  unfold primPasso
  by_cases hc : st.naArvore.getD e.vertice.toNat true = false ∧
      e.peso < st.chave.getD e.vertice.toNat 0
  · rw [if_pos hc]
    have hnv : ¬ st.m e.vertice := by
      unfold EstadoPrim.m; rw [hc.1]; simp
    have hlt : e.peso < st.c e.vertice := hc.2
    constructor
    · show (st.chave.set e.vertice.toNat e.peso).getD x.toNat 0 = _
      rw [getD_set_int st.chave e.vertice x _ 0 he.1 hx he.2.1]
      by_cases hxe : x = e.vertice
      · rw [if_pos hxe, if_pos ⟨hxe, hnv, hlt⟩]
      · rw [if_neg hxe, if_neg (fun h => hxe h.1)]; rfl
    · show (st.pai.set e.vertice.toNat u).getD x.toNat 0 = _
      rw [getD_set_int st.pai e.vertice x _ 0 he.1 hx he.2.2]
      by_cases hxe : x = e.vertice
      · rw [if_pos hxe, if_pos ⟨hxe, hnv, hlt⟩]
      · rw [if_neg hxe, if_neg (fun h => hxe h.1)]; rfl
  · rw [if_neg hc]
    have : ¬ (x = e.vertice ∧ ¬ st.m e.vertice ∧ e.peso < st.c e.vertice) := by
      rintro ⟨_, h2, h3⟩
      apply hc
      refine ⟨?_, h3⟩
      unfold EstadoPrim.m at h2
      cases hb : st.naArvore.getD e.vertice.toNat true
      · rfl
      · exact absurd hb h2
    rw [if_neg this, if_neg this]
    exact ⟨rfl, rfl⟩

/-- Effect of the loop of `algoritmoPrim` over a list `l` of entries with valid targets,
for the selected vertex `u`. -/
theorem primVizinhos_spec (u : Int) (l : List ElemLista) :
    ∀ st : EstadoPrim,
      (∀ e ∈ l, 0 ≤ e.vertice ∧ e.vertice.toNat < st.chave.length ∧
        e.vertice.toNat < st.pai.length) →
      (primVizinhos u l st).naArvore = st.naArvore ∧
      (primVizinhos u l st).chave.length = st.chave.length ∧
      (primVizinhos u l st).pai.length = st.pai.length ∧
      (∀ x, 0 ≤ x → st.m x →
        (primVizinhos u l st).c x = st.c x ∧ (primVizinhos u l st).p x = st.p x) ∧
      (∀ x, 0 ≤ x → (primVizinhos u l st).c x ≤ st.c x) ∧
      (∀ x, 0 ≤ x →
        ((primVizinhos u l st).c x = st.c x ∧ (primVizinhos u l st).p x = st.p x) ∨
        ∃ e ∈ l, e.vertice = x ∧ ¬ st.m x ∧ (primVizinhos u l st).c x = e.peso ∧
          (primVizinhos u l st).p x = u) ∧
      (∀ e ∈ l, ¬ st.m e.vertice → (primVizinhos u l st).c e.vertice ≤ e.peso) := by
  induction l with
  | nil =>
    intro st _
    refine ⟨rfl, rfl, rfl, fun _ _ _ => ⟨rfl, rfl⟩, fun _ _ => le_refl _,
      fun _ _ => Or.inl ⟨rfl, rfl⟩, ?_⟩
    intro e he; simp at he
  | cons a t ih =>
    intro st hl
    have heq : primVizinhos u (a :: t) st = primVizinhos u t (primPasso u st a) := rfl
    rw [heq]
    have ha := hl a (List.mem_cons_self a t)
    have hm1 : ∀ x, (primPasso u st a).m x ↔ st.m x := by
      intro x; unfold EstadoPrim.m; rw [primPasso_naArvore]
    have hef := fun x hx => primPasso_efeito u st a x ha hx
    have htam := primPasso_tam u st a
    have hl1 : ∀ e ∈ t, 0 ≤ e.vertice ∧ e.vertice.toNat < (primPasso u st a).chave.length ∧
        e.vertice.toNat < (primPasso u st a).pai.length := by
      intro e he
      rw [htam.1, htam.2]
      exact hl e (List.mem_cons_of_mem a he)
    obtain ⟨i1, i2, i3, i4, i5, i6, i7⟩ := ih (primPasso u st a) hl1
    have hle1 : ∀ x, 0 ≤ x → (primPasso u st a).c x ≤ st.c x := by
      intro x hx
      rw [(hef x hx).1]
      split
      · rename_i h; rw [h.1]; omega
      · exact le_refl _
    refine ⟨?_, ?_, ?_, ?_, ?_, ?_, ?_⟩
    · rw [i1, primPasso_naArvore]
    · rw [i2, htam.1]
    · rw [i3, htam.2]
    · intro x hx hxm
      have h1 := i4 x hx ((hm1 x).mpr hxm)
      have hcond : ¬ (x = a.vertice ∧ ¬ st.m a.vertice ∧ a.peso < st.c a.vertice) := by
        rintro ⟨h1, h2, _⟩; exact h2 (h1 ▸ hxm)
      rw [h1.1, h1.2, (hef x hx).1, (hef x hx).2, if_neg hcond, if_neg hcond]
      exact ⟨rfl, rfl⟩
    · intro x hx
      exact le_trans (i5 x hx) (hle1 x hx)
    · intro x hx
      rcases i6 x hx with h | ⟨e, he, h1, h2, h3, h4⟩
      · by_cases hcond : x = a.vertice ∧ ¬ st.m a.vertice ∧ a.peso < st.c a.vertice
        · right
          refine ⟨a, List.mem_cons_self a t, hcond.1.symm, by rw [hcond.1]; exact hcond.2.1,
            ?_, ?_⟩
          · rw [h.1, (hef x hx).1, if_pos hcond]
          · rw [h.2, (hef x hx).2, if_pos hcond]
        · left
          rw [h.1, h.2, (hef x hx).1, (hef x hx).2, if_neg hcond, if_neg hcond]
          exact ⟨rfl, rfl⟩
      · right
        exact ⟨e, List.mem_cons_of_mem a he, h1, fun hm => h2 ((hm1 x).mpr hm), h3, h4⟩
    · intro e he hnm
      rcases List.mem_cons.mp he with h | h
      · rw [h]
        refine le_trans (i5 a.vertice ha.1) ?_
        rw [(hef a.vertice ha.1).1]
        rw [h] at hnm
        by_cases hlt : a.peso < st.c a.vertice
        · rw [if_pos ⟨rfl, hnm, hlt⟩]
        · rw [if_neg (fun hc => hlt hc.2.2)]; omega
      · exact i7 e h (fun hm => hnm ((hm1 e.vertice).mp hm))

/-! ## Prim: adding a vertex to the tree -/

theorem arestaNorm_peso (u v w : Int) : (arestaNorm u v w).peso = w := by
  unfold arestaNorm
  split <;> rfl

theorem arestaNorm_pontas (u v w : Int) :
    ((arestaNorm u v w).origem = u ∧ (arestaNorm u v w).destino = v) ∨
      ((arestaNorm u v w).origem = v ∧ (arestaNorm u v w).destino = u) := by
  unfold arestaNorm
  split
  · exact Or.inl ⟨rfl, rfl⟩
  · exact Or.inr ⟨rfl, rfl⟩

/-- The normalised edge of a stored entry of a symmetric well-formed graph is collected. -/
theorem arestaNorm_coletada (g : Grafo) (hg : BemFormado g) (hs : Simetrico g) (u v w : Int)
    (hu : Valido g u) (he : (⟨v, w⟩ : ElemLista) ∈ g.lista u) :
    arestaNorm u v w ∈ coletaArestas g := by
  rw [mem_coletaArestas_iff]
  have hv := hg.noIntervalo u _ he
  have hne := hg.semLaco u hu.1 _ he
  simp only at hv hne
  unfold arestaNorm
  split
  · rename_i hlt
    exact ⟨hu, hlt, he⟩
  · rename_i hlt
    exact ⟨⟨hv.1, hv.2⟩, by simp only; omega, (hs u v w hu.1 hv.1).mp he⟩

theorem con_arestaNorm (E : Finset Aresta) (u v w : Int) (h : arestaNorm u v w ∈ E) :
    Con E u v := by
  rcases arestaNorm_pontas u v w with ⟨h1, h2⟩ | ⟨h1, h2⟩
  · have := con_aresta E _ h
    rwa [h1, h2] at this
  · have := con_aresta E _ h
    rw [h1, h2] at this
    exact con_symm _ _ _ this

/-- Marks after `naArvore[u] = true`. -/
theorem prim_marca_m (st : EstadoPrim) (u x : Int) (hu : 0 ≤ u) (hx : 0 ≤ x)
    (hlen : u.toNat < st.naArvore.length) :
    EstadoPrim.m ⟨st.chave, st.naArvore.set u.toNat true, st.pai⟩ x ↔ (x = u ∨ st.m x) :=
  marca_set st.naArvore u x hu hx hlen

theorem somaChaves_marca (n : Nat) (st : EstadoPrim) (u : Int) (hu : 0 ≤ u ∧ u < (n : Int))
    (hu0 : u ≠ 0) (hnu : ¬ st.m u) (hlen : st.naArvore.length = n) :
    somaChaves n ⟨st.chave, st.naArvore.set u.toNat true, st.pai⟩ =
      somaChaves n st + st.c u := by
  unfold somaChaves
  have hun : ((u.toNat : Nat) : Int) = u := Int.toNat_of_nonneg hu.1
  have hul : u.toNat < st.naArvore.length := by omega
  rw [soma_range_altera
    (fun i : Nat => if st.m (i : Int) ∧ i ≠ 0 then st.c (i : Int) else 0)
    (fun i : Nat =>
      if EstadoPrim.m ⟨st.chave, st.naArvore.set u.toNat true, st.pai⟩ (i : Int) ∧ i ≠ 0 then
        EstadoPrim.c ⟨st.chave, st.naArvore.set u.toNat true, st.pai⟩ (i : Int) else 0)
    n u.toNat (by omega)]
  · simp only [hun]
    have h1 : EstadoPrim.m ⟨st.chave, st.naArvore.set u.toNat true, st.pai⟩ u :=
      (prim_marca_m st u u hu.1 hu.1 hul).mpr (Or.inl rfl)
    have h2 : u.toNat ≠ 0 := by omega
    rw [if_pos ⟨h1, h2⟩, if_neg (fun h => hnu h.1)]
    show _ + (st.c u - 0) = _
    omega
  · intro i hi
    have hiu : (i : Int) ≠ u := by omega
    have hm : EstadoPrim.m ⟨st.chave, st.naArvore.set u.toNat true, st.pai⟩ (i : Int) ↔
        st.m (i : Int) := by
      rw [prim_marca_m st u (i : Int) hu.1 (by simp) hul]
      constructor
      · rintro (h | h)
        · exact absurd h hiu
        · exact h
      · exact Or.inr
    simp only [hm]
    rfl

/-- The ghost step of Prim: a vertex outside the tree with the least key joins the tree
together with its tree edge. -/
theorem prim_marca (g : Grafo) (hg : BemFormado g) (hs : Simetrico g) (F : Finset Aresta)
    (st : EstadoPrim) (hB : PrimBase g F st) (hM : PrimMin g st (-1)) (h0 : st.m 0)
    (u : Int) (hu : Valido g u) (hnu : ¬ st.m u) (hcu : st.c u < INF)
    (hmin : ∀ b, Valido g b → ¬ st.m b → st.c u ≤ st.c b) :
    PrimBase g (insert (st.aresta u) F) ⟨st.chave, st.naArvore.set u.toNat true, st.pai⟩ ∧
      PrimMin g ⟨st.chave, st.naArvore.set u.toNat true, st.pai⟩ u := by
  have hu0 : u ≠ 0 := fun h => hnu (h ▸ h0)
  have hul : u.toNat < st.naArvore.length := by
    rw [hB.tamN]; have := hu.1; have := hu.2; omega
  have hm1 := fun x hx => prim_marca_m st u x hu.1 hx hul
  obtain ⟨hpv, hpm, hpe⟩ := hB.paiOk u hu hu0 hcu
  have heG : st.aresta u ∈ (coletaArestas g).toFinset :=
    List.mem_toFinset.mpr (arestaNorm_coletada g hg hs (st.p u) u (st.c u) hpv hpe)
  -- the edges of `F` join vertices of the tree
  have hFm : ∀ f ∈ F, (Valido g f.origem ∧ st.m f.origem) ∧
      (Valido g f.destino ∧ st.m f.destino) := by
    intro f hf
    obtain ⟨x, hx, hxm, hx0, rfl⟩ := hB.origemF f hf
    obtain ⟨k1, k2, _⟩ := hB.paiOk x hx hx0 (hB.marcado x hx hxm hx0).1
    unfold EstadoPrim.aresta
    rcases arestaNorm_pontas (st.p x) x (st.c x) with ⟨h1, h2⟩ | ⟨h1, h2⟩
    · rw [h1, h2]; exact ⟨⟨k1, k2⟩, ⟨hx, hxm⟩⟩
    · rw [h1, h2]; exact ⟨⟨hx, hxm⟩, ⟨k1, k2⟩⟩
  have hnF : st.aresta u ∉ F := by
    intro hf
    have := hFm _ hf
    unfold EstadoPrim.aresta at this
    rcases arestaNorm_pontas (st.p u) u (st.c u) with ⟨h1, h2⟩ | ⟨h1, h2⟩
    · rw [h2] at this; exact hnu this.2.2
    · rw [h1] at this; exact hnu this.1.2
  refine ⟨⟨hB.tamC, by simp [hB.tamN], hB.tamP, ?_, ?_, ?_, ?_, ?_, ?_, ?_⟩, ?_⟩
  · intro h
    exact absurd ((hm1 0 (le_refl 0)).mpr (Or.inr h0)) h
  · intro x hx hx0 hcx
    obtain ⟨k1, k2, k3⟩ := hB.paiOk x hx hx0 hcx
    exact ⟨k1, (hm1 _ k1.1).mpr (Or.inr k2), k3⟩
  · intro x hx hxm hx0
    rcases (hm1 x hx.1).mp hxm with h | h
    · rw [h]
      exact ⟨hcu, Finset.mem_insert_self _ _⟩
    · exact ⟨(hB.marcado x hx h hx0).1, Finset.mem_insert_of_mem (hB.marcado x hx h hx0).2⟩
  · intro f hf
    rcases Finset.mem_insert.mp hf with h | h
    · exact ⟨u, hu, (hm1 u hu.1).mpr (Or.inl rfl), hu0, h⟩
    · obtain ⟨x, hx, hxm, hx0, hfx⟩ := hB.origemF f h
      exact ⟨x, hx, (hm1 x hx.1).mpr (Or.inr hxm), hx0, hfx⟩
  · intro x hx hxm
    have hup : ∀ a b, Con F a b → Con (insert (st.aresta u) F) a b :=
      fun a b h => con_mono _ _ (Finset.subset_insert _ _) a b h
    rcases (hm1 x hx.1).mp hxm with h | h
    · rw [h]
      exact con_trans _ _ _ _ (hup _ _ (hB.conF _ hpv hpm))
        (con_arestaNorm _ (st.p u) u (st.c u) (Finset.mem_insert_self _ _))
    · exact hup _ _ (hB.conF x hx h)
  · unfold custo
    rw [Finset.sum_insert hnF, somaChaves_marca g.numVertices st u hu hu0 hnu hB.tamN]
    have := hB.custoF
    unfold custo at this
    rw [this]
    show (arestaNorm (st.p u) u (st.c u)).peso + _ = _
    rw [arestaNorm_peso]
    ring
  · intro T hT
    obtain ⟨T1, hT1, hc1, hF1⟩ := hB.promissor T hT
    obtain ⟨T2, hT2, hc2, hF2⟩ := corte_seguro (coletaArestas g).toFinset T1 hT1
      (fun v => Valido g v ∧ st.m v) F hF1
      (fun x hx => ⟨fun _ => (hFm x hx).2, fun _ => (hFm x hx).1⟩)
      (st.aresta u) heG
      (by
        unfold EstadoPrim.aresta
        rcases arestaNorm_pontas (st.p u) u (st.c u) with ⟨h1, h2⟩ | ⟨h1, h2⟩
        · rw [h1, h2]
          intro h
          exact hnu (h.mp ⟨hpv, hpm⟩).2
        · rw [h1, h2]
          intro h
          exact hnu (h.mpr ⟨hpv, hpm⟩).2)
      (by
        intro f hf hcr
        show (arestaNorm (st.p u) u (st.c u)).peso ≤ f.peso
        rw [arestaNorm_peso]
        have hfm := (mem_coletaArestas_iff g f).mp (List.mem_toFinset.mp hf)
        have hfd := hg.noIntervalo f.origem _ hfm.2.2
        simp only at hfd
        have hfd' : Valido g f.destino := ⟨hfd.1, hfd.2⟩
        by_cases ho : st.m f.origem
        · have hd : ¬ st.m f.destino := by
            intro hd
            exact hcr ⟨fun _ => ⟨hfd', hd⟩, fun _ => ⟨hfm.1, ho⟩⟩
          have := hM f.origem hfm.1 ho (by have := hfm.1.1; omega) _ hfm.2.2 hd
          simp only at this
          exact le_trans (hmin f.destino hfd' hd) this
        · have hd : st.m f.destino := by
            by_contra hd
            exact hcr ⟨fun h => absurd h.2 ho, fun h => absurd h.2 hd⟩
          have hsym : (⟨f.origem, f.peso⟩ : ElemLista) ∈ g.lista f.destino :=
            (hs f.origem f.destino f.peso hfm.1.1 hfd.1).mp hfm.2.2
          have := hM f.destino hfd' hd (by omega) _ hsym ho
          simp only at this
          exact le_trans (hmin f.origem hfm.1 ho) this)
    exact ⟨T2, hT2, le_trans hc2 hc1, hF2⟩
  · intro a ha ham hau e he hne
    have ham' : st.m a := by
      rcases (hm1 a ha.1).mp ham with h | h
      · exact absurd h hau
      · exact h
    have hev := hg.noIntervalo a e he
    exact hM a ha ham' (by have := ha.1; omega) e he
      (fun h => hne ((hm1 _ hev.1).mpr (Or.inr h)))

/-! ## Prim: one iteration of the main loop -/

theorem somaChaves_igual (n : Nat) (st st' : EstadoPrim)
    (h : ∀ i : Nat, i < n → i ≠ 0 →
      ((st'.m (i : Int) ↔ st.m (i : Int)) ∧ (st.m (i : Int) → st'.c (i : Int) = st.c (i : Int)))) :
    somaChaves n st' = somaChaves n st := by
  unfold somaChaves
  apply soma_range_igual
  intro i hi
  by_cases hi0 : i = 0
  · simp [hi0]
  · obtain ⟨h1, h2⟩ := h i hi hi0
    by_cases hm : st.m (i : Int)
    · rw [if_pos ⟨h1.mpr hm, hi0⟩, if_pos ⟨hm, hi0⟩, h2 hm]
    · rw [if_neg (fun hc => hm (h1.mp hc.1)), if_neg (fun hc => hm hc.1)]

/-- The first iteration: vertex 0 joins the empty tree. -/
theorem prim_marca_zero (g : Grafo) (F : Finset Aresta) (st : EstadoPrim)
    (hB : PrimBase g F st) (h0 : ¬ st.m 0) (hn : 1 ≤ g.numVertices) :
    PrimBase g F ⟨st.chave, st.naArvore.set (0 : Int).toNat true, st.pai⟩ ∧
      PrimMin g ⟨st.chave, st.naArvore.set (0 : Int).toNat true, st.pai⟩ 0 := by
  obtain ⟨hc0, hF, hini⟩ := hB.inicio h0
  have hul : (0 : Int).toNat < st.naArvore.length := by
    rw [hB.tamN]; simp; omega
  have hm1 := fun x hx => prim_marca_m st 0 x (le_refl 0) hx hul
  have hnov : ∀ x, Valido g x →
      EstadoPrim.m ⟨st.chave, st.naArvore.set (0 : Int).toNat true, st.pai⟩ x → x = 0 := by
    intro x hx hxm
    rcases (hm1 x hx.1).mp hxm with h | h
    · exact h
    · exact absurd h (hini x hx).1
  refine ⟨⟨hB.tamC, by simp [hB.tamN], hB.tamP, ?_, ?_, ?_, ?_, ?_, ?_, hB.promissor⟩, ?_⟩
  · intro h
    exact absurd ((hm1 0 (le_refl 0)).mpr (Or.inl rfl)) h
  · intro x hx hx0 hcx
    have : st.c x = INF := (hini x hx).2 hx0
    have hcx' : st.c x < INF := hcx
    omega
  · intro x hx hxm hx0
    exact absurd (hnov x hx hxm) hx0
  · intro f hf
    rw [hF] at hf
    simp at hf
  · intro x hx hxm
    rw [hnov x hx hxm]
    exact con_refl _ _
  · rw [hB.custoF]
    symm
    apply somaChaves_igual
    intro i hi hi0
    refine ⟨?_, fun _ => rfl⟩
    rw [hm1 (i : Int) (by simp)]
    constructor
    · rintro (h | h)
      · exact absurd h (by omega)
      · exact h
    · exact Or.inr
  · intro a ha ham ha0
    exact absurd (hnov a ha ham) ha0

/-- The relaxation loop for the vertex `u` that has just joined the tree restores the
bound on the keys. -/
theorem prim_relaxa (g : Grafo) (hg : BemFormado g) (F : Finset Aresta) (st : EstadoPrim)
    (u : Int) (hB : PrimBase g F st) (hM : PrimMin g st u) (hu : Valido g u) (hum : st.m u)
    (h0 : st.m 0) :
    PrimBase g F (primVizinhos u (g.lista u) st) ∧
      PrimMin g (primVizinhos u (g.lista u) st) (-1) := by
  obtain ⟨s1, s2, s3, s4, s5, s6, s7⟩ := primVizinhos_spec u (g.lista u) st (by
    intro e he
    have := hg.noIntervalo u e he
    rw [hB.tamC, hB.tamP]
    omega)
  have hm : ∀ x, (primVizinhos u (g.lista u) st).m x ↔ st.m x := by
    intro x; unfold EstadoPrim.m; rw [s1]
  have har : ∀ x, 0 ≤ x → st.m x → (primVizinhos u (g.lista u) st).aresta x = st.aresta x := by
    intro x hx hxm
    unfold EstadoPrim.aresta
    rw [(s4 x hx hxm).1, (s4 x hx hxm).2]
  refine ⟨⟨by rw [s2]; exact hB.tamC, by rw [s1]; exact hB.tamN, by rw [s3]; exact hB.tamP,
    ?_, ?_, ?_, ?_, ?_, ?_, hB.promissor⟩, ?_⟩
  · intro h
    exact absurd ((hm 0).mpr h0) h
  · intro x hx hx0 hcx
    rcases s6 x hx.1 with ⟨h1, h2⟩ | ⟨e, he, h1, _, h3, h4⟩
    · rw [h1] at hcx
      obtain ⟨k1, k2, k3⟩ := hB.paiOk x hx hx0 hcx
      rw [h1, h2]
      exact ⟨k1, (hm _).mpr k2, k3⟩
    · rw [h3, h4]
      refine ⟨hu, (hm u).mpr hum, ?_⟩
      rw [← h1]
      exact he
  · intro x hx hxm hx0
    have hxm' := (hm x).mp hxm
    rw [(s4 x hx.1 hxm').1, har x hx.1 hxm']
    exact hB.marcado x hx hxm' hx0
  · intro f hf
    obtain ⟨x, hx, hxm, hx0, hfx⟩ := hB.origemF f hf
    exact ⟨x, hx, (hm x).mpr hxm, hx0, by rw [har x hx.1 hxm]; exact hfx⟩
  · intro x hx hxm
    exact hB.conF x hx ((hm x).mp hxm)
  · rw [hB.custoF]
    symm
    apply somaChaves_igual
    intro i _ _
    exact ⟨hm _, fun h => (s4 (i : Int) (by simp) h).1⟩
  · intro a ha ham _ e he hne
    have ham' := (hm a).mp ham
    have hne' : ¬ st.m e.vertice := fun h => hne ((hm _).mpr h)
    have hev := hg.noIntervalo a e he
    by_cases hau : a = u
    · rw [hau] at he
      exact s7 e he hne'
    · exact le_trans (s5 e.vertice hev.1) (hM a ha ham' hau e he hne')

/-- While the tree misses a vertex of a connected graph with weights below `INF`, some
vertex outside the tree has a key below `INF`. -/
theorem prim_fronteira (g : Grafo) (hg : BemFormado g) (hs : Simetrico g)
    (hcon : Conexo g.numVertices (coletaArestas g).toFinset) (hp : PesosAbaixoDeINF g)
    (hn : 1 ≤ g.numVertices) (F : Finset Aresta) (st : EstadoPrim) (hB : PrimBase g F st)
    (hM : PrimMin g st (-1)) (x : Int) (hx : Valido g x) (hxm : ¬ st.m x) :
    ∃ b, Valido g b ∧ ¬ st.m b ∧ st.c b < INF := by
  have hv0 : Valido g 0 := ⟨le_refl 0, by omega⟩
  by_cases h0 : st.m 0
  · rcases con_cruza _ (fun v => Valido g v ∧ st.m v) 0 x (hcon 0 x hv0 hx) with h | h
    · exact absurd (h.mp ⟨hv0, h0⟩).2 hxm
    · obtain ⟨f, hf, hcr⟩ := h
      have hfm := (mem_coletaArestas_iff g f).mp (List.mem_toFinset.mp hf)
      have hfd := hg.noIntervalo f.origem _ hfm.2.2
      simp only at hfd
      have hfd' : Valido g f.destino := ⟨hfd.1, hfd.2⟩
      by_cases ho : st.m f.origem
      · have hd : ¬ st.m f.destino := by
          intro hd
          exact hcr ⟨fun _ => ⟨hfd', hd⟩, fun _ => ⟨hfm.1, ho⟩⟩
        have h1 := hM f.origem hfm.1 ho (by have := hfm.1.1; omega) _ hfm.2.2 hd
        have h2 := hp f.origem _ hfm.2.2
        simp only at h1 h2
        exact ⟨f.destino, hfd', hd, by omega⟩
      · have hd : st.m f.destino := by
          by_contra hd
          exact hcr ⟨fun h => absurd h.2 ho, fun h => absurd h.2 hd⟩
        have hsym : (⟨f.origem, f.peso⟩ : ElemLista) ∈ g.lista f.destino :=
          (hs f.origem f.destino f.peso hfm.1.1 hfd.1).mp hfm.2.2
        have h1 := hM f.destino hfd' hd (by omega) _ hsym ho
        have h2 := hp f.destino _ hsym
        simp only at h1 h2
        exact ⟨f.origem, hfm.1, ho, by omega⟩
  · refine ⟨0, hv0, h0, ?_⟩
    rw [(hB.inicio h0).1]
    decide

/-- The selection loop of Prim finds a vertex outside the tree with the least key. -/
theorem prim_seleciona (g : Grafo) (st : EstadoPrim) (b : Int) (hb : Valido g b) (hbm : ¬ st.m b) (hbc : st.c b < INF) :
    ∃ u : Int, (selecionaMenor g.numVertices st.chave st.naArvore).1 = u ∧ u ≠ -1 ∧
      Valido g u ∧ ¬ st.m u ∧ st.c u < INF ∧
      ∀ y, Valido g y → ¬ st.m y → st.c u ≤ st.c y := by
  have hfalse : ∀ y : Int, ¬ st.m y → st.naArvore.getD y.toNat true = false := by
    intro y hy
    unfold EstadoPrim.m at hy
    cases h : st.naArvore.getD y.toNat true
    · rfl
    · exact absurd h hy
  rcases selecionaMenor_spec st.chave st.naArvore g.numVertices with ⟨_, _, h3⟩ | h
  · exfalso
    have := h3 b.toNat (by have := hb.1; have := hb.2; omega) (hfalse b hbm)
    have hbc' : st.chave.getD b.toNat 0 < INF := hbc
    omega
  · obtain ⟨u, h1, h2, h3, _, h5, h6⟩ := h
    refine ⟨(u : Int), h1, by omega, ⟨by simp, by exact_mod_cast h2⟩, ?_, ?_, ?_⟩
    · unfold EstadoPrim.m
      rw [Int.toNat_ofNat, h3]
      simp
    · unfold EstadoPrim.c
      rw [Int.toNat_ofNat]
      exact h5
    · intro y hy hym
      unfold EstadoPrim.c
      rw [Int.toNat_ofNat]
      exact h6 y.toNat (by have := hy.1; have := hy.2; omega) (hfalse y hym)

/-- One iteration of the main loop of Prim on a connected symmetric graph with weights
below `INF`, while some vertex is outside the tree. -/
theorem prim_passo (g : Grafo) (hg : BemFormado g) (hs : Simetrico g)
    (hcon : Conexo g.numVertices (coletaArestas g).toFinset) (hp : PesosAbaixoDeINF g)
    (hn : 1 ≤ g.numVertices) (F : Finset Aresta) (st : EstadoPrim) (hB : PrimBase g F st)
    (hM : PrimMin g st (-1)) (x : Int) (hx : Valido g x) (hxm : ¬ st.m x) (k : Nat) :
    ∃ st' F', primLaco g (k + 1) st = primLaco g k st' ∧ PrimBase g F' st' ∧
      PrimMin g st' (-1) ∧ st'.m 0 ∧
      st'.naArvore.count false + 1 = st.naArvore.count false := by
  obtain ⟨b, hb, hbm, hbc⟩ := prim_fronteira g hg hs hcon hp hn F st hB hM x hx hxm
  obtain ⟨u, hsel, hu1, hu, hum, huc, humin⟩ := prim_seleciona g st b hb hbm hbc
  have hul : u.toNat < st.naArvore.length := by
    rw [hB.tamN]; have := hu.1; have := hu.2; omega
  have hcount : (st.naArvore.set u.toNat true).count false + 1 = st.naArvore.count false := by
    apply count_false_set
    unfold EstadoPrim.m at hum
    cases h : st.naArvore.getD u.toNat true
    · rfl
    · exact absurd h hum
  have hmu : EstadoPrim.m ⟨st.chave, st.naArvore.set u.toNat true, st.pai⟩ u :=
    (prim_marca_m st u u hu.1 hu.1 hul).mpr (Or.inl rfl)
  have hrun : primLaco g (k + 1) st = primLaco g k
      (primVizinhos u (g.lista u) ⟨st.chave, st.naArvore.set u.toNat true, st.pai⟩) := by
    show (if (selecionaMenor g.numVertices st.chave st.naArvore).1 = -1 then st
      else primLaco g k _) = _
    rw [hsel, if_neg hu1]
  have hv0 : Valido g 0 := ⟨le_refl 0, by omega⟩
  by_cases h0 : st.m 0
  · obtain ⟨hB1, hM1⟩ := prim_marca g hg hs F st hB hM h0 u hu hum huc humin
    have h01 : EstadoPrim.m ⟨st.chave, st.naArvore.set u.toNat true, st.pai⟩ 0 :=
      (prim_marca_m st u 0 hu.1 (le_refl 0) hul).mpr (Or.inr h0)
    obtain ⟨hB2, hM2⟩ := prim_relaxa g hg _ _ u hB1 hM1 hu hmu h01
    refine ⟨_, _, hrun, hB2, hM2, ?_, ?_⟩
    · unfold EstadoPrim.m
      rw [(primVizinhos_spec u (g.lista u) _ (by
        intro e he
        have := hg.noIntervalo u e he
        show 0 ≤ e.vertice ∧ e.vertice.toNat < st.chave.length ∧
          e.vertice.toNat < st.pai.length
        rw [hB.tamC, hB.tamP]
        omega)).1]
      exact h01
    · rw [(primVizinhos_spec u (g.lista u) _ (by
        intro e he
        have := hg.noIntervalo u e he
        show 0 ≤ e.vertice ∧ e.vertice.toNat < st.chave.length ∧
          e.vertice.toNat < st.pai.length
        rw [hB.tamC, hB.tamP]
        omega)).1]
      exact hcount
  · -- the tree is empty: the selected vertex is 0
    have hu0 : u = 0 := by
      by_contra hne
      have := ((hB.inicio h0).2.2 u hu).2 hne
      omega
    subst hu0
    obtain ⟨hB1, hM1⟩ := prim_marca_zero g F st hB h0 hn
    obtain ⟨hB2, hM2⟩ := prim_relaxa g hg _ _ 0 hB1 hM1 hv0 hmu hmu
    refine ⟨_, _, hrun, hB2, hM2, ?_, ?_⟩
    · unfold EstadoPrim.m
      rw [(primVizinhos_spec 0 (g.lista 0) _ (by
        intro e he
        have := hg.noIntervalo 0 e he
        show 0 ≤ e.vertice ∧ e.vertice.toNat < st.chave.length ∧
          e.vertice.toNat < st.pai.length
        rw [hB.tamC, hB.tamP]
        omega)).1]
      exact hmu
    · rw [(primVizinhos_spec 0 (g.lista 0) _ (by
        intro e he
        have := hg.noIntervalo 0 e he
        show 0 ≤ e.vertice ∧ e.vertice.toNat < st.chave.length ∧
          e.vertice.toNat < st.pai.length
        rw [hB.tamC, hB.tamP]
        omega)).1]
      exact hcount

/-! ## Prim: the main loop -/

theorem existe_fora (l : List Bool) (h : 0 < l.count false) :
    ∃ i : Nat, i < l.length ∧ l.getD i true = false := by
  rw [List.count_pos_iff] at h
  obtain ⟨i, hi, hget⟩ := List.getElem_of_mem h
  exact ⟨i, hi, by rw [List.getD_eq_getElem _ _ hi]; exact hget⟩

theorem prim_laco (g : Grafo) (hg : BemFormado g) (hs : Simetrico g)
    (hcon : Conexo g.numVertices (coletaArestas g).toFinset) (hp : PesosAbaixoDeINF g)
    (hn : 1 ≤ g.numVertices) (k : Nat) :
    ∀ (st : EstadoPrim) (F : Finset Aresta), PrimBase g F st → PrimMin g st (-1) →
      st.naArvore.count false = k + 1 →
      ∃ F', PrimBase g F' (primLaco g k st) ∧ PrimMin g (primLaco g k st) (-1) ∧
        (primLaco g k st).naArvore.count false = 1 := by
  induction k with
  | zero =>
    intro st F hB hM hc
    exact ⟨F, hB, hM, hc⟩
  | succ k ih =>
    intro st F hB hM hc
    obtain ⟨i, hi, hget⟩ := existe_fora st.naArvore (by omega)
    have hx : Valido g (i : Int) := ⟨by simp, by rw [← hB.tamN]; exact_mod_cast hi⟩
    have hxm : ¬ st.m (i : Int) := by
      unfold EstadoPrim.m
      rw [Int.toNat_ofNat, hget]
      simp
    obtain ⟨st', F', hrun, hB', hM', _, hc'⟩ :=
      prim_passo g hg hs hcon hp hn F st hB hM (i : Int) hx hxm k
    rw [hrun]
    exact ih st' F' hB' hM' (by omega)

/-- The state of Prim before the first iteration. -/
theorem prim_inicial (g : Grafo) (hn : 1 ≤ g.numVertices) :
    PrimBase g ∅ ⟨(List.replicate g.numVertices INF).set (0 : Int).toNat 0,
      List.replicate g.numVertices false, List.replicate g.numVertices (-1)⟩ ∧
    PrimMin g ⟨(List.replicate g.numVertices INF).set (0 : Int).toNat 0,
      List.replicate g.numVertices false, List.replicate g.numVertices (-1)⟩ (-1) := by
  have hnm : ∀ x, Valido g x → ¬ EstadoPrim.m ⟨(List.replicate g.numVertices INF).set
      (0 : Int).toNat 0, List.replicate g.numVertices false,
      List.replicate g.numVertices (-1)⟩ x := by
    intro x hx
    unfold EstadoPrim.m
    rw [getD_replicate_int g.numVertices false true x hx.1 hx.2]
    simp
  have hv0 : Valido g 0 := ⟨le_refl 0, by omega⟩
  have hc : ∀ x, Valido g x → EstadoPrim.c ⟨(List.replicate g.numVertices INF).set
      (0 : Int).toNat 0, List.replicate g.numVertices false,
      List.replicate g.numVertices (-1)⟩ x = if x = 0 then 0 else INF := by
    intro x hx
    unfold EstadoPrim.c
    rw [getD_set_int _ 0 x 0 0 (le_refl 0) hx.1 (by simp; omega)]
    split
    · rfl
    · exact getD_replicate_int g.numVertices INF 0 x hx.1 hx.2
  refine ⟨⟨by simp, by simp, by simp, ?_, ?_, ?_, ?_, ?_, ?_, ?_⟩, ?_⟩
  · intro _
    refine ⟨by rw [hc 0 hv0]; simp, rfl, ?_⟩
    intro x hx
    exact ⟨hnm x hx, fun hx0 => by rw [hc x hx, if_neg hx0]⟩
  · intro x hx hx0 hcx
    rw [hc x hx, if_neg hx0] at hcx
    omega
  · intro x hx hxm
    exact absurd hxm (hnm x hx)
  · intro f hf
    simp at hf
  · intro x hx hxm
    exact absurd hxm (hnm x hx)
  · unfold custo somaChaves
    rw [Finset.sum_empty]
    symm
    apply List.sum_eq_zero
    intro y hy
    simp only [List.mem_map, List.mem_range] at hy
    obtain ⟨i, hi, rfl⟩ := hy
    rw [if_neg]
    intro hc
    exact hnm (i : Int) ⟨by simp, by exact_mod_cast hi⟩ hc.1
  · intro T hT
    exact ⟨T, hT, le_refl _, Finset.empty_subset _⟩
  · intro a ha ham
    exact absurd ham (hnm a ha)

/-- After the main loop has left a single vertex outside the tree, that vertex can join it
with the edge that `pai` records. -/
theorem prim_final (g : Grafo) (hg : BemFormado g) (hs : Simetrico g)
    (hcon : Conexo g.numVertices (coletaArestas g).toFinset) (hp : PesosAbaixoDeINF g)
    (hn : 1 ≤ g.numVertices) (F : Finset Aresta) (st : EstadoPrim) (hB : PrimBase g F st)
    (hM : PrimMin g st (-1)) (hc : st.naArvore.count false = 1) :
    ∃ F' naArvore, PrimBase g F' ⟨st.chave, naArvore, st.pai⟩ ∧
      ∀ x, Valido g x → EstadoPrim.m ⟨st.chave, naArvore, st.pai⟩ x := by
  obtain ⟨i, hi, hget⟩ := existe_fora st.naArvore (by omega)
  have hz : Valido g (i : Int) := ⟨by simp, by rw [← hB.tamN]; exact_mod_cast hi⟩
  have hzm : ¬ st.m (i : Int) := by
    unfold EstadoPrim.m
    rw [Int.toNat_ofNat, hget]
    simp
  have hunico : ∀ x, Valido g x → ¬ st.m x → x = (i : Int) := by
    intro x hx hxm
    have hxf : st.naArvore.getD x.toNat true = false := by
      unfold EstadoPrim.m at hxm
      cases h : st.naArvore.getD x.toNat true
      · rfl
      · exact absurd h hxm
    have := count_false_unico st.naArvore x.toNat i hxf hget (by omega)
    have := hx.1
    omega
  have hul : ((i : Int)).toNat < st.naArvore.length := by simpa using hi
  have htodos : ∀ x, Valido g x →
      EstadoPrim.m ⟨st.chave, st.naArvore.set (i : Int).toNat true, st.pai⟩ x := by
    intro x hx
    rw [prim_marca_m st (i : Int) x hz.1 hx.1 hul]
    by_cases hxm : st.m x
    · exact Or.inr hxm
    · exact Or.inl (hunico x hx hxm)
  by_cases h0 : st.m 0
  · obtain ⟨b, hb, hbm, hbc⟩ := prim_fronteira g hg hs hcon hp hn F st hB hM (i : Int) hz hzm
    rw [hunico b hb hbm] at hbc
    obtain ⟨hB1, _⟩ := prim_marca g hg hs F st hB hM h0 (i : Int) hz hzm hbc
      (fun y hy hym => by rw [hunico y hy hym])
    exact ⟨_, _, hB1, htodos⟩
  · have hi0 : (i : Int) = 0 := (hunico 0 ⟨le_refl 0, by omega⟩ h0).symm
    rw [hi0] at htodos
    obtain ⟨hB1, _⟩ := prim_marca_zero g F st hB h0 hn
    exact ⟨_, _, hB1, htodos⟩

theorem con_sub_gen (E E' : Finset Aresta) (h : ∀ f ∈ E, Con E' f.origem f.destino)
    (a b : Int) (hab : Con E a b) : Con E' a b := by
  induction hab with
  | rel x y hxy =>
    obtain ⟨e, he, rfl, rfl⟩ := hxy
    exact h e he
  | refl x => exact con_refl _ x
  | symm x y _ ih => exact con_symm _ _ _ ih
  | trans x y z _ _ ih1 ih2 => exact con_trans _ _ _ _ ih1 ih2

/-- When every vertex is in the tree, the recorded tree edges are a minimum spanning tree
whose weight is the sum of the keys. -/
theorem prim_completo (g : Grafo) (hg : BemFormado g) (F : Finset Aresta) (st : EstadoPrim)
    (hB : PrimBase g F st) (htodos : ∀ x, Valido g x → st.m x)
    (T0 : Finset Aresta) (hT0 : FlorestaGeradora (coletaArestas g).toFinset T0) :
    FlorestaGeradora (coletaArestas g).toFinset F ∧
    (∀ T, FlorestaGeradora (coletaArestas g).toFinset T → custo F ≤ custo T) ∧
    Conexo g.numVertices F ∧
    custo F = ((List.range g.numVertices).map
      (fun i : Nat => if i ≠ 0 then st.c (i : Int) else 0)).sum ∧
    (∀ x, Valido g x → x ≠ 0 → Valido g (st.p x) ∧
      (⟨x, st.c x⟩ : ElemLista) ∈ g.lista (st.p x) ∧ st.aresta x ∈ F) ∧
    (∀ f ∈ F, ∃ x, Valido g x ∧ x ≠ 0 ∧ f = st.aresta x) := by
  have hcx : Conexo g.numVertices F := by
    intro a b ha hb
    exact con_trans _ _ _ _ (con_symm _ _ _ (hB.conF a ha (htodos a ha)))
      (hB.conF b hb (htodos b hb))
  have higual : ∀ T', FlorestaGeradora (coletaArestas g).toFinset T' → F ⊆ T' → T' = F := by
    intro T' hT' hsub
    apply floresta_maximal T' F hT'.2.1 hsub
    intro y hy
    have := coletaArestas_valida g hg y (List.mem_toFinset.mp (hT'.1 hy))
    exact hcx _ _ this.1 this.2
  refine ⟨?_, ?_, hcx, ?_, ?_, ?_⟩
  · obtain ⟨T', hT', _, hsub⟩ := hB.promissor T0 hT0
    rw [← higual T' hT' hsub]
    exact hT'
  · intro T hT
    obtain ⟨T', hT', hc, hsub⟩ := hB.promissor T hT
    rw [← higual T' hT' hsub]
    exact hc
  · rw [hB.custoF]
    unfold somaChaves
    apply soma_range_igual
    intro i hi
    have := htodos (i : Int) ⟨by simp, by exact_mod_cast hi⟩
    by_cases hi0 : i = 0
    · simp [hi0]
    · rw [if_pos hi0, if_pos ⟨this, hi0⟩]
  · intro x hx hx0
    obtain ⟨h1, h2⟩ := hB.marcado x hx (htodos x hx) hx0
    obtain ⟨k1, _, k3⟩ := hB.paiOk x hx hx0 h1
    exact ⟨k1, k3, h2⟩
  · intro f hf
    obtain ⟨x, hx, _, hx0, hfx⟩ := hB.origemF f hf
    exact ⟨x, hx, hx0, hfx⟩

/-! ## Prim: the output loop and the comparison with Kruskal -/

theorem procuraPeso_acha (i w : Int) (l : List ElemLista) (h : Ordenada l)
    (hm : (⟨i, w⟩ : ElemLista) ∈ l) : procuraPeso i l = some w := by
  induction l with
  | nil => simp at hm
  | cons a t ih =>
    have ht : Ordenada t := (List.pairwise_cons.mp h).2
    by_cases ha : a.vertice ≠ i
    · have hmt : (⟨i, w⟩ : ElemLista) ∈ t := by
        rcases List.mem_cons.mp hm with h2 | h2
        · rw [← h2] at ha; simp at ha
        · exact h2
      rw [procuraPeso, if_pos ha]
      exact ih ht hmt
    · have ha' : a.vertice = i := by
        by_contra hc
        exact ha hc
      have hav : a = ⟨i, w⟩ :=
        ordenada_unica _ h a ⟨i, w⟩ (List.mem_cons_self a t) hm ha'
      rw [procuraPeso, if_neg ha, hav]

theorem primSaida_fold (g : Grafo) (pai chave : List Int) (L : List Nat) :
    ∀ (linhas : List LinhaPrim) (soma : Int),
      (∀ i ∈ L, pai.getD i 0 ≠ -1 ∧
        procuraPeso (i : Int) (g.lista (pai.getD i 0)) = some (chave.getD i 0)) →
      L.foldl (primSaidaPasso g pai) (linhas, paraInt soma) =
        (linhas ++ L.map (fun i => (⟨pai.getD i 0, (i : Int), some (chave.getD i 0)⟩ : LinhaPrim)),
          paraInt (soma + (L.map (fun i => chave.getD i 0)).sum)) := by
  induction L with
  | nil =>
    intro linhas soma _
    simp
  | cons a t ih =>
    intro linhas soma h
    obtain ⟨h1, h2⟩ := h a (List.mem_cons_self a t)
    have hstep : primSaidaPasso g pai (linhas, paraInt soma) a =
        (linhas ++ [⟨pai.getD a 0, (a : Int), some (chave.getD a 0)⟩],
          paraInt (soma + chave.getD a 0)) := by
      unfold primSaidaPasso
      rw [if_pos h1, h2]
      show (_, somaInt (paraInt soma) (chave.getD a 0)) = _
      rw [somaInt_paraInt]
    rw [List.foldl_cons, hstep, ih _ _ (fun i hi => h i (List.mem_cons_of_mem a hi))]
    simp only [List.map_cons, List.sum_cons, List.append_assoc, List.singleton_append]
    congr 2
    ring

theorem soma_range_sem_zero (f : Nat → Int) (n : Nat) (hn : 1 ≤ n) :
    ((List.range n).map (fun i : Nat => if i ≠ 0 then f i else 0)).sum =
      (((List.range (n - 1)).map (fun j => j + 1)).map f).sum := by
  obtain ⟨m, rfl⟩ : ∃ m, n = m + 1 := ⟨n - 1, by omega⟩
  rw [List.range_succ_eq_map]
  simp only [List.map_cons, List.sum_cons, List.map_map, Nat.add_sub_cancel]
  simp only [ne_eq, not_true_eq_false, if_false, zero_add]
  congr 1

/-- Correctness of `algoritmoPrim` on a connected symmetric well-formed graph with weights
below `INF`: the routine prints one line for every vertex other than 0, each an edge of the
graph; the printed edges connect all vertices and their total, which is `custoTotal`, is
the least total weight of a spanning tree. -/
theorem prim_geral (g : Grafo) (hg : BemFormado g) (hs : Simetrico g)
    (hcon : Conexo g.numVertices (coletaArestas g).toFinset) (hp : PesosAbaixoDeINF g)
    (hn : 1 ≤ g.numVertices)
    (T0 : Finset Aresta) (hT0 : FlorestaGeradora (coletaArestas g).toFinset T0) :
    ∃ (arestas : List Aresta) (soma : Int),
      algoritmoPrim g = Except.ok
        (arestas.map (fun e => (⟨e.origem, e.destino, some e.peso⟩ : LinhaPrim)),
          paraInt soma) ∧
      arestas.length + 1 = g.numVertices ∧
      soma = (arestas.map (fun e => e.peso)).sum ∧
      (∀ e ∈ arestas, Valido g e.origem ∧ Valido g e.destino ∧
        (⟨e.destino, e.peso⟩ : ElemLista) ∈ g.lista e.origem) ∧
      Conexo g.numVertices arestas.toFinset ∧
      ∃ F, FlorestaGeradora (coletaArestas g).toFinset F ∧ custo F = soma ∧
        ∀ T, FlorestaGeradora (coletaArestas g).toFinset T → soma ≤ custo T := by
  obtain ⟨hB0, hM0⟩ := prim_inicial g hn
  obtain ⟨F1, hB1, hM1, hc1⟩ := prim_laco g hg hs hcon hp hn (g.numVertices - 1) _ ∅ hB0 hM0
    (by
      show (List.replicate g.numVertices false).count false = g.numVertices - 1 + 1
      rw [List.count_replicate_self]
      omega)
  obtain ⟨F, na, hB, htodos⟩ := prim_final g hg hs hcon hp hn F1 _ hB1 hM1 hc1
  obtain ⟨k1, k2, k3, k4, k5, k6⟩ := prim_completo g hg F _ hB htodos T0 hT0
  -- the arrays after the main loop
  generalize hst : primLaco g (g.numVertices - 1)
    ⟨(List.replicate g.numVertices INF).set (0 : Int).toNat 0,
      List.replicate g.numVertices false, List.replicate g.numVertices (-1)⟩ = stf
    at hB htodos k4 k5 k6
  have hval : ∀ i ∈ (List.range (g.numVertices - 1)).map (fun j => j + 1),
      Valido g ((i : Nat) : Int) ∧ ((i : Nat) : Int) ≠ 0 := by
    intro i hi
    simp only [List.mem_map, List.mem_range] at hi
    obtain ⟨j, hj, rfl⟩ := hi
    exact ⟨⟨by push_cast; omega, by push_cast; omega⟩, by push_cast; omega⟩
  have hlinha : ∀ i ∈ (List.range (g.numVertices - 1)).map (fun j => j + 1),
      stf.pai.getD i 0 ≠ -1 ∧
        procuraPeso (i : Int) (g.lista (stf.pai.getD i 0)) = some (stf.chave.getD i 0) := by
    intro i hi
    obtain ⟨h1, h2, _⟩ := k5 (i : Int) (hval i hi).1 (hval i hi).2
    have hp' : EstadoPrim.p ⟨stf.chave, na, stf.pai⟩ (i : Int) = stf.pai.getD i 0 := by
      unfold EstadoPrim.p; simp
    have hc' : EstadoPrim.c ⟨stf.chave, na, stf.pai⟩ (i : Int) = stf.chave.getD i 0 := by
      unfold EstadoPrim.c; simp
    rw [hp'] at h1 h2
    rw [hc'] at h2
    exact ⟨by have := h1.1; omega, procuraPeso_acha _ _ _ (hg.ordenada _) h2⟩
  have hesc : escreve (List.replicate g.numVertices INF) 0 0 =
      Except.ok ((List.replicate g.numVertices INF).set (0 : Int).toNat 0) := by
    unfold escreve
    rw [if_pos ⟨le_refl 0, by simp; omega⟩]
  have hsaida := primSaida_fold g stf.pai stf.chave _ [] 0 hlinha
  have hzero : paraInt 0 = 0 := by decide
  rw [hzero] at hsaida
  refine ⟨((List.range (g.numVertices - 1)).map (fun j => j + 1)).map
      (fun i => (⟨stf.pai.getD i 0, (i : Int), stf.chave.getD i 0⟩ : Aresta)),
    (((List.range (g.numVertices - 1)).map (fun j => j + 1)).map
      (fun i => stf.chave.getD i 0)).sum, ?_, ?_, ?_, ?_, ?_, ?_⟩
  · unfold algoritmoPrim
    rw [hesc]
    show Except.ok (primSaida g (primLaco g (g.numVertices - 1) _).pai) = _
    rw [hst]
    unfold primSaida
    rw [hsaida]
    simp only [List.nil_append, zero_add, List.map_map]
    rfl
  · simp only [List.length_map, List.length_range]
    omega
  · simp only [List.map_map]
    rfl
  · intro e he
    simp only [List.mem_map] at he
    obtain ⟨i, hi, rfl⟩ := he
    have hi' : i ∈ (List.range (g.numVertices - 1)).map (fun j => j + 1) := by
      simpa using hi
    obtain ⟨h1, h2, _⟩ := k5 (i : Int) (hval i hi').1 (hval i hi').2
    have hp' : EstadoPrim.p ⟨stf.chave, na, stf.pai⟩ (i : Int) = stf.pai.getD i 0 := by
      unfold EstadoPrim.p; simp
    have hc' : EstadoPrim.c ⟨stf.chave, na, stf.pai⟩ (i : Int) = stf.chave.getD i 0 := by
      unfold EstadoPrim.c; simp
    rw [hp'] at h1 h2
    rw [hc'] at h2
    exact ⟨h1, (hval i hi').1, h2⟩
  · intro a b ha hb
    apply con_sub_gen F _ _ a b (k3 a b ha hb)
    intro f hf
    obtain ⟨x, hx, hx0, rfl⟩ := k6 f hf
    have hmem : (⟨EstadoPrim.p ⟨stf.chave, na, stf.pai⟩ x, x,
        EstadoPrim.c ⟨stf.chave, na, stf.pai⟩ x⟩ : Aresta) ∈
        (((List.range (g.numVertices - 1)).map (fun j => j + 1)).map
          (fun i => (⟨stf.pai.getD i 0, (i : Int), stf.chave.getD i 0⟩ : Aresta))).toFinset := by
      rw [List.mem_toFinset]
      simp only [List.mem_map, List.mem_range]
      refine ⟨x.toNat, ⟨x.toNat - 1, by have := hx.1; have := hx.2; omega,
        by have := hx.1; omega⟩, ?_⟩
      have hxn : ((x.toNat : Nat) : Int) = x := Int.toNat_of_nonneg hx.1
      rw [hxn]
      rfl
    have hc := con_aresta _ _ hmem
    simp only at hc
    unfold EstadoPrim.aresta
    rcases arestaNorm_pontas (EstadoPrim.p ⟨stf.chave, na, stf.pai⟩ x) x
      (EstadoPrim.c ⟨stf.chave, na, stf.pai⟩ x) with ⟨h1, h2⟩ | ⟨h1, h2⟩
    · rw [h1, h2]; exact hc
    · rw [h1, h2]; exact con_symm _ _ _ hc
  · have hcusto : custo F = (((List.range (g.numVertices - 1)).map (fun j => j + 1)).map
        (fun i => stf.chave.getD i 0)).sum := by
      rw [k4, soma_range_sem_zero _ g.numVertices hn]
      rfl
    refine ⟨F, k1, hcusto, ?_⟩
    intro T hT
    rw [← hcusto]
    exact k2 T hT

theorem pesosAbaixo_de_todos (g : Grafo)
    (h : ∀ l ∈ g.A, ∀ e ∈ l, e.peso < INF) : PesosAbaixoDeINF g := by
  intro u e he
  obtain ⟨l, hl, hel⟩ := mem_lista_mem_A g u e he
  exact h l hl e hel

/-- C11 (amended): for every connected undirected graph built with `adicionaAresta` (and
`removeAresta`) with at least one vertex whose stored weights are all below 999999, and
every sorting routine that meets the contract of `std::sort`, the outputs of
`algoritmoPrim` and `algoritmoKruskal` are spanning trees: `numVertices - 1` edges of the
graph that connect all the vertices; and when no running total of the weights that either
routine adds up leaves `int`, in particular when the absolute values of the weights of all
edges add up to at most 2147483647, both routines return the same `custoTotal`, which is
the sum of the weights of the edges each of them reports. -/
theorem algoritmoPrim_igual_kruskal (ordena : List Aresta → List Aresta)
    (hord : OrdenaCrescente ordena) (g : Grafo) (hg : AlcancavelSemDir g)
    (hd : g.direcionado = false) (hn : 1 ≤ g.numVertices)
    (hcon : ∀ v, Valido g v → ∃ k, Caminho g 0 v k) (hp : PesosAbaixoDeINF g) :
    ∃ (arestas : List Aresta) (custoPrim : Int) (mst : List Aresta) (custoKruskal : Int),
      algoritmoPrim g = Except.ok
        (arestas.map (fun e => (⟨e.origem, e.destino, some e.peso⟩ : LinhaPrim)),
          custoPrim) ∧
      algoritmoKruskal ordena g = some (mst, custoKruskal) ∧
      ((TotaisCabem arestas ∧ TotaisCabem mst) ∨ pesoAbsoluto g ≤ 2147483647 →
        custoPrim = custoKruskal ∧
        custoPrim = (arestas.map (fun e => e.peso)).sum ∧
        custoKruskal = (mst.map (fun e => e.peso)).sum) ∧
      arestas.length + 1 = g.numVertices ∧ mst.length + 1 = g.numVertices ∧
      (∀ e ∈ arestas, Valido g e.origem ∧ Valido g e.destino ∧
        (⟨e.destino, e.peso⟩ : ElemLista) ∈ g.lista e.origem) ∧
      (∀ e ∈ mst, Valido g e.origem ∧ Valido g e.destino ∧
        (⟨e.destino, e.peso⟩ : ElemLista) ∈ g.lista e.origem) ∧
      Conexo g.numVertices arestas.toFinset ∧ Conexo g.numVertices mst.toFinset := by
  have hb := bemFormado_de_alcancavel g (alcancavel_de_semDir g hg)
  have hs := simetrico_de_alcancavel g hg hd
  have hcx := (conexo_iff_alcanca g hb hs hn).mp hcon
  obtain ⟨mst, cK, hrunK, _, hnd, hcK, hfgK, hminK⟩ := kruskal_geral ordena hord g hb
  obtain ⟨arestas, cP, hrunP, hlen, hsum, hedges, hconP, F, hF, hcF, hminP⟩ :=
    prim_geral g hb hs hcx hp hn mst.toFinset hfgK
  have hmem : ∀ e ∈ mst, e ∈ coletaArestas g :=
    fun e he => List.mem_toFinset.mp (hfgK.1 (List.mem_toFinset.mpr he))
  have hconK : Conexo g.numVertices mst.toFinset :=
    fun a b ha hb' => hfgK.2.2 a b (hcx a b ha hb')
  have hsomaK : (mst.map (fun e => e.peso)).sum = custo mst.toFinset := by
    unfold custo
    rw [List.sum_toFinset _ hnd]
  have higual : cP = custo mst.toFinset :=
    le_antisymm (hminP _ hfgK) (by rw [← hcF]; exact hminK F hF)
  refine ⟨arestas, paraInt cP, mst, cK, hrunP, hrunK, ?_, hlen, ?_, hedges, ?_, hconP, hconK⟩
  · intro hcabe
    obtain ⟨k1, k2⟩ := custo_cabe_ou g hb mst hnd hfgK.1
      (hcabe.elim (fun h => Or.inl h.2) Or.inr)
    have hK' : cK = custo mst.toFinset := by rw [hcK, paraInt_eq _ k1 k2]
    have hP' : paraInt cP = cP := paraInt_eq _ (by rw [higual]; exact k1)
      (by rw [higual]; exact k2)
    refine ⟨by rw [hP', hK', higual], by rw [hP', hsum], by rw [hK', hsomaK]⟩
  · rw [← List.toFinset_card_of_nodup hnd]
    exact arvore_contagem g.numVertices hn _ hfgK.2.1
      (fun e he => coletaArestas_valida g hb e (hmem e (List.mem_toFinset.mp he))) hconK
  · intro e he
    have h1 := (mem_coletaArestas_iff g e).mp (hmem e he)
    have h2 := hb.noIntervalo e.origem _ h1.2.2
    exact ⟨h1.1, ⟨h2.1, h2.2⟩, h1.2.2⟩

/-- Witness for C11: on the weighted five-vertex example Prim prints the edges
`0 -- 1 (5)`, `0 -- 2 (3)`, `2 -- 3 (2)`, `3 -- 4 (1)` with total 11, the total of
Kruskal. -/
theorem algoritmoPrim_igual_kruskal_witness :
    algoritmoPrim exemploPonderado =
      Except.ok ([⟨0, 1, some 5⟩, ⟨0, 2, some 3⟩, ⟨2, 3, some 2⟩, ⟨3, 4, some 1⟩], 11) ∧
    ∃ (arestas : List Aresta) (custoPrim : Int) (mst : List Aresta) (custoKruskal : Int),
      algoritmoPrim exemploPonderado = Except.ok
        (arestas.map (fun e => (⟨e.origem, e.destino, some e.peso⟩ : LinhaPrim)),
          custoPrim) ∧
      algoritmoKruskal ordenaPorPeso exemploPonderado = some (mst, custoKruskal) ∧
      ((TotaisCabem arestas ∧ TotaisCabem mst) ∨ pesoAbsoluto exemploPonderado ≤ 2147483647 →
        custoPrim = custoKruskal ∧
        custoPrim = (arestas.map (fun e => e.peso)).sum ∧
        custoKruskal = (mst.map (fun e => e.peso)).sum) ∧
      arestas.length + 1 = exemploPonderado.numVertices ∧
      mst.length + 1 = exemploPonderado.numVertices ∧
      (∀ e ∈ arestas, Valido exemploPonderado e.origem ∧ Valido exemploPonderado e.destino ∧
        (⟨e.destino, e.peso⟩ : ElemLista) ∈ exemploPonderado.lista e.origem) ∧
      (∀ e ∈ mst, Valido exemploPonderado e.origem ∧ Valido exemploPonderado e.destino ∧
        (⟨e.destino, e.peso⟩ : ElemLista) ∈ exemploPonderado.lista e.origem) ∧
      Conexo exemploPonderado.numVertices arestas.toFinset ∧
      Conexo exemploPonderado.numVertices mst.toFinset :=
  ⟨rfl, algoritmoPrim_igual_kruskal ordenaPorPeso ordenaPorPeso_contrato exemploPonderado
    alcancavelSemDir_exemploPonderado rfl (by decide) alcanca_exemploPonderado
    (pesosAbaixo_de_todos _ (by decide))⟩

/-- C11 counterexample: the undirected two-vertex graph with the single edge `0 - 1` of
weight 1000000 is connected and built with `adicionaAresta`; `algoritmoPrim` prints no edge
and the total 0, `algoritmoKruskal` accepts the edge and returns the total 1000000. -/
theorem algoritmoPrim_contraexemplo :
    AlcancavelSemDir (adicionaAresta (Grafo.novo 2 false true) 0 1 1000000) ∧
    (adicionaAresta (Grafo.novo 2 false true) 0 1 1000000).direcionado = false ∧
    (adicionaAresta (Grafo.novo 2 false true) 0 1 1000000).ponderado = true ∧
    (adicionaAresta (Grafo.novo 2 false true) 0 1 1000000).numVertices = 2 ∧
    estaConectadoDFS (adicionaAresta (Grafo.novo 2 false true) 0 1 1000000) =
      Except.ok true ∧
    algoritmoPrim (adicionaAresta (Grafo.novo 2 false true) 0 1 1000000) =
      Except.ok ([], 0) ∧
    algoritmoKruskal ordenaPorPeso (adicionaAresta (Grafo.novo 2 false true) 0 1 1000000) =
      some ([⟨0, 1, 1000000⟩], 1000000) ∧
    ¬ ∃ (linhas : List LinhaPrim) (custoPrim : Int) (mst : List Aresta) (custoKruskal : Int),
      algoritmoPrim (adicionaAresta (Grafo.novo 2 false true) 0 1 1000000) =
        Except.ok (linhas, custoPrim) ∧
      algoritmoKruskal ordenaPorPeso (adicionaAresta (Grafo.novo 2 false true) 0 1 1000000) =
        some (mst, custoKruskal) ∧
      custoPrim = custoKruskal := by
  have hP : algoritmoPrim (adicionaAresta (Grafo.novo 2 false true) 0 1 1000000) =
      Except.ok ([], 0) := rfl
  have hK : algoritmoKruskal ordenaPorPeso
      (adicionaAresta (Grafo.novo 2 false true) 0 1 1000000) =
      some ([⟨0, 1, 1000000⟩], 1000000) := by decide
  refine ⟨AlcancavelSemDir.adiciona _ _ _ _ (AlcancavelSemDir.novo 2 false true), rfl, rfl,
    rfl, rfl, hP, hK, ?_⟩
  rintro ⟨linhas, cP, mst, cK, h1, h2, h3⟩
  rw [hP] at h1
  rw [hK] at h2
  injection h1 with h1
  injection h2 with h2
  have e1 : (0 : Int) = cP := congrArg Prod.snd h1
  have e2 : (1000000 : Int) = cK := congrArg Prod.snd h2
  omega

/-! ## The symmetry invariant under insertion and removal -/

/-- C21: undirected symmetry invariant. In every undirected graph reached from a fresh
graph by `adicionaAresta` and `removeAresta`, the entry `u -> v` with weight `w` is stored
exactly when the entry `v -> u` with weight `w` is; a call of `adicionaAresta` either leaves
the graph as it is or adds exactly the two entries `u -> v` and `v -> u`, with one and the
same weight, neither of which had a predecessor; a call of `removeAresta` either returns
`false` and leaves the graph as it is, or returns `true`, both entries were stored (with
one weight) and exactly the entries `u -> v` and `v -> u` are gone afterwards. -/
theorem simetria_nao_direcionado (g : Grafo) (hg : AlcancavelSemDir g)
    (hd : g.direcionado = false) :
    (∀ u v w : Int, 0 ≤ u → 0 ≤ v →
      ((⟨v, w⟩ : ElemLista) ∈ g.lista u ↔ (⟨u, w⟩ : ElemLista) ∈ g.lista v)) ∧
    (∀ u v w : Int, adicionaAresta g u v w = g ∨
      ((∀ e ∈ g.lista u, e.vertice ≠ v) ∧ (∀ e ∈ g.lista v, e.vertice ≠ u) ∧
        (⟨v, if g.ponderado then w else 1⟩ : ElemLista) ∈ (adicionaAresta g u v w).lista u ∧
        (⟨u, if g.ponderado then w else 1⟩ : ElemLista) ∈ (adicionaAresta g u v w).lista v ∧
        ∀ (x : Int) (e : ElemLista), 0 ≤ x → (e ∈ (adicionaAresta g u v w).lista x ↔
          e ∈ g.lista x ∨ (x = u ∧ e = ⟨v, if g.ponderado then w else 1⟩) ∨
            (x = v ∧ e = ⟨u, if g.ponderado then w else 1⟩)))) ∧
    (∀ u v : Int, ((removeAresta g u v).1 = false ∧ (removeAresta g u v).2 = g) ∨
      ((removeAresta g u v).1 = true ∧
        (∃ p : Int, (⟨v, p⟩ : ElemLista) ∈ g.lista u ∧ (⟨u, p⟩ : ElemLista) ∈ g.lista v) ∧
        (∀ e ∈ (removeAresta g u v).2.lista u, e.vertice ≠ v) ∧
        (∀ e ∈ (removeAresta g u v).2.lista v, e.vertice ≠ u) ∧
        ∀ (x : Int) (e : ElemLista), 0 ≤ x → (e ∈ (removeAresta g u v).2.lista x ↔
          e ∈ g.lista x ∧ ¬ (x = u ∧ e.vertice = v) ∧ ¬ (x = v ∧ e.vertice = u)))) := by
  have hb := bemFormado_de_alcancavel g (alcancavel_de_semDir g hg)
  have hs := simetrico_de_alcancavel g hg hd
  refine ⟨hs, ?_, ?_⟩
  · intro u v w
    cases hi : entradaInvalida g u v
    · obtain ⟨h1, h2, h3, h4, h5⟩ := (entradaInvalida_falso g u v).mp hi
      rw [adicionaAresta_valida g u v w hi]
      cases hin : (insereArestaAux g u v (if g.ponderado then w else 1)).1
      · exact Or.inl (adicionaComPeso_de_falso g u v _ hin)
      · right
        have hmem := mem_lista_adicionaComPeso g hb hs u v _ hi hd hin
        have hex : existeNaLista v (g.lista u) = false := by
          cases hq : existeNaLista v (g.lista u)
          · rfl
          · have := (insereNaLista_falso v (if g.ponderado then w else 1) (g.lista u)).mpr hq
            have hin' : (insereNaLista v (if g.ponderado then w else 1) (g.lista u)).1 = true :=
              hin
            rw [this] at hin'
            exact absurd hin' (by decide)
        have hex' : existeNaLista u (g.lista v) = false := by
          rw [← existe_simetrico g hb hs u v h1 h2]; exact hex
        refine ⟨?_, ?_, (hmem u h1 _).mpr (Or.inr (Or.inl ⟨rfl, rfl⟩)),
          (hmem v h2 _).mpr (Or.inr (Or.inr ⟨rfl, rfl⟩)), fun x e hx => hmem x hx e⟩
        · intro e he hv
          have := (existeNaLista_iff v _ (hb.ordenada u)).mpr ⟨e, he, hv⟩
          rw [hex] at this
          exact absurd this (by decide)
        · intro e he hv
          have := (existeNaLista_iff u _ (hb.ordenada v)).mpr ⟨e, he, hv⟩
          rw [hex'] at this
          exact absurd this (by decide)
    · left
      simp [adicionaAresta, hi]
  · intro u v
    cases hi : entradaInvalida g u v
    · obtain ⟨h1, h2, h3, h4, h5⟩ := (entradaInvalida_falso g u v).mp hi
      cases hr : (removeArestaAux g u v).1
      · left
        simp [removeAresta, hi, hr]
      · right
        have hmem := mem_lista_removeAresta g hb u v hi hr
        have hex : existeNaLista v (g.lista u) = true := by
          rw [← removeDaLista_resultado]; exact hr
        obtain ⟨p, hp⟩ := mem_de_existe g hb u v hex
        refine ⟨by simp [removeAresta, hi, hr], ⟨p, hp, (hs u v p h1 h2).mp hp⟩, ?_, ?_,
          fun x e hx => hmem x hx e⟩
        · intro e he hv
          exact ((hmem u h1 e).mp he).2.1 ⟨rfl, hv⟩
        · intro e he hv
          exact ((hmem v h2 e).mp he).2.2 ⟨rfl, hv⟩
    · left
      simp [removeAresta, hi]

/-- Witness for C21: the statement on the weighted five-vertex example, read at the entries
`0 -> 1` and `1 -> 0` of weight 5. -/
theorem simetria_nao_direcionado_witness :
    exemploPonderado.direcionado = false ∧
    ((⟨1, 5⟩ : ElemLista) ∈ exemploPonderado.lista 0 ↔
      (⟨0, 5⟩ : ElemLista) ∈ exemploPonderado.lista 1) :=
  ⟨rfl, (simetria_nao_direcionado exemploPonderado alcancavelSemDir_exemploPonderado rfl).1
    0 1 5 (by decide) (by decide)⟩

/-! ## Inserting an edge and removing it again -/

/-- Inserting an absent edge into an undirected graph and removing it again gives back the
graph, and the removal reports `true`. -/
theorem removeAresta_adicionaAresta (g : Grafo) (hg : BemFormado g) (hs : Simetrico g)
    (hd : g.direcionado = false) (u v w : Int)
    (hinv : entradaInvalida g u v = false) (hm : existeNaLista v (g.lista u) = false) :
    removeAresta (adicionaAresta g u v w) u v = (true, g) := by
  obtain ⟨hu0, hv0, hu1, hv1, huv⟩ := (entradaInvalida_falso g u v).mp hinv
  have hu : Valido g u := ⟨hu0, hu1⟩
  have hv : Valido g v := ⟨hv0, hv1⟩
  have hm' : existeNaLista u (g.lista v) = false := by
    rw [← existe_simetrico g hg hs u v hu0 hv0]; exact hm
  rw [adicionaAresta_valida g u v w hinv]
  generalize (if g.ponderado then w else 1) = p
  have hi : (insereArestaAux g u v p).1 = true := by
    cases hq : (insereArestaAux g u v p).1
    · have := (insereNaLista_falso v p (g.lista u)).mp hq
      rw [hm] at this
      exact absurd this (by decide)
    · rfl
  have hb1 := bemFormado_insereArestaAux g hg u v p hinv
  have hn0 : (insereArestaAux g u v p).2.numVertices = g.numVertices := rfl
  have hinv0 : entradaInvalida (insereArestaAux g u v p).2 v u = false := by
    rw [entradaInvalida_numVertices g _ hn0]; exact entradaInvalida_troca g u v hinv
  have hb2 := bemFormado_insereArestaAux _ hb1 v u p hinv0
  have hadd : adicionaComPeso g u v p =
      ((insereArestaAux (insereArestaAux g u v p).2 v u p).2).comNumArestas
        (g.numArestas + 1) := by
    unfold adicionaComPeso
    simp [hi, hd]
  have hba := bemFormado_adicionaComPeso g hg u v p hinv
  have hn1 : (adicionaComPeso g u v p).numVertices = g.numVertices :=
    numVertices_adicionaComPeso g u v p
  have hinv1 : entradaInvalida (adicionaComPeso g u v p) u v = false := by
    rw [entradaInvalida_numVertices g _ hn1]; exact hinv
  have hl1u : (adicionaComPeso g u v p).lista u = (insereNaLista v p (g.lista u)).2 := by
    rw [hadd, lista_comNumArestas,
      lista_insereArestaAux_outro _ v u p u hv0 hu0 huv,
      lista_insereArestaAux_mesmo g hg.tamanho u v p hu]
  have hl1v : (adicionaComPeso g u v p).lista v = (insereNaLista u p (g.lista v)).2 := by
    rw [hadd, lista_comNumArestas,
      lista_insereArestaAux_mesmo _ hb1.tamanho v u p hv,
      lista_insereArestaAux_outro g u v p v hu0 hv0 (Ne.symm huv)]
  have hl1x : ∀ x, 0 ≤ x → x ≠ u → x ≠ v → (adicionaComPeso g u v p).lista x = g.lista x := by
    intro x hx hxu hxv
    rw [hadd, lista_comNumArestas,
      lista_insereArestaAux_outro _ v u p x hv0 hx hxv,
      lista_insereArestaAux_outro g u v p x hu0 hx hxu]
  have hrem1 : removeDaLista v ((adicionaComPeso g u v p).lista u) = (true, g.lista u) := by
    rw [hl1u]; exact remove_insere v p _ hm
  have hr : (removeArestaAux (adicionaComPeso g u v p) u v).1 = true := by
    show (removeDaLista v ((adicionaComPeso g u v p).lista u)).1 = true
    rw [hrem1]
  have hres : removeAresta (adicionaComPeso g u v p) u v = (true,
      ((removeArestaAux (removeArestaAux (adicionaComPeso g u v p) u v).2 v u).2).comNumArestas
        ((adicionaComPeso g u v p).numArestas - 1)) := by
    simp [removeAresta, hinv1, hr]
  rw [hres]
  congr 1
  have hbr1 := bemFormado_removeArestaAux _ hba u v hu0
  have hbr2 := bemFormado_removeArestaAux _ hbr1 v u hv0
  have hbr3 := bemFormado_comNumArestas _ hbr2 ((adicionaComPeso g u v p).numArestas - 1)
  refine grafo_ext _ g hn1 ?_ ?_ ?_ hbr3.tamanho hg.tamanho ?_
  rotate_left 3
  · intro x hx0
    have hx : Valido g x := ⟨hx0.1, by have := hx0.2; rw [show (((removeArestaAux (removeArestaAux (adicionaComPeso g u v p) u v).2 v u).2).comNumArestas ((adicionaComPeso g u v p).numArestas - 1)).numVertices = g.numVertices from hn1] at this; exact this⟩
    rw [lista_comNumArestas]
    by_cases hxv : x = v
    · subst hxv
      rw [lista_removeArestaAux_mesmo _ hbr1.tamanho x u (by
          show 0 ≤ x ∧ x < ((adicionaComPeso g u x p).numVertices : Int)
          rw [hn1]; exact hv),
        lista_removeArestaAux_outro _ u x x hu0 hv0 (Ne.symm huv), hl1v,
        remove_insere u p _ hm']
    · rw [lista_removeArestaAux_outro _ v u x hv0 hx.1 hxv]
      by_cases hxu : x = u
      · subst hxu
        rw [lista_removeArestaAux_mesmo _ hba.tamanho x v (by rw [hn1]; exact hu)]
        show (removeDaLista v ((adicionaComPeso g x v p).lista x)).2 = g.lista x
        rw [hrem1]
      · rw [lista_removeArestaAux_outro _ u v x hu0 hx.1 hxu, hl1x x hx.1 hxu hxv]
  · rw [hadd]
    show g.numArestas + 1 - 1 = g.numArestas
    omega
  · exact direcionado_adicionaComPeso g u v p
  · exact ponderado_adicionaComPeso g u v p

/-- C27: insert/remove round trip. For every undirected graph reached through
`adicionaAresta` and `removeAresta`: for all valid `u != v` with no edge between them,
`adicionaAresta(u, v, w)` followed by `removeAresta(u, v)` returns `true` and gives back the
graph itself (all adjacency lists with their order and weights, and `numArestas`); and when
the graph is weighted and stores the edge `u - v` with weight `w`, `removeAresta(u, v)`
returns `true` and a following `adicionaAresta(u, v, w)` gives back the graph itself. -/
theorem adicionaAresta_removeAresta_ida_e_volta (g : Grafo) (hg : AlcancavelSemDir g)
    (hd : g.direcionado = false) :
    (∀ u v w : Int, Valido g u → Valido g v → u ≠ v → arestaExiste g u v = false →
      removeAresta (adicionaAresta g u v w) u v = (true, g)) ∧
    (∀ u v w : Int, g.ponderado = true → Valido g u → (⟨v, w⟩ : ElemLista) ∈ g.lista u →
      (removeAresta g u v).1 = true ∧ adicionaAresta (removeAresta g u v).2 u v w = g) := by
  have hb := bemFormado_de_alcancavel g (alcancavel_de_semDir g hg)
  have hs := simetrico_de_alcancavel g hg hd
  constructor
  · intro u v w hu hv huv he
    have hinv : entradaInvalida g u v = false :=
      (entradaInvalida_falso g u v).mpr ⟨hu.1, hv.1, hu.2, hv.2, huv⟩
    have hm : existeNaLista v (g.lista u) = false := by
      simpa [arestaExiste, hinv] using he
    exact removeAresta_adicionaAresta g hb hs hd u v w hinv hm
  · intro u v w hp hu hm
    have hv : Valido g v := hb.noIntervalo u _ hm
    have huv : u ≠ v := fun h => hb.semLaco u hu.1 _ hm h.symm
    have hinv : entradaInvalida g u v = false :=
      (entradaInvalida_falso g u v).mpr ⟨hu.1, hv.1, hu.2, hv.2, huv⟩
    have hr : (removeArestaAux g u v).1 = true := by
      show (removeDaLista v (g.lista u)).1 = true
      rw [removeDaLista_resultado]
      exact existe_de_mem g hb u v w hm
    refine ⟨by simp [removeAresta, hinv, hr], ?_⟩
    exact adicionaAresta_removeAresta g hb hs hd u v w hu hm
      (fun h => by rw [hp] at h; exact absurd h (by decide))

/-- Witness for C27: on the weighted five-vertex example, the absent edge `0 - 4` inserted
with weight 9 and removed again, and the stored edge `0 - 1` of weight 5 removed and
inserted again. -/
theorem adicionaAresta_removeAresta_ida_e_volta_witness :
    exemploPonderado.direcionado = false ∧
    arestaExiste exemploPonderado 0 4 = false ∧
    (⟨1, 5⟩ : ElemLista) ∈ exemploPonderado.lista 0 ∧
    removeAresta (adicionaAresta exemploPonderado 0 4 9) 0 4 = (true, exemploPonderado) ∧
    (removeAresta exemploPonderado 0 1).1 = true ∧
    adicionaAresta (removeAresta exemploPonderado 0 1).2 0 1 5 = exemploPonderado :=
  ⟨rfl, by decide, by decide,
    (adicionaAresta_removeAresta_ida_e_volta exemploPonderado
      alcancavelSemDir_exemploPonderado rfl).1 0 4 9 ⟨by decide, by decide⟩
      ⟨by decide, by decide⟩ (by decide) (by decide),
    (adicionaAresta_removeAresta_ida_e_volta exemploPonderado
      alcancavelSemDir_exemploPonderado rfl).2 0 1 5 rfl ⟨by decide, by decide⟩
      (by decide)⟩

/-! ## Reverse-delete on a disconnected graph -/

/-- One iteration of the main loop of `algoritmoApagaReverso` on a disconnected undirected
graph: the connectivity test fails and the edge is put back. -/
theorem apagaPasso_desconexo (g : Grafo) (hg : AlcancavelSemDir g) (hd : g.direcionado = false)
    (hn : 1 ≤ g.numVertices)
    (hnc : ¬ Conexo g.numVertices (coletaArestas g).toFinset)
    (e : Aresta) (he : e ∈ coletaArestas g) :
    estaConectadoDFS (removeAresta g e.origem e.destino).2 = Except.ok false ∧
      apagaPasso g e = Except.ok g := by
  have hb := bemFormado_de_alcancavel g (alcancavel_de_semDir g hg)
  have hs := simetrico_de_alcancavel g hg hd
  have hg1 : AlcancavelSemDir (removeAresta g e.origem e.destino).2 :=
    AlcancavelSemDir.remove g _ _ hg
  have hd1 : (removeAresta g e.origem e.destino).2.direcionado = false := by
    rw [direcionado_removeAresta]; exact hd
  have hn1 : (removeAresta g e.origem e.destino).2.numVertices = g.numVertices :=
    numVertices_removeAresta g _ _
  have hb1 := bemFormado_de_alcancavel _ (alcancavel_de_semDir _ hg1)
  have hs1 := simetrico_de_alcancavel _ hg1 hd1
  obtain ⟨b, hrun, hiff⟩ := estaConectadoDFS_geral _ hb1 (by rw [hn1]; exact hn)
  rw [conexo_iff_alcanca _ hb1 hs1 (by rw [hn1]; exact hn), hn1,
    coletaArestas_removeAresta g hb e he] at hiff
  have hm := (mem_coletaArestas_iff g e).mp he
  have hbf : b = false := by
    cases b
    · rfl
    · exfalso
      apply hnc
      intro x y hx hy
      exact con_mono _ _ (Finset.erase_subset _ _) x y (hiff.mp rfl x y hx hy)
  subst hbf
  have hrest : adicionaAresta (removeAresta g e.origem e.destino).2 e.origem e.destino
      e.peso = g :=
    adicionaAresta_removeAresta g hb hs hd _ _ _ hm.1 hm.2.2
      (fun hp => pesos_um_de_alcancavel g (alcancavel_de_semDir g hg) hp _ _ hm.2.2)
  refine ⟨hrun, ?_⟩
  unfold apagaPasso
  rw [hrun]
  show (if (!false) = true then _ else _) = _
  rw [if_pos (show (!false) = true from rfl), hrest]

/-- The main loop of `algoritmoApagaReverso` on a disconnected undirected graph gives back
the graph it started from. -/
theorem apagaLaco_desconexo (g : Grafo) (hg : AlcancavelSemDir g) (hd : g.direcionado = false)
    (hn : 1 ≤ g.numVertices)
    (hnc : ¬ Conexo g.numVertices (coletaArestas g).toFinset) (R : List Aresta)
    (hmem : ∀ x ∈ R, x ∈ coletaArestas g) : apagaLaco R g = Except.ok g := by
  induction R with
  | nil => rfl
  | cons e R ih =>
    have hdef : apagaLaco (e :: R) g =
        (match apagaPasso g e with
          | Except.ok g1 => apagaLaco R g1
          | Except.error f => Except.error f) := rfl
    rw [hdef, (apagaPasso_desconexo g hg hd hn hnc e (hmem e (List.mem_cons_self e R))).2]
    exact ih (fun x hx => hmem x (List.mem_cons_of_mem e hx))

/-- C26: on a disconnected undirected graph built with `adicionaAresta` (and
`removeAresta`), that is when some vertex is not reached from vertex 0 by any walk, and for
every sorting routine that meets the contract of `std::sort`, `algoritmoApagaReverso`
removes nothing: for every edge of the graph the connectivity check after its removal
answers `false` and the iteration puts the edge back, and the routine ends with the graph
it started from (all adjacency lists with their order and weights, and `numArestas`).  When
the edges of the graph contain a cycle, the edges of the result are therefore not a spanning
forest of the graph. -/
theorem algoritmoApagaReverso_desconexo (ordenaDec : List Aresta → List Aresta)
    (hdec : OrdenaDecrescente ordenaDec) (g : Grafo) (hg : AlcancavelSemDir g)
    (hd : g.direcionado = false)
    (hdes : ∃ v, Valido g v ∧ ¬ ∃ k, Caminho g 0 v k) :
    (∀ e ∈ coletaArestas g,
      estaConectadoDFS (removeAresta g e.origem e.destino).2 = Except.ok false ∧
        apagaPasso g e = Except.ok g) ∧
    ∃ g', algoritmoApagaReverso ordenaDec g = Except.ok g' ∧ g' = g ∧
      g'.A = g.A ∧ g'.numArestas = g.numArestas ∧
      (¬ Floresta (coletaArestas g).toFinset →
        ¬ ArvoreGeradoraDe g (coletaArestas g').toFinset) := by
  have hb := bemFormado_de_alcancavel g (alcancavel_de_semDir g hg)
  have hs := simetrico_de_alcancavel g hg hd
  obtain ⟨v, hv, hnv⟩ := hdes
  have hn : 1 ≤ g.numVertices := by
    have := hv.1
    have := hv.2
    omega
  have hnc : ¬ Conexo g.numVertices (coletaArestas g).toFinset := by
    intro h
    exact hnv ((conexo_iff_alcanca g hb hs hn).mpr h v hv)
  refine ⟨fun e he => apagaPasso_desconexo g hg hd hn hnc e he, g, ?_, rfl, rfl, rfl, ?_⟩
  · exact apagaLaco_desconexo g hg hd hn hnc _
      (fun x hx => ((hdec (coletaArestas g)).1.mem_iff).mp hx)
  · intro hc ht
    exact hc ht.2.1

theorem alcancavelSemDir_exemploDesconexo : AlcancavelSemDir exemploDesconexo :=
  AlcancavelSemDir.adiciona _ _ _ _ (AlcancavelSemDir.adiciona _ _ _ _
    (AlcancavelSemDir.adiciona _ _ _ _ (AlcancavelSemDir.novo 4 false true)))

/-- Vertex 3 of the triangle example is not reached from vertex 0. -/
theorem exemploDesconexo_isolado : ¬ ∃ k, Caminho exemploDesconexo 0 3 k := by
  rintro ⟨k, hk⟩
  have h : ∀ v k, Caminho exemploDesconexo 0 v k → v ≠ 3 := by
    intro v k hc
    induction hc with
    | nulo => decide
    | passo x k e _ he ih =>
      have hb := bemFormado_de_alcancavel _ (alcancavel_de_semDir _
        alcancavelSemDir_exemploDesconexo)
      intro h3
      by_cases hx : 0 ≤ x
      · have hs := simetrico_de_alcancavel _ alcancavelSemDir_exemploDesconexo rfl
        have hm : (⟨3, e.peso⟩ : ElemLista) ∈ exemploDesconexo.lista x := by
          rw [← h3]; exact he
        have := (hs x 3 e.peso hx (by decide)).mp hm
        have hl : exemploDesconexo.lista 3 = [] := by decide
        rw [hl] at this
        simp at this
      · have hx0 : exemploDesconexo.lista x = exemploDesconexo.lista 0 := by
          unfold Grafo.lista
          have : x.toNat = 0 := by omega
          rw [this]; rfl
        rw [hx0] at he
        have hl : exemploDesconexo.lista 0 = [⟨1, 1⟩, ⟨2, 3⟩] := by decide
        rw [hl] at he
        simp only [List.mem_cons, List.mem_singleton, List.not_mem_nil, or_false] at he
        rcases he with rfl | rfl
        · simp at h3
        · simp at h3
  exact h 3 k hk rfl

/-- The edges of the triangle example are not cycle-free. -/
theorem exemploDesconexo_ciclo : ¬ Floresta (coletaArestas exemploDesconexo).toFinset := by
  intro h
  have hm : (⟨0, 2, 3⟩ : Aresta) ∈ (coletaArestas exemploDesconexo).toFinset := by decide
  apply h _ hm
  have h1 : (⟨0, 1, 1⟩ : Aresta) ∈ (coletaArestas exemploDesconexo).toFinset.erase ⟨0, 2, 3⟩ := by
    decide
  have h2 : (⟨1, 2, 2⟩ : Aresta) ∈ (coletaArestas exemploDesconexo).toFinset.erase ⟨0, 2, 3⟩ := by
    decide
  exact con_trans _ 0 1 2 (con_aresta _ ⟨0, 1, 1⟩ h1) (con_aresta _ ⟨1, 2, 2⟩ h2)

/-- Witness for C26: the triangle `0 - 1 - 2` with the isolated vertex 3 comes back
unchanged with its three edges, which contain a cycle. -/
theorem algoritmoApagaReverso_desconexo_witness :
    exemploDesconexo =
      ⟨4, 3, false, true, [[⟨1, 1⟩, ⟨2, 3⟩], [⟨0, 1⟩, ⟨2, 2⟩], [⟨0, 3⟩, ⟨1, 2⟩], []]⟩ ∧
    algoritmoApagaReverso ordenaPorPesoDec exemploDesconexo =
      Except.ok ⟨4, 3, false, true,
        [[⟨1, 1⟩, ⟨2, 3⟩], [⟨0, 1⟩, ⟨2, 2⟩], [⟨0, 3⟩, ⟨1, 2⟩], []]⟩ ∧
    coletaArestas exemploDesconexo = [⟨0, 1, 1⟩, ⟨0, 2, 3⟩, ⟨1, 2, 2⟩] ∧
    ¬ Floresta (coletaArestas exemploDesconexo).toFinset ∧
    ((∀ e ∈ coletaArestas exemploDesconexo,
      estaConectadoDFS (removeAresta exemploDesconexo e.origem e.destino).2 =
          Except.ok false ∧
        apagaPasso exemploDesconexo e = Except.ok exemploDesconexo) ∧
    ∃ g', algoritmoApagaReverso ordenaPorPesoDec exemploDesconexo = Except.ok g' ∧
      g' = exemploDesconexo ∧ g'.A = exemploDesconexo.A ∧
      g'.numArestas = exemploDesconexo.numArestas ∧
      (¬ Floresta (coletaArestas exemploDesconexo).toFinset →
        ¬ ArvoreGeradoraDe exemploDesconexo (coletaArestas g').toFinset)) :=
  ⟨by decide, rfl, by decide, exemploDesconexo_ciclo,
    algoritmoApagaReverso_desconexo ordenaPorPesoDec ordenaPorPesoDec_contrato
      exemploDesconexo alcancavelSemDir_exemploDesconexo rfl
      ⟨3, ⟨by decide, by decide⟩, exemploDesconexo_isolado⟩⟩

/-! ## Kruskal: the acceptance rule and the number of accepted edges -/

theorem guloso_snoc_inv (E F : List Aresta) (e : Aresta) (h : Guloso (E ++ [e]) F) :
    (∃ F', Guloso E F' ∧ ¬ Con F'.toFinset e.origem e.destino ∧ F = F' ++ [e]) ∨
      (Guloso E F ∧ Con F.toFinset e.origem e.destino) := by
  generalize hL : E ++ [e] = L at h
  cases h with
  | nil => simp at hL
  | aceita E' F' e' h1 h2 =>
    have := List.append_inj' hL rfl
    obtain ⟨hE, he⟩ := this
    have he' : e = e' := by simpa using he
    subst hE
    subst he'
    exact Or.inl ⟨F', h1, h2, rfl⟩
  | rejeita E' _ e' h1 h2 =>
    have := List.append_inj' hL rfl
    obtain ⟨hE, he⟩ := this
    have he' : e = e' := by simpa using he
    subst hE
    subst he'
    exact Or.inr ⟨h1, h2⟩

theorem guloso_divide (E1 E2 : List Aresta) :
    ∀ F : List Aresta, Guloso (E1 ++ E2) F →
      ∃ F1 F2, Guloso E1 F1 ∧ F = F1 ++ F2 ∧ ∀ x ∈ F2, x ∈ E2 := by
  induction E2 using List.reverseRecOn with
  | nil =>
    intro F h
    rw [List.append_nil] at h
    exact ⟨F, [], h, by simp, by simp⟩
  | append_singleton E2 e ih =>
    intro F h
    rw [← List.append_assoc] at h
    rcases guloso_snoc_inv _ _ _ h with ⟨F', h1, _, hF⟩ | ⟨h1, _⟩
    · obtain ⟨F1, F2, hg, hF', hsub⟩ := ih F' h1
      refine ⟨F1, F2 ++ [e], hg, by rw [hF, hF', List.append_assoc], ?_⟩
      intro x hx
      rcases List.mem_append.mp hx with hx | hx
      · exact List.mem_append.mpr (Or.inl (hsub x hx))
      · exact List.mem_append.mpr (Or.inr hx)
    · obtain ⟨F1, F2, hg, hF', hsub⟩ := ih F h1
      exact ⟨F1, F2, hg, hF', fun x hx => List.mem_append.mpr (Or.inl (hsub x hx))⟩

/-- In a greedy run over a list without repetition, an edge is accepted exactly when the
accepted edges that come before it in the list do not connect its endpoints. -/
theorem guloso_antes (pre post F : List Aresta) (e : Aresta)
    (h : Guloso (pre ++ e :: post) F) (hnd : (pre ++ e :: post).Nodup) :
    e ∈ F ↔ ¬ Con (F.toFinset.filter (fun x => x ∈ pre)) e.origem e.destino := by
  obtain ⟨hndpre, hndpost, hdisj⟩ := List.nodup_append.mp hnd
  have hepre : e ∉ pre := fun hx => hdisj hx (List.mem_cons_self e post)
  have hepost : e ∉ post := (List.nodup_cons.mp hndpost).1
  have hprepost : ∀ x ∈ pre, x ∉ post := fun x hx hp => hdisj hx (List.mem_cons_of_mem e hp)
  have hsplit : pre ++ e :: post = (pre ++ [e]) ++ post := by simp
  rw [hsplit] at h
  obtain ⟨F1, F2, hg1, hF, hsub2⟩ := guloso_divide _ _ F h
  rcases guloso_snoc_inv _ _ _ hg1 with ⟨A, hA, hnc, hF1⟩ | ⟨hA, hc⟩
  · have hset : F.toFinset.filter (fun x => x ∈ pre) = A.toFinset := by
      ext x
      simp only [Finset.mem_filter, List.mem_toFinset]
      constructor
      · rintro ⟨hxF, hxp⟩
        rw [hF, hF1] at hxF
        rcases List.mem_append.mp hxF with hx | hx
        · rcases List.mem_append.mp hx with hx | hx
          · exact hx
          · have : x = e := by simpa using hx
            exact absurd (this ▸ hxp) hepre
        · exact absurd (hsub2 x hx) (hprepost x hxp)
      · intro hx
        refine ⟨?_, guloso_sub _ _ hA x hx⟩
        rw [hF, hF1]
        exact List.mem_append.mpr (Or.inl (List.mem_append.mpr (Or.inl hx)))
    rw [hset]
    constructor
    · intro _; exact hnc
    · intro _
      rw [hF, hF1]
      exact List.mem_append.mpr (Or.inl (List.mem_append.mpr (Or.inr (List.mem_singleton_self e))))
  · have hset : F.toFinset.filter (fun x => x ∈ pre) = F1.toFinset := by
      ext x
      simp only [Finset.mem_filter, List.mem_toFinset]
      constructor
      · rintro ⟨hxF, hxp⟩
        rw [hF] at hxF
        rcases List.mem_append.mp hxF with hx | hx
        · exact hx
        · exact absurd (hsub2 x hx) (hprepost x hxp)
      · intro hx
        refine ⟨?_, guloso_sub _ _ hA x hx⟩
        rw [hF]
        exact List.mem_append.mpr (Or.inl hx)
    rw [hset]
    constructor
    · intro he
      exfalso
      rw [hF] at he
      rcases List.mem_append.mp he with hx | hx
      · exact hepre (guloso_sub _ _ hA e hx)
      · exact hepost (hsub2 e hx)
    · intro hn
      exact absurd hc hn

/-- C22: for every undirected graph built with `adicionaAresta` (and `removeAresta`) and
every sorting routine that meets the contract of `std::sort`, `algoritmoKruskal` returns,
and an edge of the sorted sequence is accepted exactly when its endpoints are not connected
by the accepted edges that precede it in that sequence.  The accepted edges are pairwise
distinct and acyclic, they connect exactly the pairs of vertices joined by a walk in the
graph, and their number plus the number of connected components (the size of any set that
holds one vertex of each component) is `numVertices`: `numVertices - 1` edges when every
vertex is reached from vertex 0, fewer when some vertex is not. -/
theorem algoritmoKruskal_aceita (ordena : List Aresta → List Aresta)
    (hord : OrdenaCrescente ordena) (g : Grafo) (hg : AlcancavelSemDir g)
    (hd : g.direcionado = false) :
    ∃ (mst : List Aresta) (custoTotal : Int),
      algoritmoKruskal ordena g = some (mst, custoTotal) ∧
      Guloso (ordena (coletaArestas g)) mst ∧
      (∀ (pre post : List Aresta) (e : Aresta),
        ordena (coletaArestas g) = pre ++ e :: post →
        (e ∈ mst ↔ ¬ Con (mst.toFinset.filter (fun x => x ∈ pre)) e.origem e.destino)) ∧
      mst.Nodup ∧ Floresta mst.toFinset ∧
      (∀ a b : Int, Valido g a → (Con mst.toFinset a b ↔ ∃ k, Caminho g a b k)) ∧
      (∀ R : Finset Int, (∀ r ∈ R, Valido g r) →
        (∀ x, Valido g x → ∃ r ∈ R, ∃ k, Caminho g x r k) →
        (∀ r ∈ R, ∀ r' ∈ R, (∃ k, Caminho g r r' k) → r = r') →
        mst.length + R.card = g.numVertices) ∧
      (∃ R : Finset Int, (∀ r ∈ R, Valido g r) ∧
        (∀ x, Valido g x → ∃ r ∈ R, ∃ k, Caminho g x r k) ∧
        (∀ r ∈ R, ∀ r' ∈ R, (∃ k, Caminho g r r' k) → r = r')) ∧
      (1 ≤ g.numVertices → (∀ v, Valido g v → ∃ k, Caminho g 0 v k) →
        mst.length + 1 = g.numVertices) ∧
      ((∃ v, Valido g v ∧ ¬ ∃ k, Caminho g 0 v k) → mst.length + 1 < g.numVertices) := by
  have hb := bemFormado_de_alcancavel g (alcancavel_de_semDir g hg)
  have hs := simetrico_de_alcancavel g hg hd
  obtain ⟨mst, custoTotal, hrun, hgul, hnd, _, hfg, _⟩ := kruskal_geral ordena hord g hb
  have hndE : (ordena (coletaArestas g)).Nodup :=
    (hord (coletaArestas g)).1.nodup_iff.mpr (coletaArestas_nodup g hb)
  have hcon : ∀ a b : Int, Valido g a → (Con mst.toFinset a b ↔ ∃ k, Caminho g a b k) := by
    intro a b ha
    constructor
    · intro h
      exact (caminho_de_con g hb hs a b (con_mono _ _ hfg.1 a b h)).2.1 ha
    · rintro ⟨k, hk⟩
      exact hfg.2.2 a b (con_de_caminho g hb hs a b k ha hk)
  have hval : ∀ e ∈ mst.toFinset, (0 ≤ e.origem ∧ e.origem < (g.numVertices : Int)) ∧
      (0 ≤ e.destino ∧ e.destino < (g.numVertices : Int)) := by
    intro e he
    have := coletaArestas_valida g hb e (List.mem_toFinset.mp (hfg.1 he))
    exact ⟨this.1, this.2⟩
  have hcard : mst.toFinset.card = mst.length := List.toFinset_card_of_nodup hnd
  -- any two systems of representatives have the same size
  obtain ⟨R0, hR0v, hR0c, hR0u, hR0n⟩ := floresta_representantes g.numVertices mst.toFinset
    hfg.2.1 hval
  have hR0 : (∀ r ∈ R0, Valido g r) ∧
      (∀ x, Valido g x → ∃ r ∈ R0, ∃ k, Caminho g x r k) ∧
      (∀ r ∈ R0, ∀ r' ∈ R0, (∃ k, Caminho g r r' k) → r = r') := by
    refine ⟨hR0v, ?_, ?_⟩
    · intro x hx
      obtain ⟨r, hr, hc⟩ := hR0c x hx
      exact ⟨r, hr, (hcon x r hx).mp hc⟩
    · intro r hr r' hr' hk
      exact hR0u r hr r' hr' ((hcon r r' (hR0v r hr)).mpr hk)
  have hunico : ∀ R : Finset Int, (∀ r ∈ R, Valido g r) →
      (∀ x, Valido g x → ∃ r ∈ R, ∃ k, Caminho g x r k) →
      (∀ r ∈ R, ∀ r' ∈ R, (∃ k, Caminho g r r' k) → r = r') →
      R.card = R0.card := by
    intro R hRv hRc hRu
    have hsim : ∀ a b, Valido g a → (∃ k, Caminho g a b k) → Valido g b ∧ ∃ k, Caminho g b a k := by
      intro a b ha hk
      obtain ⟨k, hk⟩ := hk
      have hc := con_de_caminho g hb hs a b k ha hk
      have h3 := caminho_de_con g hb hs a b hc
      exact ⟨h3.1.mp ha, h3.2.2 (h3.1.mp ha)⟩
    have htr : ∀ a b c, (∃ k, Caminho g a b k) → (∃ k, Caminho g b c k) →
        ∃ k, Caminho g a c k := by
      rintro a b c ⟨k1, h1⟩ ⟨k2, h2⟩
      exact ⟨k1 + k2, caminho_trans g a b c k1 k2 h1 h2⟩
    apply Finset.card_bij (fun r hr => Classical.choose (hR0.2.1 r (hRv r hr)))
    · intro r hr
      exact (Classical.choose_spec (hR0.2.1 r (hRv r hr))).1
    · intro r1 h1 r2 h2 heq
      have c1 := (Classical.choose_spec (hR0.2.1 r1 (hRv r1 h1))).2
      have c2 := (Classical.choose_spec (hR0.2.1 r2 (hRv r2 h2))).2
      rw [heq] at c1
      have c2' := (hsim r2 _ (hRv r2 h2) c2).2
      exact hRu r1 h1 r2 h2 (htr _ _ _ c1 c2')
    · intro r0 hr0
      obtain ⟨r, hr, hk⟩ := hRc r0 (hR0.1 r0 hr0)
      refine ⟨r, hr, ?_⟩
      have c1 := Classical.choose_spec (hR0.2.1 r (hRv r hr))
      have hk' := (hsim r0 r (hR0.1 r0 hr0) hk).2
      exact (hR0.2.2 r0 hr0 _ c1.1 (htr _ _ _ hk c1.2)).symm
  refine ⟨mst, custoTotal, hrun, hgul, ?_, hnd, hfg.2.1, hcon, ?_, ⟨R0, hR0⟩, ?_, ?_⟩
  · intro pre post e hE
    exact guloso_antes pre post mst e (hE ▸ hgul) (hE ▸ hndE)
  · intro R hRv hRc hRu
    rw [hunico R hRv hRc hRu, ← hcard]
    exact hR0n
  · intro hn hall
    rw [← hcard]
    apply arvore_contagem g.numVertices hn mst.toFinset hfg.2.1 hval
    intro a b ha hb'
    have h0 : Valido g 0 := ⟨le_refl 0, by omega⟩
    have ha0 := (hcon 0 a h0).mpr (hall a ha)
    have hb0 := (hcon 0 b h0).mpr (hall b hb')
    exact con_trans _ _ _ _ (con_symm _ _ _ ha0) hb0
  · rintro ⟨v, hv, hnv⟩
    have h0 : Valido g 0 := ⟨le_refl 0, by have := hv.1; have := hv.2; omega⟩
    obtain ⟨r0, hr0, hc0⟩ := hR0c 0 h0
    obtain ⟨rv, hrv, hcv⟩ := hR0c v hv
    have hne : r0 ≠ rv := by
      intro h
      apply hnv
      apply (hcon 0 v h0).mp
      rw [← h] at hcv
      exact con_trans _ _ _ _ hc0 (con_symm _ _ _ hcv)
    have h2 : 1 < R0.card := Finset.one_lt_card.mpr ⟨r0, hr0, rv, hrv, hne⟩
    rw [← hcard]
    omega

/-- Witness for C22: on the triangle `0 - 1 - 2` with the isolated vertex 3 the routine
accepts `(0,1,1)` and `(1,2,2)` and rejects `(0,2,3)`: two edges for four vertices in two
components. -/
theorem algoritmoKruskal_aceita_witness :
    algoritmoKruskal ordenaPorPeso exemploDesconexo = some ([⟨0, 1, 1⟩, ⟨1, 2, 2⟩], 3) ∧
    ordenaPorPeso (coletaArestas exemploDesconexo) = [⟨0, 1, 1⟩, ⟨1, 2, 2⟩, ⟨0, 2, 3⟩] ∧
    ∃ (mst : List Aresta) (custoTotal : Int),
      algoritmoKruskal ordenaPorPeso exemploDesconexo = some (mst, custoTotal) ∧
      Guloso (ordenaPorPeso (coletaArestas exemploDesconexo)) mst ∧
      (∀ (pre post : List Aresta) (e : Aresta),
        ordenaPorPeso (coletaArestas exemploDesconexo) = pre ++ e :: post →
        (e ∈ mst ↔ ¬ Con (mst.toFinset.filter (fun x => x ∈ pre)) e.origem e.destino)) ∧
      mst.Nodup ∧ Floresta mst.toFinset ∧
      (∀ a b : Int, Valido exemploDesconexo a →
        (Con mst.toFinset a b ↔ ∃ k, Caminho exemploDesconexo a b k)) ∧
      (∀ R : Finset Int, (∀ r ∈ R, Valido exemploDesconexo r) →
        (∀ x, Valido exemploDesconexo x → ∃ r ∈ R, ∃ k, Caminho exemploDesconexo x r k) →
        (∀ r ∈ R, ∀ r' ∈ R, (∃ k, Caminho exemploDesconexo r r' k) → r = r') →
        mst.length + R.card = exemploDesconexo.numVertices) ∧
      (∃ R : Finset Int, (∀ r ∈ R, Valido exemploDesconexo r) ∧
        (∀ x, Valido exemploDesconexo x → ∃ r ∈ R, ∃ k, Caminho exemploDesconexo x r k) ∧
        (∀ r ∈ R, ∀ r' ∈ R, (∃ k, Caminho exemploDesconexo r r' k) → r = r')) ∧
      (1 ≤ exemploDesconexo.numVertices →
        (∀ v, Valido exemploDesconexo v → ∃ k, Caminho exemploDesconexo 0 v k) →
        mst.length + 1 = exemploDesconexo.numVertices) ∧
      ((∃ v, Valido exemploDesconexo v ∧ ¬ ∃ k, Caminho exemploDesconexo 0 v k) →
        mst.length + 1 < exemploDesconexo.numVertices) :=
  ⟨by decide, by decide, algoritmoKruskal_aceita ordenaPorPeso ordenaPorPeso_contrato
    exemploDesconexo alcancavelSemDir_exemploDesconexo rfl⟩

/-! ## BFS on connected undirected graphs -/

theorem numVertices_grafoCaminho (n k : Nat) : (grafoCaminho n k).numVertices = n := by
  induction k with
  | zero => rfl
  | succ k ih => rw [grafoCaminho, numVertices_adicionaAresta, ih]

theorem direcionado_grafoCaminho (n k : Nat) : (grafoCaminho n k).direcionado = false := by
  induction k with
  | zero => rfl
  | succ k ih => rw [grafoCaminho, direcionado_adicionaAresta, ih]

theorem ponderado_grafoCaminho (n k : Nat) : (grafoCaminho n k).ponderado = false := by
  induction k with
  | zero => rfl
  | succ k ih => rw [grafoCaminho, ponderado_adicionaAresta, ih]

theorem alcancavel_grafoCaminho (n k : Nat) : AlcancavelSemDir (grafoCaminho n k) := by
  induction k with
  | zero => exact AlcancavelSemDir.novo n false false
  | succ k ih => exact AlcancavelSemDir.adiciona _ _ _ _ ih

/-- The adjacency entries of the undirected path: the successor and the predecessor. -/
theorem mem_lista_grafoCaminho (n k : Nat) (hk : k < n) :
    ∀ (x : Int) (e : ElemLista), 0 ≤ x → (e ∈ (grafoCaminho n k).lista x ↔
      (x < (k : Int) ∧ e = ⟨x + 1, 1⟩) ∨ (1 ≤ x ∧ x ≤ (k : Int) ∧ e = ⟨x - 1, 1⟩)) := by
  induction k with
  | zero =>
    intro x e hx
    rw [grafoCaminho, lista_novo]
    constructor
    · intro h; simp at h
    · rintro (⟨h, _⟩ | ⟨h1, h2, _⟩)
      · simp at h; omega
      · simp at h2; omega
  | succ k ih =>
    intro x e hx
    have ih := ih (by omega)
    have hal := alcancavel_grafoCaminho n k
    have hb := bemFormado_de_alcancavel _ (alcancavel_de_semDir _ hal)
    have hd := direcionado_grafoCaminho n k
    have hs := simetrico_de_alcancavel _ hal hd
    have hnv := numVertices_grafoCaminho n k
    have hinv : entradaInvalida (grafoCaminho n k) (k : Int) ((k : Int) + 1) = false := by
      rw [entradaInvalida_falso, hnv]
      refine ⟨by omega, by omega, by omega, by omega, by omega⟩
    have hex : existeNaLista ((k : Int) + 1) ((grafoCaminho n k).lista (k : Int)) = false := by
      cases hq : existeNaLista ((k : Int) + 1) ((grafoCaminho n k).lista (k : Int))
      · rfl
      · exfalso
        obtain ⟨w, hw⟩ := mem_de_existe _ hb _ _ hq
        rcases (ih (k : Int) _ (by omega)).mp hw with ⟨h, _⟩ | ⟨_, _, h⟩
        · omega
        · simp only [ElemLista.mk.injEq] at h
          omega
    have hin : (insereArestaAux (grafoCaminho n k) (k : Int) ((k : Int) + 1) 1).1 = true := by
      cases hq : (insereArestaAux (grafoCaminho n k) (k : Int) ((k : Int) + 1) 1).1
      · have := (insereNaLista_falso ((k : Int) + 1) 1 ((grafoCaminho n k).lista (k : Int))).mp hq
        rw [hex] at this
        exact absurd this (by decide)
      · rfl
    have hg' : grafoCaminho n (k + 1) =
        adicionaComPeso (grafoCaminho n k) (k : Int) ((k : Int) + 1) 1 := by
      rw [grafoCaminho, adicionaAresta_valida _ _ _ _ hinv]
      simp
    rw [hg', mem_lista_adicionaComPeso _ hb hs _ _ _ hinv hd hin x hx e, ih x e hx]
    push_cast
    constructor
    · rintro ((⟨h, he⟩ | ⟨h1, h2, he⟩) | ⟨h, he⟩ | ⟨h, he⟩)
      · exact Or.inl ⟨by omega, he⟩
      · exact Or.inr ⟨h1, by omega, he⟩
      · exact Or.inl ⟨by omega, by rw [he, h]⟩
      · refine Or.inr ⟨by omega, by omega, ?_⟩
        rw [he, h]
        simp
    · rintro (⟨h, he⟩ | ⟨h1, h2, he⟩)
      · by_cases hxk : x = (k : Int)
        · exact Or.inr (Or.inl ⟨hxk, by rw [he, hxk]⟩)
        · exact Or.inl (Or.inl ⟨by omega, he⟩)
      · by_cases hxk : x = (k : Int) + 1
        · refine Or.inr (Or.inr ⟨hxk, ?_⟩)
          rw [he, hxk]
          simp
        · exact Or.inl (Or.inr ⟨h1, by omega, he⟩)

theorem caminho_grafoCaminho (n k : Nat) (hk : k < n) (x : Int) (j : Nat)
    (h : Caminho (grafoCaminho n k) 0 x j) : 0 ≤ x ∧ x ≤ (j : Int) := by
  induction h with
  | nulo => simp
  | passo v j e _ he ih =>
    rcases (mem_lista_grafoCaminho n k hk v e ih.1).mp he with ⟨_, h⟩ | ⟨_, _, h⟩
    · rw [h]
      push_cast
      constructor <;> omega
    · rw [h]
      push_cast
      constructor <;> omega

theorem caminho_grafoCaminho_existe (n k : Nat) (hk : k < n) (j : Nat) (hj : j ≤ k) :
    Caminho (grafoCaminho n k) 0 (j : Int) j := by
  induction j with
  | zero => exact Caminho.nulo
  | succ j ih =>
    have h := ih (by omega)
    have he : (⟨(j : Int) + 1, 1⟩ : ElemLista) ∈ (grafoCaminho n k).lista (j : Int) :=
      (mem_lista_grafoCaminho n k hk (j : Int) _ (by omega)).mpr (Or.inl ⟨by omega, rfl⟩)
    exact Caminho.passo (j : Int) j ⟨(j : Int) + 1, 1⟩ h he

/-- C23 counterexample: the undirected unweighted path `0 - 1 - ... - 999999` (one million
vertices, built with `adicionaAresta`) is connected, and `algoritmoBFS(0)` stores 999999 for
vertex 999999: the distance of that vertex is the value of the marker. -/
theorem algoritmoBFS_conexo_contraexemplo :
    AlcancavelSemDir (grafoCaminho 1000000 999999) ∧
    (grafoCaminho 1000000 999999).direcionado = false ∧
    (grafoCaminho 1000000 999999).ponderado = false ∧
    (∀ v, Valido (grafoCaminho 1000000 999999) v →
      ∃ k, Caminho (grafoCaminho 1000000 999999) 0 v k) ∧
    Valido (grafoCaminho 1000000 999999) 0 ∧ Valido (grafoCaminho 1000000 999999) 999999 ∧
    ∃ dist, algoritmoBFS (grafoCaminho 1000000 999999) 0 = Except.ok dist ∧
      dist.getD 999999 0 = 999999 := by
  have hk : 999999 < 1000000 := by norm_num
  have hal := alcancavel_grafoCaminho 1000000 999999
  have hc := caminho_grafoCaminho_existe 1000000 999999 hk 999999 (le_refl _)
  have hnv := numVertices_grafoCaminho 1000000 999999
  have hs : Valido (grafoCaminho 1000000 999999) 0 := by
    unfold Valido; rw [hnv]; norm_num
  have hv : Valido (grafoCaminho 1000000 999999) ((999999 : Nat) : Int) := by
    unfold Valido; rw [hnv]; norm_num
  obtain ⟨dist, hrun, _, hall⟩ := bfs_geral (grafoCaminho 1000000 999999) 0
    (bemFormado_de_alcancavel _ (alcancavel_de_semDir _ hal)) hs
  obtain ⟨h1, _⟩ := hall _ hv
  obtain ⟨h0, hle, _, hcam⟩ := h1 _ hc
  have := caminho_grafoCaminho 1000000 999999 hk _ _ hcam
  refine ⟨hal, direcionado_grafoCaminho _ _, ponderado_grafoCaminho _ _, ?_, hs,
    by exact_mod_cast hv, dist, hrun, ?_⟩
  · intro v hvv
    have hv2 := hvv.2
    rw [hnv] at hv2
    have := caminho_grafoCaminho_existe 1000000 999999 hk v.toNat (by have := hvv.1; omega)
    rw [Int.toNat_of_nonneg hvv.1] at this
    exact ⟨_, this⟩
  · have htn : (((999999 : Nat) : Int)).toNat = 999999 := Int.toNat_ofNat 999999
    rw [htn] at this h0 hle
    have h2 := this.2
    rw [Int.toNat_of_nonneg h0] at h2
    push_cast at h2 hle
    omega

/-- C23 (amended): for every undirected graph built with `adicionaAresta` (and
`removeAresta`) that is connected (every vertex is reached from vertex 0) and every valid
source `s`, `algoritmoBFS(s)` returns an array with one entry per vertex in which `s` has
distance 0, every vertex has a distance in `[0, numVertices)`, and the distances of the two
ends of every stored edge differ by at most 1; when `numVertices <= 999999` no vertex
carries the value 999999. -/
theorem algoritmoBFS_conexo (g : Grafo) (s : Int) (hg : AlcancavelSemDir g)
    (hd : g.direcionado = false) (hcon : ∀ v, Valido g v → ∃ k, Caminho g 0 v k)
    (hs : Valido g s) :
    ∃ dist, algoritmoBFS g s = Except.ok dist ∧ dist.length = g.numVertices ∧
      dist.getD s.toNat 0 = 0 ∧
      (∀ v, Valido g v → 0 ≤ dist.getD v.toNat 0 ∧ dist.getD v.toNat 0 < (g.numVertices : Int)) ∧
      (∀ u, Valido g u → ∀ e ∈ g.lista u,
        dist.getD e.vertice.toNat 0 ≤ dist.getD u.toNat 0 + 1 ∧
        dist.getD u.toNat 0 ≤ dist.getD e.vertice.toNat 0 + 1) ∧
      (g.numVertices ≤ 999999 → ∀ v, Valido g v → dist.getD v.toNat 0 ≠ 999999) := by
  have hb := bemFormado_de_alcancavel g (alcancavel_de_semDir g hg)
  have hsim := simetrico_de_alcancavel g hg hd
  have h0 : Valido g 0 := ⟨le_refl 0, by have := hs.1; have := hs.2; omega⟩
  -- every vertex is reached from the source
  have hreach : ∀ v, Valido g v → ∃ k, Caminho g s v k := by
    intro v hv
    obtain ⟨k1, hk1⟩ := hcon s hs
    obtain ⟨k2, hk2⟩ := hcon v hv
    have hc := con_de_caminho g hb hsim 0 s k1 h0 hk1
    obtain ⟨k3, hk3⟩ := (caminho_de_con g hb hsim 0 s hc).2.2 hs
    exact ⟨k3 + k2, caminho_trans g s 0 v k3 k2 hk3 hk2⟩
  obtain ⟨dist, hrun, hlen, hall⟩ := bfs_geral g s hb hs
  have hdv : ∀ v, Valido g v → 0 ≤ dist.getD v.toNat 0 ∧
      dist.getD v.toNat 0 < (g.numVertices : Int) ∧
      Caminho g s v (dist.getD v.toNat 0).toNat ∧
      ∀ k, Caminho g s v k → dist.getD v.toNat 0 ≤ (k : Int) := by
    intro v hv
    obtain ⟨k, hk⟩ := hreach v hv
    obtain ⟨h1, _, h3, h4⟩ := (hall v hv).1 k hk
    exact ⟨h1, h3, h4, fun k' hk' => ((hall v hv).1 k' hk').2.1⟩
  refine ⟨dist, hrun, hlen, ?_, fun v hv => ⟨(hdv v hv).1, (hdv v hv).2.1⟩, ?_, ?_⟩
  · have h1 := (hdv s hs).1
    have h2 := (hdv s hs).2.2.2 0 Caminho.nulo
    push_cast at h2
    omega
  · intro u hu e he
    have hv : Valido g e.vertice := hb.noIntervalo u e he
    have he' : (⟨u, e.peso⟩ : ElemLista) ∈ g.lista e.vertice :=
      (hsim u e.vertice e.peso hu.1 hv.1).mp he
    constructor
    · have hw := Caminho.passo u _ e (hdv u hu).2.2.1 he
      have := (hdv e.vertice hv).2.2.2 _ hw
      have h1 := (hdv u hu).1
      push_cast at this
      rw [Int.toNat_of_nonneg h1] at this
      exact this
    · have hw := Caminho.passo e.vertice _ ⟨u, e.peso⟩ (hdv e.vertice hv).2.2.1 he'
      have := (hdv u hu).2.2.2 _ hw
      have h1 := (hdv e.vertice hv).1
      push_cast at this
      rw [Int.toNat_of_nonneg h1] at this
      exact this
  · intro hn v hv
    have := (hdv v hv).2.1
    omega

theorem alcancavelSemDir_exemploNaoPonderado : AlcancavelSemDir exemploNaoPonderado :=
  AlcancavelSemDir.adiciona _ _ _ _ (AlcancavelSemDir.adiciona _ _ _ _
    (AlcancavelSemDir.adiciona _ _ _ _ (AlcancavelSemDir.adiciona _ _ _ _
      (AlcancavelSemDir.adiciona _ _ _ _ (AlcancavelSemDir.novo 5 false false)))))

theorem alcanca_exemploNaoPonderado :
    ∀ v, Valido exemploNaoPonderado v → ∃ k, Caminho exemploNaoPonderado 0 v k := by
  obtain ⟨b, hrun, hiff⟩ := estaConectadoDFS_geral exemploNaoPonderado
    (bemFormado_de_alcancavel _ (alcancavel_de_semDir _ alcancavelSemDir_exemploNaoPonderado))
    (by decide)
  have h : estaConectadoDFS exemploNaoPonderado = Except.ok true := rfl
  rw [h] at hrun
  injection hrun with hb
  exact hiff.mp hb.symm

/-- Witness for C23: the statement on the unweighted five-vertex example from source 0,
where the distances are `0, 1, 1, 2, 3`. -/
theorem algoritmoBFS_conexo_witness :
    algoritmoBFS exemploNaoPonderado 0 = Except.ok [0, 1, 1, 2, 3] ∧
    ∃ dist, algoritmoBFS exemploNaoPonderado 0 = Except.ok dist ∧
      dist.length = exemploNaoPonderado.numVertices ∧
      dist.getD (0 : Int).toNat 0 = 0 ∧
      (∀ v, Valido exemploNaoPonderado v → 0 ≤ dist.getD v.toNat 0 ∧
        dist.getD v.toNat 0 < (exemploNaoPonderado.numVertices : Int)) ∧
      (∀ u, Valido exemploNaoPonderado u → ∀ e ∈ exemploNaoPonderado.lista u,
        dist.getD e.vertice.toNat 0 ≤ dist.getD u.toNat 0 + 1 ∧
        dist.getD u.toNat 0 ≤ dist.getD e.vertice.toNat 0 + 1) ∧
      (exemploNaoPonderado.numVertices ≤ 999999 →
        ∀ v, Valido exemploNaoPonderado v → dist.getD v.toNat 0 ≠ 999999) :=
  ⟨rfl, algoritmoBFS_conexo exemploNaoPonderado 0 alcancavelSemDir_exemploNaoPonderado
    rfl alcanca_exemploNaoPonderado ⟨by decide, by decide⟩⟩

/-! ## Reachable union-find states -/

theorem unidos_symm (ps : List (Int × Int)) (a b : Int) (h : Unidos ps a b) : Unidos ps b a :=
  Relation.EqvGen.symm _ _ h

theorem unidos_trans (ps : List (Int × Int)) (a b c : Int) (h1 : Unidos ps a b)
    (h2 : Unidos ps b c) : Unidos ps a c :=
  Relation.EqvGen.trans _ _ _ h1 h2

theorem unidos_mono (ps : List (Int × Int)) (q : Int × Int) (a b : Int) (h : Unidos ps a b) :
    Unidos (q :: ps) a b := by
  induction h with
  | rel x y hxy => exact Relation.EqvGen.rel _ _ (List.mem_cons_of_mem q hxy)
  | refl x => exact Relation.EqvGen.refl x
  | symm x y _ ih => exact Relation.EqvGen.symm _ _ ih
  | trans x y z _ _ ih1 ih2 => exact Relation.EqvGen.trans _ _ _ ih1 ih2

/-- One more pair relates two elements only through that pair. -/
theorem unidos_cons (ps : List (Int × Int)) (x y a b : Int) :
    Unidos ((x, y) :: ps) a b ↔
      Unidos ps a b ∨ (Unidos ps a x ∧ Unidos ps y b) ∨ (Unidos ps a y ∧ Unidos ps x b) := by
  constructor
  · intro h
    induction h with
    | rel u v huv =>
      rcases List.mem_cons.mp huv with h | h
      · simp only [Prod.mk.injEq] at h
        right; left
        rw [h.1, h.2]
        exact ⟨Relation.EqvGen.refl _, Relation.EqvGen.refl _⟩
      · exact Or.inl (Relation.EqvGen.rel _ _ h)
    | refl u => exact Or.inl (Relation.EqvGen.refl u)
    | symm u v _ ih =>
      rcases ih with h | ⟨h1, h2⟩ | ⟨h1, h2⟩
      · exact Or.inl (unidos_symm ps _ _ h)
      · exact Or.inr (Or.inr ⟨unidos_symm ps _ _ h2, unidos_symm ps _ _ h1⟩)
      · exact Or.inr (Or.inl ⟨unidos_symm ps _ _ h2, unidos_symm ps _ _ h1⟩)
    | trans u v w _ _ ih1 ih2 =>
      rcases ih1 with h | ⟨h1, h2⟩ | ⟨h1, h2⟩
      · rcases ih2 with k | ⟨k1, k2⟩ | ⟨k1, k2⟩
        · exact Or.inl (unidos_trans ps _ _ _ h k)
        · exact Or.inr (Or.inl ⟨unidos_trans ps _ _ _ h k1, k2⟩)
        · exact Or.inr (Or.inr ⟨unidos_trans ps _ _ _ h k1, k2⟩)
      · rcases ih2 with k | ⟨k1, k2⟩ | ⟨k1, k2⟩
        · exact Or.inr (Or.inl ⟨h1, unidos_trans ps _ _ _ h2 k⟩)
        · exact Or.inr (Or.inl ⟨h1, k2⟩)
        · exact Or.inl (unidos_trans ps _ _ _ h1 k2)
      · rcases ih2 with k | ⟨k1, k2⟩ | ⟨k1, k2⟩
        · exact Or.inr (Or.inr ⟨h1, unidos_trans ps _ _ _ h2 k⟩)
        · exact Or.inl (unidos_trans ps _ _ _ h1 k2)
        · exact Or.inr (Or.inr ⟨h1, k2⟩)
  · have hxy : Unidos ((x, y) :: ps) x y :=
      Relation.EqvGen.rel _ _ (List.mem_cons_self _ _)
    rintro (h | ⟨h1, h2⟩ | ⟨h1, h2⟩)
    · exact unidos_mono ps _ a b h
    · exact unidos_trans _ _ _ _ (unidos_mono ps _ _ _ h1)
        (unidos_trans _ _ _ _ hxy (unidos_mono ps _ _ _ h2))
    · exact unidos_trans _ _ _ _ (unidos_mono ps _ _ _ h1)
        (unidos_trans _ _ _ _ (unidos_symm _ _ _ hxy) (unidos_mono ps _ _ _ h2))

theorem unidos_nil (a b : Int) : Unidos [] a b ↔ a = b := by
  constructor
  · intro h
    induction h with
    | rel x y hxy => simp at hxy
    | refl x => rfl
    | symm x y _ ih => exact ih.symm
    | trans x y z _ _ ih1 ih2 => exact ih1.trans ih2
  · rintro rfl
    exact Relation.EqvGen.refl a

theorem mesma_symm (ds : DisjointSet) (a b : Int) (h : Mesma ds a b) : Mesma ds b a := by
  obtain ⟨r, h1, h2⟩ := h
  exact ⟨r, h2, h1⟩

/-- Every reachable union-find state meets the structural invariant, and two elements have
the same root exactly when the pairs passed to `unir` relate them. -/
theorem dsAlcancavel_inv (n : Nat) (ds : DisjointSet) (ps : List (Int × Int))
    (h : DSAlcancavel n ds ps) :
    DSInv n ds ∧ ∀ a b : Int, 0 ≤ a ∧ a < (n : Int) → 0 ≤ b ∧ b < (n : Int) →
      (Mesma ds a b ↔ Unidos ps a b) := by
  induction h with
  | novo =>
    refine ⟨dsInv_novo n, ?_⟩
    intro a b ha hb
    rw [mesma_novo n a b ha hb, unidos_nil]
  | find ds ds' ps x r _ hx hrun ih =>
    obtain ⟨ds1, r1, hrun1, _, hinv1, _, hraiz⟩ := find_n n ds x ih.1 hx
    rw [hrun] at hrun1
    simp only [Option.some.injEq, Prod.mk.injEq] at hrun1
    obtain ⟨hds, _⟩ := hrun1
    subst hds
    refine ⟨hinv1, ?_⟩
    intro a b ha hb
    rw [← ih.2 a b ha hb]
    constructor
    · rintro ⟨q, h1, h2⟩
      exact ⟨q, (hraiz a ha q).mp h1, (hraiz b hb q).mp h2⟩
    · rintro ⟨q, h1, h2⟩
      exact ⟨q, (hraiz a ha q).mpr h1, (hraiz b hb q).mpr h2⟩
  | unir ds ds' ps x y _ hx hy hrun ih =>
    obtain ⟨ds1, hrun1, hinv1, hm⟩ := unir_spec n ds ih.1 x y hx hy
    rw [hrun] at hrun1
    simp only [Option.some.injEq] at hrun1
    subst hrun1
    refine ⟨hinv1, ?_⟩
    intro a b ha hb
    rw [hm a b ha hb, unidos_cons, ih.2 a b ha hb, ih.2 a x ha hx, ih.2 b y hb hy,
      ih.2 a y ha hy, ih.2 b x hb hx]
    constructor
    · rintro (h | ⟨h1, h2⟩ | ⟨h1, h2⟩)
      · exact Or.inl h
      · exact Or.inr (Or.inl ⟨h1, unidos_symm _ _ _ h2⟩)
      · exact Or.inr (Or.inr ⟨h1, unidos_symm _ _ _ h2⟩)
    · rintro (h | ⟨h1, h2⟩ | ⟨h1, h2⟩)
      · exact Or.inl h
      · exact Or.inr (Or.inl ⟨h1, unidos_symm _ _ _ h2⟩)
      · exact Or.inr (Or.inr ⟨h1, unidos_symm _ _ _ h2⟩)

/-- Under the invariant the rank does not decrease along the parent pointers. -/
theorem rank_itera (n : Nat) (ds : DisjointSet) (hi : DSInv n ds) :
    ∀ (j : Nat) (y : Int), 0 ≤ y ∧ y < (n : Int) →
      (0 ≤ (ds.p)^[j] y ∧ (ds.p)^[j] y < (n : Int)) ∧ ds.r y ≤ ds.r ((ds.p)^[j] y) := by
  intro j
  induction j with
  | zero =>
    intro y hy
    exact ⟨hy, le_refl _⟩
  | succ j ih =>
    intro y hy
    rw [Function.iterate_succ_apply]
    have hp := hi.paiValido y hy.1 hy.2
    obtain ⟨h1, h2⟩ := ih (ds.p y) hp
    refine ⟨h1, le_trans ?_ h2⟩
    by_cases hne : ds.p y = y
    · rw [hne]
    · exact le_of_lt (hi.sobe y hy.1 hy.2 hne)

/-- Under the invariant the only cycles of the parent pointers are the roots. -/
theorem sem_ciclo (n : Nat) (ds : DisjointSet) (hi : DSInv n ds) (x : Int)
    (hx : 0 ≤ x ∧ x < (n : Int)) (k : Nat) (hk : 1 ≤ k) (h : (ds.p)^[k] x = x) :
    ds.p x = x := by
  by_contra hne
  obtain ⟨j, rfl⟩ : ∃ j, k = j + 1 := ⟨k - 1, by omega⟩
  rw [Function.iterate_succ_apply] at h
  have h1 := hi.sobe x hx.1 hx.2 hne
  have h2 := (rank_itera n ds hi j (ds.p x) (hi.paiValido x hx.1 hx.2)).2
  rw [h] at h2
  omega

/-- The two calls of `find` in a comparison `find(a) == find(b)`, run one after the other
on a reachable state, return the same value exactly when the pairs passed to `unir` relate
`a` and `b`. -/
theorem dsAlcancavel_compara (n : Nat) (ds : DisjointSet) (ps : List (Int × Int))
    (h : DSAlcancavel n ds ps) (a b : Int) (ha : 0 ≤ a ∧ a < (n : Int))
    (hb : 0 ≤ b ∧ b < (n : Int)) (ds1 ds2 : DisjointSet) (ra rb : Int)
    (h1 : DisjointSet.find n ds a = some (ds1, ra))
    (h2 : DisjointSet.find n ds1 b = some (ds2, rb)) : ra = rb ↔ Unidos ps a b := by
  obtain ⟨hinv, hm⟩ := dsAlcancavel_inv n ds ps h
  obtain ⟨ds1', ra', hrun1, hra, hinv1, _, hraiz1⟩ := find_n n ds a hinv ha
  rw [h1] at hrun1
  simp only [Option.some.injEq, Prod.mk.injEq] at hrun1
  obtain ⟨hds, hr⟩ := hrun1
  subst hds
  subst hr
  obtain ⟨ds2', rb', hrun2, hrb, _, _, _⟩ := find_n n ds1 b hinv1 hb
  rw [h2] at hrun2
  simp only [Option.some.injEq, Prod.mk.injEq] at hrun2
  obtain ⟨_, hr⟩ := hrun2
  subst hr
  rw [← hm a b ha hb]
  exact (mesma_iff ds a b ra rb hra ((hraiz1 b hb rb).mp hrb)).symm

/-- C24: for every union-find state reached from `DisjointSet(n)` by calls of `find` and
`unir` with arguments in `[0, n)`: the parent pointers have no cycle except a root pointing
at itself; `find(x)` returns (within `n` levels of recursion), its result `r` is the root
that the parent pointers lead to from `x`, an element of `[0, n)` with `pai[r] == r` before
and after the call, and the state it leaves is again such a state; the comparison
`find(a) == find(b)` holds exactly when `a` and `b` are related by the equivalence closure
of the pairs passed to `unir` so far; and `unir(x, y)` returns and right after it
`find(x) == find(y)` holds. -/
theorem disjointSet_representante (n : Nat) (ds : DisjointSet) (ps : List (Int × Int))
    (h : DSAlcancavel n ds ps) :
    (∀ x : Int, 0 ≤ x ∧ x < (n : Int) → ∀ k : Nat, 1 ≤ k → (ds.p)^[k] x = x → ds.p x = x) ∧
    (∀ x : Int, 0 ≤ x ∧ x < (n : Int) →
      ∃ ds' r, DisjointSet.find n ds x = some (ds', r) ∧ (0 ≤ r ∧ r < (n : Int)) ∧
        Raiz ds x r ∧ ds.p r = r ∧ ds'.p r = r ∧ DSAlcancavel n ds' ps) ∧
    (∀ a b : Int, 0 ≤ a ∧ a < (n : Int) → 0 ≤ b ∧ b < (n : Int) →
      ∀ (ds1 ds2 : DisjointSet) (ra rb : Int), DisjointSet.find n ds a = some (ds1, ra) →
        DisjointSet.find n ds1 b = some (ds2, rb) → (ra = rb ↔ Unidos ps a b)) ∧
    (∀ x y : Int, 0 ≤ x ∧ x < (n : Int) → 0 ≤ y ∧ y < (n : Int) →
      ∃ ds', DisjointSet.unir n ds x y = some ds' ∧ DSAlcancavel n ds' ((x, y) :: ps) ∧
        ∀ (ds1 ds2 : DisjointSet) (rx ry : Int), DisjointSet.find n ds' x = some (ds1, rx) →
          DisjointSet.find n ds1 y = some (ds2, ry) → rx = ry) := by
  obtain ⟨hinv, hm⟩ := dsAlcancavel_inv n ds ps h
  refine ⟨fun x hx k hk hc => sem_ciclo n ds hinv x hx k hk hc, ?_, ?_, ?_⟩
  · intro x hx
    obtain ⟨ds', r, hrun, hr, hinv', _, hraiz⟩ := find_n n ds x hinv hx
    refine ⟨ds', r, hrun, raiz_valida n ds hinv x r hx hr, hr, raiz_fixa ds x r hr,
      raiz_fixa ds' x r ((hraiz x hx r).mpr hr), DSAlcancavel.find ds ds' ps x r h hx hrun⟩
  · intro a b ha hb ds1 ds2 ra rb h1 h2
    exact dsAlcancavel_compara n ds ps h a b ha hb ds1 ds2 ra rb h1 h2
  · intro x y hx hy
    obtain ⟨ds', hrun, _, _⟩ := unir_spec n ds hinv x y hx hy
    have hal := DSAlcancavel.unir ds ds' ps x y h hx hy hrun
    refine ⟨ds', hrun, hal, ?_⟩
    intro ds1 ds2 rx ry h1 h2
    exact (dsAlcancavel_compara n ds' _ hal x y hx hy ds1 ds2 rx ry h1 h2).mpr
      (Relation.EqvGen.rel _ _ (List.mem_cons_self _ _))

theorem dsAlcancavel_exemplo : DSAlcancavel 4 dsExemplo [(1, 3), (2, 3), (0, 1)] :=
  DSAlcancavel.unir ⟨[0, 0, 2, 2], [1, 0, 1, 0]⟩ dsExemplo _ 1 3
    (DSAlcancavel.unir ⟨[0, 0, 2, 3], [1, 0, 0, 0]⟩ _ _ 2 3
      (DSAlcancavel.unir (DisjointSet.novo 4) _ _ 0 1 DSAlcancavel.novo
        (by decide) (by decide) (by decide))
      (by decide) (by decide) (by decide))
    (by decide) (by decide) (by decide)

/-- Witness for C24: the state over four elements after `unir(0, 1)`, `unir(2, 3)` and
`unir(1, 3)`, where `find(3)` returns the root 0 and points 3 and 2 straight at it. -/
theorem disjointSet_representante_witness :
    DisjointSet.find 4 dsExemplo 3 = some (⟨[0, 0, 0, 0], [2, 0, 1, 0]⟩, 0) ∧
    ((∀ x : Int, 0 ≤ x ∧ x < ((4 : Nat) : Int) → ∀ k : Nat, 1 ≤ k →
      (dsExemplo.p)^[k] x = x → dsExemplo.p x = x) ∧
    (∀ x : Int, 0 ≤ x ∧ x < ((4 : Nat) : Int) →
      ∃ ds' r, DisjointSet.find 4 dsExemplo x = some (ds', r) ∧ (0 ≤ r ∧ r < ((4 : Nat) : Int)) ∧
        Raiz dsExemplo x r ∧ dsExemplo.p r = r ∧ ds'.p r = r ∧
        DSAlcancavel 4 ds' [(1, 3), (2, 3), (0, 1)]) ∧
    (∀ a b : Int, 0 ≤ a ∧ a < ((4 : Nat) : Int) → 0 ≤ b ∧ b < ((4 : Nat) : Int) →
      ∀ (ds1 ds2 : DisjointSet) (ra rb : Int), DisjointSet.find 4 dsExemplo a = some (ds1, ra) →
        DisjointSet.find 4 ds1 b = some (ds2, rb) →
        (ra = rb ↔ Unidos [(1, 3), (2, 3), (0, 1)] a b)) ∧
    (∀ x y : Int, 0 ≤ x ∧ x < ((4 : Nat) : Int) → 0 ≤ y ∧ y < ((4 : Nat) : Int) →
      ∃ ds', DisjointSet.unir 4 dsExemplo x y = some ds' ∧
        DSAlcancavel 4 ds' ((x, y) :: [(1, 3), (2, 3), (0, 1)]) ∧
        ∀ (ds1 ds2 : DisjointSet) (rx ry : Int), DisjointSet.find 4 ds' x = some (ds1, rx) →
          DisjointSet.find 4 ds1 y = some (ds2, ry) → rx = ry)) :=
  ⟨by decide, disjointSet_representante 4 dsExemplo _ dsAlcancavel_exemplo⟩

/-! ## `unir` on two elements of one set -/

/-- What a call of `find` changes: the length of `pai` stays, an entry of `pai` either stays
or becomes the root of its element, and nothing changes when `x` points at a root. -/
theorem find_muda (n : Nat) :
    ∀ (fuel : Nat) (ds : DisjointSet) (x : Int), DSInv n ds → 0 ≤ x ∧ x < (n : Int) →
      altura n ds x < fuel →
      ∃ ds' r, DisjointSet.find fuel ds x = some (ds', r) ∧ Raiz ds x r ∧
        ds'.pai.length = ds.pai.length ∧
        (∀ z, 0 ≤ z ∧ z < (n : Int) → ds'.p z = ds.p z ∨ Raiz ds z (ds'.p z)) ∧
        (ds.p (ds.p x) = ds.p x → ds' = ds) := by
  intro fuel
  induction fuel with
  | zero => intro ds x _ _ h; exact absurd h (Nat.not_lt_zero _)
  | succ k ih =>
    intro ds x hi hx hfuel
    by_cases hp : ds.p x = x
    · refine ⟨ds, x, ?_, Raiz.base x hp, rfl, fun z _ => Or.inl rfl, fun _ => rfl⟩
      simp [DisjointSet.find, hp]
    · have hpv := hi.paiValido x hx.1 hx.2
      have hdesce := altura_desce n ds x (ds.p x) hpv (hi.sobe x hx.1 hx.2 hp)
      obtain ⟨ds1, r, hrun, hraiz, hlen1, hz1, hd1⟩ := ih ds (ds.p x) hi hpv (by omega)
      have hrx : Raiz ds x r := Raiz.passo x r hp hraiz
      have hlx : x.toNat < ds1.pai.length := by rw [hlen1, hi.tamPai]; omega
      refine ⟨⟨ds1.pai.set x.toNat r, ds1.rank⟩, r, ?_, hrx, ?_, ?_, ?_⟩
      · simp [DisjointSet.find, hp, hrun]
      · simp [hlen1]
      · intro z hz
        rw [p_set ds1 x r ds1.rank z hx.1 hz.1 hlx]
        by_cases hzx : z = x
        · rw [if_pos hzx, hzx]
          exact Or.inr hrx
        · rw [if_neg hzx]
          exact hz1 z hz
      · intro hdir
        -- the parent of `x` is a root: the inner call returns at once
        have hr : r = ds.p x := raiz_unica ds (ds.p x) r (ds.p x) hraiz (Raiz.base _ hdir)
        have hk : DisjointSet.find k ds (ds.p x) = some (ds, ds.p x) := by
          cases k with
          | zero => simp [DisjointSet.find] at hrun
          | succ k => simp [DisjointSet.find, hdir]
        rw [hk] at hrun
        simp only [Option.some.injEq, Prod.mk.injEq] at hrun
        obtain ⟨hds, _⟩ := hrun
        subst hds
        have hset : ds.pai.set x.toNat r = ds.pai := by
          rw [hr]
          unfold DisjointSet.p
          rw [List.getD_eq_getElem _ _ hlx]
          apply List.ext_getElem
          · simp
          · intro i h1 h2
            rw [List.getElem_set]
            split
            · rename_i hi
              subst hi
              rfl
            · rfl
        rw [hset]

/-- C25 (amended): for every reachable union-find state and all `x`, `y` in range for which
`find` returns the same representative, `unir(x, y)` returns, leaves the `rank` array and
the length of `pai` as they are, and every element keeps its representative (the root its
parent pointers lead to, and the value `find` returns for it); an entry of `pai` after the
call is either the entry before it or the representative of its element; and when the
parents of `x` and `y` are roots already, the state after the call is identical to the
state before it. -/
theorem unir_mesmo_representante (n : Nat) (ds : DisjointSet) (ps : List (Int × Int))
    (h : DSAlcancavel n ds ps) (x y : Int) (hx : 0 ≤ x ∧ x < (n : Int))
    (hy : 0 ≤ y ∧ y < (n : Int))
    (hxy : ∃ ds1 ds2 r, DisjointSet.find n ds x = some (ds1, r) ∧
      DisjointSet.find n ds y = some (ds2, r)) :
    ∃ ds', DisjointSet.unir n ds x y = some ds' ∧ ds'.rank = ds.rank ∧
      ds'.pai.length = ds.pai.length ∧
      (∀ z, 0 ≤ z ∧ z < (n : Int) → ∀ r, Raiz ds' z r ↔ Raiz ds z r) ∧
      (∀ z, 0 ≤ z ∧ z < (n : Int) →
        (DisjointSet.find n ds' z).map Prod.snd = (DisjointSet.find n ds z).map Prod.snd) ∧
      (∀ z, 0 ≤ z ∧ z < (n : Int) → ds'.p z = ds.p z ∨ Raiz ds z (ds'.p z)) ∧
      (ds.p (ds.p x) = ds.p x → ds.p (ds.p y) = ds.p y → ds' = ds) := by
  obtain ⟨hinv, _⟩ := dsAlcancavel_inv n ds ps h
  obtain ⟨e1, e2, r, he1, he2⟩ := hxy
  -- the first call of `find`
  obtain ⟨ds1, rx, hrun1, hrx, hinv1, hrk1, hraiz1⟩ := find_n n ds x hinv hx
  obtain ⟨ds1', rx', hrun1', _, hlen1, hz1, hd1⟩ :=
    find_muda n n ds x hinv hx (altura_lt n ds x hx)
  have hA : ds1 = ds1' := congrArg Prod.fst (Option.some.inj (hrun1.symm.trans hrun1'))
  subst hA
  have hB : rx = r := congrArg Prod.snd (Option.some.inj (hrun1.symm.trans he1))
  -- the value of `find(y)` on the state before the call
  obtain ⟨ds0, ry0, hrun0, hry0, _, _, _⟩ := find_n n ds y hinv hy
  have hC : ry0 = r := congrArg Prod.snd (Option.some.inj (hrun0.symm.trans he2))
  -- the second call of `find`
  obtain ⟨ds2, ry, hrun2, hry, hinv2, hrk2, hraiz2⟩ := find_n n ds1 y hinv1 hy
  obtain ⟨ds2', ry', hrun2', _, hlen2, hz2, hd2⟩ :=
    find_muda n n ds1 y hinv1 hy (altura_lt n ds1 y hy)
  have hD : ds2 = ds2' := congrArg Prod.fst (Option.some.inj (hrun2.symm.trans hrun2'))
  subst hD
  rw [hC] at hry0
  rw [hB] at hrun1 hrx
  have hig : r = ry := raiz_unica ds y r ry hry0 ((hraiz1 y hy ry).mp hry)
  have hun : DisjointSet.unir n ds x y = some ds2 := by
    simp [DisjointSet.unir, hrun1, hrun2, hig]
  have hraiz : ∀ z, 0 ≤ z ∧ z < (n : Int) → ∀ q, Raiz ds2 z q ↔ Raiz ds z q := by
    intro z hz q
    rw [hraiz2 z hz q, hraiz1 z hz q]
  refine ⟨ds2, hun, by rw [hrk2, hrk1], by rw [hlen2, hlen1], hraiz, ?_, ?_, ?_⟩
  · intro z hz
    obtain ⟨da, ra, hruna, hra, _, _, _⟩ := find_n n ds z hinv hz
    obtain ⟨db, rb, hrunb, hrb, _, _, _⟩ := find_n n ds2 z hinv2 hz
    rw [hruna, hrunb]
    simp only [Option.map_some']
    rw [raiz_unica ds z rb ra ((hraiz z hz rb).mp hrb) hra]
  · intro z hz
    rcases hz2 z hz with h2 | h2
    · rw [h2]
      exact hz1 z hz
    · exact Or.inr ((hraiz1 z hz _).mp h2)
  · intro hdx hdy
    have h1 := hd1 hdx
    subst h1
    exact hd2 hdy

/-- C25 counterexample: in the state over four elements reached by `unir(0, 1)`,
`unir(2, 3)` and `unir(1, 3)`, `find(3)` and `find(0)` both return 0, and `unir(3, 0)`
changes `pai[3]` from 2 to 0: the state after the call differs from the state before it. -/
theorem unir_mesmo_representante_contraexemplo :
    DSAlcancavel 4 dsExemplo [(1, 3), (2, 3), (0, 1)] ∧
    dsExemplo = ⟨[0, 0, 0, 2], [2, 0, 1, 0]⟩ ∧
    (DisjointSet.find 4 dsExemplo 3).map Prod.snd = some 0 ∧
    (DisjointSet.find 4 dsExemplo 0).map Prod.snd = some 0 ∧
    DisjointSet.unir 4 dsExemplo 3 0 = some ⟨[0, 0, 0, 0], [2, 0, 1, 0]⟩ ∧
    DisjointSet.unir 4 dsExemplo 3 0 ≠ some dsExemplo :=
  ⟨dsAlcancavel_exemplo, rfl, by decide, by decide, by decide, by decide⟩

/-- Witness for C25: the statement in the state over four elements reached by `unir(0, 1)`,
`unir(2, 3)` and `unir(1, 3)`, for the elements 3 and 0 of one set. -/
theorem unir_mesmo_representante_witness :
    ∃ ds', DisjointSet.unir 4 dsExemplo 3 0 = some ds' ∧ ds'.rank = dsExemplo.rank ∧
      ds'.pai.length = dsExemplo.pai.length ∧
      (∀ z, 0 ≤ z ∧ z < ((4 : Nat) : Int) → ∀ r, Raiz ds' z r ↔ Raiz dsExemplo z r) ∧
      (∀ z, 0 ≤ z ∧ z < ((4 : Nat) : Int) →
        (DisjointSet.find 4 ds' z).map Prod.snd =
          (DisjointSet.find 4 dsExemplo z).map Prod.snd) ∧
      (∀ z, 0 ≤ z ∧ z < ((4 : Nat) : Int) →
        ds'.p z = dsExemplo.p z ∨ Raiz dsExemplo z (ds'.p z)) ∧
      (dsExemplo.p (dsExemplo.p 3) = dsExemplo.p 3 →
        dsExemplo.p (dsExemplo.p 0) = dsExemplo.p 0 → ds' = dsExemplo) :=
  unir_mesmo_representante 4 dsExemplo _ dsAlcancavel_exemplo 3 0 (by decide) (by decide)
    ⟨⟨[0, 0, 0, 0], [2, 0, 1, 0]⟩, dsExemplo, 0, by decide, by decide⟩

end Grafos
